import Mathlib

/-! # Hacl_Bignum4096: a shallow embedding and its verification

Machine words are natural numbers; every operation that can wrap in C carries its
reduction modulo `2^64` (limbs) or `2^32` (sizes and indices) explicitly; only index
arithmetic whose operands the code bounds by constants (`4 * i + 3` for `i < 16`,
`64 + i0` for `i0 < 64`) is written without it.  A bignum
buffer is a `List Nat` of limbs, least significant limb first.  A C function that
writes through an out-pointer takes the buffer and returns its new contents.
-/

namespace Hacl

/-! ## Machine arithmetic -/

/-- The all-ones limb `0xFFFFFFFFFFFFFFFF`. -/
def ones64 : Nat := 0xFFFFFFFFFFFFFFFF

/-- Subtraction of `uint64_t` values, wrapping modulo `2^64`. -/
def sub64 (x y : Nat) : Nat := (2 ^ 64 + x - y) % 2 ^ 64

/-- Multiplication of `uint64_t` values, wrapping modulo `2^64`. -/
def mul64 (x y : Nat) : Nat := (x * y) % 2 ^ 64

/-- Left shift of a `uint64_t` value, bits shifted out are lost. -/
def shl64 (x j : Nat) : Nat := (x <<< j) % 2 ^ 64

/-- Bitwise complement `~x` of a `uint64_t` value. -/
def not64 (x : Nat) : Nat := 2 ^ 64 - 1 - x

/-- Subtraction of `uint32_t` values, wrapping modulo `2^32`. -/
def sub32 (x y : Nat) : Nat := (2 ^ 32 + x - y) % 2 ^ 32

/-- Addition of `uint32_t` values, wrapping modulo `2^32`. -/
def add32 (x y : Nat) : Nat := (x + y) % 2 ^ 32

/-- Multiplication of `uint32_t` values, wrapping modulo `2^32`. -/
def mul32 (x y : Nat) : Nat := (x * y) % 2 ^ 32

/-- Left shift of a `uint32_t` value, bits shifted out are lost. -/
def shl32 (x j : Nat) : Nat := (x <<< j) % 2 ^ 32

/-- The C loop `for (i = lo; i < hi; i++) s = body(i, s)`. -/
def forLoop {σ : Type} (lo hi : Nat) (body : Nat → σ → σ) (s : σ) : σ :=
  Nat.fold (fun k acc => body (lo + k) acc) (hi - lo) s

/-- The call `memcpy(dst, src, len * sizeof (uint64_t))`: the first `len` limbs of `dst`
are replaced by those of `src`. -/
def memcpy (dst src : List Nat) (len : Nat) : List Nat :=
  src.take len ++ dst.drop len

/-- The `len` limbs a pointer `buf + off` gives access to. -/
def subBuf (buf : List Nat) (off len : Nat) : List Nat :=
  (buf.drop off).take len

/-- Writing `len` limbs of `src` through the pointer `buf + off`. -/
def blit (buf : List Nat) (off : Nat) (src : List Nat) (len : Nat) : List Nat :=
  buf.take off ++ (src.take len ++ buf.drop (off + len))

/-- A read-only pointer argument of a function that also has an out-pointer: either a
buffer of its own, or the buffer the out-pointer designates (the two pointers alias). -/
inductive Src where
  | buf (l : List Nat)
  | out

/-- Reading limb `k` through a read-only pointer, `cur` being the present contents of the
out-buffer. -/
def Src.read (s : Src) (cur : List Nat) (k : Nat) : Nat :=
  match s with
  | Src.buf l => l.getD k 0
  | Src.out => cur.getD k 0

/-! ## Values of bignums -/

/-- The integer a little-endian limb sequence represents. -/
def bn_v : List Nat → Nat
  | [] => 0
  | x :: xs => x + 2 ^ 64 * bn_v xs

/-- The `len` low limbs of the natural number `v`, least significant first. -/
def bn_from_nat : Nat → Nat → List Nat
  | 0, _ => []
  | len + 1, v => (v % 2 ^ 64) :: bn_from_nat len (v / 2 ^ 64)

/-- A bignum buffer of `len` limbs, each a `uint64_t`. -/
def bn_wf (len : Nat) (l : List Nat) : Prop :=
  l.length = len ∧ ∀ x ∈ l, x < 2 ^ 64

instance (len : Nat) (l : List Nat) : Decidable (bn_wf len l) := by
  unfold bn_wf; infer_instance

/-! ## Primitives that live outside `Hacl_Bignum4096.c` -/

/-- Modelled from the spec: `Lib_IntTypes_Intrinsics_add_carry_u64` (header not in the
sources), spec 4.1 `add_carry(c_in, x, y) → (c_out, s)` with `s = (x + y + c_in) mod 2^64`
and `c_out` the carry out.  The first component is the returned carry, the second the limb
stored through the out-pointer. -/
def Lib_IntTypes_Intrinsics_add_carry_u64 (cin x y : Nat) : Nat × Nat :=
  ((x + y + cin) / 2 ^ 64, (x + y + cin) % 2 ^ 64)

/-- Modelled from the spec: `Lib_IntTypes_Intrinsics_sub_borrow_u64` (header not in the
sources), spec 4.1 `sub_borrow(b_in, x, y) → (b_out, d)` with `d = (x − y − b_in) mod 2^64`
and `b_out` the borrow out. -/
def Lib_IntTypes_Intrinsics_sub_borrow_u64 (cin x y : Nat) : Nat × Nat :=
  (if x < y + cin then 1 else 0, (2 * 2 ^ 64 + x - y - cin) % 2 ^ 64)

/-- Modelled from the spec: `Hacl_Bignum_Base_mul_wide_add2_u64` (header not in the
sources), spec 4.1 `mul_wide_add2(a, b, c_in, *acc) → c_out`: `(hi:lo) = a·b + c_in + *acc`,
`lo` is stored in `*acc` (second component) and `hi` is returned (first component). -/
def Hacl_Bignum_Base_mul_wide_add2_u64 (a b cin acc : Nat) : Nat × Nat :=
  ((a * b + cin + acc) / 2 ^ 64, (a * b + cin + acc) % 2 ^ 64)

/-- Modelled from the spec: `FStar_UInt64_eq_mask` (kremlib, not in the sources), spec 4.1:
all ones if the two limbs are equal, else zero. -/
def FStar_UInt64_eq_mask (a b : Nat) : Nat :=
  if a = b then ones64 else 0

/-- Modelled from the spec: `FStar_UInt64_gte_mask` (kremlib, not in the sources), spec 4.1:
all ones if `a ≥ b`, else zero. -/
def FStar_UInt64_gte_mask (a b : Nat) : Nat :=
  if b ≤ a then ones64 else 0

/-- Modelled from the spec: `Hacl_Bignum_ModInvLimb_mod_inv_uint64` (not in the sources),
spec 4.1 `mod_inv_u64(n0)`: returns `μ` with `μ · n0 ≡ −1 (mod 2^64)`, by Newton iteration
on odd inputs.  The iteration `y ← y·(2 − n0·y)` starts from `y = n0`, which inverts `n0`
modulo `8`, and doubles the number of correct bits five times; the result is `−y`. -/
def Hacl_Bignum_ModInvLimb_mod_inv_uint64 (n0 : Nat) : Nat :=
  let y := forLoop 0 5 (fun _ y => mul64 y (sub64 2 (mul64 n0 y))) (n0 % 2 ^ 64)
  sub64 0 y

/-- Modelled from the spec: `Hacl_Bignum_Lib_bn_get_top_index_u64` (not in the sources),
spec 4.2 `top_index(a)`: the 0-based position of the most significant non-zero limb, or 0
if `a` is zero. -/
def Hacl_Bignum_Lib_bn_get_top_index_u64 (len : Nat) (b : List Nat) : Nat :=
  forLoop 0 len (fun i priv => if b.getD i 0 = 0 then priv else i) 0

/-- Modelled from the spec: `Hacl_Bignum_Karatsuba_bn_karatsuba_mul_uint64` (not in the
sources), spec 4.3: the `2·aLen`-limb result, read little-endian, is the integer product of
the inputs.  The scratch buffer is not observable and `res` is overwritten entirely. -/
def Hacl_Bignum_Karatsuba_bn_karatsuba_mul_uint64 (aLen : Nat) (a b : List Nat) : List Nat :=
  bn_from_nat (2 * aLen) (bn_v (a.take aLen) * bn_v (b.take aLen))

/-- Modelled from the spec: `Hacl_Bignum_Karatsuba_bn_karatsuba_sqr_uint64` (not in the
sources), spec 4.3: the squaring specialisation of Karatsuba multiplication. -/
def Hacl_Bignum_Karatsuba_bn_karatsuba_sqr_uint64 (aLen : Nat) (a : List Nat) : List Nat :=
  bn_from_nat (2 * aLen) (bn_v (a.take aLen) * bn_v (a.take aLen))

/-! ## Code patterns the extraction repeats in several functions -/

/-- One statement `c = Lib_IntTypes_Intrinsics_add_carry_u64(c, a[k], b[k], res + k)`;
the state is the carry and the contents of `res`. -/
def add_step (a b : Src) (k : Nat) (st : Nat × List Nat) : Nat × List Nat :=
  let t1 := a.read st.2 k
  let t2 := b.read st.2 k
  let r := Lib_IntTypes_Intrinsics_add_carry_u64 st.1 t1 t2
  (r.1, st.2.set k r.2)

/-- One statement `c = Lib_IntTypes_Intrinsics_sub_borrow_u64(c, a[k], b[k], res + k)`;
the state is the borrow and the contents of `res`. -/
def sub_step (a b : List Nat) (k : Nat) (st : Nat × List Nat) : Nat × List Nat :=
  let t1 := a.getD k 0
  let t2 := b.getD k 0
  let r := Lib_IntTypes_Intrinsics_sub_borrow_u64 st.1 t1 t2
  (r.1, st.2.set k r.2)

/-- The body of every limb-wise comparison loop:
`beq = eq_mask(x, y); blt = ~gte_mask(x, y);
 acc = (beq & acc) | (~beq & ((blt & 0xFFFFFFFFFFFFFFFF) | (~blt & 0)))`. -/
def lt_mask_step (x y acc : Nat) : Nat :=
  let beq := FStar_UInt64_eq_mask x y
  let blt := not64 (FStar_UInt64_gte_mask x y)
  (beq &&& acc) ||| (not64 beq &&& ((blt &&& 0xFFFFFFFFFFFFFFFF) ||| (not64 blt &&& 0)))

/-- The final loop of the safe entry points: `res[i] = is_valid_m & res[i]` for `i < 64`. -/
def mask_output (is_valid_m : Nat) (res : List Nat) : List Nat :=
  forLoop 0 64 (fun i res => res.set i (is_valid_m &&& res.getD i 0)) res

/-- The constant-time selection loop `res[i] = (c2 & res[i]) | (~c2 & tmp[i])` for `i < 64`. -/
def mask_select (c2 : Nat) (res tmp : List Nat) : List Nat :=
  forLoop 0 64 (fun i res => res.set i ((c2 &&& res.getD i 0) ||| (not64 c2 &&& tmp.getD i 0))) res

/-! ## Arithmetic functions of `Hacl_Bignum4096.c` -/

/-- `Hacl_Bignum4096_add`: sixteen rounds of four add-with-carry steps, then the empty
tail loop from 64 to 64.  Returns the carry and the contents of `res`. -/
def Hacl_Bignum4096_add (a b res : List Nat) : Nat × List Nat :=
  let st := forLoop 0 16 (fun i st =>
    let st := add_step (Src.buf a) (Src.buf b) (4 * i) st
    let st := add_step (Src.buf a) (Src.buf b) (4 * i + 1) st
    let st := add_step (Src.buf a) (Src.buf b) (4 * i + 2) st
    add_step (Src.buf a) (Src.buf b) (4 * i + 3) st) (0, res)
  forLoop 64 64 (fun i st => add_step (Src.buf a) (Src.buf b) i st) st

/-- `Hacl_Bignum4096_sub`: sixteen rounds of four subtract-with-borrow steps, then the
empty tail loop.  Returns the borrow and the contents of `res`. -/
def Hacl_Bignum4096_sub (a b res : List Nat) : Nat × List Nat :=
  let st := forLoop 0 16 (fun i st =>
    let st := sub_step a b (4 * i) st
    let st := sub_step a b (4 * i + 1) st
    let st := sub_step a b (4 * i + 2) st
    sub_step a b (4 * i + 3) st) (0, res)
  forLoop 64 64 (fun i st => sub_step a b i st) st

/-- `add_mod_n`: `res = (a + b) mod n` for `a, b < n`.  The pointers `a` and `b` may alias
`res` (they do at every call site), hence the `Src` arguments. -/
def add_mod_n (n : List Nat) (a b : Src) (res : List Nat) : List Nat :=
  let st := forLoop 0 16 (fun i st =>
    let st := add_step a b (4 * i) st
    let st := add_step a b (4 * i + 1) st
    let st := add_step a b (4 * i + 2) st
    add_step a b (4 * i + 3) st) (0, res)
  let st := forLoop 64 64 (fun i st => add_step a b i st) st
  let c00 := st.1
  let res := st.2
  let tmp := List.replicate 64 0
  let st1 := forLoop 0 16 (fun i st =>
    let st := sub_step res n (4 * i) st
    let st := sub_step res n (4 * i + 1) st
    let st := sub_step res n (4 * i + 2) st
    sub_step res n (4 * i + 3) st) (0, tmp)
  let st1 := forLoop 64 64 (fun i st => sub_step res n i st) st1
  let c1 := st1.1
  let tmp := st1.2
  let c2 := sub64 c00 c1
  mask_select c2 res tmp

/-- `Hacl_Bignum4096_mul`: Karatsuba multiplication into a 128-limb product. -/
def Hacl_Bignum4096_mul (a b : List Nat) : List Nat :=
  Hacl_Bignum_Karatsuba_bn_karatsuba_mul_uint64 64 a b

/-- `Hacl_Bignum4096_sqr`: Karatsuba squaring into a 128-limb product. -/
def Hacl_Bignum4096_sqr (a : List Nat) : List Nat :=
  Hacl_Bignum_Karatsuba_bn_karatsuba_sqr_uint64 64 a

/-- `mont_check`: all ones iff `n` is odd and `1 < n`, else zero. -/
def mont_check (n : List Nat) : Nat :=
  let one := (List.replicate 64 0).set 0 1
  let bit0 := n.getD 0 0 &&& 1
  let m0 := sub64 0 bit0
  let acc := forLoop 0 64 (fun i acc => lt_mask_step (one.getD i 0) (n.getD i 0) acc) 0
  let m1 := acc
  m0 &&& m1

/-- `precomp`: starts from `2^nBits` and doubles modulo `n` for `8192 − nBits` rounds. -/
def precomp (nBits : Nat) (n res : List Nat) : List Nat :=
  let res := memcpy res (List.replicate 64 0) 64
  let i := nBits / 64
  let j := nBits % 64
  let res := res.set i (res.getD i 0 ||| shl64 1 j)
  forLoop 0 (sub32 8192 nBits) (fun _ res => add_mod_n n Src.out Src.out res) res

/-- One statement `c1 = Hacl_Bignum_Base_mul_wide_add2_u64(n[k], qj, c1, res_j0 + k)` of the
inner loop of the Montgomery reduction, where `res_j0 = c + i0`. -/
def mul_add_step (n : List Nat) (qj i0 k : Nat) (st : Nat × List Nat) : Nat × List Nat :=
  let a_i := n.getD k 0
  let r := Hacl_Bignum_Base_mul_wide_add2_u64 a_i qj st.1 (st.2.getD (i0 + k) 0)
  (r.1, st.2.set (i0 + k) r.2)

/-- The outer loop of the Montgomery reduction over the 128-limb buffer `c`: for every
`i0 < 64`, `qj = nInv * c[i0]`, `qj · n` is added into `c` at limb `i0`, and the carry out
is added into `c[64 + i0]`.  Returns the last carry and the contents of `c`. -/
def mont_reduction_loop (n : List Nat) (nInv : Nat) (c : List Nat) : Nat × List Nat :=
  forLoop 0 64 (fun i0 st =>
    let c0 := st.1
    let c := st.2
    let qj := mul64 nInv (c.getD i0 0)
    let st1 := forLoop 0 16 (fun i st1 =>
      let st1 := mul_add_step n qj i0 (4 * i) st1
      let st1 := mul_add_step n qj i0 (4 * i + 1) st1
      let st1 := mul_add_step n qj i0 (4 * i + 2) st1
      mul_add_step n qj i0 (4 * i + 3) st1) (0, c)
    let st1 := forLoop 64 64 (fun i st1 => mul_add_step n qj i0 i st1) st1
    let c10 := st1.1
    let c := st1.2
    let res_j := c.getD (64 + i0) 0
    let r := Lib_IntTypes_Intrinsics_add_carry_u64 c0 c10 res_j
    (r.1, c.set (64 + i0) r.2)) (0, c)

/-- `reduction`: Montgomery reduction of the 128-limb `c` into the 64-limb `res`. -/
def reduction (n : List Nat) (nInv : Nat) (c res : List Nat) : List Nat :=
  let st := mont_reduction_loop n nInv c
  let c0 := st.1
  let c := st.2
  let res := memcpy res (c.drop 64) 64
  let c01 := c0
  let tmp := List.replicate 64 0
  let st1 := forLoop 0 16 (fun i st =>
    let st := sub_step res n (4 * i) st
    let st := sub_step res n (4 * i + 1) st
    let st := sub_step res n (4 * i + 2) st
    sub_step res n (4 * i + 3) st) (0, tmp)
  let st1 := forLoop 64 64 (fun i st => sub_step res n i st) st1
  let c10 := st1.1
  let tmp := st1.2
  let c2 := sub64 c01 c10
  mask_select c2 res tmp

/-- `mont_mul`: Karatsuba product of `aM` and `bM`, then `reduction` into `resM`. -/
def mont_mul (n : List Nat) (nInv_u64 : Nat) (aM bM resM : List Nat) : List Nat :=
  let c := Hacl_Bignum_Karatsuba_bn_karatsuba_mul_uint64 64 aM bM
  reduction n nInv_u64 c resM

/-- `mont_sqr`: Karatsuba square of `aM`, then `reduction` into `resM`. -/
def mont_sqr (n : List Nat) (nInv_u64 : Nat) (aM resM : List Nat) : List Nat :=
  let c := Hacl_Bignum_Karatsuba_bn_karatsuba_sqr_uint64 64 aM
  reduction n nInv_u64 c resM

/-- `Hacl_Bignum4096_mod_precompr2`.  The statements between the computation of `mu` and
the product with `r2` are, word for word, the body of `reduction(n, mu, a1, a_mod)`, which
the extraction inlined here. -/
def Hacl_Bignum4096_mod_precompr2 (n a r2 res : List Nat) : List Nat :=
  let a_mod := List.replicate 64 0
  let a1 := List.replicate 128 0
  let a1 := memcpy a1 a 128
  let mu := Hacl_Bignum_ModInvLimb_mod_inv_uint64 (n.getD 0 0)
  let st := mont_reduction_loop n mu a1
  let c0 := st.1
  let a1 := st.2
  let a_mod := memcpy a_mod (a1.drop 64) 64
  let c01 := c0
  let tmp := List.replicate 64 0
  let st1 := forLoop 0 16 (fun i st =>
    let st := sub_step a_mod n (4 * i) st
    let st := sub_step a_mod n (4 * i + 1) st
    let st := sub_step a_mod n (4 * i + 2) st
    sub_step a_mod n (4 * i + 3) st) (0, tmp)
  let st1 := forLoop 64 64 (fun i st => sub_step a_mod n i st) st1
  let c1 := st1.1
  let tmp := st1.2
  let c2 := sub64 c01 c1
  let a_mod := mask_select c2 a_mod tmp
  let c3 := Hacl_Bignum4096_mul a_mod r2
  reduction n mu c3 res

/-- `Hacl_Bignum4096_mod`: returns the validity boolean and the contents of `res`. -/
def Hacl_Bignum4096_mod (n a res : List Nat) : Bool × List Nat :=
  let m0 := mont_check n
  let n2 := Hacl_Bignum4096_mul n n
  let acc := forLoop 0 128 (fun i acc => lt_mask_step (a.getD i 0) (n2.getD i 0) acc) 0
  let m1 := acc
  let is_valid_m := m0 &&& m1
  let nBits := mul32 64 (Hacl_Bignum_Lib_bn_get_top_index_u64 64 n % 2 ^ 32)
  let r2 := List.replicate 64 0
  let r2 := precomp nBits n r2
  let res := Hacl_Bignum4096_mod_precompr2 n a r2 res
  let res := mask_output is_valid_m res
  (decide (is_valid_m = 0xFFFFFFFFFFFFFFFF), res)

/-- `exp_check`: the validity mask of the exponentiation entry points.  `bBits` is a
`uint32_t`; `KRML_CHECK_SIZE` cannot fire on the 64-bit target of this file. -/
def exp_check (n a : List Nat) (bBits : Nat) (b : List Nat) : Nat :=
  let m0 := mont_check n
  let bLen := add32 (sub32 bBits 1 / 64) 1
  let bn_zero := List.replicate bLen 0
  let mask := forLoop 0 bLen (fun i mask =>
    let uu____0 := FStar_UInt64_eq_mask (b.getD i 0) (bn_zero.getD i 0)
    uu____0 &&& mask) 0xFFFFFFFFFFFFFFFF
  let m1 := mask
  let m1_ := not64 m1
  let m2 :=
    if bBits < mul32 64 bLen then
      let b2 := List.replicate bLen 0
      let i0 := bBits / 64
      let j := bBits % 64
      let b2 := b2.set i0 (b2.getD i0 0 ||| shl64 1 j)
      forLoop 0 bLen (fun i acc => lt_mask_step (b.getD i 0) (b2.getD i 0) acc) 0
    else 0xFFFFFFFFFFFFFFFF
  let acc := forLoop 0 64 (fun i acc => lt_mask_step (a.getD i 0) (n.getD i 0) acc) 0
  let m3 := acc
  let m := (m1_ &&& m2) &&& m3
  m0 &&& m

/-- `mod_exp_bm_vartime_precompr2`: right-to-left binary exponentiation in the Montgomery
domain, branching on the exponent bit.  The loop state is `(aM, accM)`. -/
def mod_exp_bm_vartime_precompr2 (n a : List Nat) (bBits : Nat) (b r2 res : List Nat) :
    List Nat :=
  let nInv := Hacl_Bignum_ModInvLimb_mod_inv_uint64 (n.getD 0 0)
  let aM := List.replicate 64 0
  let accM := List.replicate 64 0
  let c0 := Hacl_Bignum4096_mul a r2
  let aM := reduction n nInv c0 aM
  let one := (List.replicate 64 0).set 0 1
  let c := Hacl_Bignum4096_mul one r2
  let accM := reduction n nInv c accM
  let st := forLoop 0 bBits (fun i (st : List Nat × List Nat) =>
    let aM := st.1
    let accM := st.2
    let i1 := i / 64
    let j := i % 64
    let tmp := b.getD i1 0
    let bit := (tmp >>> j) &&& 1
    let accM := if ¬ (bit = 0) then mont_mul n nInv accM aM accM else accM
    let aM := mont_sqr n nInv aM aM
    (aM, accM)) (aM, accM)
  let accM := st.2
  let tmp := memcpy (List.replicate 128 0) accM 64
  reduction n nInv tmp res

/-- The constant-time conditional swap loop over 64 limbs:
`dummy = (0 - sw) & (accM[i] ^ aM[i]); accM[i] ^= dummy; aM[i] ^= dummy`.
The state is `(aM, accM)`. -/
def cswap_loop (sw : Nat) (st : List Nat × List Nat) : List Nat × List Nat :=
  forLoop 0 64 (fun i (st : List Nat × List Nat) =>
    let aM := st.1
    let accM := st.2
    let dummy := sub64 0 sw &&& (accM.getD i 0 ^^^ aM.getD i 0)
    let accM := accM.set i (accM.getD i 0 ^^^ dummy)
    let aM := aM.set i (aM.getD i 0 ^^^ dummy)
    (aM, accM)) st

/-- `mod_exp_bm_consttime_precompr2`: Montgomery ladder from the most significant bit,
with conditional swaps instead of branches.  The loop state is `((aM, accM), sw)`. -/
def mod_exp_bm_consttime_precompr2 (n a : List Nat) (bBits : Nat) (b r2 res : List Nat) :
    List Nat :=
  let nInv := Hacl_Bignum_ModInvLimb_mod_inv_uint64 (n.getD 0 0)
  let aM := List.replicate 64 0
  let accM := List.replicate 64 0
  let c0 := Hacl_Bignum4096_mul a r2
  let aM := reduction n nInv c0 aM
  let one := (List.replicate 64 0).set 0 1
  let c := Hacl_Bignum4096_mul one r2
  let accM := reduction n nInv c accM
  let sw := 0
  let st := forLoop 0 bBits (fun i0 (st : (List Nat × List Nat) × Nat) =>
    let sw := st.2
    let i1 := sub32 (sub32 bBits i0) 1 / 64
    let j := sub32 (sub32 bBits i0) 1 % 64
    let tmp := b.getD i1 0
    let bit := (tmp >>> j) &&& 1
    let sw1 := bit ^^^ sw
    let sw_st := cswap_loop sw1 st.1
    let aM := sw_st.1
    let accM := sw_st.2
    let aM := mont_mul n nInv aM accM aM
    let accM := mont_sqr n nInv accM accM
    ((aM, accM), bit)) ((aM, accM), sw)
  let sw0 := st.2
  let sw_st := cswap_loop sw0 st.1
  let accM := sw_st.2
  let tmp := memcpy (List.replicate 128 0) accM 64
  reduction n nInv tmp res

/-- The table of Montgomery powers shared by the two fixed-window routines:
`table[0] = accM`, `table[1] = aM`, `table[i + 2] = mont_mul(table[i + 1], aM)`. -/
def fw_table (l : Nat) (n : List Nat) (nInv : Nat) (aM accM : List Nat) : List Nat :=
  let table_len := shl32 1 l
  let table := List.replicate (mul32 table_len 64) 0
  let table := memcpy table accM 64
  let table := blit table 64 aM 64
  forLoop 0 (sub32 table_len 2) (fun i table =>
    let t11 := subBuf table ((i + 1) * 64) 64
    let t2 := subBuf table ((i + 2) * 64) 64
    blit table ((i + 2) * 64) (mont_mul n nInv t11 aM t2) 64) table

/-- The window extraction of the fixed-window routines: the limb `b[i1]` shifted right by
`j`, completed from `b[i1 + 1]` when there is one and `j` is not zero. -/
def fw_window (bLen : Nat) (b : List Nat) (i1 j : Nat) : Nat :=
  let p1 := b.getD i1 0 >>> j
  if add32 i1 1 < bLen ∧ 0 < j then
    p1 ||| shl64 (b.getD (i1 + 1) 0) (64 - j)
  else p1

/-- `mod_exp_fw_vartime_precompr2`: fixed-window exponentiation, the table is indexed by
the window value. -/
def mod_exp_fw_vartime_precompr2 (l : Nat) (n a : List Nat) (bBits : Nat) (b r2 res : List Nat) :
    List Nat :=
  let bLen := add32 (sub32 bBits 1 / 64) 1
  let nInv := Hacl_Bignum_ModInvLimb_mod_inv_uint64 (n.getD 0 0)
  let aM := List.replicate 64 0
  let accM := List.replicate 64 0
  let c0 := Hacl_Bignum4096_mul a r2
  let aM := reduction n nInv c0 aM
  let one := (List.replicate 64 0).set 0 1
  let c := Hacl_Bignum4096_mul one r2
  let accM := reduction n nInv c accM
  let table := fw_table l n nInv aM accM
  let accM := forLoop 0 (bBits / l) (fun i accM =>
    let accM := forLoop 0 l (fun _ accM => mont_sqr n nInv accM accM) accM
    let mask_l := sub64 (shl64 1 l) 1
    let i1 := sub32 (sub32 bBits (mul32 l i)) l / 64
    let j := sub32 (sub32 bBits (mul32 l i)) l % 64
    let ite := fw_window bLen b i1 j
    let bits_l := ite &&& mask_l
    let bits_l32 := bits_l % 2 ^ 32
    let a_bits_l := subBuf table (mul32 bits_l32 64) 64
    mont_mul n nInv accM a_bits_l accM) accM
  let accM :=
    if ¬ (bBits % l = 0) then
      let c1 := bBits % l
      let accM := forLoop 0 c1 (fun _ accM => mont_sqr n nInv accM accM) accM
      let c10 := bBits % l
      let mask_l := sub64 (shl64 1 c10) 1
      let ite := fw_window bLen b 0 0
      let bits_c := ite &&& mask_l
      let bits_c32 := bits_c % 2 ^ 32
      let a_bits_c := subBuf table (mul32 bits_c32 64) 64
      mont_mul n nInv accM a_bits_c accM
    else accM
  let tmp := memcpy (List.replicate 128 0) accM 64
  reduction n nInv tmp res

/-- The constant-time table lookup: `sel = table[0]`, then for every `i2 < table_len − 1`,
`c = eq_mask(bits, i2 + 1)` and `sel[i] = (c & table[i2 + 1][i]) | (~c & sel[i])`. -/
def fw_select (table_len : Nat) (table : List Nat) (bits : Nat) : List Nat :=
  let sel := memcpy (List.replicate 64 0) table 64
  forLoop 0 (sub32 table_len 1) (fun i2 sel =>
    let c := FStar_UInt64_eq_mask bits (add32 i2 1)
    let res_j := subBuf table ((i2 + 1) * 64) 64
    forLoop 0 64 (fun i sel =>
      sel.set i ((c &&& res_j.getD i 0) ||| (not64 c &&& sel.getD i 0))) sel) sel

/-- `mod_exp_fw_consttime_precompr2`: fixed-window exponentiation, the table entry is
selected by a scan of the whole table. -/
def mod_exp_fw_consttime_precompr2 (l : Nat) (n a : List Nat) (bBits : Nat) (b r2 res : List Nat) :
    List Nat :=
  let bLen := add32 (sub32 bBits 1 / 64) 1
  let nInv := Hacl_Bignum_ModInvLimb_mod_inv_uint64 (n.getD 0 0)
  let aM := List.replicate 64 0
  let accM := List.replicate 64 0
  let c0 := Hacl_Bignum4096_mul a r2
  let aM := reduction n nInv c0 aM
  let one := (List.replicate 64 0).set 0 1
  let c2 := Hacl_Bignum4096_mul one r2
  let accM := reduction n nInv c2 accM
  let table_len := shl32 1 l
  let table := fw_table l n nInv aM accM
  let accM := forLoop 0 (bBits / l) (fun i0 accM =>
    let accM := forLoop 0 l (fun _ accM => mont_sqr n nInv accM accM) accM
    let mask_l := sub64 (shl64 1 l) 1
    let i1 := sub32 (sub32 bBits (mul32 l i0)) l / 64
    let j := sub32 (sub32 bBits (mul32 l i0)) l % 64
    let ite := fw_window bLen b i1 j
    let bits_l := ite &&& mask_l
    let a_bits_l := fw_select table_len table bits_l
    mont_mul n nInv accM a_bits_l accM) accM
  let accM :=
    if ¬ (bBits % l = 0) then
      let c := bBits % l
      let accM := forLoop 0 c (fun _ accM => mont_sqr n nInv accM accM) accM
      let c10 := bBits % l
      let mask_l := sub64 (shl64 1 c10) 1
      let ite := fw_window bLen b 0 0
      let bits_c := ite &&& mask_l
      let a_bits_c := fw_select table_len table bits_c
      mont_mul n nInv accM a_bits_c accM
    else accM
  let tmp := memcpy (List.replicate 128 0) accM 64
  reduction n nInv tmp res

/-- `Hacl_Bignum4096_mod_exp_vartime_precompr2`: dispatch on the public `bBits`. -/
def Hacl_Bignum4096_mod_exp_vartime_precompr2 (n a : List Nat) (bBits : Nat)
    (b r2 res : List Nat) : List Nat :=
  if bBits < 200 then mod_exp_bm_vartime_precompr2 n a bBits b r2 res
  else mod_exp_fw_vartime_precompr2 4 n a bBits b r2 res

/-- `Hacl_Bignum4096_mod_exp_consttime_precompr2`: dispatch on the public `bBits`. -/
def Hacl_Bignum4096_mod_exp_consttime_precompr2 (n a : List Nat) (bBits : Nat)
    (b r2 res : List Nat) : List Nat :=
  if bBits < 200 then mod_exp_bm_consttime_precompr2 n a bBits b r2 res
  else mod_exp_fw_consttime_precompr2 4 n a bBits b r2 res

/-- `Hacl_Bignum4096_mod_exp_vartime`: returns the validity boolean and the contents of
`res`. -/
def Hacl_Bignum4096_mod_exp_vartime (n a : List Nat) (bBits : Nat) (b res : List Nat) :
    Bool × List Nat :=
  let is_valid_m := exp_check n a bBits b
  let nBits := mul32 64 (Hacl_Bignum_Lib_bn_get_top_index_u64 64 n % 2 ^ 32)
  let res :=
    if is_valid_m = 0xFFFFFFFFFFFFFFFF then
      let r2 := List.replicate 64 0
      let r2 := precomp nBits n r2
      Hacl_Bignum4096_mod_exp_vartime_precompr2 n a bBits b r2 res
    else res
  let res := mask_output is_valid_m res
  (decide (is_valid_m = 0xFFFFFFFFFFFFFFFF), res)

/-- `Hacl_Bignum4096_mod_exp_consttime`: returns the validity boolean and the contents of
`res`. -/
def Hacl_Bignum4096_mod_exp_consttime (n a : List Nat) (bBits : Nat) (b res : List Nat) :
    Bool × List Nat :=
  let is_valid_m := exp_check n a bBits b
  let nBits := mul32 64 (Hacl_Bignum_Lib_bn_get_top_index_u64 64 n % 2 ^ 32)
  let res :=
    if is_valid_m = 0xFFFFFFFFFFFFFFFF then
      let r2 := List.replicate 64 0
      let r2 := precomp nBits n r2
      Hacl_Bignum4096_mod_exp_consttime_precompr2 n a bBits b r2 res
    else res
  let res := mask_output is_valid_m res
  (decide (is_valid_m = 0xFFFFFFFFFFFFFFFF), res)

/-- `Hacl_Bignum4096_new_precompr2`.  `calloc_ok` tells whether `KRML_HOST_CALLOC` succeeds
when it is called.  Returns the pointer (`none` for `NULL`) and the number of calls made to
`KRML_HOST_CALLOC`. -/
def Hacl_Bignum4096_new_precompr2 (calloc_ok : Bool) (n : List Nat) : Option (List Nat) × Nat :=
  let one := (List.replicate 64 0).set 0 1
  let bit0 := n.getD 0 0 &&& 1
  let m0 := sub64 0 bit0
  let acc := forLoop 0 64 (fun i acc => lt_mask_step (one.getD i 0) (n.getD i 0) acc) 0
  let m1 := acc
  let is_valid_m := m0 &&& m1
  if ¬ (is_valid_m = 0xFFFFFFFFFFFFFFFF) then (none, 0)
  else
    let res : Option (List Nat) := if calloc_ok then some (List.replicate 64 0) else none
    match res with
    | none => (none, 1)
    | some res2 =>
      let nBits := mul32 64 (Hacl_Bignum_Lib_bn_get_top_index_u64 64 n % 2 ^ 32)
      let res2 := memcpy res2 (List.replicate 64 0) 64
      let i := nBits / 64
      let j := nBits % 64
      let res2 := res2.set i (res2.getD i 0 ||| shl64 1 j)
      let res2 := forLoop 0 (sub32 8192 nBits) (fun _ res2 =>
        add_mod_n n Src.out Src.out res2) res2
      (some res2, 1)

/-- One statement `c = Lib_IntTypes_Intrinsics_sub_borrow_u64(c, a1[k], 0, res1 + k)` of
`Hacl_Bignum4096_mod_inv_prime_vartime`, where `a1 = n + 1` and `res1 = n2 + 1`. -/
def sub_zero_step (n : List Nat) (k : Nat) (st : Nat × List Nat) : Nat × List Nat :=
  let t1 := n.getD (1 + k) 0
  let r := Lib_IntTypes_Intrinsics_sub_borrow_u64 st.1 t1 0
  (r.1, st.2.set (1 + k) r.2)

/-- `Hacl_Bignum4096_mod_inv_prime_vartime`: returns the validity boolean and the contents
of `res`. -/
def Hacl_Bignum4096_mod_inv_prime_vartime (n a res : List Nat) : Bool × List Nat :=
  let m0 := mont_check n
  let bn_zero := List.replicate 64 0
  let mask := forLoop 0 64 (fun i mask =>
    let uu____0 := FStar_UInt64_eq_mask (a.getD i 0) (bn_zero.getD i 0)
    uu____0 &&& mask) 0xFFFFFFFFFFFFFFFF
  let m1 := mask
  let acc := forLoop 0 64 (fun i acc => lt_mask_step (a.getD i 0) (n.getD i 0) acc) 0
  let m2 := acc
  let is_valid_m := (m0 &&& not64 m1) &&& m2
  let nBits := mul32 64 (Hacl_Bignum_Lib_bn_get_top_index_u64 64 n % 2 ^ 32)
  let res :=
    if is_valid_m = 0xFFFFFFFFFFFFFFFF then
      let n2 := List.replicate 64 0
      let r0 := Lib_IntTypes_Intrinsics_sub_borrow_u64 0 (n.getD 0 0) 2
      let c0 := r0.1
      let n2 := n2.set 0 r0.2
      let st :=
        if 1 < 64 then
          let rLen := 63
          let st := forLoop 0 (rLen / 4 * 4 / 4) (fun i st =>
            let st := sub_zero_step n (4 * i) st
            let st := sub_zero_step n (4 * i + 1) st
            let st := sub_zero_step n (4 * i + 2) st
            sub_zero_step n (4 * i + 3) st) (c0, n2)
          forLoop (rLen / 4 * 4) rLen (fun i st => sub_zero_step n i st) st
        else (c0, n2)
      let n2 := st.2
      let r2 := List.replicate 64 0
      let r2 := precomp nBits n r2
      Hacl_Bignum4096_mod_exp_vartime_precompr2 n a 4096 n2 r2 res
    else res
  let res := mask_output is_valid_m res
  (decide (is_valid_m = 0xFFFFFFFFFFFFFFFF), res)

/-! ## Specification-level definitions -/

/-- A 64-bit mask: all zeros or all ones. -/
def is_mask (m : Nat) : Prop := m = 0 ∨ m = ones64

/-- The buffer a read-only pointer designates when the function is entered. -/
def Src.orig (s : Src) (res : List Nat) : List Nat :=
  match s with
  | Src.buf l => l
  | Src.out => res

/-- The standing assumptions on a modulus and its limb inverse. -/
def MontCtx (n : List Nat) (nInv : Nat) : Prop :=
  bn_wf 64 n ∧ bn_v n % 2 = 1 ∧ 1 < bn_v n ∧ (nInv * n.getD 0 0 + 1) % 2 ^ 64 = 0

/-- The buffer `xM` is the Montgomery representation of `x` modulo `n`: 64 limbs whose
value is `x · 2^4096 mod n`. -/
def MontRep (n : List Nat) (x : Nat) (xM : List Nat) : Prop :=
  bn_wf 64 xM ∧ bn_v xM = x * 2 ^ (64 * 64) % bn_v n

/-- The ladder state after the bits above position `p` have been processed: the exponent
prefix is `k`, and `sw` tells which buffer holds `a^k`. -/
def LadderInv (n : List Nat) (a k : Nat) (st : (List Nat × List Nat) × Nat) : Prop :=
  (st.2 = 0 ∧ MontRep n (a ^ k) st.1.2 ∧ MontRep n (a ^ (k + 1)) st.1.1)
  ∨ (st.2 = 1 ∧ MontRep n (a ^ k) st.1.1 ∧ MontRep n (a ^ (k + 1)) st.1.2)

/-- The bound check of `exp_check`: performed only when `bBits < 64 * bLen` in 32-bit
arithmetic. -/
def exp_check_bound (bBits : Nat) (b : List Nat) : Prop :=
  bBits < mul32 64 (add32 (sub32 bBits 1 / 64) 1) → bn_v b < 2 ^ bBits

instance (bBits : Nat) (b : List Nat) : Decidable (exp_check_bound bBits b) := by
  unfold exp_check_bound; infer_instance

/-- What `exp_check` accepts. -/
def exp_valid (n a : List Nat) (bBits : Nat) (b : List Nat) : Prop :=
  (bn_v n % 2 = 1 ∧ 1 < bn_v n) ∧ bn_v b ≠ 0 ∧ exp_check_bound bBits b ∧ bn_v a < bn_v n

instance (n a : List Nat) (bBits : Nat) (b : List Nat) : Decidable (exp_valid n a bBits b) := by
  unfold exp_valid; infer_instance

/-- The modulus of scenario S3: `2^32 + 15`. -/
def S3_n : List Nat := 4294967311 :: List.replicate 63 0

/-- The base of scenario S3: `7`. -/
def S3_a : List Nat := 7 :: List.replicate 63 0

/-- The exponent of scenario S3: `2^32 + 13`, one limb for `bBits = 33`. -/
def S3_b : List Nat := [4294967309]

/-- The modulus of scenario S5: the 4096-bit prime `2^4096 − 2549`. -/
def S5_n : List Nat := 18446744073709549067 :: List.replicate 63 18446744073709551615

/-- The base of scenario S5. -/
def S5_a : List Nat := 3 :: List.replicate 63 0

/-- The exponent of scenario S5: `2^4095`, the single bit at position 4095. -/
def S5_b : List Nat := List.replicate 63 0 ++ [9223372036854775808]

/-- An even modulus, as in scenario S6. -/
def S6_n : List Nat := 4294967312 :: List.replicate 63 0

/-- A 64-limb output buffer holding stale data. -/
def stale_res : List Nat := List.replicate 64 12297829382473034410

/-- An exponent buffer of `2^26` limbs holding `2^(2^32 − 1)`. -/
def huge_b : List Nat := List.replicate 67108863 0 ++ [9223372036854775808]

/-- The validity mask of `Hacl_Bignum4096_mod`. -/
def mod_check (n a : List Nat) : Nat :=
  mont_check n
    &&& forLoop 0 128 (fun i acc =>
      lt_mask_step (a.getD i 0) ((Hacl_Bignum4096_mul n n).getD i 0) acc) 0

/-- A 128-limb dividend: `2^64 + 10^11`, below `(2^32 + 15)^2`. -/
def wide_a : List Nat := 100000000000 :: 1 :: List.replicate 126 0

/-- A 128-limb dividend: `2^128`, above `(2^32 + 15)^2`. -/
def wide_big : List Nat := 0 :: 0 :: 1 :: List.replicate 125 0

/-- The validity mask `is_valid_m` of `Hacl_Bignum4096_mod_inv_prime_vartime`. -/
def inv_check (n a : List Nat) : Nat :=
  let m0 := mont_check n
  let bn_zero := List.replicate 64 0
  let mask := forLoop 0 64 (fun i mask =>
    let uu____0 := FStar_UInt64_eq_mask (a.getD i 0) (bn_zero.getD i 0)
    uu____0 &&& mask) 0xFFFFFFFFFFFFFFFF
  let m1 := mask
  let acc := forLoop 0 64 (fun i acc => lt_mask_step (a.getD i 0) (n.getD i 0) acc) 0
  let m2 := acc
  (m0 &&& not64 m1) &&& m2

/-- The exponent buffer `n2` that `Hacl_Bignum4096_mod_inv_prime_vartime` computes. -/
def inv_n2 (n : List Nat) : List Nat :=
  let n2 := List.replicate 64 0
  let r0 := Lib_IntTypes_Intrinsics_sub_borrow_u64 0 (n.getD 0 0) 2
  let c0 := r0.1
  let n2 := n2.set 0 r0.2
  let st :=
    if 1 < 64 then
      let rLen := 63
      let st := forLoop 0 (rLen / 4 * 4 / 4) (fun i st =>
        let st := sub_zero_step n (4 * i) st
        let st := sub_zero_step n (4 * i + 1) st
        let st := sub_zero_step n (4 * i + 2) st
        sub_zero_step n (4 * i + 3) st) (c0, n2)
      forLoop (rLen / 4 * 4) rLen (fun i st => sub_zero_step n i st) st
    else (c0, n2)
  st.2

/-- A 64-limb prime modulus: `65537`. -/
def inv_p : List Nat := 65537 :: List.replicate 63 0

/-- A 64-limb zero. -/
def bn_zero64 : List Nat := List.replicate 64 0

/-- A 64-limb modulus equal to 1. -/
def bn_one64 : List Nat := 1 :: List.replicate 63 0

/-! ## Comparison, loads and stores of `Hacl_Bignum4096.c` -/

/-- `Hacl_Bignum4096_lt_mask`: the limb-wise comparison loop over all 64 limbs. -/
def Hacl_Bignum4096_lt_mask (a b : List Nat) : Nat :=
  let acc := forLoop 0 64 (fun i acc => lt_mask_step (a.getD i 0) (b.getD i 0) acc) 0
  acc

/-- The 64-limb bignum `2^4096 − 1`. -/
def bn_max64 : List Nat := List.replicate 64 18446744073709551615

/-- The integer a little-endian byte sequence encodes: `Σ b[i] · 256^i`. -/
def bytes_le_v : List Nat → Nat
  | [] => 0
  | x :: xs => x + 256 * bytes_le_v xs

/-- The integer a big-endian byte sequence encodes: `Σ b[i] · 256^(len − 1 − i)`. -/
def bytes_be_v : List Nat → Nat
  | [] => 0
  | x :: xs => x * 256 ^ xs.length + bytes_be_v xs

/-- The `len` low bytes of the natural number `v`, least significant first. -/
def bytes_from_nat : Nat → Nat → List Nat
  | 0, _ => []
  | len + 1, v => (v % 256) :: bytes_from_nat len (v / 256)

/-- A byte buffer of `len` bytes, each a `uint8_t`. -/
def bytes_wf (len : Nat) (l : List Nat) : Prop :=
  l.length = len ∧ ∀ x ∈ l, x < 256

instance (len : Nat) (l : List Nat) : Decidable (bytes_wf len l) := by
  unfold bytes_wf; infer_instance

/-- Modelled from the spec: `load64_le` (kremlib endianness macro, not in the sources): the
64-bit word whose little-endian encoding is the 8 bytes at `buf + off`. -/
def load64_le (buf : List Nat) (off : Nat) : Nat :=
  bytes_le_v (subBuf buf off 8)

/-- Modelled from the spec: `load64_be` (kremlib endianness macro, not in the sources): the
64-bit word whose big-endian encoding is the 8 bytes at `buf + off`. -/
def load64_be (buf : List Nat) (off : Nat) : Nat :=
  bytes_be_v (subBuf buf off 8)

/-- Modelled from the spec: `store64_le` (kremlib endianness macro, not in the sources):
writes the 8 bytes of the little-endian encoding of `x` at `buf + off`. -/
def store64_le (buf : List Nat) (off x : Nat) : List Nat :=
  blit buf off (bytes_from_nat 8 x) 8

/-- Modelled from the spec: `store64_be` (kremlib endianness macro, not in the sources):
writes the 8 bytes of the big-endian encoding of `x` at `buf + off`. -/
def store64_be (buf : List Nat) (off x : Nat) : List Nat :=
  blit buf off (bytes_from_nat 8 x).reverse 8

/-- `Hacl_Bignum4096_new_bn_from_bytes_be`.  `calloc_ok` tells whether `KRML_HOST_CALLOC`
succeeds when it is called; the result is `none` for `NULL`.  `KRML_CHECK_SIZE` only aborts
on a size that overflows `size_t`, which the guard excludes. -/
def Hacl_Bignum4096_new_bn_from_bytes_be (calloc_ok : Bool) (len : Nat) (b : List Nat) :
    Option (List Nat) :=
  if len = 0 ∨ ¬ (add32 (sub32 len 1 / 8) 1 ≤ 536870911) then none
  else
    let res : Option (List Nat) :=
      if calloc_ok then some (List.replicate (add32 (sub32 len 1 / 8) 1) 0) else none
    match res with
    | none => none
    | some res2 =>
      let bnLen := add32 (sub32 len 1 / 8) 1
      let tmpLen := mul32 8 bnLen
      let tmp := List.replicate tmpLen 0
      let tmp := blit tmp (tmpLen - len) b len
      let res2 := forLoop 0 bnLen (fun i os =>
        let u := load64_be tmp (mul32 (sub32 (sub32 bnLen i) 1) 8)
        let x := u
        os.set i x) res2
      some res2

/-- `Hacl_Bignum4096_new_bn_from_bytes_le`, modelled as
`Hacl_Bignum4096_new_bn_from_bytes_be` is. -/
def Hacl_Bignum4096_new_bn_from_bytes_le (calloc_ok : Bool) (len : Nat) (b : List Nat) :
    Option (List Nat) :=
  if len = 0 ∨ ¬ (add32 (sub32 len 1 / 8) 1 ≤ 536870911) then none
  else
    let res : Option (List Nat) :=
      if calloc_ok then some (List.replicate (add32 (sub32 len 1 / 8) 1) 0) else none
    match res with
    | none => none
    | some res2 =>
      let bnLen := add32 (sub32 len 1 / 8) 1
      let tmpLen := mul32 8 bnLen
      let tmp := List.replicate tmpLen 0
      let tmp := blit tmp 0 b len
      let res2 := forLoop 0 (add32 (sub32 len 1 / 8) 1) (fun i os =>
        let u := load64_le tmp (mul32 i 8)
        let r1 := u
        let x := r1
        os.set i x) res2
      some res2

/-- `Hacl_Bignum4096_bn_to_bytes_be`: returns the contents of the 512-byte buffer `res`. -/
def Hacl_Bignum4096_bn_to_bytes_be (b res : List Nat) : List Nat :=
  let bnLen := add32 (sub32 512 1 / 8) 1
  let tmpLen := mul32 8 bnLen
  let tmp := List.replicate tmpLen 0
  let numb := 8
  let tmp := forLoop 0 bnLen (fun i tmp =>
    store64_be tmp (mul32 i numb) (b.getD (sub32 (sub32 bnLen i) 1) 0)) tmp
  memcpy res (tmp.drop (tmpLen - 512)) 512

/-- `Hacl_Bignum4096_bn_to_bytes_le`: returns the contents of the 512-byte buffer `res`. -/
def Hacl_Bignum4096_bn_to_bytes_le (b res : List Nat) : List Nat :=
  let bnLen := add32 (sub32 512 1 / 8) 1
  let tmpLen := mul32 8 bnLen
  let tmp := List.replicate tmpLen 0
  let tmp := forLoop 0 bnLen (fun i tmp => store64_le tmp (mul32 i 8) (b.getD i 0)) tmp
  memcpy res tmp 512

/-- The `n` limbs read little-endian from the bytes of `t`, eight bytes at a time. -/
def le_limbs (n : Nat) (t : List Nat) : List Nat :=
  (List.range n).map (fun i => load64_le t (8 * i))

/-- A three-byte input. -/
def bytes_123 : List Nat := [1, 2, 3]

/-- A 512-byte buffer with the top bit and the low bit set, as an RSA-4096 modulus has. -/
def sample_512 : List Nat := 195 :: (List.replicate 510 90 ++ [1])

/-- A 512-byte output buffer holding stale data. -/
def stale_bytes : List Nat := List.replicate 512 170

/-- A 64-limb bignum with distinct bytes in its low limb. -/
def bn_sample : List Nat := 72623859790382856 :: List.replicate 63 0

/-- The 64-limb bignum `2^4096 − 2`. -/
def bn_max64_pred : List Nat := 18446744073709551614 :: List.replicate 63 18446744073709551615

/-- A 128-limb Montgomery-reduction input: `(2^32 + 15) · 2^4096 − 1`. -/
def wide_c : List Nat :=
  List.replicate 64 18446744073709551615 ++ (4294967310 :: List.replicate 63 0)

/-- A 211-bit exponent in four limbs: `2^210 + 2^64 + 5`. -/
def fw_b : List Nat := [5, 1, 0, 262144]

/-- A table of 1024 distinct limbs. -/
def table_range : List Nat := List.range 1024

/-- Addition of `uint64_t` values, wrapping modulo `2^64`. -/
def add64 (x y : Nat) : Nat := (x + y) % 2 ^ 64

/-- Modelled from the spec: `FStar_UInt128_uint64_to_uint128` (kremlib, not in the sources):
the 128-bit counter `totlen` is a natural number below `2^128`. -/
def FStar_UInt128_uint64_to_uint128 (x : Nat) : Nat := x

/-- Modelled from the spec: `FStar_UInt128_add_mod` (kremlib, not in the sources): addition
of the 128-bit counter, wrapping modulo `2^128`. -/
def FStar_UInt128_add_mod (x y : Nat) : Nat := (x + y) % 2 ^ 128

/-- Modelled from the spec: `FStar_UInt128_shift_right` (kremlib, not in the sources). -/
def FStar_UInt128_shift_right (x s : Nat) : Nat := x >>> s

/-- Modelled from the spec: `FStar_UInt128_uint128_to_uint64` (kremlib, not in the sources):
the low 64 bits. -/
def FStar_UInt128_uint128_to_uint64 (x : Nat) : Nat := x % 2 ^ 64

/-- Modelled from the spec: `Hacl_Impl_Blake2_Constants_sigmaTable` (header not in the
sources), the fixed 10×16 permutation table of the BLAKE2b sigma schedule. -/
def Hacl_Impl_Blake2_Constants_sigmaTable : List Nat :=
  [0, 1, 2, 3, 4, 5, 6, 7, 8, 9, 10, 11, 12, 13, 14, 15,
   14, 10, 4, 8, 9, 15, 13, 6, 1, 12, 0, 2, 11, 7, 5, 3,
   11, 8, 12, 0, 5, 2, 15, 13, 10, 14, 3, 6, 7, 1, 9, 4,
   7, 9, 3, 1, 13, 12, 11, 14, 2, 6, 5, 10, 4, 0, 15, 8,
   9, 0, 5, 7, 2, 4, 10, 15, 14, 1, 11, 12, 6, 8, 3, 13,
   2, 12, 6, 10, 0, 11, 8, 3, 4, 13, 7, 5, 15, 14, 1, 9,
   12, 5, 1, 15, 14, 13, 4, 10, 0, 7, 6, 3, 9, 2, 8, 11,
   13, 11, 7, 14, 12, 1, 3, 9, 5, 0, 15, 4, 8, 6, 2, 10,
   6, 15, 14, 9, 11, 3, 0, 8, 12, 2, 13, 7, 1, 4, 10, 5,
   10, 2, 8, 4, 7, 6, 1, 5, 15, 11, 9, 14, 3, 12, 13, 0]

/-- Modelled from the spec: `Hacl_Impl_Blake2_Constants_rTable_B` (header not in the
sources), the rotation amounts 32, 24, 16, 63 of the G-function. -/
def Hacl_Impl_Blake2_Constants_rTable_B : List Nat := [32, 24, 16, 63]

/-- Modelled from the spec: `Hacl_Impl_Blake2_Constants_ivTable_B` (header not in the
sources), the fixed initial hash state of BLAKE2b. -/
def Hacl_Impl_Blake2_Constants_ivTable_B : List Nat :=
  [0x6A09E667F3BCC908, 0xBB67AE8584CAA73B, 0x3C6EF372FE94F82B, 0xA54FF53A5F1D36F1,
   0x510E527FADE682D1, 0x9B05688C2B3E6C1F, 0x1F83D9ABFB41BD6B, 0x5BE0CD19137E2179]

/-- The loop `for (i < 4) wv_a[i] = wv_a[i] + wv_b[i]` with `wv_a = wv + a * 4` and
`wv_b = wv + b * 4`. -/
def row_add (wv : List Nat) (a b : Nat) : List Nat :=
  forLoop 0 4 (fun i wv =>
    let x1 := add64 (wv.getD (mul32 a 4 + i) 0) (wv.getD (mul32 b 4 + i) 0)
    wv.set (mul32 a 4 + i) x1) wv

/-- The loop `for (i < 4) wv_a[i] = wv_a[i] + x[i]` with `wv_a = wv + a * 4` and `x` a row
of four limbs outside `wv`. -/
def row_add_ext (wv : List Nat) (a : Nat) (x : List Nat) : List Nat :=
  forLoop 0 4 (fun i wv =>
    let x1 := add64 (wv.getD (mul32 a 4 + i) 0) (x.getD i 0)
    wv.set (mul32 a 4 + i) x1) wv

/-- The loop `for (i < 4) wv_a[i] = wv_a[i] ^ wv_b[i]`. -/
def row_xor (wv : List Nat) (a b : Nat) : List Nat :=
  forLoop 0 4 (fun i wv =>
    let x1 := wv.getD (mul32 a 4 + i) 0 ^^^ wv.getD (mul32 b 4 + i) 0
    wv.set (mul32 a 4 + i) x1) wv

/-- The loop `for (i < 4) r1[i] = r1[i] >> r | r1[i] << (64 - r)` with `r1 = wv + a * 4`. -/
def row_ror (wv : List Nat) (a r : Nat) : List Nat :=
  forLoop 0 4 (fun i wv =>
    let x1 := wv.getD (mul32 a 4 + i) 0
    let x10 := (x1 >>> r) ||| shl64 x1 (sub32 64 r)
    wv.set (mul32 a 4 + i) x10) wv

/-- The four reads `r1[n], r1[(n+1) % 4], r1[(n+2) % 4], r1[(n+3) % 4]` followed by the four
writes to `r1[0..3]`, with `r1 = wv + a * 4`. -/
def row_permute (wv : List Nat) (a n : Nat) : List Nat :=
  let x0 := wv.getD (mul32 a 4 + n) 0
  let x1 := wv.getD (mul32 a 4 + add32 n 1 % 4) 0
  let x2 := wv.getD (mul32 a 4 + add32 n 2 % 4) 0
  let x3 := wv.getD (mul32 a 4 + add32 n 3 % 4) 0
  let wv := wv.set (mul32 a 4 + 0) x0
  let wv := wv.set (mul32 a 4 + 1) x1
  let wv := wv.set (mul32 a 4 + 2) x2
  wv.set (mul32 a 4 + 3) x3

/-- The block of statements between the declarations `a = 0, b = 1, c = 2, d = 3` and the
row permutation, which `blake2b_update_block` contains twice per round: the row-wise
G-function with the message rows `x` and `y`. -/
def blake2b_mixing (wv x y : List Nat) : List Nat :=
  let a := 0
  let b := 1
  let c := 2
  let d := 3
  let r0 := Hacl_Impl_Blake2_Constants_rTable_B.getD 0 0
  let r1 := Hacl_Impl_Blake2_Constants_rTable_B.getD 1 0
  let r2 := Hacl_Impl_Blake2_Constants_rTable_B.getD 2 0
  let r3 := Hacl_Impl_Blake2_Constants_rTable_B.getD 3 0
  let zz := List.replicate 4 0
  let wv := row_add wv a b
  let wv := row_add_ext wv a x
  let wv := row_xor wv d a
  let wv := row_ror wv d r0
  let wv := row_add wv c d
  let wv := row_add_ext wv c zz
  let wv := row_xor wv b c
  let wv := row_ror wv b r1
  let wv := row_add wv a b
  let wv := row_add_ext wv a y
  let wv := row_xor wv d a
  let wv := row_ror wv d r2
  let wv := row_add wv c d
  let wv := row_add_ext wv c zz
  let wv := row_xor wv b c
  row_ror wv b r3

/-- The statements of `blake2b_update_block` before the round loop: `mask` is built from
`totlen` and `flag`, `wv` receives the 16 limbs of `hash`, and the last row of `wv` is XORed
with `mask`. -/
def blake2b_init_wv (wv hash : List Nat) (flag : Bool) (totlen : Nat) : List Nat :=
  let mask := List.replicate 4 0
  let wv_14 := if flag then 0xFFFFFFFFFFFFFFFF else 0
  let wv_15 := 0
  let mask := mask.set 0 (FStar_UInt128_uint128_to_uint64 totlen)
  let mask := mask.set 1
    (FStar_UInt128_uint128_to_uint64 (FStar_UInt128_shift_right totlen 64))
  let mask := mask.set 2 wv_14
  let mask := mask.set 3 wv_15
  let wv := memcpy wv hash (mul32 4 4)
  forLoop 0 4 (fun i wv =>
    let x := wv.getD (mul32 3 4 + i) 0 ^^^ mask.getD i 0
    wv.set (mul32 3 4 + i) x) wv

/-- The body of the round loop of `blake2b_update_block` for the round index `i1`: the 16
message words are gathered through the sigma table into the four rows of `m_st`, then come
the row-wise G-function, the rotation of rows 1, 2, 3 by 1, 2, 3, the row-wise G-function
again and the rotation of rows 1, 2, 3 by 3, 2, 1. -/
def blake2b_round (wv d : List Nat) (i1 : Nat) : List Nat :=
  let start_idx := mul32 (i1 % 10) 16
  let m_st := List.replicate (mul32 4 4) 0
  let s0 := Hacl_Impl_Blake2_Constants_sigmaTable.getD start_idx 0
  let s1 := Hacl_Impl_Blake2_Constants_sigmaTable.getD (add32 start_idx 1) 0
  let s2 := Hacl_Impl_Blake2_Constants_sigmaTable.getD (add32 start_idx 2) 0
  let s3 := Hacl_Impl_Blake2_Constants_sigmaTable.getD (add32 start_idx 3) 0
  let s4 := Hacl_Impl_Blake2_Constants_sigmaTable.getD (add32 start_idx 4) 0
  let s5 := Hacl_Impl_Blake2_Constants_sigmaTable.getD (add32 start_idx 5) 0
  let s6 := Hacl_Impl_Blake2_Constants_sigmaTable.getD (add32 start_idx 6) 0
  let s7 := Hacl_Impl_Blake2_Constants_sigmaTable.getD (add32 start_idx 7) 0
  let s8 := Hacl_Impl_Blake2_Constants_sigmaTable.getD (add32 start_idx 8) 0
  let s9 := Hacl_Impl_Blake2_Constants_sigmaTable.getD (add32 start_idx 9) 0
  let s10 := Hacl_Impl_Blake2_Constants_sigmaTable.getD (add32 start_idx 10) 0
  let s11 := Hacl_Impl_Blake2_Constants_sigmaTable.getD (add32 start_idx 11) 0
  let s12 := Hacl_Impl_Blake2_Constants_sigmaTable.getD (add32 start_idx 12) 0
  let s13 := Hacl_Impl_Blake2_Constants_sigmaTable.getD (add32 start_idx 13) 0
  let s14 := Hacl_Impl_Blake2_Constants_sigmaTable.getD (add32 start_idx 14) 0
  let s15 := Hacl_Impl_Blake2_Constants_sigmaTable.getD (add32 start_idx 15) 0
  let nb := 8
  let m_st := m_st.set (mul32 0 4 + 0) (load64_le d (mul32 s0 nb))
  let m_st := m_st.set (mul32 0 4 + 1) (load64_le d (mul32 s2 nb))
  let m_st := m_st.set (mul32 0 4 + 2) (load64_le d (mul32 s4 nb))
  let m_st := m_st.set (mul32 0 4 + 3) (load64_le d (mul32 s6 nb))
  let m_st := m_st.set (mul32 1 4 + 0) (load64_le d (mul32 s1 nb))
  let m_st := m_st.set (mul32 1 4 + 1) (load64_le d (mul32 s3 nb))
  let m_st := m_st.set (mul32 1 4 + 2) (load64_le d (mul32 s5 nb))
  let m_st := m_st.set (mul32 1 4 + 3) (load64_le d (mul32 s7 nb))
  let m_st := m_st.set (mul32 2 4 + 0) (load64_le d (mul32 s8 nb))
  let m_st := m_st.set (mul32 2 4 + 1) (load64_le d (mul32 s10 nb))
  let m_st := m_st.set (mul32 2 4 + 2) (load64_le d (mul32 s12 nb))
  let m_st := m_st.set (mul32 2 4 + 3) (load64_le d (mul32 s14 nb))
  let m_st := m_st.set (mul32 3 4 + 0) (load64_le d (mul32 s9 nb))
  let m_st := m_st.set (mul32 3 4 + 1) (load64_le d (mul32 s11 nb))
  let m_st := m_st.set (mul32 3 4 + 2) (load64_le d (mul32 s13 nb))
  let m_st := m_st.set (mul32 3 4 + 3) (load64_le d (mul32 s15 nb))
  let x := subBuf m_st (mul32 0 4) 4
  let y := subBuf m_st (mul32 1 4) 4
  let z := subBuf m_st (mul32 2 4) 4
  let w := subBuf m_st (mul32 3 4) 4
  let wv := blake2b_mixing wv x y
  let wv := row_permute wv 1 1
  let wv := row_permute wv 2 2
  let wv := row_permute wv 3 3
  let wv := blake2b_mixing wv z w
  let wv := row_permute wv 1 3
  let wv := row_permute wv 2 2
  row_permute wv 3 1

/-- `blake2b_update_block`: returns the contents of `wv` and of `hash`. -/
def blake2b_update_block (wv hash : List Nat) (flag : Bool) (totlen : Nat) (d : List Nat) :
    List Nat × List Nat :=
  let wv := blake2b_init_wv wv hash flag totlen
  let wv := forLoop 0 12 (fun i1 wv => blake2b_round wv d i1) wv
  let hash := forLoop 0 4 (fun i hash =>
    hash.set (mul32 0 4 + i) (hash.getD (mul32 0 4 + i) 0 ^^^ wv.getD (mul32 0 4 + i) 0)) hash
  let hash := forLoop 0 4 (fun i hash =>
    hash.set (mul32 0 4 + i) (hash.getD (mul32 0 4 + i) 0 ^^^ wv.getD (mul32 2 4 + i) 0)) hash
  let hash := forLoop 0 4 (fun i hash =>
    hash.set (mul32 1 4 + i) (hash.getD (mul32 1 4 + i) 0 ^^^ wv.getD (mul32 1 4 + i) 0)) hash
  let hash := forLoop 0 4 (fun i0 hash =>
    hash.set (mul32 1 4 + i0) (hash.getD (mul32 1 4 + i0) 0 ^^^ wv.getD (mul32 3 4 + i0) 0))
    hash
  (wv, hash)

/-- A call `blake2b_update_block(b1, b, flag, totlen, blk)` of `Hacl_Blake2b_32_blake2b`:
the state is `(b1, b)` and the record of the calls made so far, each with its flag, its
`totlen` and the 128 bytes at `blk`. -/
def blake2b_call (st : (List Nat × List Nat) × List (Bool × Nat × List Nat)) (flag : Bool)
    (totlen : Nat) (blk : List Nat) : (List Nat × List Nat) × List (Bool × Nat × List Nat) :=
  (blake2b_update_block st.1.1 st.1.2 flag totlen blk, st.2 ++ [(flag, totlen, blk.take 128)])

/-- `Hacl_Blake2b_32_blake2b`: returns the contents of `output` and the record of the calls
to `blake2b_update_block`, in order. -/
def Hacl_Blake2b_32_blake2b (nn : Nat) (output : List Nat) (ll : Nat) (d : List Nat) (kk : Nat)
    (k : List Nat) : List Nat × List (Bool × Nat × List Nat) :=
  let stlen := mul32 4 4
  let stzero := 0
  let b := List.replicate stlen stzero
  let prev0 :=
    if kk = 0 then FStar_UInt128_uint64_to_uint128 0 else FStar_UInt128_uint64_to_uint128 128
  let b1 := List.replicate stlen stzero
  let b20 := List.replicate 128 0
  let iv0 := Hacl_Impl_Blake2_Constants_ivTable_B.getD 0 0
  let iv1 := Hacl_Impl_Blake2_Constants_ivTable_B.getD 1 0
  let iv2 := Hacl_Impl_Blake2_Constants_ivTable_B.getD 2 0
  let iv3 := Hacl_Impl_Blake2_Constants_ivTable_B.getD 3 0
  let iv4 := Hacl_Impl_Blake2_Constants_ivTable_B.getD 4 0
  let iv5 := Hacl_Impl_Blake2_Constants_ivTable_B.getD 5 0
  let iv6 := Hacl_Impl_Blake2_Constants_ivTable_B.getD 6 0
  let iv7 := Hacl_Impl_Blake2_Constants_ivTable_B.getD 7 0
  let b := b.set (mul32 2 4 + 0) iv0
  let b := b.set (mul32 2 4 + 1) iv1
  let b := b.set (mul32 2 4 + 2) iv2
  let b := b.set (mul32 2 4 + 3) iv3
  let b := b.set (mul32 3 4 + 0) iv4
  let b := b.set (mul32 3 4 + 1) iv5
  let b := b.set (mul32 3 4 + 2) iv6
  let b := b.set (mul32 3 4 + 3) iv7
  let kk_shift_8 := shl64 kk 8
  let iv0_ := iv0 ^^^ (0x01010000 ^^^ (kk_shift_8 ^^^ nn))
  let b := b.set (mul32 0 4 + 0) iv0_
  let b := b.set (mul32 0 4 + 1) iv1
  let b := b.set (mul32 0 4 + 2) iv2
  let b := b.set (mul32 0 4 + 3) iv3
  let b := b.set (mul32 1 4 + 0) iv4
  let b := b.set (mul32 1 4 + 1) iv5
  let b := b.set (mul32 1 4 + 2) iv6
  let b := b.set (mul32 1 4 + 3) iv7
  let st : (List Nat × List Nat) × List (Bool × Nat × List Nat) := ((b1, b), [])
  let st :=
    if ¬ (kk = 0) then
      let b20 := memcpy b20 k kk
      let totlen := FStar_UInt128_add_mod (FStar_UInt128_uint64_to_uint128 0)
        (FStar_UInt128_uint64_to_uint128 128)
      let b3 := b20.drop (mul32 0 128)
      blake2b_call st false totlen b3
    else st
  let nb0 := ll / 128
  let rem10 := ll % 128
  let scrut := if rem10 = 0 ∧ 0 < nb0 then (sub32 nb0 1, 128) else (nb0, rem10)
  let nb := scrut.1
  let rem1 := scrut.2
  let st := forLoop 0 nb (fun i st =>
    let totlen := FStar_UInt128_add_mod prev0
      (FStar_UInt128_uint64_to_uint128 (mul32 (add32 i 1) 128))
    let b2 := d.drop (mul32 i 128)
    blake2b_call st false totlen b2) st
  let b21 := List.replicate 128 0
  let last1 := d.drop (ll - rem1)
  let b21 := memcpy b21 last1 rem1
  let totlen := FStar_UInt128_add_mod prev0 (FStar_UInt128_uint64_to_uint128 ll)
  let st := blake2b_call st true totlen b21
  let b := st.1.2
  let double_row := mul32 (mul32 2 4) 8
  let b2 := List.replicate double_row 0
  let b2 := forLoop 0 4 (fun i b2 => store64_le b2 (mul32 i 8) (b.getD (mul32 0 4 + i) 0)) b2
  let b2 := forLoop 0 4 (fun i b2 =>
    store64_le b2 (mul32 4 8 + mul32 i 8) (b.getD (mul32 1 4 + i) 0)) b2
  (memcpy output b2 nn, st.2)

/-- Right rotation of a 64-bit word by `n` bits. -/
def rfc7693_rotr (x n : Nat) : Nat := (x >>> n) ||| shl64 x (64 - n)

/-- The mixing function `G(v, a, b, c, d, x, y)` of RFC 7693, section 3.1, with the BLAKE2b
rotation constants 32, 24, 16, 63. -/
def rfc7693_G (v : List Nat) (a b c d x y : Nat) : List Nat :=
  let v := v.set a ((v.getD a 0 + v.getD b 0 + x) % 2 ^ 64)
  let v := v.set d (rfc7693_rotr (v.getD d 0 ^^^ v.getD a 0) 32)
  let v := v.set c ((v.getD c 0 + v.getD d 0) % 2 ^ 64)
  let v := v.set b (rfc7693_rotr (v.getD b 0 ^^^ v.getD c 0) 24)
  let v := v.set a ((v.getD a 0 + v.getD b 0 + y) % 2 ^ 64)
  let v := v.set d (rfc7693_rotr (v.getD d 0 ^^^ v.getD a 0) 16)
  let v := v.set c ((v.getD c 0 + v.getD d 0) % 2 ^ 64)
  v.set b (rfc7693_rotr (v.getD b 0 ^^^ v.getD c 0) 63)

/-- The message word schedule `SIGMA[0..9]` of RFC 7693, section 2.7. -/
def rfc7693_SIGMA : List (List Nat) :=
  [[0, 1, 2, 3, 4, 5, 6, 7, 8, 9, 10, 11, 12, 13, 14, 15],
   [14, 10, 4, 8, 9, 15, 13, 6, 1, 12, 0, 2, 11, 7, 5, 3],
   [11, 8, 12, 0, 5, 2, 15, 13, 10, 14, 3, 6, 7, 1, 9, 4],
   [7, 9, 3, 1, 13, 12, 11, 14, 2, 6, 5, 10, 4, 0, 15, 8],
   [9, 0, 5, 7, 2, 4, 10, 15, 14, 1, 11, 12, 6, 8, 3, 13],
   [2, 12, 6, 10, 0, 11, 8, 3, 4, 13, 7, 5, 15, 14, 1, 9],
   [12, 5, 1, 15, 14, 13, 4, 10, 0, 7, 6, 3, 9, 2, 8, 11],
   [13, 11, 7, 14, 12, 1, 3, 9, 5, 0, 15, 4, 8, 6, 2, 10],
   [6, 15, 14, 9, 11, 3, 0, 8, 12, 2, 13, 7, 1, 4, 10, 5],
   [10, 2, 8, 4, 7, 6, 1, 5, 15, 11, 9, 14, 3, 12, 13, 0]]

/-- The initialisation vector `IV[0..7]` of BLAKE2b, RFC 7693, section 2.6. -/
def rfc7693_IV : List Nat :=
  [0x6A09E667F3BCC908, 0xBB67AE8584CAA73B, 0x3C6EF372FE94F82B, 0xA54FF53A5F1D36F1,
   0x510E527FADE682D1, 0x9B05688C2B3E6C1F, 0x1F83D9ABFB41BD6B, 0x5BE0CD19137E2179]

/-- The 16 little-endian 64-bit words `m[0..15]` of the 128-byte block at `d`. -/
def block_words (d : List Nat) : List Nat :=
  (List.range 16).map (fun j => load64_le d (8 * j))

/-- One round of the compression function `F` of RFC 7693, section 3.2: `G` on the four
columns, then on the four diagonals, with the message words selected by
`s = SIGMA[r mod 10]`. -/
def rfc7693_round (v m : List Nat) (r : Nat) : List Nat :=
  let s := rfc7693_SIGMA.getD (r % 10) []
  let v := rfc7693_G v 0 4 8 12 (m.getD (s.getD 0 0) 0) (m.getD (s.getD 1 0) 0)
  let v := rfc7693_G v 1 5 9 13 (m.getD (s.getD 2 0) 0) (m.getD (s.getD 3 0) 0)
  let v := rfc7693_G v 2 6 10 14 (m.getD (s.getD 4 0) 0) (m.getD (s.getD 5 0) 0)
  let v := rfc7693_G v 3 7 11 15 (m.getD (s.getD 6 0) 0) (m.getD (s.getD 7 0) 0)
  let v := rfc7693_G v 0 5 10 15 (m.getD (s.getD 8 0) 0) (m.getD (s.getD 9 0) 0)
  let v := rfc7693_G v 1 6 11 12 (m.getD (s.getD 10 0) 0) (m.getD (s.getD 11 0) 0)
  let v := rfc7693_G v 2 7 8 13 (m.getD (s.getD 12 0) 0) (m.getD (s.getD 13 0) 0)
  rfc7693_G v 3 4 9 14 (m.getD (s.getD 14 0) 0) (m.getD (s.getD 15 0) 0)

/-- The compression function `F(h, m, t, f)` of RFC 7693, section 3.2. -/
def rfc7693_F (h m : List Nat) (t : Nat) (f : Bool) : List Nat :=
  let v := h.take 8 ++ rfc7693_IV
  let v := v.set 12 (v.getD 12 0 ^^^ t % 2 ^ 64)
  let v := v.set 13 (v.getD 13 0 ^^^ t / 2 ^ 64 % 2 ^ 64)
  let v := if f then v.set 14 (v.getD 14 0 ^^^ 0xFFFFFFFFFFFFFFFF) else v
  let v := (List.range 12).foldl (fun v i => rfc7693_round v m i) v
  (List.range 8).map (fun i => h.getD i 0 ^^^ v.getD i 0 ^^^ v.getD (i + 8) 0)

/-- The padded data blocks `d[0..dd-1]` of RFC 7693, section 3.3, as one byte sequence: the
key block when there is a key, then the message padded with zeros to a multiple of 128 bytes;
a single zero block for the unkeyed empty message. -/
def rfc7693_data (d key : List Nat) : List Nat :=
  let keyblock := if key.length = 0 then [] else key ++ List.replicate (128 - key.length) 0
  let padded := d ++ List.replicate ((128 - d.length % 128) % 128) 0
  if key.length = 0 ∧ d.length = 0 then List.replicate 128 0 else keyblock ++ padded

/-- The function `BLAKE2(d, ll, kk, nn)` of RFC 7693, section 3.3, for BLAKE2b. -/
def rfc7693_blake2b (nn : Nat) (d key : List Nat) : List Nat :=
  let kk := key.length
  let ll := d.length
  let data := rfc7693_data d key
  let dd := data.length / 128
  let h := rfc7693_IV.set 0 (rfc7693_IV.getD 0 0 ^^^ 0x01010000 ^^^ (kk <<< 8) ^^^ nn)
  let h := (List.range (dd - 1)).foldl (fun h i =>
    rfc7693_F h (block_words (data.drop (128 * i))) ((i + 1) * 128) false) h
  let h := rfc7693_F h (block_words (data.drop (128 * (dd - 1))))
    (if kk = 0 then ll else ll + 128) true
  (h.flatMap (bytes_from_nat 8)).take nn

/-- The digest of scenario S1, as 64 bytes:
`786a02f742015903c6c6fd852552d272912f4740e15847618a86e217f71f5419`
`d25e1031afee585313896444934eb04b903a685b1448b755d56f701afe9be2ce`. -/
def S1_digest : List Nat :=
  [120, 106, 2, 247, 66, 1, 89, 3, 198, 198, 253, 133, 37, 82, 210, 114,
   145, 47, 71, 64, 225, 88, 71, 97, 138, 134, 226, 23, 247, 31, 84, 25,
   210, 94, 16, 49, 175, 238, 88, 83, 19, 137, 100, 68, 147, 78, 176, 75,
   144, 58, 104, 91, 20, 72, 183, 85, 213, 111, 112, 26, 254, 155, 226, 206]

/-- The digest of scenario S2, as 64 bytes:
`ba80a53f981c4d0d6a2797b69f12f6e94c212f14685ac4b74b12bb6fdbffa2d1`
`7d87c5392aab792dc252d5de4533cc9518d38aa8dbf1925ab92386edd4009923`. -/
def S2_digest : List Nat :=
  [186, 128, 165, 63, 152, 28, 77, 13, 106, 39, 151, 182, 159, 18, 246, 233,
   76, 33, 47, 20, 104, 90, 196, 183, 75, 18, 187, 111, 219, 255, 162, 209,
   125, 135, 197, 57, 42, 171, 121, 45, 194, 82, 213, 222, 69, 51, 204, 149,
   24, 211, 138, 168, 219, 241, 146, 90, 185, 35, 134, 237, 212, 0, 153, 35]

/-- The message `abc`. -/
def msg_abc : List Nat := [97, 98, 99]

/-- A 64-byte output buffer holding stale data. -/
def stale_out : List Nat := List.replicate 64 170

/-- The hash state `Hacl_Blake2b_32_blake2b` starts from for `nn = 64` and `kk = 0`. -/
def blake2b_h0 : List Nat :=
  [0x6A09E667F2BDC948, 0xBB67AE8584CAA73B, 0x3C6EF372FE94F82B, 0xA54FF53A5F1D36F1,
   0x510E527FADE682D1, 0x9B05688C2B3E6C1F, 0x1F83D9ABFB41BD6B, 0x5BE0CD19137E2179,
   0x6A09E667F3BCC908, 0xBB67AE8584CAA73B, 0x3C6EF372FE94F82B, 0xA54FF53A5F1D36F1,
   0x510E527FADE682D1, 0x9B05688C2B3E6C1F, 0x1F83D9ABFB41BD6B, 0x5BE0CD19137E2179]

/-- A 16-limb working vector holding stale data. -/
def stale_wv : List Nat := List.replicate 16 12297829382473034410

/-- A 256-byte message. -/
def msg_256 : List Nat := List.replicate 256 7

/-- A 128-byte block with the bytes 0, 1, ..., 127. -/
def block_seq : List Nat := List.range 128

/-- The 64-byte key with the bytes 0, 1, ..., 63. -/
def key_64 : List Nat := List.range 64

/-- The BLAKE2b digest of the empty message under `key_64`, as 64 bytes:
`10ebb67700b1868efb4417987acf4690ae9d972fb7a590c2f02871799aaa4786`
`b5e996e8f0f4eb981fc214b005f42d2ff4233499391653df7aefcbc13fc51568`. -/
def keyed_empty_digest : List Nat :=
  [16, 235, 182, 119, 0, 177, 134, 142, 251, 68, 23, 152, 122, 207, 70, 144,
   174, 157, 151, 47, 183, 165, 144, 194, 240, 40, 113, 121, 154, 170, 71, 134,
   181, 233, 150, 232, 240, 244, 235, 152, 31, 194, 20, 176, 5, 244, 45, 47,
   244, 35, 52, 153, 57, 22, 83, 223, 122, 239, 203, 193, 63, 197, 21, 104]

/-- The 64 bytes that `Hacl_Blake2b_32_blake2b` writes for the empty message under `key_64`:
`ac3f6143a3239ec25d409378aedeee9c09605dc050d306a2ea7633ce98c12970`
`060b6ce8aab2fc2cc16806cb50093497914e6cf95274aac3f5dc6df96a293c02`. -/
def keyed_empty_output : List Nat :=
  [172, 63, 97, 67, 163, 35, 158, 194, 93, 64, 147, 120, 174, 222, 238, 156,
   9, 96, 93, 192, 80, 211, 6, 162, 234, 118, 51, 206, 152, 193, 41, 112,
   6, 11, 108, 232, 170, 178, 252, 44, 193, 104, 6, 203, 80, 9, 52, 151,
   145, 78, 108, 249, 82, 116, 170, 195, 245, 220, 109, 249, 106, 41, 60, 2]

/-- The statement `nBits = 64U * (uint32_t)Hacl_Bignum_Lib_bn_get_top_index_u64(64U, n)` of
`Hacl_Bignum4096_mod`, `Hacl_Bignum4096_mod_exp_vartime`, `Hacl_Bignum4096_mod_exp_consttime`,
`Hacl_Bignum4096_new_precompr2` and `Hacl_Bignum4096_mod_inv_prime_vartime`. -/
def modulus_nBits (n : List Nat) : Nat :=
  mul32 64 (Hacl_Bignum_Lib_bn_get_top_index_u64 64 n % 2 ^ 32)

/-- The position of the most significant set bit of a limb, counted from 0; 0 for the limb
zero. -/
def fls (x : Nat) : Nat :=
  (List.range 64).foldl (fun acc i => if x / 2 ^ i % 2 = 1 then i else acc) 0

/-- The carry `c00` of the addition and the borrow `c1` of the subtraction from which
`add_mod_n` builds its selection mask `c2 = c00 - c1`: the statements of `add_mod_n` up to
the computation of `c1`. -/
def add_mod_n_c0c1 (n : List Nat) (a b : Src) (res : List Nat) : Nat × Nat :=
  let st := forLoop 0 16 (fun i st =>
    let st := add_step a b (4 * i) st
    let st := add_step a b (4 * i + 1) st
    let st := add_step a b (4 * i + 2) st
    add_step a b (4 * i + 3) st) (0, res)
  let st := forLoop 64 64 (fun i st => add_step a b i st) st
  let c00 := st.1
  let res := st.2
  let tmp := List.replicate 64 0
  let st1 := forLoop 0 16 (fun i st =>
    let st := sub_step res n (4 * i) st
    let st := sub_step res n (4 * i + 1) st
    let st := sub_step res n (4 * i + 2) st
    sub_step res n (4 * i + 3) st) (0, tmp)
  let st1 := forLoop 64 64 (fun i st => sub_step res n i st) st1
  let c1 := st1.1
  (c00, c1)

/-- The carry `c01` of the reduction loop and the borrow `c10` of the subtraction from which
`reduction` builds its selection mask `c2 = c01 - c10`: the statements of `reduction` up to
the computation of `c10`. -/
def reduction_c0c1 (n : List Nat) (nInv : Nat) (c res : List Nat) : Nat × Nat :=
  let st := mont_reduction_loop n nInv c
  let c0 := st.1
  let c := st.2
  let res := memcpy res (c.drop 64) 64
  let c01 := c0
  let tmp := List.replicate 64 0
  let st1 := forLoop 0 16 (fun i st =>
    let st := sub_step res n (4 * i) st
    let st := sub_step res n (4 * i + 1) st
    let st := sub_step res n (4 * i + 2) st
    sub_step res n (4 * i + 3) st) (0, tmp)
  let st1 := forLoop 64 64 (fun i st => sub_step res n i st) st1
  let c10 := st1.1
  (c01, c10)

/-- The carry `c01` and the borrow `c1` from which `Hacl_Bignum4096_mod_precompr2` builds the
selection mask `c2 = c01 - c1` of its inlined reduction: the statements of the function up
to the computation of `c1`. -/
def mod_precompr2_c0c1 (n a : List Nat) : Nat × Nat :=
  let a_mod := List.replicate 64 0
  let a1 := List.replicate 128 0
  let a1 := memcpy a1 a 128
  let mu := Hacl_Bignum_ModInvLimb_mod_inv_uint64 (n.getD 0 0)
  let st := mont_reduction_loop n mu a1
  let c0 := st.1
  let a1 := st.2
  let a_mod := memcpy a_mod (a1.drop 64) 64
  let c01 := c0
  let tmp := List.replicate 64 0
  let st1 := forLoop 0 16 (fun i st =>
    let st := sub_step a_mod n (4 * i) st
    let st := sub_step a_mod n (4 * i + 1) st
    let st := sub_step a_mod n (4 * i + 2) st
    sub_step a_mod n (4 * i + 3) st) (0, tmp)
  let st1 := forLoop 64 64 (fun i st => sub_step a_mod n i st) st1
  let c1 := st1.1
  (c01, c1)

/-- The statements of `Hacl_Bignum4096_mod_inv_prime_vartime` that compute `n2 = n − 2`:
returns the final borrow `c1`, which the function never reads, and the contents of `n2`. -/
def inv_sub2 (n : List Nat) : Nat × List Nat :=
  let n2 := List.replicate 64 0
  let r0 := Lib_IntTypes_Intrinsics_sub_borrow_u64 0 (n.getD 0 0) 2
  let c0 := r0.1
  let n2 := n2.set 0 r0.2
  let st :=
    if 1 < 64 then
      let rLen := 63
      let st := forLoop 0 (rLen / 4 * 4 / 4) (fun i st =>
        let st := sub_zero_step n (4 * i) st
        let st := sub_zero_step n (4 * i + 1) st
        let st := sub_zero_step n (4 * i + 2) st
        sub_zero_step n (4 * i + 3) st) (c0, n2)
      let st := forLoop (rLen / 4 * 4) rLen (fun i st => sub_zero_step n i st) st
      let c10 := st.1
      (c10, st.2)
    else (c0, n2)
  let c1 := st.1
  (c1, st.2)

/-- The statements every one of the four exponentiation routines starts with: `aM` receives
`a` in the Montgomery domain and `accM` receives one.  Returns `(aM, accM)`. -/
def exp_init (n a r2 : List Nat) : List Nat × List Nat :=
  let nInv := Hacl_Bignum_ModInvLimb_mod_inv_uint64 (n.getD 0 0)
  let aM := List.replicate 64 0
  let accM := List.replicate 64 0
  let c0 := Hacl_Bignum4096_mul a r2
  let aM := reduction n nInv c0 aM
  let one := (List.replicate 64 0).set 0 1
  let c := Hacl_Bignum4096_mul one r2
  let accM := reduction n nInv c accM
  (aM, accM)

/-- The state `(aM, accM)` of `mod_exp_bm_vartime_precompr2` after the first `k` iterations
of its loop. -/
def bm_vartime_state (n a b r2 : List Nat) (k : Nat) : List Nat × List Nat :=
  let nInv := Hacl_Bignum_ModInvLimb_mod_inv_uint64 (n.getD 0 0)
  forLoop 0 k (fun i (st : List Nat × List Nat) =>
    let aM := st.1
    let accM := st.2
    let i1 := i / 64
    let j := i % 64
    let tmp := b.getD i1 0
    let bit := (tmp >>> j) &&& 1
    let accM := if ¬ (bit = 0) then mont_mul n nInv accM aM accM else accM
    let aM := mont_sqr n nInv aM aM
    (aM, accM)) (exp_init n a r2)

/-- The state `((aM, accM), sw)` of `mod_exp_bm_consttime_precompr2` after the first `k`
iterations of its loop. -/
def bm_consttime_state (n a : List Nat) (bBits : Nat) (b r2 : List Nat) (k : Nat) :
    (List Nat × List Nat) × Nat :=
  let nInv := Hacl_Bignum_ModInvLimb_mod_inv_uint64 (n.getD 0 0)
  let sw := 0
  forLoop 0 k (fun i0 (st : (List Nat × List Nat) × Nat) =>
    let sw := st.2
    let i1 := sub32 (sub32 bBits i0) 1 / 64
    let j := sub32 (sub32 bBits i0) 1 % 64
    let tmp := b.getD i1 0
    let bit := (tmp >>> j) &&& 1
    let sw1 := bit ^^^ sw
    let sw_st := cswap_loop sw1 st.1
    let aM := sw_st.1
    let accM := sw_st.2
    let aM := mont_mul n nInv aM accM aM
    let accM := mont_sqr n nInv accM accM
    ((aM, accM), bit)) (exp_init n a r2, sw)

/-- The table of the fixed-window routines after the first `j` iterations of the loop that
fills it. -/
def fw_table_state (l : Nat) (n : List Nat) (nInv : Nat) (aM accM : List Nat) (j : Nat) :
    List Nat :=
  let table_len := shl32 1 l
  let table := List.replicate (mul32 table_len 64) 0
  let table := memcpy table accM 64
  let table := blit table 64 aM 64
  forLoop 0 j (fun i table =>
    let t11 := subBuf table ((i + 1) * 64) 64
    let t2 := subBuf table ((i + 2) * 64) 64
    blit table ((i + 2) * 64) (mont_mul n nInv t11 aM t2) 64) table

/-- The buffer `accM` of `mod_exp_fw_vartime_precompr2` after the first `k` iterations of its
main loop. -/
def fw_vartime_state (l : Nat) (n a : List Nat) (bBits : Nat) (b r2 : List Nat) (k : Nat) :
    List Nat :=
  let bLen := add32 (sub32 bBits 1 / 64) 1
  let nInv := Hacl_Bignum_ModInvLimb_mod_inv_uint64 (n.getD 0 0)
  let aM := (exp_init n a r2).1
  let accM := (exp_init n a r2).2
  let table := fw_table l n nInv aM accM
  forLoop 0 k (fun i accM =>
    let accM := forLoop 0 l (fun _ accM => mont_sqr n nInv accM accM) accM
    let mask_l := sub64 (shl64 1 l) 1
    let i1 := sub32 (sub32 bBits (mul32 l i)) l / 64
    let j := sub32 (sub32 bBits (mul32 l i)) l % 64
    let ite := fw_window bLen b i1 j
    let bits_l := ite &&& mask_l
    let bits_l32 := bits_l % 2 ^ 32
    let a_bits_l := subBuf table (mul32 bits_l32 64) 64
    mont_mul n nInv accM a_bits_l accM) accM

/-- The buffer `accM` of `mod_exp_fw_vartime_precompr2` after the statements that process the
`bBits % l` low bits, when there are any. -/
def fw_vartime_tail (l : Nat) (n a : List Nat) (bBits : Nat) (b r2 : List Nat) : List Nat :=
  let bLen := add32 (sub32 bBits 1 / 64) 1
  let nInv := Hacl_Bignum_ModInvLimb_mod_inv_uint64 (n.getD 0 0)
  let aM := (exp_init n a r2).1
  let accM := (exp_init n a r2).2
  let table := fw_table l n nInv aM accM
  let accM := fw_vartime_state l n a bBits b r2 (bBits / l)
  if ¬ (bBits % l = 0) then
    let c1 := bBits % l
    let accM := forLoop 0 c1 (fun _ accM => mont_sqr n nInv accM accM) accM
    let c10 := bBits % l
    let mask_l := sub64 (shl64 1 c10) 1
    let ite := fw_window bLen b 0 0
    let bits_c := ite &&& mask_l
    let bits_c32 := bits_c % 2 ^ 32
    let a_bits_c := subBuf table (mul32 bits_c32 64) 64
    mont_mul n nInv accM a_bits_c accM
  else accM

/-- The buffer `accM` of `mod_exp_fw_consttime_precompr2` after the first `k` iterations of
its main loop. -/
def fw_consttime_state (l : Nat) (n a : List Nat) (bBits : Nat) (b r2 : List Nat) (k : Nat) :
    List Nat :=
  let bLen := add32 (sub32 bBits 1 / 64) 1
  let nInv := Hacl_Bignum_ModInvLimb_mod_inv_uint64 (n.getD 0 0)
  let aM := (exp_init n a r2).1
  let accM := (exp_init n a r2).2
  let table_len := shl32 1 l
  let table := fw_table l n nInv aM accM
  forLoop 0 k (fun i0 accM =>
    let accM := forLoop 0 l (fun _ accM => mont_sqr n nInv accM accM) accM
    let mask_l := sub64 (shl64 1 l) 1
    let i1 := sub32 (sub32 bBits (mul32 l i0)) l / 64
    let j := sub32 (sub32 bBits (mul32 l i0)) l % 64
    let ite := fw_window bLen b i1 j
    let bits_l := ite &&& mask_l
    let a_bits_l := fw_select table_len table bits_l
    mont_mul n nInv accM a_bits_l accM) accM

/-- The buffer `accM` of `mod_exp_fw_consttime_precompr2` after the statements that process
the `bBits % l` low bits, when there are any. -/
def fw_consttime_tail (l : Nat) (n a : List Nat) (bBits : Nat) (b r2 : List Nat) : List Nat :=
  let bLen := add32 (sub32 bBits 1 / 64) 1
  let nInv := Hacl_Bignum_ModInvLimb_mod_inv_uint64 (n.getD 0 0)
  let aM := (exp_init n a r2).1
  let accM := (exp_init n a r2).2
  let table_len := shl32 1 l
  let table := fw_table l n nInv aM accM
  let accM := fw_consttime_state l n a bBits b r2 (bBits / l)
  if ¬ (bBits % l = 0) then
    let c := bBits % l
    let accM := forLoop 0 c (fun _ accM => mont_sqr n nInv accM accM) accM
    let c10 := bBits % l
    let mask_l := sub64 (shl64 1 c10) 1
    let ite := fw_window bLen b 0 0
    let bits_c := ite &&& mask_l
    let a_bits_c := fw_select table_len table bits_c
    mont_mul n nInv accM a_bits_c accM
  else accM

/-- A 64-limb buffer whose value is below the modulus `n`. -/
def below (n x : List Nat) : Prop := bn_wf 64 x ∧ bn_v x < bn_v n

instance (n x : List Nat) : Decidable (below n x) := by
  unfold below; infer_instance

/-- The value `2^8192 mod n` that the entry points precompute for the modulus `2^32 + 15`. -/
def S3_r2 : List Nat := precomp (modulus_nBits S3_n) S3_n (List.replicate 64 0)

/-- The buffer `res` of `precomp` after the first `k` iterations of its loop. -/
def precomp_state (nBits : Nat) (n res : List Nat) (k : Nat) : List Nat :=
  let res := memcpy res (List.replicate 64 0) 64
  let i := nBits / 64
  let j := nBits % 64
  let res := res.set i (res.getD i 0 ||| shl64 1 j)
  forLoop 0 k (fun _ res => add_mod_n n Src.out Src.out res) res

/-- The arrays of the exponentiation routines and of their callees: the six arguments, the
locals of `mod_exp_bm_consttime_precompr2` and `mod_exp_fw_consttime_precompr2` (`c` stands
for `c` of the first and `c2` of the second, `a_bits` for `a_bits_l` and `a_bits_c`),
`tmp[256]` of `Hacl_Bignum4096_mul`, `c[128]` and `tmp[256]` of `mont_mul` and `mont_sqr`,
and `tmp[64]` of `reduction`. -/
inductive Arr where
  | n | a | b | r2 | res
  | aM | accM | c0 | one | c | table | a_bits | tmp
  | mul_tmp | mont_c | mont_tmp | red_tmp

/-- One observable step of a run: the outcome of an `if` or loop test, a read of
`arr[index]`, or a write of `arr[index]`.  The index is the offset in limbs from the start
of the array the pointer was taken from.  A trace lists the steps in program order; the
initialisers `= { 0U }` of local arrays are not steps. -/
inductive Event where
  | branch (taken : Bool)
  | load (arr : Arr) (index : Nat)
  | store (arr : Arr) (index : Nat)

/-- A pointer into an array: the array and the offset in limbs. -/
abbrev Ptr : Type := Arr × Nat

/-- The read `p[i]`. -/
def load_at (p : Ptr) (i : Nat) : Event := Event.load p.1 (p.2 + i)

/-- The write `p[i] = ...`. -/
def store_at (p : Ptr) (i : Nat) : Event := Event.store p.1 (p.2 + i)

/-- The events of `for (i = lo; i < hi; i++) body`, for a body whose events depend on `i`
only: a successful test before every iteration and the failing test at the end. -/
def for_trace (lo hi : Nat) (body : Nat → List Event) : List Event :=
  (List.range (hi - lo)).flatMap (fun k => Event.branch true :: body (lo + k))
    ++ [Event.branch false]

/-- The events of `memcpy(dst, src, len * sizeof (uint64_t))`: limb by limb. -/
def memcpy_trace (dst src : Ptr) (len : Nat) : List Event :=
  (List.range len).flatMap (fun i => [load_at src i, store_at dst i])

/-- The events of `memset(dst, 0, len * sizeof (uint64_t))`. -/
def memset_trace (dst : Ptr) (len : Nat) : List Event :=
  (List.range len).map (fun i => store_at dst i)

/-- The events of the two Karatsuba routines, whose code is not among the sources: for the
multiplication a function of the pointers `a`, `b`, `tmp`, `res` and of the contents of the
two operands, for the squaring of the pointers `a`, `tmp`, `res` and of the contents of the
operand. -/
structure KaratsubaTrace where
  mul : Ptr → Ptr → Ptr → Ptr → List Nat → List Nat → List Event
  sqr : Ptr → Ptr → Ptr → List Nat → List Event

/-- The Karatsuba routines are constant-time: their events do not depend on the contents of
the operands. -/
def KaratsubaTrace.constant_time (K : KaratsubaTrace) : Prop :=
  (∀ pa pb pt pr x y x' y', K.mul pa pb pt pr x y = K.mul pa pb pt pr x' y') ∧
  (∀ pa pt pr x x', K.sqr pa pt pr x = K.sqr pa pt pr x')

/-- The events of `Hacl_Bignum4096_mul(a, b, res)` with operand contents `x`, `y`. -/
def mul_trace (K : KaratsubaTrace) (a b res : Ptr) (x y : List Nat) : List Event :=
  K.mul a b (Arr.mul_tmp, 0) res x y

/-- The events of one statement `a_i = n[k]; c1 = mul_wide_add2_u64(a_i, qj, c1, res_j0 + k)`
of `reduction`, with `res_j0 = c + i0`: the limb of `n` is read, the limb of `c` is read
and written. -/
def mul_add_trace (n c : Ptr) (i0 k : Nat) : List Event :=
  [load_at n k, load_at c (i0 + k), store_at c (i0 + k)]

/-- The events of one statement `t1 = res[k]; t2 = n[k]; c1 = sub_borrow_u64(c1, t1, t2,
tmp + k)` of `reduction`. -/
def sub_trace (n res : Ptr) (k : Nat) : List Event :=
  [load_at res k, load_at n k, Event.store Arr.red_tmp k]

/-- The events of `reduction(n, nInv, c, res)`. -/
def reduction_trace (n c res : Ptr) : List Event :=
  for_trace 0 64 (fun i0 =>
    [load_at c i0]
    ++ for_trace 0 16 (fun i =>
        mul_add_trace n c i0 (4 * i) ++ mul_add_trace n c i0 (4 * i + 1)
        ++ mul_add_trace n c i0 (4 * i + 2) ++ mul_add_trace n c i0 (4 * i + 3))
    ++ for_trace 64 64 (fun i => mul_add_trace n c i0 i)
    ++ [load_at c (64 + i0), store_at c (64 + i0)])
  ++ memcpy_trace res (c.1, c.2 + 64) 64
  ++ for_trace 0 16 (fun i =>
      sub_trace n res (4 * i) ++ sub_trace n res (4 * i + 1)
      ++ sub_trace n res (4 * i + 2) ++ sub_trace n res (4 * i + 3))
  ++ for_trace 64 64 (fun i => sub_trace n res i)
  ++ for_trace 0 64 (fun i => [load_at res i, Event.load Arr.red_tmp i, store_at res i])

/-- The events of `mont_mul(n, nInv, aM, bM, resM)` with operand contents `x`, `y`. -/
def mont_mul_trace (K : KaratsubaTrace) (n aM bM resM : Ptr) (x y : List Nat) : List Event :=
  K.mul aM bM (Arr.mont_tmp, 0) (Arr.mont_c, 0) x y
    ++ reduction_trace n (Arr.mont_c, 0) resM

/-- The events of `mont_sqr(n, nInv, aM, resM)` with operand contents `x`. -/
def mont_sqr_trace (K : KaratsubaTrace) (n aM resM : Ptr) (x : List Nat) : List Event :=
  K.sqr aM (Arr.mont_tmp, 0) (Arr.mont_c, 0) x
    ++ reduction_trace n (Arr.mont_c, 0) resM

/-- The events of the conditional swap loop: in every iteration `accM[i]` and `aM[i]` are
read for `dummy`, then `accM[i]` is read and written, then `aM[i]`. -/
def cswap_trace : List Event :=
  for_trace 0 64 (fun i =>
    [Event.load Arr.accM i, Event.load Arr.aM i,
     Event.load Arr.accM i, Event.store Arr.accM i,
     Event.load Arr.aM i, Event.store Arr.aM i])

/-- The events of the part the exponentiation routines share: `n[0]` is read for `nInv`,
`aM = reduction(a * r2)`, `one` is set to 1, `accM = reduction(one * r2)`.  The product with
`one` goes into `c`. -/
def exp_init_trace (K : KaratsubaTrace) (a r2 : List Nat) : List Event :=
  [Event.load Arr.n 0]
  ++ mul_trace K (Arr.a, 0) (Arr.r2, 0) (Arr.c0, 0) a r2
  ++ reduction_trace (Arr.n, 0) (Arr.c0, 0) (Arr.aM, 0)
  ++ memset_trace (Arr.one, 0) 64 ++ [Event.store Arr.one 0]
  ++ mul_trace K (Arr.one, 0) (Arr.r2, 0) (Arr.c, 0) ((List.replicate 64 0).set 0 1) r2
  ++ reduction_trace (Arr.n, 0) (Arr.c, 0) (Arr.accM, 0)

/-- The events of the end of the exponentiation routines: `memcpy(tmp, accM, 64)` and
`reduction(n, nInv, tmp, res)`. -/
def exp_final_trace : List Event :=
  memcpy_trace (Arr.tmp, 0) (Arr.accM, 0) 64
  ++ reduction_trace (Arr.n, 0) (Arr.tmp, 0) (Arr.res, 0)

/-- `mod_exp_bm_consttime_precompr2` with its events: the result and the trace.  The loop
state is `(((aM, accM), sw), trace)`. -/
def mod_exp_bm_consttime_precompr2_traced (K : KaratsubaTrace) (n a : List Nat) (bBits : Nat)
    (b r2 res : List Nat) : List Nat × List Event :=
  let nInv := Hacl_Bignum_ModInvLimb_mod_inv_uint64 (n.getD 0 0)
  let aM := List.replicate 64 0
  let accM := List.replicate 64 0
  let c0 := Hacl_Bignum4096_mul a r2
  let aM := reduction n nInv c0 aM
  let one := (List.replicate 64 0).set 0 1
  let c := Hacl_Bignum4096_mul one r2
  let accM := reduction n nInv c accM
  let tr := exp_init_trace K a r2
  let sw := 0
  let st := forLoop 0 bBits (fun i0 (st : ((List Nat × List Nat) × Nat) × List Event) =>
    let tr := st.2 ++ [Event.branch true]
    let sw := st.1.2
    let i1 := sub32 (sub32 bBits i0) 1 / 64
    let j := sub32 (sub32 bBits i0) 1 % 64
    let tmp := b.getD i1 0
    let tr := tr ++ [Event.load Arr.b i1]
    let bit := (tmp >>> j) &&& 1
    let sw1 := bit ^^^ sw
    let sw_st := cswap_loop sw1 st.1.1
    let tr := tr ++ cswap_trace
    let aM := sw_st.1
    let accM := sw_st.2
    let tr := tr ++ mont_mul_trace K (Arr.n, 0) (Arr.aM, 0) (Arr.accM, 0) (Arr.aM, 0) aM accM
    let aM := mont_mul n nInv aM accM aM
    let tr := tr ++ mont_sqr_trace K (Arr.n, 0) (Arr.accM, 0) (Arr.accM, 0) accM
    let accM := mont_sqr n nInv accM accM
    (((aM, accM), bit), tr)) (((aM, accM), sw), tr)
  let tr := st.2 ++ [Event.branch false]
  let sw0 := st.1.2
  let sw_st := cswap_loop sw0 st.1.1
  let tr := tr ++ cswap_trace
  let accM := sw_st.2
  let tmp := memcpy (List.replicate 128 0) accM 64
  (reduction n nInv tmp res, tr ++ exp_final_trace)

/-- `fw_table` with its events: `memset` of the table, the two `memcpy` for entries 0 and 1,
and `mont_mul(n, nInv, table + (i + 1) * 64, aM, table + (i + 2) * 64)` for the others. -/
def fw_table_traced (K : KaratsubaTrace) (l : Nat) (n : List Nat) (nInv : Nat)
    (aM accM : List Nat) : List Nat × List Event :=
  let table_len := shl32 1 l
  let table := List.replicate (mul32 table_len 64) 0
  let tr := memset_trace (Arr.table, 0) (mul32 table_len 64)
  let table := memcpy table accM 64
  let tr := tr ++ memcpy_trace (Arr.table, 0) (Arr.accM, 0) 64
  let table := blit table 64 aM 64
  let tr := tr ++ memcpy_trace (Arr.table, 64) (Arr.aM, 0) 64
  let st := forLoop 0 (sub32 table_len 2) (fun i (st : List Nat × List Event) =>
    let table := st.1
    let tr := st.2 ++ [Event.branch true]
    let t11 := subBuf table ((i + 1) * 64) 64
    let t2 := subBuf table ((i + 2) * 64) 64
    let tr := tr ++ mont_mul_trace K (Arr.n, 0) (Arr.table, (i + 1) * 64) (Arr.aM, 0)
      (Arr.table, (i + 2) * 64) t11 aM
    (blit table ((i + 2) * 64) (mont_mul n nInv t11 aM t2) 64, tr)) (table, tr)
  (st.1, st.2 ++ [Event.branch false])

/-- The events of the window extraction: `b[i1]` is read, the test `i1 + 1 < bLen` is made,
if it holds the test `0 < j` is made, and if both hold `b[i1 + 1]` is read. -/
def fw_window_trace (bLen i1 j : Nat) : List Event :=
  [Event.load Arr.b i1, Event.branch (decide (add32 i1 1 < bLen))]
  ++ (if add32 i1 1 < bLen then [Event.branch (decide (0 < j))] else [])
  ++ (if add32 i1 1 < bLen ∧ 0 < j then [Event.load Arr.b (i1 + 1)] else [])

/-- The events of the constant-time table lookup: `memcpy(a_bits, table, 64)`, then for
every `i2 < table_len − 1` and every `i < 64` the reads of `(table + (i2 + 1) * 64)[i]` and
`a_bits[i]` and the write of `a_bits[i]`. -/
def fw_select_trace (table_len : Nat) : List Event :=
  memcpy_trace (Arr.a_bits, 0) (Arr.table, 0) 64
  ++ for_trace 0 (sub32 table_len 1) (fun i2 =>
      for_trace 0 64 (fun i =>
        [load_at (Arr.table, (i2 + 1) * 64) i, Event.load Arr.a_bits i,
         Event.store Arr.a_bits i]))

/-- The loop `for (i = 0; i < c; i++) mont_sqr(n, nInv, accM, accM)` with its events, the
failing test included.  The state is `(accM, trace)`. -/
def sqr_loop_traced (K : KaratsubaTrace) (n : List Nat) (nInv c : Nat)
    (st : List Nat × List Event) : List Nat × List Event :=
  let st1 := forLoop 0 c (fun _ (s : List Nat × List Event) =>
    (mont_sqr n nInv s.1 s.1,
     s.2 ++ [Event.branch true]
      ++ mont_sqr_trace K (Arr.n, 0) (Arr.accM, 0) (Arr.accM, 0) s.1)) st
  (st1.1, st1.2 ++ [Event.branch false])

/-- `mod_exp_fw_consttime_precompr2` with its events: the result and the trace.  The loop
state is `(accM, trace)`. -/
def mod_exp_fw_consttime_precompr2_traced (K : KaratsubaTrace) (l : Nat) (n a : List Nat)
    (bBits : Nat) (b r2 res : List Nat) : List Nat × List Event :=
  let bLen := add32 (sub32 bBits 1 / 64) 1
  let nInv := Hacl_Bignum_ModInvLimb_mod_inv_uint64 (n.getD 0 0)
  let aM := List.replicate 64 0
  let accM := List.replicate 64 0
  let c0 := Hacl_Bignum4096_mul a r2
  let aM := reduction n nInv c0 aM
  let one := (List.replicate 64 0).set 0 1
  let c2 := Hacl_Bignum4096_mul one r2
  let accM := reduction n nInv c2 accM
  let tr := exp_init_trace K a r2
  let table_len := shl32 1 l
  let tt := fw_table_traced K l n nInv aM accM
  let table := tt.1
  let tr := tr ++ tt.2
  let st := forLoop 0 (bBits / l) (fun i0 (st : List Nat × List Event) =>
    let tr := st.2 ++ [Event.branch true]
    let st1 := sqr_loop_traced K n nInv l (st.1, tr)
    let accM := st1.1
    let tr := st1.2
    let mask_l := sub64 (shl64 1 l) 1
    let i1 := sub32 (sub32 bBits (mul32 l i0)) l / 64
    let j := sub32 (sub32 bBits (mul32 l i0)) l % 64
    let ite := fw_window bLen b i1 j
    let tr := tr ++ fw_window_trace bLen i1 j
    let bits_l := ite &&& mask_l
    let a_bits_l := fw_select table_len table bits_l
    let tr := tr ++ fw_select_trace table_len
    let tr := tr ++ mont_mul_trace K (Arr.n, 0) (Arr.accM, 0) (Arr.a_bits, 0) (Arr.accM, 0)
      accM a_bits_l
    (mont_mul n nInv accM a_bits_l accM, tr)) (accM, tr)
  let tr := st.2 ++ [Event.branch false]
  let accM := st.1
  let tr := tr ++ [Event.branch (decide (¬ (bBits % l = 0)))]
  let st :=
    if ¬ (bBits % l = 0) then
      let c := bBits % l
      let st1 := sqr_loop_traced K n nInv c (accM, tr)
      let accM := st1.1
      let tr := st1.2
      let c10 := bBits % l
      let mask_l := sub64 (shl64 1 c10) 1
      let ite := fw_window bLen b 0 0
      let tr := tr ++ fw_window_trace bLen 0 0
      let bits_c := ite &&& mask_l
      let a_bits_c := fw_select table_len table bits_c
      let tr := tr ++ fw_select_trace table_len
      let tr := tr ++ mont_mul_trace K (Arr.n, 0) (Arr.accM, 0) (Arr.a_bits, 0) (Arr.accM, 0)
        accM a_bits_c
      (mont_mul n nInv accM a_bits_c accM, tr)
    else (accM, tr)
  let accM := st.1
  let tr := st.2
  let tmp := memcpy (List.replicate 128 0) accM 64
  (reduction n nInv tmp res, tr ++ exp_final_trace)

/-- `Hacl_Bignum4096_mod_exp_consttime_precompr2` with its events: the test `bBits < 200`,
then the events of the routine chosen. -/
def Hacl_Bignum4096_mod_exp_consttime_precompr2_traced (K : KaratsubaTrace) (n a : List Nat)
    (bBits : Nat) (b r2 res : List Nat) : List Nat × List Event :=
  if bBits < 200 then
    ((mod_exp_bm_consttime_precompr2_traced K n a bBits b r2 res).1,
     Event.branch true :: (mod_exp_bm_consttime_precompr2_traced K n a bBits b r2 res).2)
  else
    ((mod_exp_fw_consttime_precompr2_traced K 4 n a bBits b r2 res).1,
     Event.branch false :: (mod_exp_fw_consttime_precompr2_traced K 4 n a bBits b r2 res).2)

/-- `mod_exp_bm_vartime_precompr2` with its events, for comparison: the test on the exponent
bit is a branch.  The loop state is `((aM, accM), trace)`. -/
def mod_exp_bm_vartime_precompr2_traced (K : KaratsubaTrace) (n a : List Nat) (bBits : Nat)
    (b r2 res : List Nat) : List Nat × List Event :=
  let nInv := Hacl_Bignum_ModInvLimb_mod_inv_uint64 (n.getD 0 0)
  let aM := List.replicate 64 0
  let accM := List.replicate 64 0
  let c0 := Hacl_Bignum4096_mul a r2
  let aM := reduction n nInv c0 aM
  let one := (List.replicate 64 0).set 0 1
  let c := Hacl_Bignum4096_mul one r2
  let accM := reduction n nInv c accM
  let tr := exp_init_trace K a r2
  let st := forLoop 0 bBits (fun i (st : (List Nat × List Nat) × List Event) =>
    let aM := st.1.1
    let accM := st.1.2
    let tr := st.2 ++ [Event.branch true]
    let i1 := i / 64
    let j := i % 64
    let tmp := b.getD i1 0
    let tr := tr ++ [Event.load Arr.b i1]
    let bit := (tmp >>> j) &&& 1
    let tr := tr ++ [Event.branch (decide (¬ (bit = 0)))]
    let tr := if ¬ (bit = 0) then
        tr ++ mont_mul_trace K (Arr.n, 0) (Arr.accM, 0) (Arr.aM, 0) (Arr.accM, 0) accM aM
      else tr
    let accM := if ¬ (bit = 0) then mont_mul n nInv accM aM accM else accM
    let tr := tr ++ mont_sqr_trace K (Arr.n, 0) (Arr.aM, 0) (Arr.aM, 0) aM
    let aM := mont_sqr n nInv aM aM
    ((aM, accM), tr)) ((aM, accM), tr)
  let tr := st.2 ++ [Event.branch false]
  let accM := st.1.2
  let tmp := memcpy (List.replicate 128 0) accM 64
  (reduction n nInv tmp res, tr ++ exp_final_trace)

/-- The events of iteration `i0` of the ladder of `mod_exp_bm_consttime_precompr2`, written
as a function of the public `bBits` alone: the Karatsuba events are taken at empty operands
and nothing is computed from `n`, `b` or the intermediate values.  The same holds for the
other traces below. -/
def bm_consttime_iter_trace (K : KaratsubaTrace) (bBits i0 : Nat) : List Event :=
  [Event.branch true, Event.load Arr.b (sub32 (sub32 bBits i0) 1 / 64)]
  ++ cswap_trace
  ++ mont_mul_trace K (Arr.n, 0) (Arr.aM, 0) (Arr.accM, 0) (Arr.aM, 0) [] []
  ++ mont_sqr_trace K (Arr.n, 0) (Arr.accM, 0) (Arr.accM, 0) []

/-- The events of `mod_exp_bm_consttime_precompr2`, as a function of `bBits` and of the
operands `a`, `r2` of the first product. -/
def bm_consttime_trace (K : KaratsubaTrace) (a r2 : List Nat) (bBits : Nat) : List Event :=
  exp_init_trace K a r2
  ++ (List.range bBits).flatMap (bm_consttime_iter_trace K bBits)
  ++ [Event.branch false] ++ cswap_trace ++ exp_final_trace

/-- The events of `for (i = 0; i < c; i++) mont_sqr(n, nInv, accM, accM)`. -/
def sqr_loop_trace (K : KaratsubaTrace) (c : Nat) : List Event :=
  (List.range c).flatMap (fun _ =>
    Event.branch true :: mont_sqr_trace K (Arr.n, 0) (Arr.accM, 0) (Arr.accM, 0) [])
  ++ [Event.branch false]

/-- The events of the construction of the table of `2^l` entries. -/
def fw_table_trace (K : KaratsubaTrace) (l : Nat) : List Event :=
  memset_trace (Arr.table, 0) (mul32 (shl32 1 l) 64)
  ++ memcpy_trace (Arr.table, 0) (Arr.accM, 0) 64
  ++ memcpy_trace (Arr.table, 64) (Arr.aM, 0) 64
  ++ (List.range (sub32 (shl32 1 l) 2)).flatMap (fun i =>
      Event.branch true :: mont_mul_trace K (Arr.n, 0) (Arr.table, (i + 1) * 64) (Arr.aM, 0)
        (Arr.table, (i + 2) * 64) [] [])
  ++ [Event.branch false]

/-- The events of one window lookup of `mod_exp_fw_consttime_precompr2`: the extraction of
the window at limb `i1`, bit `j`, the scan of the table, and the multiplication by the
selected entry. -/
def fw_lookup_trace (K : KaratsubaTrace) (l bBits i1 j : Nat) : List Event :=
  fw_window_trace (add32 (sub32 bBits 1 / 64) 1) i1 j
  ++ fw_select_trace (shl32 1 l)
  ++ mont_mul_trace K (Arr.n, 0) (Arr.accM, 0) (Arr.a_bits, 0) (Arr.accM, 0) [] []

/-- The events of iteration `i0` of the window loop of `mod_exp_fw_consttime_precompr2`. -/
def fw_consttime_iter_trace (K : KaratsubaTrace) (l bBits i0 : Nat) : List Event :=
  [Event.branch true] ++ sqr_loop_trace K l
  ++ fw_lookup_trace K l bBits (sub32 (sub32 bBits (mul32 l i0)) l / 64)
      (sub32 (sub32 bBits (mul32 l i0)) l % 64)

/-- The events of `mod_exp_fw_consttime_precompr2`, as a function of `bBits` and of the
operands `a`, `r2` of the first product. -/
def fw_consttime_trace (K : KaratsubaTrace) (l : Nat) (a r2 : List Nat) (bBits : Nat) :
    List Event :=
  exp_init_trace K a r2 ++ fw_table_trace K l
  ++ (List.range (bBits / l)).flatMap (fw_consttime_iter_trace K l bBits)
  ++ [Event.branch false, Event.branch (decide (¬ (bBits % l = 0)))]
  ++ (if ¬ (bBits % l = 0) then
        sqr_loop_trace K (bBits % l) ++ fw_lookup_trace K l bBits 0 0
      else [])
  ++ exp_final_trace

/-- A constant-time instance of the Karatsuba events: both operands are read and the result
is written, limb by limb, whatever the operands hold. -/
def operand_scan : KaratsubaTrace where
  mul := fun pa pb _ pr _ _ =>
    memcpy_trace pr pa 64 ++ memcpy_trace (pr.1, pr.2 + 64) pb 64
  sqr := fun pa _ pr _ => memcpy_trace pr pa 64 ++ memset_trace (pr.1, pr.2 + 64) 64

/-! ## Loops -/

theorem forLoop_empty {σ : Type} (lo hi : Nat) (body : Nat → σ → σ) (s : σ) (h : hi ≤ lo) :
    forLoop lo hi body s = s := by
  unfold forLoop
  rw [Nat.sub_eq_zero_of_le h]
  rfl

theorem forLoop_succ {σ : Type} (lo hi : Nat) (body : Nat → σ → σ) (s : σ) (h : lo ≤ hi) :
    forLoop lo (hi + 1) body s = body hi (forLoop lo hi body s) := by
  unfold forLoop
  have e : hi + 1 - lo = (hi - lo) + 1 := by omega
  rw [e]
  show body (lo + (hi - lo)) _ = _
  have e2 : lo + (hi - lo) = hi := by omega
  rw [e2]

/-- Invariant rule for `forLoop`. -/
theorem forLoop_inv {σ : Type} (P : Nat → σ → Prop) (lo hi : Nat) (body : Nat → σ → σ) (s : σ)
    (hle : lo ≤ hi) (h0 : P lo s)
    (hstep : ∀ i t, lo ≤ i → i < hi → P i t → P (i + 1) (body i t)) :
    P hi (forLoop lo hi body s) := by
  induction hi with
  | zero =>
    have : lo = 0 := by omega
    subst this
    rw [forLoop_empty _ _ _ _ (le_refl _)]; exact h0
  | succ m ih =>
    by_cases hm : lo ≤ m
    · rw [forLoop_succ _ _ _ _ hm]
      apply hstep m _ hm (by omega)
      apply ih hm
      intro i t h1 h2 h3
      exact hstep i t h1 (by omega) h3
    · have : lo = m + 1 := by omega
      subst this
      rw [forLoop_empty _ _ _ _ (le_refl _)]; exact h0

/-- Sixteen (or `m`) rounds of four consecutive steps are `4 * m` single steps. -/
theorem forLoop_unroll4 {σ : Type} (f : Nat → σ → σ) (m : Nat) (s : σ) :
    forLoop 0 m (fun i st =>
      let st := f (4 * i) st
      let st := f (4 * i + 1) st
      let st := f (4 * i + 2) st
      f (4 * i + 3) st) s = forLoop 0 (4 * m) f s := by
  induction m with
  | zero => rfl
  | succ k ih =>
    rw [forLoop_succ _ _ _ _ (Nat.zero_le _), ih]
    have e : 4 * (k + 1) = 4 * k + 3 + 1 := by omega
    rw [e, forLoop_succ _ _ _ _ (Nat.zero_le _), forLoop_succ _ _ _ _ (Nat.zero_le _),
      forLoop_succ _ _ _ _ (Nat.zero_le _), forLoop_succ _ _ _ _ (Nat.zero_le _)]

/-- Two loops with bodies that agree on the range agree. -/
theorem forLoop_congr {σ : Type} (lo hi : Nat) (f g : Nat → σ → σ) (s : σ)
    (h : ∀ i t, lo ≤ i → i < hi → f i t = g i t) :
    forLoop lo hi f s = forLoop lo hi g s := by
  by_cases hle : lo ≤ hi
  · exact forLoop_inv (fun k t => t = forLoop lo k g s) lo hi f s hle
      (by show s = _; rw [forLoop_empty _ _ _ _ (le_refl _)])
      (by
        intro i t h1 h2 h3
        show f i t = _
        rw [forLoop_succ _ _ _ _ h1, h3, h i _ h1 h2])
  · rw [forLoop_empty _ _ _ _ (by omega), forLoop_empty _ _ _ _ (by omega)]

/-! ## Values -/

theorem bn_v_nil : bn_v [] = 0 := rfl

theorem bn_v_cons (x : Nat) (xs : List Nat) : bn_v (x :: xs) = x + 2 ^ 64 * bn_v xs := rfl

theorem bn_v_append (l1 l2 : List Nat) :
    bn_v (l1 ++ l2) = bn_v l1 + 2 ^ (64 * l1.length) * bn_v l2 := by
  induction l1 with
  | nil => simp [bn_v_nil]
  | cons x xs ih =>
    rw [List.cons_append, bn_v_cons, bn_v_cons, ih, List.length_cons]
    have : (2:Nat) ^ (64 * (xs.length + 1)) = 2 ^ 64 * 2 ^ (64 * xs.length) := by
      rw [← pow_add]; congr 1; omega
    rw [this]; ring

theorem bn_v_singleton (x : Nat) : bn_v [x] = x := by
  simp [bn_v_cons, bn_v_nil]

theorem bn_v_replicate_zero (k : Nat) : bn_v (List.replicate k 0) = 0 := by
  induction k with
  | zero => rfl
  | succ k ih => rw [List.replicate_succ, bn_v_cons, ih]; rfl

theorem bn_wf_nil : bn_wf 0 [] := ⟨rfl, by simp⟩

theorem bn_wf_cons {len x : Nat} {xs : List Nat} (hx : x < 2 ^ 64) (h : bn_wf len xs) :
    bn_wf (len + 1) (x :: xs) := by
  refine ⟨by simp [h.1], ?_⟩
  intro y hy
  rcases List.mem_cons.1 hy with rfl | hy
  · exact hx
  · exact h.2 y hy

theorem bn_wf_cons_iff {len x : Nat} {xs : List Nat} :
    bn_wf (len + 1) (x :: xs) ↔ x < 2 ^ 64 ∧ bn_wf len xs := by
  constructor
  · intro h
    refine ⟨h.2 x (List.mem_cons_self _ _), ?_, ?_⟩
    · have := h.1; simpa using this
    · intro y hy; exact h.2 y (List.mem_cons_of_mem _ hy)
  · intro h; exact bn_wf_cons h.1 h.2

theorem bn_wf_replicate_zero (k : Nat) : bn_wf k (List.replicate k 0) := by
  refine ⟨by simp, ?_⟩
  intro x hx
  rw [List.eq_of_mem_replicate hx]
  exact Nat.pos_pow_of_pos _ (by decide)

theorem bn_wf_append {k1 k2 : Nat} {l1 l2 : List Nat} (h1 : bn_wf k1 l1) (h2 : bn_wf k2 l2) :
    bn_wf (k1 + k2) (l1 ++ l2) := by
  refine ⟨by simp [h1.1, h2.1], ?_⟩
  intro x hx
  rcases List.mem_append.1 hx with h | h
  · exact h1.2 x h
  · exact h2.2 x h

theorem bn_wf_take {len : Nat} {l : List Nat} (k : Nat) (h : bn_wf len l) (hk : k ≤ len) :
    bn_wf k (l.take k) := by
  refine ⟨by simp [h.1, hk], ?_⟩
  intro x hx
  exact h.2 x (List.mem_of_mem_take hx)

theorem bn_wf_drop {len : Nat} {l : List Nat} (k : Nat) (h : bn_wf len l) :
    bn_wf (len - k) (l.drop k) := by
  refine ⟨by simp [h.1], ?_⟩
  intro x hx
  exact h.2 x (List.mem_of_mem_drop hx)

theorem bn_wf_getD {len : Nat} {l : List Nat} (h : bn_wf len l) (k : Nat) :
    l.getD k 0 < 2 ^ 64 := by
  by_cases hk : k < l.length
  · rw [List.getD_eq_getElem l 0 hk]
    exact h.2 _ (List.getElem_mem _)
  · rw [List.getD_eq_default l 0 (by omega)]
    exact Nat.pos_pow_of_pos _ (by decide)

theorem bn_v_lt {len : Nat} {l : List Nat} (h : bn_wf len l) : bn_v l < 2 ^ (64 * len) := by
  induction l generalizing len with
  | nil => rw [bn_v_nil]; exact Nat.pos_pow_of_pos _ (by decide)
  | cons x xs ih =>
    cases len with
    | zero => have := h.1; simp at this
    | succ m =>
      rw [bn_wf_cons_iff] at h
      have h1 := ih h.2
      rw [bn_v_cons]
      have e : (2:Nat) ^ (64 * (m + 1)) = 2 ^ 64 * 2 ^ (64 * m) := by
        rw [← pow_add]; congr 1; omega
      rw [e]
      have h2 := h.1
      nlinarith

theorem bn_wf_from_nat (len v : Nat) : bn_wf len (bn_from_nat len v) := by
  induction len generalizing v with
  | zero => exact bn_wf_nil
  | succ m ih =>
    show bn_wf (m + 1) (_ :: _)
    exact bn_wf_cons (Nat.mod_lt _ (Nat.pos_pow_of_pos _ (by decide))) (ih _)

theorem bn_v_from_nat (len v : Nat) : bn_v (bn_from_nat len v) = v % 2 ^ (64 * len) := by
  induction len generalizing v with
  | zero => simp [bn_from_nat, bn_v_nil, Nat.mod_one]
  | succ m ih =>
    show bn_v (_ :: _) = _
    rw [bn_v_cons, ih]
    have e : (2:Nat) ^ (64 * (m + 1)) = 2 ^ 64 * 2 ^ (64 * m) := by
      rw [← pow_add]; congr 1; omega
    rw [e, Nat.mod_mul]

theorem bn_from_nat_v {len : Nat} {l : List Nat} (h : bn_wf len l) :
    bn_from_nat len (bn_v l) = l := by
  induction l generalizing len with
  | nil =>
    have := h.1; simp at this; subst this; rfl
  | cons x xs ih =>
    cases len with
    | zero => have := h.1; simp at this
    | succ m =>
      rw [bn_wf_cons_iff] at h
      show (_ :: _ : List Nat) = _
      rw [bn_v_cons]
      have h1 : (x + 2 ^ 64 * bn_v xs) % 2 ^ 64 = x := by
        rw [Nat.add_mul_mod_self_left]; exact Nat.mod_eq_of_lt h.1
      have h2 : (x + 2 ^ 64 * bn_v xs) / 2 ^ 64 = bn_v xs := by
        rw [Nat.add_mul_div_left _ _ (Nat.pos_pow_of_pos _ (by decide)), Nat.div_eq_of_lt h.1]
        simp
      rw [h1, h2, ih h.2]

/-- Two well-formed buffers of the same length with the same value are equal. -/
theorem bn_v_inj {len : Nat} {l1 l2 : List Nat} (h1 : bn_wf len l1) (h2 : bn_wf len l2)
    (h : bn_v l1 = bn_v l2) : l1 = l2 := by
  rw [← bn_from_nat_v h1, ← bn_from_nat_v h2, h]

theorem take_succ_getD (l : List Nat) (k : Nat) (hk : k < l.length) :
    l.take (k + 1) = l.take k ++ [l.getD k 0] := by
  rw [List.take_succ, List.getD_eq_getElem l 0 hk, List.getElem?_eq_getElem hk]
  rfl

theorem bn_v_take_succ (l : List Nat) (k : Nat) (hk : k < l.length) :
    bn_v (l.take (k + 1)) = bn_v (l.take k) + 2 ^ (64 * k) * l.getD k 0 := by
  rw [take_succ_getD l k hk, bn_v_append, bn_v_singleton, List.length_take,
    Nat.min_eq_left (le_of_lt hk)]

theorem take_set_succ (l : List Nat) (k x : Nat) (hk : k < l.length) :
    (l.set k x).take (k + 1) = l.take k ++ [x] := by
  rw [List.set_eq_take_append_cons_drop, if_pos hk, List.take_append_eq_append_take]
  simp [List.length_take, Nat.min_eq_left (le_of_lt hk)]

theorem take_set_same (l : List Nat) (k x : Nat) :
    (l.set k x).take k = l.take k := by
  by_cases hk : k < l.length
  · rw [List.set_eq_take_append_cons_drop, if_pos hk, List.take_append_eq_append_take]
    simp [List.length_take, Nat.min_eq_left (le_of_lt hk)]
  · rw [List.set_eq_of_length_le (by omega)]

theorem drop_set_succ (l : List Nat) (k x : Nat) :
    (l.set k x).drop (k + 1) = l.drop (k + 1) := by
  rw [List.drop_set, if_pos (Nat.lt_succ_self k)]

theorem getD_of_drop_eq (l1 l2 : List Nat) (k : Nat) (h : l1.drop k = l2.drop k) (j : Nat)
    (hj : k ≤ j) : l1.getD j 0 = l2.getD j 0 := by
  have e : j = k + (j - k) := by omega
  rw [List.getD_eq_getElem?_getD, List.getD_eq_getElem?_getD, e, ← List.getElem?_drop,
    ← List.getElem?_drop, h]

theorem take_full (l : List Nat) (k : Nat) (h : l.length ≤ k) : l.take k = l :=
  List.take_of_length_le h

/-! ## Masks -/

theorem ones64_eq : ones64 = 2 ^ 64 - 1 := by decide

theorem ones64_and (x : Nat) (hx : x < 2 ^ 64) : ones64 &&& x = x := by
  rw [Nat.and_comm, ones64_eq, Nat.and_pow_two_sub_one_eq_mod, Nat.mod_eq_of_lt hx]

theorem and_ones64 (x : Nat) (hx : x < 2 ^ 64) : x &&& ones64 = x := by
  rw [Nat.and_comm, ones64_and x hx]

theorem not64_ones : not64 ones64 = 0 := by decide

theorem not64_zero : not64 0 = ones64 := by decide

theorem sub64_zero_zero : sub64 0 0 = 0 := by decide

theorem sub64_zero_one : sub64 0 1 = ones64 := by decide

theorem sub64_one_one : sub64 1 1 = 0 := by decide

theorem sub64_one_zero : sub64 1 0 = 1 := by decide

theorem is_mask_and {a b : Nat} (ha : is_mask a) (hb : is_mask b) : is_mask (a &&& b) := by
  rcases ha with rfl | rfl <;> rcases hb with rfl | rfl
  · left; decide
  · left; decide
  · left; decide
  · right; decide

theorem mask_and_eq_ones {a b : Nat} (ha : is_mask a) (hb : is_mask b) :
    a &&& b = ones64 ↔ a = ones64 ∧ b = ones64 := by
  rcases ha with rfl | rfl <;> rcases hb with rfl | rfl <;> decide

theorem is_mask_not {a : Nat} (ha : is_mask a) : is_mask (not64 a) := by
  rcases ha with rfl | rfl
  · right; decide
  · left; decide

theorem not64_eq_ones {a : Nat} (ha : is_mask a) : not64 a = ones64 ↔ a = 0 := by
  rcases ha with rfl | rfl <;> decide

theorem lt_mask_step_eq (x y acc : Nat) (hacc : acc < 2 ^ 64) :
    lt_mask_step x y acc = if x = y then acc else if x < y then ones64 else 0 := by
  unfold lt_mask_step FStar_UInt64_eq_mask FStar_UInt64_gte_mask
  by_cases h1 : x = y
  · subst h1
    simp only [if_true, le_refl, not64_ones, Nat.zero_and, Nat.or_zero]
    exact ones64_and acc hacc
  · by_cases h2 : x < y
    · have h3 : ¬ y ≤ x := by omega
      simp only [if_neg h1, if_pos h2, if_neg h3, not64_zero, not64_ones, Nat.zero_and]
      decide
    · have h3 : y ≤ x := by omega
      simp only [if_neg h1, if_neg h2, if_pos h3, not64_zero, not64_ones, Nat.zero_and]
      decide

theorem is_mask_lt {m : Nat} (h : is_mask m) : m < 2 ^ 64 := by
  rcases h with rfl | rfl <;> decide

/-- The comparison loop computes the mask of `a < b` on the first `len` limbs. -/
theorem lt_mask_loop (len : Nat) (a b : List Nat) (ha : bn_wf len a) (hb : bn_wf len b) :
    forLoop 0 len (fun i acc => lt_mask_step (a.getD i 0) (b.getD i 0) acc) 0
      = if bn_v a < bn_v b then ones64 else 0 := by
  have key := forLoop_inv
    (fun k acc => acc = if bn_v (a.take k) < bn_v (b.take k) then ones64 else 0)
    0 len (fun i acc => lt_mask_step (a.getD i 0) (b.getD i 0) acc) 0 (Nat.zero_le _)
    (by simp [bn_v_nil])
    (by
      intro i t _ hi ht
      have hia : i < a.length := by rw [ha.1]; exact hi
      have hib : i < b.length := by rw [hb.1]; exact hi
      have hta : bn_v (a.take i) < 2 ^ (64 * i) := bn_v_lt (bn_wf_take i ha (le_of_lt hi))
      have htb : bn_v (b.take i) < 2 ^ (64 * i) := bn_v_lt (bn_wf_take i hb (le_of_lt hi))
      have htm : t < 2 ^ 64 := by
        rw [ht]; split <;> decide
      show lt_mask_step _ _ t = _
      rw [lt_mask_step_eq _ _ _ htm, bn_v_take_succ a i hia, bn_v_take_succ b i hib, ht]
      generalize a.getD i 0 = x at *
      generalize b.getD i 0 = y at *
      generalize bn_v (a.take i) = u at *
      generalize bn_v (b.take i) = v at *
      generalize (2:Nat) ^ (64 * i) = P at *
      by_cases h1 : x = y
      · subst h1
        simp only [if_true]
        by_cases h2 : u < v
        · rw [if_pos h2, if_pos (by omega)]
        · rw [if_neg h2, if_neg (by omega)]
      · rw [if_neg h1]
        by_cases h2 : x < y
        · rw [if_pos h2, if_pos]
          have : P * (x + 1) ≤ P * y := Nat.mul_le_mul_left _ h2
          have e : P * (x + 1) = P * x + P := by ring
          omega
        · rw [if_neg h2, if_neg]
          have : P * (y + 1) ≤ P * x := Nat.mul_le_mul_left _ (by omega)
          have e : P * (y + 1) = P * y + P := by ring
          omega)
  beta_reduce at key
  rw [key, take_full a len (by rw [ha.1]), take_full b len (by rw [hb.1])]

/-- The zero test loop computes the mask of `b = 0` on the first `len` limbs. -/
theorem eq_zero_loop (len : Nat) (b : List Nat) (hb : bn_wf len b) :
    forLoop 0 len (fun i mask =>
      let uu____0 := FStar_UInt64_eq_mask (b.getD i 0) ((List.replicate len 0).getD i 0)
      uu____0 &&& mask) 0xFFFFFFFFFFFFFFFF
      = if bn_v b = 0 then ones64 else 0 := by
  have key := forLoop_inv
    (fun k acc => acc = if bn_v (b.take k) = 0 then ones64 else 0)
    0 len (fun i mask =>
      let uu____0 := FStar_UInt64_eq_mask (b.getD i 0) ((List.replicate len 0).getD i 0)
      uu____0 &&& mask) 0xFFFFFFFFFFFFFFFF (Nat.zero_le _)
    (by simp [bn_v_nil]; rfl)
    (by
      intro i t _ hi ht
      have hib : i < b.length := by rw [hb.1]; exact hi
      have hz : (List.replicate len 0).getD i 0 = 0 := by
        rw [List.getD_eq_getElem _ 0 (by simpa using hi)]
        simp
      show FStar_UInt64_eq_mask _ _ &&& t = _
      rw [hz, bn_v_take_succ b i hib, ht]
      unfold FStar_UInt64_eq_mask
      have hP : 0 < (2:Nat) ^ (64 * i) := Nat.pos_pow_of_pos _ (by decide)
      generalize b.getD i 0 = x at *
      generalize bn_v (b.take i) = u at *
      generalize (2:Nat) ^ (64 * i) = P at *
      by_cases h1 : x = 0
      · subst h1
        simp only [if_true, Nat.mul_zero, Nat.add_zero]
        by_cases h2 : u = 0
        · rw [if_pos h2]; decide
        · rw [if_neg h2]; decide
      · have hne : ¬ (u + P * x = 0) := by
          have : 0 < P * x := Nat.mul_pos hP (Nat.pos_of_ne_zero h1)
          omega
        rw [if_neg h1, if_neg hne, Nat.zero_and])
  beta_reduce at key
  rw [key, take_full b len (by rw [hb.1])]

theorem set_getD_self (l : List Nat) (k : Nat) : l.set k (l.getD k 0) = l := by
  induction l generalizing k with
  | nil => rfl
  | cons x xs ih =>
    cases k with
    | zero => rfl
    | succ j =>
      show x :: xs.set j (xs.getD j 0) = x :: xs
      rw [ih]

/-- Masking with zero clears the 64 limbs. -/
theorem mask_output_zero (res : List Nat) (h : res.length = 64) :
    mask_output 0 res = List.replicate 64 0 := by
  unfold mask_output
  have key := forLoop_inv
    (fun k (t : List Nat) => t.length = 64 ∧ t.take k = List.replicate k 0)
    0 64 (fun i res => res.set i (0 &&& res.getD i 0)) res (Nat.zero_le _)
    (by simp [h])
    (by
      intro i t _ hi ht
      refine ⟨by simp [ht.1], ?_⟩
      rw [take_set_succ t i _ (by rw [ht.1]; exact hi), ht.2, Nat.zero_and,
        List.replicate_succ']
      )
  have k2 := key.2
  rw [take_full _ _ (by rw [key.1])] at k2
  exact k2

/-- Masking with all ones changes nothing. -/
theorem mask_output_ones (res : List Nat) (h : bn_wf 64 res) :
    mask_output ones64 res = res := by
  unfold mask_output
  exact forLoop_inv (fun _ (t : List Nat) => t = res)
    0 64 (fun i res => res.set i (ones64 &&& res.getD i 0)) res (Nat.zero_le _) rfl
    (by
      intro i t _ _ ht
      subst ht
      show t.set i (ones64 &&& t.getD i 0) = t
      rw [ones64_and _ (bn_wf_getD h i), set_getD_self])

theorem mask_output_length (m : Nat) (res : List Nat) : (mask_output m res).length = res.length := by
  unfold mask_output
  exact forLoop_inv (fun _ (t : List Nat) => t.length = res.length)
    0 64 _ res (Nat.zero_le _) rfl
    (by intro i t _ _ ht; simp [ht])

/-- Selection with the all-ones mask keeps `res`. -/
theorem mask_select_ones (res tmp : List Nat) (h : bn_wf 64 res) :
    mask_select ones64 res tmp = res := by
  unfold mask_select
  exact forLoop_inv (fun _ (t : List Nat) => t = res)
    0 64 _ res (Nat.zero_le _) rfl
    (by
      intro i t _ _ ht
      subst ht
      show t.set i ((ones64 &&& t.getD i 0) ||| (not64 ones64 &&& tmp.getD i 0)) = t
      rw [ones64_and _ (bn_wf_getD h i), not64_ones, Nat.zero_and, Nat.or_zero, set_getD_self])

/-- Selection with the zero mask takes `tmp`. -/
theorem mask_select_zero (res tmp : List Nat) (h : res.length = 64) (ht : bn_wf 64 tmp) :
    mask_select 0 res tmp = tmp := by
  unfold mask_select
  have key := forLoop_inv
    (fun k (t : List Nat) => t.length = 64 ∧ t.take k = tmp.take k)
    0 64 (fun i res => res.set i ((0 &&& res.getD i 0) ||| (not64 0 &&& tmp.getD i 0)))
    res (Nat.zero_le _)
    (by simp [h])
    (by
      intro i t _ hi hti
      refine ⟨by simp [hti.1], ?_⟩
      rw [take_set_succ t i _ (by rw [hti.1]; exact hi), hti.2, Nat.zero_and, not64_zero,
        ones64_and _ (bn_wf_getD ht i), Nat.zero_or, take_succ_getD tmp i (by rw [ht.1]; exact hi)])
  have k2 := key.2
  rw [take_full _ _ (by rw [key.1]), take_full _ _ (by rw [ht.1])] at k2
  exact k2

/-! ## Limb-serial addition and subtraction -/

theorem pow_succ_64 (k : Nat) : (2:Nat) ^ (64 * (k + 1)) = 2 ^ (64 * k) * 2 ^ 64 := by
  rw [Nat.mul_succ, pow_add]

theorem add_carry_spec (c x y : Nat) :
    (Lib_IntTypes_Intrinsics_add_carry_u64 c x y).2
      + 2 ^ 64 * (Lib_IntTypes_Intrinsics_add_carry_u64 c x y).1 = x + y + c := by
  unfold Lib_IntTypes_Intrinsics_add_carry_u64
  exact Nat.mod_add_div _ _

theorem add_carry_lt (c x y : Nat) :
    (Lib_IntTypes_Intrinsics_add_carry_u64 c x y).2 < 2 ^ 64 := by
  unfold Lib_IntTypes_Intrinsics_add_carry_u64
  exact Nat.mod_lt _ (Nat.pos_pow_of_pos _ (by decide))

theorem add_carry_le (c x y : Nat) (hc : c ≤ 1) (hx : x < 2 ^ 64) (hy : y < 2 ^ 64) :
    (Lib_IntTypes_Intrinsics_add_carry_u64 c x y).1 ≤ 1 := by
  unfold Lib_IntTypes_Intrinsics_add_carry_u64
  show (x + y + c) / 2 ^ 64 ≤ 1
  omega

theorem sub_borrow_spec (c x y : Nat) (hc : c ≤ 1) (hx : x < 2 ^ 64) (hy : y < 2 ^ 64) :
    (Lib_IntTypes_Intrinsics_sub_borrow_u64 c x y).2 + y + c
      = x + 2 ^ 64 * (Lib_IntTypes_Intrinsics_sub_borrow_u64 c x y).1 := by
  unfold Lib_IntTypes_Intrinsics_sub_borrow_u64
  by_cases h : x < y + c
  · simp only [if_pos h]; omega
  · simp only [if_neg h]; omega

theorem sub_borrow_lt (c x y : Nat) :
    (Lib_IntTypes_Intrinsics_sub_borrow_u64 c x y).2 < 2 ^ 64 := by
  unfold Lib_IntTypes_Intrinsics_sub_borrow_u64
  exact Nat.mod_lt _ (Nat.pos_pow_of_pos _ (by decide))

theorem sub_borrow_le (c x y : Nat) :
    (Lib_IntTypes_Intrinsics_sub_borrow_u64 c x y).1 ≤ 1 := by
  unfold Lib_IntTypes_Intrinsics_sub_borrow_u64
  show (if x < y + c then 1 else 0) ≤ 1
  split <;> omega

theorem Src.read_eq (s : Src) (res cur : List Nat) (k : Nat)
    (h : cur.drop k = res.drop k) : s.read cur k = (s.orig res).getD k 0 := by
  cases s with
  | buf l => rfl
  | out => exact getD_of_drop_eq cur res k h k (le_refl _)

theorem bn_wf_take_snoc {k : Nat} {l : List Nat} {x : Nat} (h : bn_wf k l) (hx : x < 2 ^ 64) :
    bn_wf (k + 1) (l ++ [x]) :=
  bn_wf_append h ⟨rfl, by intro y hy; rw [List.mem_singleton.1 hy]; exact hx⟩

/-- The addition loop over `len` limbs. -/
theorem add_loop_spec (len : Nat) (a b : Src) (res : List Nat)
    (ha : bn_wf len (a.orig res)) (hb : bn_wf len (b.orig res)) (hres : res.length = len) :
    bn_wf len (forLoop 0 len (add_step a b) (0, res)).2
    ∧ (forLoop 0 len (add_step a b) (0, res)).1 ≤ 1
    ∧ bn_v (forLoop 0 len (add_step a b) (0, res)).2
        + (forLoop 0 len (add_step a b) (0, res)).1 * 2 ^ (64 * len)
      = bn_v (a.orig res) + bn_v (b.orig res) := by
  have key := forLoop_inv
    (fun k (st : Nat × List Nat) =>
      st.2.length = len ∧ st.2.drop k = res.drop k ∧ bn_wf k (st.2.take k) ∧ st.1 ≤ 1
      ∧ bn_v (st.2.take k) + st.1 * 2 ^ (64 * k)
        = bn_v ((a.orig res).take k) + bn_v ((b.orig res).take k))
    0 len (add_step a b) (0, res) (Nat.zero_le _)
    ⟨hres, rfl, by simpa using bn_wf_nil, Nat.zero_le _, by simp [bn_v_nil]⟩
    (by
      rintro i ⟨c, t⟩ _ hi ⟨h1, h2, h3, h4, h5⟩
      simp only at h1 h2 h3 h4 h5
      have hit : i < t.length := by rw [h1]; exact hi
      have hx := bn_wf_getD ha i
      have hy := bn_wf_getD hb i
      have e1 := add_carry_spec c ((a.orig res).getD i 0) ((b.orig res).getD i 0)
      have e2 := add_carry_lt c ((a.orig res).getD i 0) ((b.orig res).getD i 0)
      have e3 := add_carry_le c _ _ h4 hx hy
      unfold add_step
      simp only [Src.read_eq a res t i h2, Src.read_eq b res t i h2]
      refine ⟨by simp [h1], ?_, ?_, e3, ?_⟩
      · rw [drop_set_succ, ← List.drop_drop 1 i t, h2, List.drop_drop]
      · rw [take_set_succ t i _ hit]
        exact bn_wf_take_snoc h3 e2
      · rw [take_set_succ t i _ hit, bn_v_append, bn_v_singleton, h3.1,
          bn_v_take_succ (a.orig res) i (by rw [ha.1]; exact hi),
          bn_v_take_succ (b.orig res) i (by rw [hb.1]; exact hi), pow_succ_64]
        generalize (Lib_IntTypes_Intrinsics_add_carry_u64 c ((a.orig res).getD i 0)
          ((b.orig res).getD i 0)).2 = s at *
        generalize (Lib_IntTypes_Intrinsics_add_carry_u64 c ((a.orig res).getD i 0)
          ((b.orig res).getD i 0)).1 = c' at *
        generalize (a.orig res).getD i 0 = x at *
        generalize (b.orig res).getD i 0 = y at *
        generalize (2:Nat) ^ (64 * i) = P at *
        have : P * (s + 2 ^ 64 * c') = P * (x + y + c) := by rw [e1]
        nlinarith)
  obtain ⟨h1, _, h3, h4, h5⟩ := key
  rw [take_full _ _ (by rw [h1])] at h3 h5
  rw [take_full (a.orig res) _ (by rw [ha.1]), take_full (b.orig res) _ (by rw [hb.1])] at h5
  exact ⟨h3, h4, h5⟩

/-- The subtraction loop over `len` limbs. -/
theorem sub_loop_spec (len : Nat) (a b res : List Nat)
    (ha : bn_wf len a) (hb : bn_wf len b) (hres : res.length = len) :
    bn_wf len (forLoop 0 len (sub_step a b) (0, res)).2
    ∧ (forLoop 0 len (sub_step a b) (0, res)).1 ≤ 1
    ∧ bn_v (forLoop 0 len (sub_step a b) (0, res)).2 + bn_v b
      = bn_v a + (forLoop 0 len (sub_step a b) (0, res)).1 * 2 ^ (64 * len) := by
  have key := forLoop_inv
    (fun k (st : Nat × List Nat) =>
      st.2.length = len ∧ bn_wf k (st.2.take k) ∧ st.1 ≤ 1
      ∧ bn_v (st.2.take k) + bn_v (b.take k) = bn_v (a.take k) + st.1 * 2 ^ (64 * k))
    0 len (sub_step a b) (0, res) (Nat.zero_le _)
    ⟨hres, by simpa using bn_wf_nil, Nat.zero_le _, by simp [bn_v_nil]⟩
    (by
      rintro i ⟨c, t⟩ _ hi ⟨h1, h3, h4, h5⟩
      simp only at h1 h3 h4 h5
      have hit : i < t.length := by rw [h1]; exact hi
      have hx := bn_wf_getD ha i
      have hy := bn_wf_getD hb i
      have e1 := sub_borrow_spec c (a.getD i 0) (b.getD i 0) h4 hx hy
      have e2 := sub_borrow_lt c (a.getD i 0) (b.getD i 0)
      have e3 := sub_borrow_le c (a.getD i 0) (b.getD i 0)
      unfold sub_step
      refine ⟨by simp [h1], ?_, e3, ?_⟩
      · simp only
        rw [take_set_succ t i _ hit]
        exact bn_wf_take_snoc h3 e2
      · simp only
        rw [take_set_succ t i _ hit, bn_v_append, bn_v_singleton, h3.1,
          bn_v_take_succ a i (by rw [ha.1]; exact hi), bn_v_take_succ b i (by rw [hb.1]; exact hi),
          pow_succ_64]
        generalize (Lib_IntTypes_Intrinsics_sub_borrow_u64 c (a.getD i 0) (b.getD i 0)).2 = s at *
        generalize (Lib_IntTypes_Intrinsics_sub_borrow_u64 c (a.getD i 0) (b.getD i 0)).1 = c' at *
        generalize a.getD i 0 = x at *
        generalize b.getD i 0 = y at *
        generalize (2:Nat) ^ (64 * i) = P at *
        have : P * (s + y + c) = P * (x + 2 ^ 64 * c') := by rw [e1]
        nlinarith)
  obtain ⟨h1, h3, h4, h5⟩ := key
  rw [take_full _ _ (by rw [h1])] at h3 h5
  rw [take_full a _ (by rw [ha.1]), take_full b _ (by rw [hb.1])] at h5
  exact ⟨h3, h4, h5⟩

/-- The unrolled addition loops of the C code are the plain 64-step loop. -/
theorem add_loops_eq (a b : Src) (st : Nat × List Nat) :
    forLoop 64 64 (fun i st => add_step a b i st)
      (forLoop 0 16 (fun i st =>
        let st := add_step a b (4 * i) st
        let st := add_step a b (4 * i + 1) st
        let st := add_step a b (4 * i + 2) st
        add_step a b (4 * i + 3) st) st)
    = forLoop 0 64 (add_step a b) st := by
  rw [forLoop_empty _ _ _ _ (le_refl _), forLoop_unroll4 (add_step a b) 16]

/-- The unrolled subtraction loops of the C code are the plain 64-step loop. -/
theorem sub_loops_eq (a b : List Nat) (st : Nat × List Nat) :
    forLoop 64 64 (fun i st => sub_step a b i st)
      (forLoop 0 16 (fun i st =>
        let st := sub_step a b (4 * i) st
        let st := sub_step a b (4 * i + 1) st
        let st := sub_step a b (4 * i + 2) st
        sub_step a b (4 * i + 3) st) st)
    = forLoop 0 64 (sub_step a b) st := by
  rw [forLoop_empty _ _ _ _ (le_refl _), forLoop_unroll4 (sub_step a b) 16]

/-- The shared tail of `add_mod_n` and `reduction`: given `t = res + c0·2^4096 < 2n`,
subtract `n` with borrow `c1` and select by the mask `c0 − c1`; the result is `t mod n`. -/
theorem cond_sub_spec (n res : List Nat) (c0 : Nat) (hn : bn_wf 64 n) (hres : bn_wf 64 res)
    (hc0 : c0 ≤ 1) (hlt : bn_v res + c0 * 2 ^ (64 * 64) < 2 * bn_v n) :
    bn_wf 64 (mask_select
        (sub64 c0 (forLoop 0 64 (sub_step res n) (0, List.replicate 64 0)).1) res
        (forLoop 0 64 (sub_step res n) (0, List.replicate 64 0)).2)
    ∧ bn_v (mask_select
        (sub64 c0 (forLoop 0 64 (sub_step res n) (0, List.replicate 64 0)).1) res
        (forLoop 0 64 (sub_step res n) (0, List.replicate 64 0)).2)
      = (bn_v res + c0 * 2 ^ (64 * 64)) % bn_v n := by
  obtain ⟨h1, h2, h3⟩ := sub_loop_spec 64 res n (List.replicate 64 0) hres hn (by simp)
  have hnlt := bn_v_lt hn
  have hrlt := bn_v_lt hres
  have htlt := bn_v_lt h1
  generalize (forLoop 0 64 (sub_step res n) (0, List.replicate 64 0)).1 = c1 at *
  generalize (forLoop 0 64 (sub_step res n) (0, List.replicate 64 0)).2 = tmp at *
  generalize (2:Nat) ^ (64 * 64) = R at *
  have hc0' : c0 = 0 ∨ c0 = 1 := by omega
  have hc1' : c1 = 0 ∨ c1 = 1 := by omega
  rcases hc0' with rfl | rfl <;> rcases hc1' with rfl | rfl
  · -- no carry, no borrow: res ≥ n, take tmp = res - n
    rw [sub64_zero_zero, mask_select_zero _ _ hres.1 h1]
    refine ⟨h1, ?_⟩
    have e : bn_v res + 0 * R = bn_v n + bn_v tmp := by omega
    rw [e, Nat.add_mod_left, Nat.mod_eq_of_lt (by omega)]
  · -- no carry, borrow: res < n, keep res
    rw [sub64_zero_one, mask_select_ones _ _ hres]
    refine ⟨hres, ?_⟩
    have e : bn_v res + 0 * R = bn_v res := by omega
    rw [e, Nat.mod_eq_of_lt (by omega)]
  · -- carry, no borrow: impossible
    exfalso; omega
  · -- carry and borrow: take tmp = res + R - n
    rw [sub64_one_one, mask_select_zero _ _ hres.1 h1]
    refine ⟨h1, ?_⟩
    have e : bn_v res + 1 * R = bn_v n + bn_v tmp := by omega
    rw [e, Nat.add_mod_left, Nat.mod_eq_of_lt (by omega)]

/-- `add_mod_n` computes `(a + b) mod n` for `a, b < n`. -/
theorem add_mod_n_spec (n : List Nat) (a b : Src) (res : List Nat)
    (hn : bn_wf 64 n) (ha : bn_wf 64 (a.orig res)) (hb : bn_wf 64 (b.orig res))
    (hres : res.length = 64) (han : bn_v (a.orig res) < bn_v n)
    (hbn : bn_v (b.orig res) < bn_v n) :
    bn_wf 64 (add_mod_n n a b res)
    ∧ bn_v (add_mod_n n a b res) = (bn_v (a.orig res) + bn_v (b.orig res)) % bn_v n := by
  unfold add_mod_n
  simp only [add_loops_eq, sub_loops_eq]
  obtain ⟨h1, h2, h3⟩ := add_loop_spec 64 a b res ha hb hres
  have := cond_sub_spec n _ _ hn h1 h2 (by rw [h3]; omega)
  rw [h3] at this
  exact this

/-! ## `mont_check`, `top_index` and `precomp` -/

theorem bn_one_wf : bn_wf 64 ((List.replicate 64 0).set 0 1) := by decide

theorem bn_one_v : bn_v ((List.replicate 64 0).set 0 1) = 1 := by decide

theorem bn_v_mod_two (l : List Nat) : bn_v l % 2 = l.getD 0 0 % 2 := by
  cases l with
  | nil => rfl
  | cons x xs =>
    rw [bn_v_cons]
    show _ = x % 2
    omega

/-- `mont_check` returns all ones exactly for odd `n > 1`, and zero otherwise. -/
theorem mont_check_spec (n : List Nat) (hn : bn_wf 64 n) :
    mont_check n = if bn_v n % 2 = 1 ∧ 1 < bn_v n then ones64 else 0 := by
  unfold mont_check
  simp only
  rw [lt_mask_loop 64 _ n bn_one_wf hn, bn_one_v, Nat.and_one_is_mod, ← bn_v_mod_two]
  have h2 : bn_v n % 2 = 0 ∨ bn_v n % 2 = 1 := by omega
  rcases h2 with h | h
  · rw [h, sub64_zero_zero, Nat.zero_and, if_neg (by omega)]
  · rw [h, sub64_zero_one]
    by_cases h1 : 1 < bn_v n
    · rw [if_pos h1, if_pos ⟨rfl, h1⟩]; decide
    · rw [if_neg h1, if_neg (by tauto)]; decide

theorem mont_check_mask (n : List Nat) (hn : bn_wf 64 n) : is_mask (mont_check n) := by
  rw [mont_check_spec n hn]
  split
  · right; rfl
  · left; rfl

/-- The top index of an odd modulus `n > 1` satisfies `2^(64·top) < n`. -/
theorem top_index_spec (n : List Nat) (hn : bn_wf 64 n) (hodd : bn_v n % 2 = 1)
    (h1 : 1 < bn_v n) :
    Hacl_Bignum_Lib_bn_get_top_index_u64 64 n < 64
    ∧ 2 ^ (64 * Hacl_Bignum_Lib_bn_get_top_index_u64 64 n) < bn_v n := by
  unfold Hacl_Bignum_Lib_bn_get_top_index_u64
  have key := forLoop_inv
    (fun k (priv : Nat) => priv < max k 1 ∧ bn_v (n.take k) < 2 ^ (64 * (priv + 1))
      ∧ (priv ≠ 0 → 2 ^ (64 * priv) ≤ bn_v (n.take k)))
    0 64 (fun i priv => if n.getD i 0 = 0 then priv else i) 0 (Nat.zero_le _)
    ⟨by simp, by simp [bn_v_nil], by simp⟩
    (by
      intro i p _ hi ⟨a1, a2, a3⟩
      have hil : i < n.length := by rw [hn.1]; exact hi
      have hx := bn_wf_getD hn i
      have hv := bn_v_lt (bn_wf_take i hn (le_of_lt hi))
      by_cases hz : n.getD i 0 = 0
      · simp only [if_pos hz]
        rw [bn_v_take_succ n i hil, hz, Nat.mul_zero, Nat.add_zero]
        refine ⟨?_, a2, a3⟩
        have : max i 1 ≤ max (i + 1) 1 := by omega
        omega
      · simp only [if_neg hz]
        rw [bn_v_take_succ n i hil]
        refine ⟨by omega, ?_, ?_⟩
        · rw [pow_succ_64]
          generalize (2:Nat) ^ (64 * i) = P at *
          generalize n.getD i 0 = x at *
          have : P * (x + 1) ≤ P * 2 ^ 64 := Nat.mul_le_mul_left _ hx
          have e : P * (x + 1) = P * x + P := by ring
          omega
        · intro _
          have : 2 ^ (64 * i) * 1 ≤ 2 ^ (64 * i) * n.getD i 0 :=
            Nat.mul_le_mul_left _ (Nat.pos_of_ne_zero hz)
          omega)
  obtain ⟨a1, a2, a3⟩ := key
  rw [take_full n 64 (by rw [hn.1])] at a2 a3
  refine ⟨by omega, ?_⟩
  generalize forLoop 0 64 (fun i priv => if n.getD i 0 = 0 then priv else i) 0 = p at *
  by_cases hp : p = 0
  · subst hp; simpa using h1
  · have h2 := a3 hp
    rcases Nat.lt_or_eq_of_le h2 with h | h
    · exact h
    · exfalso
      have e : 64 * p = (64 * p - 1) + 1 := by omega
      rw [e, pow_succ] at h
      omega

theorem getD_replicate_zero (len i : Nat) : (List.replicate len 0).getD i 0 = 0 := by
  by_cases hi : i < len
  · rw [List.getD_eq_getElem _ 0 (by rw [List.length_replicate]; exact hi),
      List.getElem_replicate]
  · rw [List.getD_eq_default _ 0 (by rw [List.length_replicate]; omega)]

theorem bn_v_set_replicate (len i x : Nat) (hi : i < len) :
    bn_v ((List.replicate len 0).set i x) = 2 ^ (64 * i) * x := by
  rw [List.set_eq_take_append_cons_drop, if_pos (by simpa using hi), bn_v_append, bn_v_cons,
    List.take_replicate, List.drop_replicate, bn_v_replicate_zero, bn_v_replicate_zero]
  simp [Nat.min_eq_left (le_of_lt hi)]

theorem bn_wf_set {len : Nat} {l : List Nat} (h : bn_wf len l) (i x : Nat) (hx : x < 2 ^ 64) :
    bn_wf len (l.set i x) := by
  refine ⟨by simp [h.1], ?_⟩
  intro y hy
  rcases List.mem_or_eq_of_mem_set hy with h1 | h1
  · exact h.2 y h1
  · rw [h1]; exact hx

theorem shl64_one (j : Nat) (hj : j < 64) : shl64 1 j = 2 ^ j := by
  unfold shl64
  rw [Nat.shiftLeft_eq, Nat.one_mul]
  exact Nat.mod_eq_of_lt (Nat.pow_lt_pow_right (by decide) hj)

theorem memcpy_full (dst src : List Nat) (len : Nat) (hd : dst.length = len)
    (hs : src.length = len) : memcpy dst src len = src := by
  unfold memcpy
  rw [List.take_of_length_le (by omega), List.drop_of_length_le (by omega), List.append_nil]

/-- The starting value written by `precomp`. -/
theorem precomp_init (nBits : Nat) (hnb : nBits < 4096) :
    bn_wf 64 ((List.replicate 64 0).set (nBits / 64)
      ((List.replicate 64 0).getD (nBits / 64) 0 ||| shl64 1 (nBits % 64)))
    ∧ bn_v ((List.replicate 64 0).set (nBits / 64)
      ((List.replicate 64 0).getD (nBits / 64) 0 ||| shl64 1 (nBits % 64))) = 2 ^ nBits := by
  have hi : nBits / 64 < 64 := by omega
  have hj : nBits % 64 < 64 := Nat.mod_lt _ (by decide)
  rw [getD_replicate_zero, Nat.zero_or, shl64_one _ hj]
  refine ⟨bn_wf_set (bn_wf_replicate_zero 64) _ _ (Nat.pow_lt_pow_right (by decide) hj), ?_⟩
  rw [bn_v_set_replicate 64 _ _ hi, ← pow_add, Nat.div_add_mod]

/-- The doubling loop shared by `precomp` and `Hacl_Bignum4096_new_precompr2`. -/
theorem doubling_loop_spec (n res : List Nat) (m e : Nat) (hn : bn_wf 64 n)
    (hres : bn_wf 64 res) (hv : bn_v res = 2 ^ e % bn_v n) (hpos : 0 < bn_v n) :
    bn_wf 64 (forLoop 0 m (fun _ res => add_mod_n n Src.out Src.out res) res)
    ∧ bn_v (forLoop 0 m (fun _ res => add_mod_n n Src.out Src.out res) res)
      = 2 ^ (e + m) % bn_v n := by
  have key := forLoop_inv
    (fun k (t : List Nat) => bn_wf 64 t ∧ bn_v t = 2 ^ (e + k) % bn_v n)
    0 m (fun _ res => add_mod_n n Src.out Src.out res) res (Nat.zero_le _)
    ⟨hres, by rw [Nat.add_zero]; exact hv⟩
    (by
      intro i t _ _ h
      obtain ⟨a1, a2⟩ := h
      have hlt : bn_v t < bn_v n := by rw [a2]; exact Nat.mod_lt _ hpos
      have a1' : bn_wf 64 (Src.out.orig t) := a1
      have hlt' : bn_v (Src.out.orig t) < bn_v n := hlt
      obtain ⟨b1, b2⟩ := add_mod_n_spec n Src.out Src.out t hn a1' a1' a1.1 hlt' hlt'
      have b3 : bn_v (add_mod_n n Src.out Src.out t) = (bn_v t + bn_v t) % bn_v n := b2
      have b4 : (bn_v t + bn_v t) % bn_v n = 2 ^ (e + (i + 1)) % bn_v n := by
        rw [a2, ← Nat.add_mod, ← Nat.add_assoc, pow_succ, Nat.mul_two]
      exact ⟨b1, b3.trans b4⟩)
  exact key

/-- `precomp` writes `2^8192 mod n`, provided `2^nBits < n`. -/
theorem precomp_spec (nBits : Nat) (n res : List Nat) (hn : bn_wf 64 n)
    (hres : res.length = 64) (hnb : nBits < 4096) (hlt : 2 ^ nBits < bn_v n) :
    bn_wf 64 (precomp nBits n res) ∧ bn_v (precomp nBits n res) = 2 ^ 8192 % bn_v n := by
  unfold precomp
  simp only
  rw [memcpy_full res _ 64 hres (by simp)]
  obtain ⟨a1, a2⟩ := precomp_init nBits hnb
  have hs : sub32 8192 nBits = 8192 - nBits := by unfold sub32; omega
  have := doubling_loop_spec n _ (sub32 8192 nBits) nBits hn a1
    (by rw [a2, Nat.mod_eq_of_lt hlt]) (by omega)
  rw [hs] at this
  rw [hs]
  have e : nBits + (8192 - nBits) = 8192 := by omega
  rw [e] at this
  exact this

/-- The `nBits` every caller passes to `precomp`. -/
theorem nBits_spec (n : List Nat) (hn : bn_wf 64 n) (hodd : bn_v n % 2 = 1)
    (h1 : 1 < bn_v n) :
    mul32 64 (Hacl_Bignum_Lib_bn_get_top_index_u64 64 n % 2 ^ 32) < 4096
    ∧ 2 ^ mul32 64 (Hacl_Bignum_Lib_bn_get_top_index_u64 64 n % 2 ^ 32) < bn_v n := by
  obtain ⟨a1, a2⟩ := top_index_spec n hn hodd h1
  have e : mul32 64 (Hacl_Bignum_Lib_bn_get_top_index_u64 64 n % 2 ^ 32)
      = 64 * Hacl_Bignum_Lib_bn_get_top_index_u64 64 n := by
    unfold mul32; omega
  rw [e]
  exact ⟨by omega, a2⟩

/-! ## Montgomery reduction -/

theorem bn_v_set (l : List Nat) (j x : Nat) (hj : j < l.length) :
    bn_v (l.set j x) + 2 ^ (64 * j) * l.getD j 0 = bn_v l + 2 ^ (64 * j) * x := by
  induction l generalizing j with
  | nil => simp at hj
  | cons y ys ih =>
    cases j with
    | zero =>
      show bn_v (x :: ys) + 2 ^ (64 * 0) * y = bn_v (y :: ys) + 2 ^ (64 * 0) * x
      rw [bn_v_cons, bn_v_cons]; simp only [Nat.mul_zero, pow_zero, Nat.one_mul]; omega
    | succ i =>
      have h := ih i (by simpa using hj)
      show bn_v (y :: ys.set i x) + 2 ^ (64 * (i + 1)) * ys.getD i 0
        = bn_v (y :: ys) + 2 ^ (64 * (i + 1)) * x
      rw [bn_v_cons, bn_v_cons, pow_succ_64]
      generalize (2:Nat) ^ (64 * i) = P at *
      nlinarith

theorem getD_eq_div_mod {len : Nat} {l : List Nat} (h : bn_wf len l) (j : Nat) :
    l.getD j 0 = bn_v l / 2 ^ (64 * j) % 2 ^ 64 := by
  induction l generalizing j len with
  | nil => simp [bn_v_nil]
  | cons y ys ih =>
    cases len with
    | zero => have := h.1; simp at this
    | succ m =>
      rw [bn_wf_cons_iff] at h
      rw [bn_v_cons]
      cases j with
      | zero =>
        show y = _
        rw [Nat.mul_zero, pow_zero, Nat.div_one, Nat.add_mul_mod_self_left,
          Nat.mod_eq_of_lt h.1]
      | succ i =>
        show ys.getD i 0 = _
        rw [ih h.2 i, pow_succ_64, Nat.mul_comm (2 ^ (64 * i)), ← Nat.div_div_eq_div_mul,
          Nat.add_mul_div_left _ _ (Nat.pos_pow_of_pos _ (by decide)), Nat.div_eq_of_lt h.1,
          Nat.zero_add]

/-- The choice of the quotient digit makes the lowest remaining limb vanish. -/
theorem mont_q_dvd (B m N nInv : Nat) (h : (nInv * (N % B) + 1) % B = 0) :
    B ∣ m + (nInv * (m % B) % B) * N := by
  rw [← ZMod.natCast_zmod_eq_zero_iff_dvd]
  have h1 : ((nInv * (N % B) + 1 : Nat) : ZMod B) = 0 := by
    rw [ZMod.natCast_zmod_eq_zero_iff_dvd]; exact Nat.dvd_of_mod_eq_zero h
  push_cast at h1 ⊢
  rw [ZMod.natCast_mod] at h1
  rw [ZMod.natCast_mod]
  push_cast
  rw [ZMod.natCast_mod]
  linear_combination (m : ZMod B) * h1

theorem mul_wide_add2_spec (a b cin acc : Nat) :
    (Hacl_Bignum_Base_mul_wide_add2_u64 a b cin acc).2
      + 2 ^ 64 * (Hacl_Bignum_Base_mul_wide_add2_u64 a b cin acc).1 = a * b + cin + acc := by
  unfold Hacl_Bignum_Base_mul_wide_add2_u64
  exact Nat.mod_add_div _ _

theorem mul_wide_add2_lo (a b cin acc : Nat) :
    (Hacl_Bignum_Base_mul_wide_add2_u64 a b cin acc).2 < 2 ^ 64 := by
  unfold Hacl_Bignum_Base_mul_wide_add2_u64
  exact Nat.mod_lt _ (Nat.pos_pow_of_pos _ (by decide))

theorem mul_wide_add2_hi (a b cin acc : Nat) (ha : a < 2 ^ 64) (hb : b < 2 ^ 64)
    (hc : cin < 2 ^ 64) (hacc : acc < 2 ^ 64) :
    (Hacl_Bignum_Base_mul_wide_add2_u64 a b cin acc).1 < 2 ^ 64 := by
  unfold Hacl_Bignum_Base_mul_wide_add2_u64
  show (a * b + cin + acc) / 2 ^ 64 < 2 ^ 64
  rw [Nat.div_lt_iff_lt_mul (Nat.pos_pow_of_pos _ (by decide))]
  have h1 : a * b ≤ (2 ^ 64 - 1) * (2 ^ 64 - 1) :=
    Nat.mul_le_mul (by omega) (by omega)
  have h2 : (2 ^ 64 - 1) * (2 ^ 64 - 1) + (2 ^ 64 - 1) + (2 ^ 64 - 1) < 2 ^ 64 * 2 ^ 64 := by
    decide
  omega

/-- The inner loop of the reduction adds `qj · n · 2^(64·i0)` to the buffer. -/
theorem mul_add_loop_spec (n : List Nat) (qj i0 : Nat) (c : List Nat) (hn : bn_wf 64 n)
    (hc : bn_wf 128 c) (hq : qj < 2 ^ 64) (hi0 : i0 < 64) :
    bn_wf 128 (forLoop 0 64 (mul_add_step n qj i0) (0, c)).2
    ∧ (forLoop 0 64 (mul_add_step n qj i0) (0, c)).1 < 2 ^ 64
    ∧ bn_v (forLoop 0 64 (mul_add_step n qj i0) (0, c)).2
        + (forLoop 0 64 (mul_add_step n qj i0) (0, c)).1 * 2 ^ (64 * (i0 + 64))
      = bn_v c + 2 ^ (64 * i0) * (qj * bn_v n) := by
  have key := forLoop_inv
    (fun k (st : Nat × List Nat) =>
      bn_wf 128 st.2 ∧ st.1 < 2 ^ 64
      ∧ bn_v st.2 + st.1 * 2 ^ (64 * (i0 + k)) = bn_v c + 2 ^ (64 * i0) * (qj * bn_v (n.take k)))
    0 64 (mul_add_step n qj i0) (0, c) (Nat.zero_le _)
    ⟨hc, Nat.pos_pow_of_pos _ (by decide), by simp [bn_v_nil]⟩
    (by
      rintro k ⟨c1, t⟩ _ hk ⟨h1, h2, h3⟩
      simp only at h1 h2 h3
      have hx := bn_wf_getD hn k
      have hy := bn_wf_getD h1 (i0 + k)
      have e1 := mul_wide_add2_spec (n.getD k 0) qj c1 (t.getD (i0 + k) 0)
      have e2 := mul_wide_add2_lo (n.getD k 0) qj c1 (t.getD (i0 + k) 0)
      have e3 := mul_wide_add2_hi (n.getD k 0) qj c1 (t.getD (i0 + k) 0) hx hq h2 hy
      have e4 := bn_v_set t (i0 + k)
        (Hacl_Bignum_Base_mul_wide_add2_u64 (n.getD k 0) qj c1 (t.getD (i0 + k) 0)).2
        (by rw [h1.1]; omega)
      unfold mul_add_step
      refine ⟨bn_wf_set h1 _ _ e2, e3, ?_⟩
      simp only
      rw [bn_v_take_succ n k (by rw [hn.1]; exact hk)]
      have ep : (2:Nat) ^ (64 * (i0 + (k + 1))) = 2 ^ (64 * (i0 + k)) * 2 ^ 64 := by
        rw [← Nat.add_assoc, pow_succ_64]
      have ep2 : (2:Nat) ^ (64 * (i0 + k)) = 2 ^ (64 * i0) * 2 ^ (64 * k) := by
        rw [Nat.mul_add, pow_add]
      rw [ep]
      rw [ep2] at h3 e4 ⊢
      generalize (Hacl_Bignum_Base_mul_wide_add2_u64 (n.getD k 0) qj c1 (t.getD (i0 + k) 0)).2
        = lo at *
      generalize (Hacl_Bignum_Base_mul_wide_add2_u64 (n.getD k 0) qj c1 (t.getD (i0 + k) 0)).1
        = hi at *
      generalize bn_v (t.set (i0 + k) lo) = v' at *
      generalize t.getD (i0 + k) 0 = tj at *
      generalize n.getD k 0 = nk at *
      generalize bn_v (n.take k) = Nk at *
      generalize bn_v t = v at *
      generalize bn_v c = vc at *
      generalize (2:Nat) ^ (64 * i0) = P at *
      generalize (2:Nat) ^ (64 * k) = Pk at *
      have e5 : P * Pk * (lo + 2 ^ 64 * hi) = P * Pk * (nk * qj + c1 + tj) := by rw [e1]
      nlinarith)
  obtain ⟨h1, h2, h3⟩ := key
  rw [take_full n 64 (by rw [hn.1])] at h3
  exact ⟨h1, h2, h3⟩

theorem mul_add_loops_eq (n : List Nat) (qj i0 : Nat) (st : Nat × List Nat) :
    forLoop 64 64 (fun i st1 => mul_add_step n qj i0 i st1)
      (forLoop 0 16 (fun i st1 =>
        let st1 := mul_add_step n qj i0 (4 * i) st1
        let st1 := mul_add_step n qj i0 (4 * i + 1) st1
        let st1 := mul_add_step n qj i0 (4 * i + 2) st1
        mul_add_step n qj i0 (4 * i + 3) st1) st)
    = forLoop 0 64 (mul_add_step n qj i0) st := by
  rw [forLoop_empty _ _ _ _ (le_refl _), forLoop_unroll4 (mul_add_step n qj i0) 16]

theorem mul64_lt (x y : Nat) : mul64 x y < 2 ^ 64 :=
  Nat.mod_lt _ (Nat.pos_pow_of_pos _ (by decide))

/-- One round of the outer loop of the Montgomery reduction, on values. -/
theorem mont_round_arith (P B R v vc N Q qj c0 c1 c0' v1 v2 t1j s : Nat)
    (hR : R = B * (R / B))
    (hdvd : P ∣ v) (hq : B ∣ v / P + qj * N) (hP : 0 < P)
    (hinv : v + c0 * (P * R) = vc + N * Q)
    (hinner : v1 + c1 * (P * R) = v + P * (qj * N))
    (hset : v2 + (P * R) * t1j = v1 + (P * R) * s)
    (hadd : s + B * c0' = c1 + t1j + c0) :
    P * B ∣ v2 ∧ v2 + c0' * (P * B * R) = vc + N * (Q + P * qj) := by
  have e1 : P * R * (s + B * c0') = P * R * (c1 + t1j + c0) := by rw [hadd]
  have main : v2 + c0' * (P * B * R) = vc + N * (Q + P * qj) := by linarith
  refine ⟨?_, main⟩
  obtain ⟨m, hm⟩ := hdvd
  have hm' : v / P = m := by rw [hm, Nat.mul_div_cancel_left _ hP]
  rw [hm'] at hq
  obtain ⟨w, hw⟩ := hq
  have e2 : v2 + c0' * (P * B * R) = P * B * w + P * B * (R / B) * c0 := by
    have e3 : P * R * c0 = P * B * (R / B) * c0 := by
      conv_lhs => rw [hR]
      ring
    have e4 : P * (m + qj * N) = P * (B * w) := by rw [hw]
    rw [main]
    linarith
  have d1 : P * B ∣ v2 + c0' * (P * B * R) := by
    rw [e2]
    exact Dvd.dvd.add (Dvd.intro w rfl) (Dvd.intro ((R / B) * c0) (by ring))
  have d2 : P * B ∣ c0' * (P * B * R) := Dvd.intro (c0' * R) (by ring)
  exact (Nat.dvd_add_left d2).1 d1

/-- The outer loop of the Montgomery reduction. -/
theorem mont_reduction_loop_spec (n : List Nat) (nInv : Nat) (c : List Nat)
    (hn : bn_wf 64 n) (hc : bn_wf 128 c) (hinv : (nInv * n.getD 0 0 + 1) % 2 ^ 64 = 0) :
    bn_wf 128 (mont_reduction_loop n nInv c).2
    ∧ (mont_reduction_loop n nInv c).1 ≤ 1
    ∧ 2 ^ (64 * 64) ∣ bn_v (mont_reduction_loop n nInv c).2
    ∧ ∃ Q, Q < 2 ^ (64 * 64)
      ∧ bn_v (mont_reduction_loop n nInv c).2
          + (mont_reduction_loop n nInv c).1 * (2 ^ (64 * 64) * 2 ^ (64 * 64))
        = bn_v c + bn_v n * Q := by
  unfold mont_reduction_loop
  simp only [mul_add_loops_eq]
  have key := forLoop_inv
    (fun i0 (st : Nat × List Nat) =>
      bn_wf 128 st.2 ∧ st.1 ≤ 1 ∧ 2 ^ (64 * i0) ∣ bn_v st.2
      ∧ ∃ Q, Q < 2 ^ (64 * i0)
        ∧ bn_v st.2 + st.1 * (2 ^ (64 * i0) * 2 ^ (64 * 64)) = bn_v c + bn_v n * Q)
    0 64 (fun i0 (st : Nat × List Nat) =>
      ((Lib_IntTypes_Intrinsics_add_carry_u64 st.1
          (forLoop 0 64 (mul_add_step n (mul64 nInv (st.2.getD i0 0)) i0) (0, st.2)).1
          ((forLoop 0 64 (mul_add_step n (mul64 nInv (st.2.getD i0 0)) i0) (0, st.2)).2.getD
            (64 + i0) 0)).1,
        (forLoop 0 64 (mul_add_step n (mul64 nInv (st.2.getD i0 0)) i0) (0, st.2)).2.set (64 + i0)
          (Lib_IntTypes_Intrinsics_add_carry_u64 st.1
            (forLoop 0 64 (mul_add_step n (mul64 nInv (st.2.getD i0 0)) i0) (0, st.2)).1
            ((forLoop 0 64 (mul_add_step n (mul64 nInv (st.2.getD i0 0)) i0) (0, st.2)).2.getD
              (64 + i0) 0)).2))
    (0, c) (Nat.zero_le _)
    ⟨hc, Nat.zero_le _, by rw [Nat.mul_zero, pow_zero]; exact one_dvd _, 0, Nat.two_pow_pos _,
      by rw [Nat.zero_mul, Nat.mul_zero]⟩
    (by
      rintro i0 ⟨c0, t⟩ _ hi0 ⟨h1, h2, h3, Q, hQ, h4⟩
      simp only at h1 h2 h3 h4 ⊢
      have hqj := mul64_lt nInv (t.getD i0 0)
      obtain ⟨a1, a2, a3⟩ := mul_add_loop_spec n (mul64 nInv (t.getD i0 0)) i0 t hn h1 hqj hi0
      have ht : t.getD i0 0 = bn_v t / 2 ^ (64 * i0) % 2 ^ 64 := getD_eq_div_mod h1 i0
      have hn0 : n.getD 0 0 = bn_v n % 2 ^ 64 := by
        rw [getD_eq_div_mod hn 0, Nat.mul_zero, pow_zero, Nat.div_one]
      have hq : 2 ^ 64 ∣ bn_v t / 2 ^ (64 * i0) + mul64 nInv (t.getD i0 0) * bn_v n := by
        rw [ht]
        exact mont_q_dvd (2 ^ 64) _ (bn_v n) nInv (by rw [← hn0]; exact hinv)
      generalize mul64 nInv (t.getD i0 0) = qj at *
      generalize (forLoop 0 64 (mul_add_step n qj i0) (0, t)).1 = c1 at *
      generalize (forLoop 0 64 (mul_add_step n qj i0) (0, t)).2 = t1 at *
      have hy := bn_wf_getD a1 (64 + i0)
      have e1 := add_carry_spec c0 c1 (t1.getD (64 + i0) 0)
      have e2 := add_carry_lt c0 c1 (t1.getD (64 + i0) 0)
      have e3 := add_carry_le c0 c1 (t1.getD (64 + i0) 0) h2 a2 hy
      have e4 := bn_v_set t1 (64 + i0) (Lib_IntTypes_Intrinsics_add_carry_u64 c0 c1
        (t1.getD (64 + i0) 0)).2 (by rw [a1.1]; omega)
      have ep : (2:Nat) ^ (64 * (i0 + 64)) = 2 ^ (64 * i0) * 2 ^ (64 * 64) := by
        rw [Nat.mul_add, pow_add]
      have ep' : (2:Nat) ^ (64 * (64 + i0)) = 2 ^ (64 * i0) * 2 ^ (64 * 64) := by
        rw [Nat.add_comm, ep]
      have ep2 : (2:Nat) ^ (64 * (i0 + 1)) = 2 ^ (64 * i0) * 2 ^ 64 := pow_succ_64 i0
      rw [ep] at a3
      rw [ep'] at e4
      have hR : (2:Nat) ^ (64 * 64) = 2 ^ 64 * (2 ^ (64 * 64) / 2 ^ 64) := by
        rw [Nat.mul_div_cancel' (pow_dvd_pow 2 (by omega))]
      have hPpos : 0 < (2:Nat) ^ (64 * i0) := Nat.two_pow_pos _
      have hBpos : 0 < (2:Nat) ^ 64 := Nat.two_pow_pos _
      rw [ep2]
      have hwf := bn_wf_set a1 (64 + i0) _ e2
      generalize Lib_IntTypes_Intrinsics_add_carry_u64 c0 c1 (t1.getD (64 + i0) 0) = r at *
      generalize bn_v (t1.set (64 + i0) r.2) = v2 at *
      generalize t1.getD (64 + i0) 0 = t1j at *
      generalize (2:Nat) ^ (64 * i0) = P at *
      generalize (2:Nat) ^ (64 * 64) = R at *
      generalize (2:Nat) ^ 64 = B at *
      have := mont_round_arith P B R (bn_v t) (bn_v c)
        (bn_v n) Q qj c0 c1 r.1 (bn_v t1) v2 t1j r.2 hR h3 hq
        hPpos h4 a3 e4 e1
      refine ⟨hwf, e3, this.1, Q + P * qj, ?_, this.2⟩
      have : P * (qj + 1) ≤ P * B := Nat.mul_le_mul_left _ hqj
      have e : P * (qj + 1) = P * qj + P := by ring
      omega)
  exact key

theorem bn_v_take_drop (l : List Nat) (k : Nat) (hk : k ≤ l.length) :
    bn_v l = bn_v (l.take k) + 2 ^ (64 * k) * bn_v (l.drop k) := by
  conv_lhs => rw [← List.take_append_drop k l]
  rw [bn_v_append, List.length_take, Nat.min_eq_left hk]

/-- `reduction` returns `c · 2^(−4096) mod n` for `c < n · 2^4096`. -/
theorem reduction_spec (n : List Nat) (nInv : Nat) (c res : List Nat)
    (hn : bn_wf 64 n) (hc : bn_wf 128 c) (hres : res.length = 64)
    (hinv : (nInv * n.getD 0 0 + 1) % 2 ^ 64 = 0)
    (hlt : bn_v c < bn_v n * 2 ^ (64 * 64)) :
    bn_wf 64 (reduction n nInv c res)
    ∧ bn_v (reduction n nInv c res) < bn_v n
    ∧ bn_v (reduction n nInv c res) * 2 ^ (64 * 64) % bn_v n = bn_v c % bn_v n := by
  unfold reduction
  simp only [sub_loops_eq]
  obtain ⟨a1, a2, a3, Q, hQ, a4⟩ := mont_reduction_loop_spec n nInv c hn hc hinv
  generalize (mont_reduction_loop n nInv c).1 = c0 at *
  generalize (mont_reduction_loop n nInv c).2 = t at *
  have hd : bn_wf 64 (t.drop 64) := bn_wf_drop 64 a1
  rw [memcpy_full res (t.drop 64) 64 hres hd.1]
  have hsplit := bn_v_take_drop t 64 (by rw [a1.1]; omega)
  have htk := bn_v_lt (bn_wf_take 64 a1 (by omega))
  have hnpos : 0 < bn_v n := by
    rcases Nat.eq_zero_or_pos (bn_v n) with h | h
    · rw [h, Nat.zero_mul] at hlt; exact absurd hlt (Nat.not_lt_zero _)
    · exact h
  have hlo : bn_v (t.take 64) = 0 := by
    rw [hsplit] at a3
    have : 2 ^ (64 * 64) ∣ bn_v (t.take 64) := (Nat.dvd_add_left (Dvd.intro _ rfl)).1 a3
    exact Nat.eq_zero_of_dvd_of_lt this htk
  rw [hlo, Nat.zero_add] at hsplit
  have hT : (bn_v (t.drop 64) + c0 * 2 ^ (64 * 64)) * 2 ^ (64 * 64)
      = bn_v c + bn_v n * Q := by
    rw [← a4, hsplit]; ring
  have hT2 : bn_v (t.drop 64) + c0 * 2 ^ (64 * 64) < 2 * bn_v n := by
    have h1 : bn_v n * Q < bn_v n * 2 ^ (64 * 64) := Nat.mul_lt_mul_of_pos_left hQ hnpos
    have h2 : (bn_v (t.drop 64) + c0 * 2 ^ (64 * 64)) * 2 ^ (64 * 64)
        < (2 * bn_v n) * 2 ^ (64 * 64) := by
      rw [hT]; linarith
    exact Nat.lt_of_mul_lt_mul_right h2
  obtain ⟨b1, b2⟩ := cond_sub_spec n (t.drop 64) c0 hn hd a2 hT2
  refine ⟨b1, ?_, ?_⟩
  · rw [b2]; exact Nat.mod_lt _ hnpos
  · rw [b2, Nat.mod_mul_mod, hT, Nat.add_mul_mod_self_left]

/-! ## The limb inverse -/

theorem zmod_two_pow_64 : ((2:ZMod (2 ^ 64)) ^ 64) = 0 := by
  have h := ZMod.natCast_self (2 ^ 64)
  push_cast at h
  exact h

theorem mul64_cast (x y : Nat) : ((mul64 x y : Nat) : ZMod (2 ^ 64)) = (x : ZMod (2 ^ 64)) * y := by
  unfold mul64
  rw [ZMod.natCast_mod]
  push_cast
  rfl

theorem sub64_cast (x y : Nat) (hy : y ≤ 2 ^ 64 + x) :
    ((sub64 x y : Nat) : ZMod (2 ^ 64)) = (x : ZMod (2 ^ 64)) - y := by
  unfold sub64
  have h : ((2 ^ 64 : Nat) : ZMod (2 ^ 64)) = 0 := ZMod.natCast_self _
  rw [ZMod.natCast_mod, Nat.cast_sub hy, Nat.cast_add, h, zero_add]

/-- The contract of `mod_inv_uint64`: `μ · n0 ≡ −1 (mod 2^64)` for odd `n0`. -/
theorem mod_inv_uint64_spec (n0 : Nat) (hodd : n0 % 2 = 1) :
    (Hacl_Bignum_ModInvLimb_mod_inv_uint64 n0 * n0 + 1) % 2 ^ 64 = 0 := by
  apply Nat.mod_eq_zero_of_dvd
  rw [← ZMod.natCast_zmod_eq_zero_iff_dvd]
  unfold Hacl_Bignum_ModInvLimb_mod_inv_uint64
  have step : ∀ y : Nat, (1 : ZMod (2 ^ 64)) - n0 * (mul64 y (sub64 2 (mul64 n0 y)) : Nat)
      = (1 - n0 * y) ^ 2 := by
    intro y
    rw [mul64_cast, sub64_cast _ _ (le_of_lt (Nat.lt_of_lt_of_le (mul64_lt _ _) (by omega))),
      mul64_cast]
    push_cast
    ring
  have hloop : ∀ k (y : Nat), (1 : ZMod (2 ^ 64))
      - n0 * (forLoop 0 k (fun _ y => mul64 y (sub64 2 (mul64 n0 y))) y : Nat)
      = (1 - n0 * y) ^ (2 ^ k) := by
    intro k y
    induction k with
    | zero => rw [forLoop_empty _ _ _ _ (le_refl _), pow_zero, pow_one]
    | succ j ih =>
      rw [forLoop_succ _ _ _ _ (Nat.zero_le _), step, ih, ← pow_mul, pow_succ 2 j]
  have h0 : (1 : ZMod (2 ^ 64)) - n0 * ((n0 % 2 ^ 64 : Nat) : ZMod (2 ^ 64))
      = 8 * (-(((n0 / 2) * (n0 / 2 + 1) / 2 : Nat) : ZMod (2 ^ 64))) := by
    rw [ZMod.natCast_mod]
    have e1 : n0 = 2 * (n0 / 2) + 1 := by omega
    have e2 : (n0 / 2) * (n0 / 2 + 1) = 2 * ((n0 / 2) * (n0 / 2 + 1) / 2) := by
      have := Nat.even_mul_succ_self (n0 / 2)
      obtain ⟨w, hw⟩ := this
      omega
    have e1' : (n0 : ZMod (2 ^ 64)) = 2 * ((n0 / 2 : Nat) : ZMod (2 ^ 64)) + 1 := by
      conv_lhs => rw [e1]
      push_cast; rfl
    have e2' : (((n0 / 2 : Nat) : ZMod (2 ^ 64))) * (((n0 / 2 : Nat) : ZMod (2 ^ 64)) + 1)
        = 2 * (((n0 / 2) * (n0 / 2 + 1) / 2 : Nat) : ZMod (2 ^ 64)) := by
      have := congrArg (fun z : Nat => (z : ZMod (2 ^ 64))) e2
      simp only at this
      push_cast at this
      exact this
    rw [e1']
    linear_combination (-4 : ZMod (2 ^ 64)) * e2'
  have h5 := hloop 5 (n0 % 2 ^ 64)
  rw [h0] at h5
  have hz : (8 * (-(((n0 / 2) * (n0 / 2 + 1) / 2 : Nat) : ZMod (2 ^ 64)))) ^ (2 ^ 5) = 0 := by
    rw [mul_pow]
    have : (8 : ZMod (2 ^ 64)) ^ (2 ^ 5) = 2 ^ 64 * 2 ^ 32 := by norm_num
    rw [this, zmod_two_pow_64, zero_mul, zero_mul]
  rw [hz] at h5
  have hy5 : forLoop 0 5 (fun _ y => mul64 y (sub64 2 (mul64 n0 y))) (n0 % 2 ^ 64) < 2 ^ 64 := by
    rw [forLoop_succ _ _ _ _ (Nat.zero_le _)]
    exact mul64_lt _ _
  show ((sub64 0 (forLoop 0 5 (fun _ y => mul64 y (sub64 2 (mul64 n0 y))) (n0 % 2 ^ 64)) * n0 + 1
    : Nat) : ZMod (2 ^ 64)) = 0
  generalize forLoop 0 5 (fun _ y => mul64 y (sub64 2 (mul64 n0 y))) (n0 % 2 ^ 64) = Y at *
  rw [Nat.cast_add, Nat.cast_mul, sub64_cast _ _ (le_of_lt (Nat.lt_of_lt_of_le hy5
    (Nat.le_add_right _ _)))]
  push_cast
  linear_combination h5

/-! ## The Montgomery domain -/

theorem mont_ctx_of_valid (n : List Nat) (hn : bn_wf 64 n) (hodd : bn_v n % 2 = 1)
    (h1 : 1 < bn_v n) : MontCtx n (Hacl_Bignum_ModInvLimb_mod_inv_uint64 (n.getD 0 0)) :=
  ⟨hn, hodd, h1, mod_inv_uint64_spec _ (by rw [← bn_v_mod_two]; exact hodd)⟩

theorem MontRep.lt {n : List Nat} {x : Nat} {xM : List Nat} (h : MontRep n x xM)
    (hpos : 0 < bn_v n) : bn_v xM < bn_v n := by
  rw [h.2]; exact Nat.mod_lt _ hpos

theorem MontRep.unique {n : List Nat} {x : Nat} {xM yM : List Nat} (h1 : MontRep n x xM)
    (h2 : MontRep n x yM) : xM = yM :=
  bn_v_inj h1.1 h2.1 (by rw [h1.2, h2.2])

theorem coprime_two_pow (n k : Nat) (hodd : n % 2 = 1) : Nat.gcd n (2 ^ k) = 1 := by
  have h2 : Nat.Coprime 2 n := by
    rw [Nat.Prime.coprime_iff_not_dvd Nat.prime_two]
    omega
  exact (Nat.Coprime.pow_left k h2).symm

theorem one_le_two_pow (k : Nat) : 1 ≤ 2 ^ k := Nat.one_le_two_pow

theorem coprime_R (n : Nat) (hodd : n % 2 = 1) : Nat.gcd n (2 ^ (64 * 64)) = 1 :=
  coprime_two_pow n (64 * 64) hodd

/-- From `r < n` and `r·R ≡ z·R (mod n)` conclude `r = z mod n`. -/
theorem mont_cancel (n r z : Nat) (hodd : n % 2 = 1) (hr : r < n)
    (h : r * 2 ^ (64 * 64) % n = z * 2 ^ (64 * 64) % n) : r = z % n := by
  have h1 : r ≡ z [MOD n] := Nat.ModEq.cancel_right_of_coprime (coprime_R n hodd) h
  have h2 : r % n = z % n := h1
  rw [Nat.mod_eq_of_lt hr] at h2
  exact h2

theorem karatsuba_mul_spec (a b : List Nat) (ha : bn_wf 64 a) (hb : bn_wf 64 b) :
    bn_wf 128 (Hacl_Bignum_Karatsuba_bn_karatsuba_mul_uint64 64 a b)
    ∧ bn_v (Hacl_Bignum_Karatsuba_bn_karatsuba_mul_uint64 64 a b) = bn_v a * bn_v b := by
  unfold Hacl_Bignum_Karatsuba_bn_karatsuba_mul_uint64
  rw [take_full a 64 (by rw [ha.1]), take_full b 64 (by rw [hb.1])]
  refine ⟨bn_wf_from_nat _ _, ?_⟩
  rw [bn_v_from_nat]
  apply Nat.mod_eq_of_lt
  have h1 := bn_v_lt ha
  have h2 := bn_v_lt hb
  have e : (2:Nat) ^ (64 * (2 * 64)) = 2 ^ (64 * 64) * 2 ^ (64 * 64) := by
    rw [← pow_add]
  rw [e]
  exact Nat.mul_lt_mul'' h1 h2

theorem karatsuba_sqr_eq (a : List Nat) :
    Hacl_Bignum_Karatsuba_bn_karatsuba_sqr_uint64 64 a
      = Hacl_Bignum_Karatsuba_bn_karatsuba_mul_uint64 64 a a := rfl

/-- `reduction` after a product of two values below `n`. -/
theorem reduction_mul_spec (n : List Nat) (nInv : Nat) (a b res : List Nat)
    (hctx : MontCtx n nInv) (ha : bn_wf 64 a) (hb : bn_wf 64 b) (hres : res.length = 64)
    (han : bn_v a < bn_v n) (hbn : bn_v b < bn_v n) :
    bn_wf 64 (reduction n nInv (Hacl_Bignum_Karatsuba_bn_karatsuba_mul_uint64 64 a b) res)
    ∧ bn_v (reduction n nInv (Hacl_Bignum_Karatsuba_bn_karatsuba_mul_uint64 64 a b) res)
        < bn_v n
    ∧ bn_v (reduction n nInv (Hacl_Bignum_Karatsuba_bn_karatsuba_mul_uint64 64 a b) res)
        * 2 ^ (64 * 64) % bn_v n = bn_v a * bn_v b % bn_v n := by
  obtain ⟨hn, _, _, hinv⟩ := hctx
  obtain ⟨c1, c2⟩ := karatsuba_mul_spec a b ha hb
  have hlt : bn_v (Hacl_Bignum_Karatsuba_bn_karatsuba_mul_uint64 64 a b)
      < bn_v n * 2 ^ (64 * 64) := by
    rw [c2]
    exact Nat.mul_lt_mul'' han (lt_trans hbn (bn_v_lt hn))
  have := reduction_spec n nInv _ res hn c1 hres hinv hlt
  rw [c2] at this
  exact this

/-- `mont_mul` multiplies in the Montgomery domain. -/
theorem mont_mul_spec (n : List Nat) (nInv : Nat) (x y : Nat) (xM yM res : List Nat)
    (hctx : MontCtx n nInv) (hx : MontRep n x xM) (hy : MontRep n y yM)
    (hres : res.length = 64) : MontRep n (x * y) (mont_mul n nInv xM yM res) := by
  have hpos : 0 < bn_v n := by have := hctx.2.2.1; omega
  obtain ⟨r1, r2, r3⟩ := reduction_mul_spec n nInv xM yM res hctx hx.1 hy.1 hres
    (hx.lt hpos) (hy.lt hpos)
  unfold mont_mul
  refine ⟨r1, ?_⟩
  apply mont_cancel _ _ _ hctx.2.1 r2
  rw [r3, hx.2, hy.2, ← Nat.mul_mod]
  have e : x * y * 2 ^ (64 * 64) * 2 ^ (64 * 64) = x * 2 ^ (64 * 64) * (y * 2 ^ (64 * 64)) := by
    ring
  rw [e]

/-- `mont_sqr` squares in the Montgomery domain. -/
theorem mont_sqr_spec (n : List Nat) (nInv : Nat) (x : Nat) (xM res : List Nat)
    (hctx : MontCtx n nInv) (hx : MontRep n x xM)
    (hres : res.length = 64) : MontRep n (x * x) (mont_sqr n nInv xM res) :=
  mont_mul_spec n nInv x x xM xM res hctx hx hx hres

/-- Entering the Montgomery domain: `reduction (a · r2)` with `r2 = 2^8192 mod n`. -/
theorem to_mont_spec (n : List Nat) (nInv : Nat) (a r2 res : List Nat)
    (hctx : MontCtx n nInv) (ha : bn_wf 64 a) (han : bn_v a < bn_v n)
    (hr2 : bn_wf 64 r2) (hr2v : bn_v r2 = 2 ^ 8192 % bn_v n) (hres : res.length = 64) :
    MontRep n (bn_v a) (reduction n nInv (Hacl_Bignum4096_mul a r2) res) := by
  have hpos : 0 < bn_v n := by have := hctx.2.2.1; omega
  obtain ⟨r1, r2', r3⟩ := reduction_mul_spec n nInv a r2 res hctx ha hr2 hres han
    (by rw [hr2v]; exact Nat.mod_lt _ hpos)
  unfold Hacl_Bignum4096_mul
  refine ⟨r1, ?_⟩
  apply mont_cancel _ _ _ hctx.2.1 r2'
  rw [r3, hr2v, Nat.mul_mod_mod]
  have e : bn_v a * 2 ^ 8192 = bn_v a * 2 ^ (64 * 64) * 2 ^ (64 * 64) := by
    rw [Nat.mul_assoc, ← pow_add]
  rw [e]

/-- Leaving the Montgomery domain: `reduction` of the zero-padded buffer. -/
theorem from_mont_spec (n : List Nat) (nInv : Nat) (x : Nat) (xM res : List Nat)
    (hctx : MontCtx n nInv) (hx : MontRep n x xM) (hres : res.length = 64) :
    bn_wf 64 (reduction n nInv (memcpy (List.replicate 128 0) xM 64) res)
    ∧ bn_v (reduction n nInv (memcpy (List.replicate 128 0) xM 64) res) = x % bn_v n := by
  have hpos : 0 < bn_v n := by have := hctx.2.2.1; omega
  obtain ⟨hn, hodd, _, hinv⟩ := hctx
  have hm : memcpy (List.replicate 128 0) xM 64 = xM ++ List.replicate 64 0 := by
    unfold memcpy
    rw [take_full xM 64 (by rw [hx.1.1]), List.drop_replicate]
  have hwf : bn_wf 128 (xM ++ List.replicate 64 0) :=
    bn_wf_append hx.1 (bn_wf_replicate_zero 64)
  have hv : bn_v (xM ++ List.replicate 64 0) = bn_v xM := by
    rw [bn_v_append, bn_v_replicate_zero, Nat.mul_zero, Nat.add_zero]
  rw [hm]
  obtain ⟨r1, r2, r3⟩ := reduction_spec n nInv _ res hn hwf hres hinv (by
    rw [hv]
    calc bn_v xM < bn_v n := hx.lt hpos
      _ = bn_v n * 1 := (Nat.mul_one _).symm
      _ ≤ bn_v n * 2 ^ (64 * 64) := Nat.mul_le_mul_left _ (one_le_two_pow (64 * 64)))
  refine ⟨r1, ?_⟩
  apply mont_cancel _ _ _ hodd r2
  rw [r3, hv, hx.2, Nat.mod_mod]

/-! ## Binary exponentiation -/

/-- Bits `[r, r + w)` of a limb taken modulo `2^64` are those of the whole value. -/
theorem limb_window (x r w : Nat) (h : r + w ≤ 64) :
    x % 2 ^ 64 / 2 ^ r % 2 ^ w = x / 2 ^ r % 2 ^ w := by
  have e : (2:Nat) ^ 64 = 2 ^ r * 2 ^ (64 - r) := by
    rw [← pow_add]; congr 1; omega
  rw [e, Nat.mod_mul_right_div_self, Nat.mod_mod_of_dvd]
  exact pow_dvd_pow 2 (by omega)

/-- The exponent bit read by the binary methods. -/
theorem bn_bit (len : Nat) (b : List Nat) (hb : bn_wf len b) (i : Nat) :
    (b.getD (i / 64) 0 >>> (i % 64)) &&& 1 = bn_v b / 2 ^ i % 2 := by
  rw [Nat.and_one_is_mod, Nat.shiftRight_eq_div_pow, getD_eq_div_mod hb (i / 64)]
  have h := limb_window (bn_v b / 2 ^ (64 * (i / 64))) (i % 64) 1
    (by have := Nat.mod_lt i (show 0 < 64 by decide); omega)
  rw [pow_one] at h
  rw [h, Nat.div_div_eq_div_mul, ← pow_add, Nat.div_add_mod]

theorem one_rep (n : List Nat) (nInv : Nat) (r2 res : List Nat)
    (hctx : MontCtx n nInv) (hr2 : bn_wf 64 r2) (hr2v : bn_v r2 = 2 ^ 8192 % bn_v n)
    (hres : res.length = 64) :
    MontRep n 1 (reduction n nInv (Hacl_Bignum4096_mul ((List.replicate 64 0).set 0 1) r2) res) := by
  have := to_mont_spec n nInv _ r2 res hctx bn_one_wf (by rw [bn_one_v]; exact hctx.2.2.1)
    hr2 hr2v hres
  rw [bn_one_v] at this
  exact this

theorem MontRep.length {n : List Nat} {x : Nat} {xM : List Nat} (h : MontRep n x xM) :
    xM.length = 64 := h.1.1

/-- The loop of `mod_exp_bm_vartime_precompr2`. -/
theorem bm_vartime_loop_spec (n : List Nat) (nInv : Nat) (a : Nat) (bBits : Nat) (len : Nat)
    (b aM accM : List Nat) (hctx : MontCtx n nInv) (hb : bn_wf len b)
    (haM : MontRep n a aM) (hacc : MontRep n 1 accM) :
    MontRep n (a ^ (bn_v b % 2 ^ bBits))
      (forLoop 0 bBits (fun i (st : List Nat × List Nat) =>
        let aM := st.1
        let accM := st.2
        let i1 := i / 64
        let j := i % 64
        let tmp := b.getD i1 0
        let bit := (tmp >>> j) &&& 1
        let accM := if ¬ (bit = 0) then mont_mul n nInv accM aM accM else accM
        let aM := mont_sqr n nInv aM aM
        (aM, accM)) (aM, accM)).2 := by
  have key := forLoop_inv
    (fun k (st : List Nat × List Nat) =>
      MontRep n (a ^ (2 ^ k)) st.1 ∧ MontRep n (a ^ (bn_v b % 2 ^ k)) st.2)
    0 bBits (fun i (st : List Nat × List Nat) =>
        let aM := st.1
        let accM := st.2
        let i1 := i / 64
        let j := i % 64
        let tmp := b.getD i1 0
        let bit := (tmp >>> j) &&& 1
        let accM := if ¬ (bit = 0) then mont_mul n nInv accM aM accM else accM
        let aM := mont_sqr n nInv aM aM
        (aM, accM)) (aM, accM) (Nat.zero_le _)
    ⟨by rw [pow_zero, pow_one]; exact haM, by rw [pow_zero, Nat.mod_one, pow_zero]; exact hacc⟩
    (by
      rintro i ⟨xM, yM⟩ _ _ ⟨h1, h2⟩
      simp only at h1 h2 ⊢
      rw [bn_bit len b hb i]
      have hsplit : bn_v b % 2 ^ (i + 1) = bn_v b % 2 ^ i + 2 ^ i * (bn_v b / 2 ^ i % 2) :=
        Nat.mod_pow_succ
      constructor
      · have := mont_sqr_spec n nInv _ xM xM hctx h1 h1.length
        rw [← pow_add, ← Nat.two_mul, ← pow_succ'] at this
        exact this
      · have hbit : bn_v b / 2 ^ i % 2 = 0 ∨ bn_v b / 2 ^ i % 2 = 1 := by omega
        rcases hbit with h | h
        · rw [hsplit, h, Nat.mul_zero, Nat.add_zero]
          simp only [not_true_eq_false, if_false]
          exact h2
        · rw [hsplit, h, Nat.mul_one]
          simp only [one_ne_zero, not_false_eq_true, if_true]
          have := mont_mul_spec n nInv _ _ yM xM yM hctx h2 h1 h2.length
          rw [← pow_add] at this
          exact this)
  exact key.2

/-- The conditional swap loop with `sw = 0` leaves both buffers alone. -/
theorem cswap_loop_zero (aM accM : List Nat) :
    cswap_loop 0 (aM, accM) = (aM, accM) := by
  unfold cswap_loop
  exact forLoop_inv (fun _ (st : List Nat × List Nat) => st = (aM, accM))
    0 64 _ (aM, accM) (Nat.zero_le _) rfl
    (by
      intro i st _ _ hst
      subst hst
      simp only [sub64_zero_zero, Nat.zero_and, Nat.xor_zero, set_getD_self])

theorem xor_swap_left (x y : Nat) (hx : x < 2 ^ 64) (hy : y < 2 ^ 64) :
    x ^^^ (ones64 &&& (x ^^^ y)) = y := by
  rw [ones64_and _ (Nat.xor_lt_two_pow hx hy), ← Nat.xor_assoc, Nat.xor_self, Nat.zero_xor]

theorem xor_swap_right (x y : Nat) (hx : x < 2 ^ 64) (hy : y < 2 ^ 64) :
    y ^^^ (ones64 &&& (x ^^^ y)) = x := by
  rw [Nat.xor_comm x y, xor_swap_left y x hy hx]

/-- The conditional swap loop with `sw = 1` exchanges the two buffers. -/
theorem cswap_loop_one (aM accM : List Nat) (ha : bn_wf 64 aM) (hacc : bn_wf 64 accM) :
    cswap_loop 1 (aM, accM) = (accM, aM) := by
  unfold cswap_loop
  have key := forLoop_inv
    (fun k (st : List Nat × List Nat) =>
      st.1.length = 64 ∧ st.2.length = 64
      ∧ st.1.take k = accM.take k ∧ st.1.drop k = aM.drop k
      ∧ st.2.take k = aM.take k ∧ st.2.drop k = accM.drop k)
    0 64 (fun i (st : List Nat × List Nat) =>
      let aM := st.1
      let accM := st.2
      let dummy := sub64 0 1 &&& (accM.getD i 0 ^^^ aM.getD i 0)
      let accM := accM.set i (accM.getD i 0 ^^^ dummy)
      let aM := aM.set i (aM.getD i 0 ^^^ dummy)
      (aM, accM)) (aM, accM) (Nat.zero_le _)
    ⟨ha.1, hacc.1, rfl, rfl, rfl, rfl⟩
    (by
      rintro i ⟨x, y⟩ _ hi ⟨l1, l2, h1, h2, h3, h4⟩
      simp only at l1 l2 h1 h2 h3 h4 ⊢
      have ex : x.getD i 0 = aM.getD i 0 := getD_of_drop_eq x aM i h2 i (le_refl _)
      have ey : y.getD i 0 = accM.getD i 0 := getD_of_drop_eq y accM i h4 i (le_refl _)
      rw [ex, ey, sub64_zero_one, xor_swap_left _ _ (bn_wf_getD hacc i) (bn_wf_getD ha i),
        xor_swap_right _ _ (bn_wf_getD hacc i) (bn_wf_getD ha i)]
      refine ⟨by simp [l1], by simp [l2], ?_, ?_, ?_, ?_⟩
      · rw [take_set_succ x i _ (by omega), h1, take_succ_getD accM i (by rw [hacc.1]; exact hi)]
      · rw [drop_set_succ, ← List.drop_drop 1 i x, h2, List.drop_drop]
      · rw [take_set_succ y i _ (by omega), h3, take_succ_getD aM i (by rw [ha.1]; exact hi)]
      · rw [drop_set_succ, ← List.drop_drop 1 i y, h4, List.drop_drop])
  obtain ⟨l1, l2, h1, _, h3, _⟩ := key
  rw [take_full _ _ (by omega), take_full _ _ (by rw [hacc.1])] at h1
  rw [take_full _ _ (by omega), take_full _ _ (by rw [ha.1])] at h3
  exact Prod.ext h1 h3

theorem sub32_sub32_one (bBits i0 : Nat) (h1 : i0 < bBits) (h2 : bBits < 2 ^ 32) :
    sub32 (sub32 bBits i0) 1 = bBits - i0 - 1 := by
  unfold sub32; omega

theorem ladder_sqr_lo (n : List Nat) (nInv a k : Nat) (p : List Nat) (hctx : MontCtx n nInv)
    (h0 : MontRep n (a ^ k) p) : MontRep n (a ^ (2 * k + 0)) (mont_sqr n nInv p p) := by
  have e : a ^ (2 * k + 0) = a ^ k * a ^ k := by rw [Nat.add_zero, Nat.two_mul, pow_add]
  rw [e]
  exact mont_sqr_spec n nInv (a ^ k) p p hctx h0 h0.1.1

theorem ladder_sqr_hi (n : List Nat) (nInv a k : Nat) (q : List Nat) (hctx : MontCtx n nInv)
    (h1 : MontRep n (a ^ (k + 1)) q) : MontRep n (a ^ (2 * k + 1 + 1)) (mont_sqr n nInv q q) := by
  have e : a ^ (2 * k + 1 + 1) = a ^ (k + 1) * a ^ (k + 1) := by
    rw [← pow_add, ← Nat.two_mul, Nat.mul_add]
  rw [e]
  exact mont_sqr_spec n nInv (a ^ (k + 1)) q q hctx h1 h1.1.1

theorem ladder_mul (n : List Nat) (nInv a k : Nat) (p q res : List Nat) (hctx : MontCtx n nInv)
    (h0 : MontRep n (a ^ k) p) (h1 : MontRep n (a ^ (k + 1)) q) (hres : res.length = 64) :
    MontRep n (a ^ (2 * k + 1)) (mont_mul n nInv p q res) := by
  have e : a ^ (2 * k + 1) = a ^ k * a ^ (k + 1) := by
    rw [← pow_add, Nat.two_mul, Nat.add_assoc]
  rw [e]
  exact mont_mul_spec n nInv (a ^ k) (a ^ (k + 1)) p q res hctx h0 h1 hres

theorem ladder_mul' (n : List Nat) (nInv a k : Nat) (p q res : List Nat) (hctx : MontCtx n nInv)
    (h0 : MontRep n (a ^ k) p) (h1 : MontRep n (a ^ (k + 1)) q) (hres : res.length = 64) :
    MontRep n (a ^ (2 * k + 1)) (mont_mul n nInv q p res) := by
  have e : a ^ (2 * k + 1) = a ^ (k + 1) * a ^ k := by
    rw [← pow_add, Nat.two_mul, Nat.add_assoc, Nat.add_comm]
  rw [e]
  exact mont_mul_spec n nInv (a ^ (k + 1)) (a ^ k) q p res hctx h1 h0 hres

theorem xor_bits : (0 ^^^ 0 : Nat) = 0 ∧ (1 ^^^ 0 : Nat) = 1 ∧ (0 ^^^ 1 : Nat) = 1
    ∧ (1 ^^^ 1 : Nat) = 0 := by decide

theorem ladder_step_00 (n : List Nat) (nInv a k : Nat) (xM yM : List Nat)
    (hctx : MontCtx n nInv) (h1 : MontRep n (a ^ k) yM) (h2 : MontRep n (a ^ (k + 1)) xM) :
    LadderInv n a (2 * k + 0)
      ((mont_mul n nInv (cswap_loop (0 ^^^ 0) (xM, yM)).1 (cswap_loop (0 ^^^ 0) (xM, yM)).2
          (cswap_loop (0 ^^^ 0) (xM, yM)).1,
        mont_sqr n nInv (cswap_loop (0 ^^^ 0) (xM, yM)).2 (cswap_loop (0 ^^^ 0) (xM, yM)).2),
        0) := by
  unfold LadderInv
  simp only [xor_bits.1, cswap_loop_zero]
  exact Or.inl ⟨trivial, ladder_sqr_lo n nInv a k yM hctx h1,
    ladder_mul' n nInv a k yM xM xM hctx h1 h2 h2.1.1⟩

theorem ladder_step_10 (n : List Nat) (nInv a k : Nat) (xM yM : List Nat)
    (hctx : MontCtx n nInv) (h1 : MontRep n (a ^ k) yM) (h2 : MontRep n (a ^ (k + 1)) xM) :
    LadderInv n a (2 * k + 1)
      ((mont_mul n nInv (cswap_loop (1 ^^^ 0) (xM, yM)).1 (cswap_loop (1 ^^^ 0) (xM, yM)).2
          (cswap_loop (1 ^^^ 0) (xM, yM)).1,
        mont_sqr n nInv (cswap_loop (1 ^^^ 0) (xM, yM)).2 (cswap_loop (1 ^^^ 0) (xM, yM)).2),
        1) := by
  unfold LadderInv
  simp only [xor_bits.2.1, cswap_loop_one xM yM h2.1 h1.1]
  exact Or.inr ⟨trivial, ladder_mul n nInv a k yM xM yM hctx h1 h2 h1.1.1,
    ladder_sqr_hi n nInv a k xM hctx h2⟩

theorem ladder_step_01 (n : List Nat) (nInv a k : Nat) (xM yM : List Nat)
    (hctx : MontCtx n nInv) (h1 : MontRep n (a ^ k) xM) (h2 : MontRep n (a ^ (k + 1)) yM) :
    LadderInv n a (2 * k + 0)
      ((mont_mul n nInv (cswap_loop (0 ^^^ 1) (xM, yM)).1 (cswap_loop (0 ^^^ 1) (xM, yM)).2
          (cswap_loop (0 ^^^ 1) (xM, yM)).1,
        mont_sqr n nInv (cswap_loop (0 ^^^ 1) (xM, yM)).2 (cswap_loop (0 ^^^ 1) (xM, yM)).2),
        0) := by
  unfold LadderInv
  simp only [xor_bits.2.2.1, cswap_loop_one xM yM h1.1 h2.1]
  exact Or.inl ⟨trivial, ladder_sqr_lo n nInv a k xM hctx h1,
    ladder_mul' n nInv a k xM yM yM hctx h1 h2 h2.1.1⟩

theorem ladder_step_11 (n : List Nat) (nInv a k : Nat) (xM yM : List Nat)
    (hctx : MontCtx n nInv) (h1 : MontRep n (a ^ k) xM) (h2 : MontRep n (a ^ (k + 1)) yM) :
    LadderInv n a (2 * k + 1)
      ((mont_mul n nInv (cswap_loop (1 ^^^ 1) (xM, yM)).1 (cswap_loop (1 ^^^ 1) (xM, yM)).2
          (cswap_loop (1 ^^^ 1) (xM, yM)).1,
        mont_sqr n nInv (cswap_loop (1 ^^^ 1) (xM, yM)).2 (cswap_loop (1 ^^^ 1) (xM, yM)).2),
        1) := by
  unfold LadderInv
  simp only [xor_bits.2.2.2, cswap_loop_zero]
  exact Or.inr ⟨trivial, ladder_mul n nInv a k xM yM xM hctx h1 h2 h1.1.1,
    ladder_sqr_hi n nInv a k yM hctx h2⟩

/-- One round of the Montgomery ladder. -/
theorem ladder_step (n : List Nat) (nInv a k bit : Nat) (st : (List Nat × List Nat) × Nat)
    (hctx : MontCtx n nInv) (hbit : bit = 0 ∨ bit = 1) (h : LadderInv n a k st) :
    LadderInv n a (2 * k + bit)
      ((mont_mul n nInv (cswap_loop (bit ^^^ st.2) st.1).1 (cswap_loop (bit ^^^ st.2) st.1).2
          (cswap_loop (bit ^^^ st.2) st.1).1,
        mont_sqr n nInv (cswap_loop (bit ^^^ st.2) st.1).2 (cswap_loop (bit ^^^ st.2) st.1).2),
        bit) := by
  obtain ⟨⟨xM, yM⟩, sw⟩ := st
  rcases h with ⟨hs, h1, h2⟩ | ⟨hs, h1, h2⟩
  · have hs' : sw = 0 := hs
    subst hs'
    rcases hbit with rfl | rfl
    · exact ladder_step_00 n nInv a k xM yM hctx h1 h2
    · exact ladder_step_10 n nInv a k xM yM hctx h1 h2
  · have hs' : sw = 1 := hs
    subst hs'
    rcases hbit with rfl | rfl
    · exact ladder_step_01 n nInv a k xM yM hctx h1 h2
    · exact ladder_step_11 n nInv a k xM yM hctx h1 h2

/-- The loop of `mod_exp_bm_consttime_precompr2` followed by the final swap. -/
theorem bm_consttime_loop_spec (n : List Nat) (nInv : Nat) (a : Nat) (bBits : Nat) (len : Nat)
    (b aM accM : List Nat) (hctx : MontCtx n nInv) (hb : bn_wf len b)
    (hbBits : bBits < 2 ^ 32) (hblt : bn_v b < 2 ^ bBits)
    (haM : MontRep n a aM) (hacc : MontRep n 1 accM) :
    MontRep n (a ^ bn_v b)
      (cswap_loop
        (forLoop 0 bBits (fun i0 (st : (List Nat × List Nat) × Nat) =>
          let sw := st.2
          let i1 := sub32 (sub32 bBits i0) 1 / 64
          let j := sub32 (sub32 bBits i0) 1 % 64
          let tmp := b.getD i1 0
          let bit := (tmp >>> j) &&& 1
          let sw1 := bit ^^^ sw
          let sw_st := cswap_loop sw1 st.1
          let aM := sw_st.1
          let accM := sw_st.2
          let aM := mont_mul n nInv aM accM aM
          let accM := mont_sqr n nInv accM accM
          ((aM, accM), bit)) ((aM, accM), 0)).2
        (forLoop 0 bBits (fun i0 (st : (List Nat × List Nat) × Nat) =>
          let sw := st.2
          let i1 := sub32 (sub32 bBits i0) 1 / 64
          let j := sub32 (sub32 bBits i0) 1 % 64
          let tmp := b.getD i1 0
          let bit := (tmp >>> j) &&& 1
          let sw1 := bit ^^^ sw
          let sw_st := cswap_loop sw1 st.1
          let aM := sw_st.1
          let accM := sw_st.2
          let aM := mont_mul n nInv aM accM aM
          let accM := mont_sqr n nInv accM accM
          ((aM, accM), bit)) ((aM, accM), 0)).1).2 := by
  have key := forLoop_inv
    (fun i0 (st : (List Nat × List Nat) × Nat) =>
      LadderInv n a (bn_v b / 2 ^ (bBits - i0)) st)
    0 bBits (fun i0 (st : (List Nat × List Nat) × Nat) =>
          let sw := st.2
          let i1 := sub32 (sub32 bBits i0) 1 / 64
          let j := sub32 (sub32 bBits i0) 1 % 64
          let tmp := b.getD i1 0
          let bit := (tmp >>> j) &&& 1
          let sw1 := bit ^^^ sw
          let sw_st := cswap_loop sw1 st.1
          let aM := sw_st.1
          let accM := sw_st.2
          let aM := mont_mul n nInv aM accM aM
          let accM := mont_sqr n nInv accM accM
          ((aM, accM), bit)) ((aM, accM), 0) (Nat.zero_le _)
    (by
      left
      rw [Nat.sub_zero, Nat.div_eq_of_lt hblt, pow_zero, Nat.zero_add, pow_one]
      exact ⟨rfl, hacc, haM⟩)
    (by
      intro i0 st _ hi0 h
      simp only
      rw [sub32_sub32_one bBits i0 hi0 hbBits, bn_bit len b hb]
      have e : bBits - i0 = (bBits - i0 - 1) + 1 := by omega
      have ek : bn_v b / 2 ^ (bBits - (i0 + 1))
          = 2 * (bn_v b / 2 ^ (bBits - i0)) + bn_v b / 2 ^ (bBits - i0 - 1) % 2 := by
        have e' : bBits - (i0 + 1) = bBits - i0 - 1 := by omega
        rw [e', e, pow_succ, ← Nat.div_div_eq_div_mul, Nat.add_sub_cancel]
        generalize bn_v b / 2 ^ (bBits - i0 - 1) = z
        omega
      rw [ek]
      exact ladder_step n nInv a _ _ st hctx (by omega) h)
  beta_reduce at key
  rw [Nat.sub_self, pow_zero, Nat.div_one] at key
  generalize forLoop 0 bBits _ ((aM, accM), 0) = st at *
  obtain ⟨⟨xM, yM⟩, sw⟩ := st
  rcases key with ⟨hs, h1, h2⟩ | ⟨hs, h1, h2⟩ <;> simp only at hs h1 h2 <;> subst hs
  · rw [cswap_loop_zero]; exact h1
  · rw [cswap_loop_one xM yM h1.1 h2.1]; exact h1

/-! ## Fixed-window exponentiation: the window value -/

theorem two_pow_64_split (j : Nat) (hj : j ≤ 64) : (2:Nat) ^ 64 = 2 ^ j * 2 ^ (64 - j) := by
  rw [← pow_add]; congr 1; omega

theorem window_arith (V M D E : Nat) (hM : M = D * E) (hD : 0 < D) (hE : 0 < E) :
    V % M / D < E ∧ (V / M % M) * E % M = E * (V / M % D)
    ∧ V / D % M = E * (V / M % D) + V % M / D := by
  subst hM
  refine ⟨?_, ?_, ?_⟩
  · rw [Nat.div_lt_iff_lt_mul hD, Nat.mul_comm E D]
    exact Nat.mod_lt _ (Nat.mul_pos hD hE)
  · rw [Nat.mul_mod_mul_right, Nat.mod_mod_of_dvd _ (Dvd.intro E rfl), Nat.mul_comm]
  · rw [Nat.mul_comm D E, Nat.mod_mul, Nat.div_div_eq_div_mul, Nat.mul_comm E D,
      Nat.mod_mul_right_div_self, Nat.add_comm]

/-- Bits `[j, j + 64)` of `V`, assembled from its two low limbs. -/
theorem window_two_limbs (V j : Nat) (hj : j < 64) :
    (V % 2 ^ 64) >>> j ||| shl64 (V / 2 ^ 64 % 2 ^ 64) (64 - j) = V / 2 ^ j % 2 ^ 64 := by
  obtain ⟨h1, h2, h3⟩ := window_arith V (2 ^ 64) (2 ^ j) (2 ^ (64 - j))
    (two_pow_64_split j (le_of_lt hj)) (Nat.two_pow_pos _) (Nat.two_pow_pos _)
  unfold shl64
  rw [Nat.shiftRight_eq_div_pow, Nat.shiftLeft_eq, h2, h3, Nat.or_comm,
    ← Nat.mul_add_lt_is_or h1]

/-- The word the fixed-window routines extract at bit position `64·i1 + j`. -/
theorem fw_window_spec (bLen : Nat) (b : List Nat) (hb : bn_wf bLen b) (i1 j : Nat)
    (hi1 : i1 < bLen) (hj : j < 64) (hbl : bLen < 2 ^ 32) :
    fw_window bLen b i1 j = bn_v b / 2 ^ (64 * i1 + j) % 2 ^ 64 := by
  unfold fw_window
  have ha : add32 i1 1 = i1 + 1 := by unfold add32; omega
  have e0 : bn_v b / 2 ^ (64 * i1 + j) = bn_v b / 2 ^ (64 * i1) / 2 ^ j := by
    rw [pow_add, Nat.div_div_eq_div_mul]
  have e1 : b.getD i1 0 = bn_v b / 2 ^ (64 * i1) % 2 ^ 64 := getD_eq_div_mod hb i1
  have e2 : b.getD (i1 + 1) 0 = bn_v b / 2 ^ (64 * i1) / 2 ^ 64 % 2 ^ 64 := by
    rw [getD_eq_div_mod hb (i1 + 1), pow_succ_64, Nat.div_div_eq_div_mul]
  have hV : i1 + 1 = bLen → bn_v b / 2 ^ (64 * i1) < 2 ^ 64 := by
    intro hi
    have hlt := bn_v_lt hb
    rw [← hi, pow_succ_64] at hlt
    exact (Nat.div_lt_iff_lt_mul (Nat.two_pow_pos _)).2 (by rw [Nat.mul_comm]; exact hlt)
  simp only
  rw [ha, e0, e1, e2]
  generalize bn_v b / 2 ^ (64 * i1) = V at *
  by_cases hc : i1 + 1 < bLen ∧ 0 < j
  · rw [if_pos hc]
    exact window_two_limbs V j hj
  · rw [if_neg hc, Nat.shiftRight_eq_div_pow]
    by_cases hj0 : j = 0
    · subst hj0
      rw [pow_zero, Nat.div_one, Nat.div_one]
    · have hi : i1 + 1 = bLen := by
        by_contra hne
        exact hc ⟨by omega, Nat.pos_of_ne_zero hj0⟩
      have hV := hV hi
      rw [Nat.mod_eq_of_lt hV, Nat.mod_eq_of_lt (lt_of_le_of_lt (Nat.div_le_self _ _) hV)]

theorem mask_l_eq (w : Nat) (hw : w < 64) : sub64 (shl64 1 w) 1 = 2 ^ w - 1 := by
  rw [shl64_one w hw]
  unfold sub64
  have h1 : 1 ≤ 2 ^ w := one_le_two_pow w
  have h2 : 2 ^ w < 2 ^ 64 := Nat.pow_lt_pow_right (by decide) hw
  generalize (2:Nat) ^ w = P at *
  omega

/-- The window value: `w` bits of the exponent at position `64·i1 + j`. -/
theorem fw_bits_spec (bLen : Nat) (b : List Nat) (hb : bn_wf bLen b) (i1 j w : Nat)
    (hi1 : i1 < bLen) (hj : j < 64) (hbl : bLen < 2 ^ 32) (hw : w < 64) :
    fw_window bLen b i1 j &&& sub64 (shl64 1 w) 1 = bn_v b / 2 ^ (64 * i1 + j) % 2 ^ w := by
  rw [mask_l_eq w hw, Nat.and_pow_two_sub_one_eq_mod, fw_window_spec bLen b hb i1 j hi1 hj hbl,
    Nat.mod_mod_of_dvd _ (pow_dvd_pow 2 (le_of_lt hw))]

/-! ## Fixed-window exponentiation: the table -/

theorem getElem?_subBuf (buf : List Nat) (off len i : Nat) :
    (subBuf buf off len)[i]? = if i < len then buf[off + i]? else none := by
  unfold subBuf
  rw [List.getElem?_take, List.getElem?_drop]

theorem getElem?_blit (buf src : List Nat) (off len i : Nat) (hoff : off + len ≤ buf.length)
    (hsrc : src.length = len) :
    (blit buf off src len)[i]?
      = if off ≤ i ∧ i < off + len then src[i - off]? else buf[i]? := by
  unfold blit
  have h1 : (buf.take off).length = off := by rw [List.length_take]; omega
  have h2 : (src.take len).length = len := by rw [List.length_take]; omega
  by_cases c1 : i < off
  · rw [List.getElem?_append_left (by omega), List.getElem?_take_of_lt c1, if_neg (by omega)]
  · rw [List.getElem?_append_right (by omega), h1]
    by_cases c2 : i < off + len
    · rw [List.getElem?_append_left (by omega), List.getElem?_take_of_lt (by omega),
        if_pos ⟨by omega, c2⟩]
    · rw [List.getElem?_append_right (by omega), h2, List.getElem?_drop, if_neg (by omega)]
      have e : off + len + (i - off - len) = i := by omega
      rw [e]

theorem blit_length (buf src : List Nat) (off len : Nat) (hoff : off + len ≤ buf.length)
    (hsrc : src.length = len) : (blit buf off src len).length = buf.length := by
  unfold blit
  rw [List.length_append, List.length_append, List.length_take, List.length_take,
    List.length_drop]
  omega

theorem subBuf_blit_same (buf src : List Nat) (off len : Nat) (hoff : off + len ≤ buf.length)
    (hsrc : src.length = len) : subBuf (blit buf off src len) off len = src := by
  apply List.ext_getElem?
  intro i
  rw [getElem?_subBuf, getElem?_blit buf src off len _ hoff hsrc]
  by_cases c : i < len
  · rw [if_pos c, if_pos ⟨by omega, by omega⟩]
    have e : off + i - off = i := by omega
    rw [e]
  · rw [if_neg c, List.getElem?_eq_none (by omega)]

theorem subBuf_blit_below (buf src : List Nat) (off len off' len' : Nat)
    (hoff : off + len ≤ buf.length) (hsrc : src.length = len) (h : off' + len' ≤ off) :
    subBuf (blit buf off src len) off' len' = subBuf buf off' len' := by
  apply List.ext_getElem?
  intro i
  rw [getElem?_subBuf, getElem?_subBuf]
  by_cases c : i < len'
  · rw [if_pos c, if_pos c, getElem?_blit buf src off len _ hoff hsrc, if_neg (by omega)]
  · rw [if_neg c, if_neg c]

theorem subBuf_length (buf : List Nat) (off len : Nat) (h : off + len ≤ buf.length) :
    (subBuf buf off len).length = len := by
  unfold subBuf
  rw [List.length_take, List.length_drop]
  omega

theorem memcpy_eq_blit (dst src : List Nat) (len : Nat) : memcpy dst src len = blit dst 0 src len := by
  unfold memcpy blit
  rw [List.take_zero, List.nil_append, Nat.zero_add]

/-- The table of the fixed-window routines holds the Montgomery powers `a^0 … a^15`. -/
theorem fw_table_spec (n : List Nat) (nInv a : Nat) (aM accM : List Nat)
    (hctx : MontCtx n nInv) (haM : MontRep n a aM) (hacc : MontRep n 1 accM) :
    (fw_table 4 n nInv aM accM).length = 1024
    ∧ ∀ k, k < 16 → MontRep n (a ^ k) (subBuf (fw_table 4 n nInv aM accM) (k * 64) 64) := by
  unfold fw_table
  have e1 : shl32 1 4 = 16 := by decide
  have e2 : mul32 16 64 = 1024 := by decide
  have e3 : sub32 16 2 = 14 := by decide
  simp only [e1, e2, e3]
  rw [memcpy_eq_blit]
  have l0 : (List.replicate 1024 0).length = 1024 := List.length_replicate _ _
  have l1 : (blit (List.replicate 1024 0) 0 accM 64).length = 1024 := by
    rw [blit_length _ _ _ _ (by rw [l0]; omega) hacc.1.1, l0]
  have l2 : (blit (blit (List.replicate 1024 0) 0 accM 64) 64 aM 64).length = 1024 := by
    rw [blit_length _ _ _ _ (by rw [l1]; decide) haM.1.1, l1]
  have key := forLoop_inv
    (fun i (table : List Nat) =>
      table.length = 1024 ∧ ∀ k, k < i + 2 → MontRep n (a ^ k) (subBuf table (k * 64) 64))
    0 14 (fun i table =>
      blit table ((i + 2) * 64)
        (mont_mul n nInv (subBuf table ((i + 1) * 64) 64) aM (subBuf table ((i + 2) * 64) 64)) 64)
    (blit (blit (List.replicate 1024 0) 0 accM 64) 64 aM 64) (Nat.zero_le _)
    ⟨l2, by
      intro k hk
      have hk' : k = 0 ∨ k = 1 := by omega
      rcases hk' with rfl | rfl
      · rw [subBuf_blit_below _ _ _ _ _ _ (by rw [l1]; decide) haM.1.1 (by omega),
          subBuf_blit_same _ _ _ _ (by rw [l0]; omega) hacc.1.1, pow_zero]
        exact hacc
      · rw [subBuf_blit_same _ _ _ _ (by rw [l1]; decide) haM.1.1, pow_one]
        exact haM⟩
    (by
      intro i table _ hi h
      obtain ⟨hl, h⟩ := h
      have hr := mont_mul_spec n nInv (a ^ (i + 1)) a (subBuf table ((i + 1) * 64) 64) aM
        (subBuf table ((i + 2) * 64) 64) hctx (h (i + 1) (by omega)) haM
        (subBuf_length _ _ _ (by rw [hl]; omega))
      rw [← pow_succ] at hr
      refine ⟨by rw [blit_length _ _ _ _ (by rw [hl]; omega) hr.1.1, hl], ?_⟩
      intro k hk
      by_cases c : k = i + 2
      · subst c
        rw [subBuf_blit_same _ _ _ _ (by rw [hl]; omega) hr.1.1]
        exact hr
      · rw [subBuf_blit_below _ _ _ _ _ _ (by rw [hl]; omega) hr.1.1 (by omega)]
        exact h k (by omega))
  exact ⟨key.1, fun k hk => key.2 k (by omega)⟩

/-- The inner loop of the table scan with the all-ones mask copies the table entry. -/
theorem select_inner_ones (res_j sel : List Nat) (hr : bn_wf 64 res_j) (hs : sel.length = 64) :
    forLoop 0 64 (fun i sel =>
      sel.set i ((ones64 &&& res_j.getD i 0) ||| (not64 ones64 &&& sel.getD i 0))) sel
      = res_j := by
  have key := forLoop_inv
    (fun k (t : List Nat) => t.length = 64 ∧ t.take k = res_j.take k)
    0 64 (fun i sel =>
      sel.set i ((ones64 &&& res_j.getD i 0) ||| (not64 ones64 &&& sel.getD i 0)))
    sel (Nat.zero_le _)
    ⟨hs, by rw [List.take_zero, List.take_zero]⟩
    (by
      intro i t _ hi hti
      refine ⟨by rw [List.length_set]; exact hti.1, ?_⟩
      rw [take_set_succ t i _ (by rw [hti.1]; exact hi), hti.2, not64_ones, Nat.zero_and,
        ones64_and _ (bn_wf_getD hr i), Nat.or_zero,
        take_succ_getD res_j i (by rw [hr.1]; exact hi)])
  have k2 := key.2
  rw [take_full _ _ (by rw [key.1]), take_full _ _ (by rw [hr.1])] at k2
  exact k2

/-- The inner loop of the table scan with the zero mask keeps the selection. -/
theorem select_inner_zero (res_j sel : List Nat) (hs : bn_wf 64 sel) :
    forLoop 0 64 (fun i sel =>
      sel.set i ((0 &&& res_j.getD i 0) ||| (not64 0 &&& sel.getD i 0))) sel
      = sel := by
  exact forLoop_inv (fun _ (t : List Nat) => t = sel)
    0 64 _ sel (Nat.zero_le _) rfl
    (by
      intro i t _ _ ht
      subst ht
      show t.set i ((0 &&& res_j.getD i 0) ||| (not64 0 &&& t.getD i 0)) = t
      rw [Nat.zero_and, Nat.zero_or, not64_zero, ones64_and _ (bn_wf_getD hs i), set_getD_self])

/-- The constant-time table scan returns the entry the window value designates. -/
theorem fw_select_spec (table : List Nat) (bits : Nat) (hbits : bits < 16)
    (hwf : ∀ k, k < 16 → bn_wf 64 (subBuf table (k * 64) 64)) :
    fw_select 16 table bits = subBuf table (bits * 64) 64 := by
  unfold fw_select
  have e3 : sub32 16 1 = 15 := by decide
  have e0 : memcpy (List.replicate 64 0) table 64 = subBuf table (0 * 64) 64 := by
    unfold memcpy subBuf
    rw [List.drop_replicate, Nat.zero_mul, List.drop_zero]
    exact List.append_nil _
  simp only [e3, e0]
  have key := forLoop_inv
    (fun i2 (sel : List Nat) =>
      sel = if bits ≤ i2 then subBuf table (bits * 64) 64 else subBuf table (0 * 64) 64)
    0 15 (fun i2 sel =>
      forLoop 0 64 (fun i sel =>
        sel.set i ((FStar_UInt64_eq_mask bits (add32 i2 1)
            &&& (subBuf table ((i2 + 1) * 64) 64).getD i 0)
          ||| (not64 (FStar_UInt64_eq_mask bits (add32 i2 1)) &&& sel.getD i 0))) sel)
    (subBuf table (0 * 64) 64) (Nat.zero_le _)
    (by
      beta_reduce
      by_cases c : bits ≤ 0
      · have : bits = 0 := by omega
        subst this
        rw [if_pos c]
      · rw [if_neg c])
    (by
      intro i2 sel _ hi2 hsel
      beta_reduce at hsel ⊢
      have ha : add32 i2 1 = i2 + 1 := by unfold add32; omega
      have hselwf : bn_wf 64 sel := by
        rw [hsel]
        split
        · exact hwf bits hbits
        · exact hwf 0 (by omega)
      rw [ha]
      unfold FStar_UInt64_eq_mask
      by_cases c : bits = i2 + 1
      · simp only [if_pos c]
        rw [select_inner_ones _ _ (hwf (i2 + 1) (by omega)) hselwf.1, if_pos (by omega), c]
      · simp only [if_neg c]
        rw [select_inner_zero _ _ hselwf, hsel]
        by_cases c2 : bits ≤ i2
        · rw [if_pos c2, if_pos (by omega)]
        · rw [if_neg c2, if_neg (by omega)])
  beta_reduce at key
  rw [key, if_pos (by omega)]

/-! ## Fixed-window exponentiation: the loops -/

/-- Repeated Montgomery squaring. -/
theorem sqr_loop_spec (n : List Nat) (nInv x m : Nat) (accM : List Nat)
    (hctx : MontCtx n nInv) (h : MontRep n x accM) :
    MontRep n (x ^ (2 ^ m)) (forLoop 0 m (fun _ accM => mont_sqr n nInv accM accM) accM) := by
  have key := forLoop_inv (fun k (t : List Nat) => MontRep n (x ^ (2 ^ k)) t)
    0 m (fun _ accM => mont_sqr n nInv accM accM) accM (Nat.zero_le _)
    (by beta_reduce; rw [pow_zero, pow_one]; exact h)
    (by
      intro i t _ _ ht
      beta_reduce at ht ⊢
      have := mont_sqr_spec n nInv _ t t hctx ht ht.1.1
      rw [← pow_add, ← Nat.two_mul, ← pow_succ'] at this
      exact this)
  exact key

theorem and_mask_lt (x w : Nat) (hw : w ≤ 4) : x &&& sub64 (shl64 1 w) 1 < 16 := by
  rw [mask_l_eq w (by omega), Nat.and_pow_two_sub_one_eq_mod]
  calc x % 2 ^ w < 2 ^ w := Nat.mod_lt _ (Nat.two_pow_pos _)
    _ ≤ 2 ^ 4 := Nat.pow_le_pow_right (by decide) hw
    _ = 16 := by decide

theorem table_index (bits : Nat) (h : bits < 16) : mul32 (bits % 2 ^ 32) 64 = bits * 64 := by
  unfold mul32; omega

/-- One window of the fixed-window method: `w` squarings and one table multiplication. -/
theorem fw_window_step (n : List Nat) (nInv a k w bits : Nat) (table accM : List Nat)
    (hctx : MontCtx n nInv)
    (htab : ∀ k, k < 16 → MontRep n (a ^ k) (subBuf table (k * 64) 64))
    (hbits : bits < 16) (h : MontRep n (a ^ k) accM) :
    MontRep n (a ^ (2 ^ w * k + bits))
      (mont_mul n nInv (forLoop 0 w (fun _ accM => mont_sqr n nInv accM accM) accM)
        (subBuf table (mul32 (bits % 2 ^ 32) 64) 64)
        (forLoop 0 w (fun _ accM => mont_sqr n nInv accM accM) accM)) := by
  have h1 := sqr_loop_spec n nInv (a ^ k) w accM hctx h
  rw [table_index bits hbits]
  have h2 := mont_mul_spec n nInv _ _ _ _
    (forLoop 0 w (fun _ accM => mont_sqr n nInv accM accM) accM) hctx h1 (htab bits hbits)
    h1.1.1
  rw [← pow_mul, ← pow_add, Nat.mul_comm k] at h2
  exact h2

/-! ## The exponentiation routines -/

theorem replicate_64_length : (List.replicate 64 (0:Nat)).length = 64 := List.length_replicate _ _

/-- `mod_exp_bm_vartime_precompr2` computes `a^b mod n`. -/
theorem mod_exp_bm_vartime_spec (n a : List Nat) (bBits len : Nat) (b r2 res : List Nat)
    (hn : bn_wf 64 n) (hodd : bn_v n % 2 = 1) (h1 : 1 < bn_v n)
    (ha : bn_wf 64 a) (han : bn_v a < bn_v n)
    (hb : bn_wf len b) (hblt : bn_v b < 2 ^ bBits)
    (hr2 : bn_wf 64 r2) (hr2v : bn_v r2 = 2 ^ 8192 % bn_v n) (hres : res.length = 64) :
    bn_wf 64 (mod_exp_bm_vartime_precompr2 n a bBits b r2 res)
    ∧ bn_v (mod_exp_bm_vartime_precompr2 n a bBits b r2 res) = bn_v a ^ bn_v b % bn_v n := by
  have hctx := mont_ctx_of_valid n hn hodd h1
  have haM := to_mont_spec n _ a r2 (List.replicate 64 0) hctx ha han hr2 hr2v
    replicate_64_length
  have hacc := one_rep n _ r2 (List.replicate 64 0) hctx hr2 hr2v replicate_64_length
  have hloop := bm_vartime_loop_spec n _ (bn_v a) bBits len b _ _ hctx hb haM hacc
  rw [Nat.mod_eq_of_lt hblt] at hloop
  exact from_mont_spec n _ _ _ res hctx hloop hres

/-- `mod_exp_bm_consttime_precompr2` computes `a^b mod n`. -/
theorem mod_exp_bm_consttime_spec (n a : List Nat) (bBits len : Nat) (b r2 res : List Nat)
    (hn : bn_wf 64 n) (hodd : bn_v n % 2 = 1) (h1 : 1 < bn_v n)
    (ha : bn_wf 64 a) (han : bn_v a < bn_v n)
    (hb : bn_wf len b) (hb32 : bBits < 2 ^ 32) (hblt : bn_v b < 2 ^ bBits)
    (hr2 : bn_wf 64 r2) (hr2v : bn_v r2 = 2 ^ 8192 % bn_v n) (hres : res.length = 64) :
    bn_wf 64 (mod_exp_bm_consttime_precompr2 n a bBits b r2 res)
    ∧ bn_v (mod_exp_bm_consttime_precompr2 n a bBits b r2 res) = bn_v a ^ bn_v b % bn_v n := by
  have hctx := mont_ctx_of_valid n hn hodd h1
  have haM := to_mont_spec n _ a r2 (List.replicate 64 0) hctx ha han hr2 hr2v
    replicate_64_length
  have hacc := one_rep n _ r2 (List.replicate 64 0) hctx hr2 hr2v replicate_64_length
  have hloop := bm_consttime_loop_spec n _ (bn_v a) bBits len b _ _ hctx hb hb32 hblt haM hacc
  exact from_mont_spec n _ _ _ res hctx hloop hres

theorem bLen_eq (bBits : Nat) (h1 : 1 ≤ bBits) (h2 : bBits < 2 ^ 32) :
    add32 (sub32 bBits 1 / 64) 1 = (bBits - 1) / 64 + 1 := by
  unfold add32 sub32; omega

theorem window_pos_eq (bBits i : Nat) (hi : i < bBits / 4) (h2 : bBits < 2 ^ 32) :
    sub32 (sub32 bBits (mul32 4 i)) 4 = bBits - 4 * i - 4 := by
  unfold sub32 mul32; omega

theorem div_pow_split (v p w : Nat) : v / 2 ^ p = 2 ^ w * (v / 2 ^ (p + w)) + v / 2 ^ p % 2 ^ w := by
  rw [pow_add, ← Nat.div_div_eq_div_mul]
  exact (Nat.div_add_mod _ _).symm

/-- The main loop of `mod_exp_fw_vartime_precompr2` with window size 4. -/
theorem fw_vartime_loop_spec (n : List Nat) (nInv a bBits : Nat) (b table accM : List Nat)
    (hctx : MontCtx n nInv) (hbBits : 1 ≤ bBits) (hb32 : bBits < 2 ^ 32)
    (hb : bn_wf ((bBits - 1) / 64 + 1) b) (hblt : bn_v b < 2 ^ bBits)
    (htab : ∀ k, k < 16 → MontRep n (a ^ k) (subBuf table (k * 64) 64))
    (hacc : MontRep n 1 accM) :
    MontRep n (a ^ (bn_v b / 2 ^ (bBits % 4)))
      (forLoop 0 (bBits / 4) (fun i accM =>
        let accM := forLoop 0 4 (fun _ accM => mont_sqr n nInv accM accM) accM
        let mask_l := sub64 (shl64 1 4) 1
        let i1 := sub32 (sub32 bBits (mul32 4 i)) 4 / 64
        let j := sub32 (sub32 bBits (mul32 4 i)) 4 % 64
        let ite := fw_window (add32 (sub32 bBits 1 / 64) 1) b i1 j
        let bits_l := ite &&& mask_l
        let bits_l32 := bits_l % 2 ^ 32
        let a_bits_l := subBuf table (mul32 bits_l32 64) 64
        mont_mul n nInv accM a_bits_l accM) accM) := by
  have key := forLoop_inv
    (fun i (t : List Nat) => MontRep n (a ^ (bn_v b / 2 ^ (bBits - 4 * i))) t)
    0 (bBits / 4) (fun i accM =>
        let accM := forLoop 0 4 (fun _ accM => mont_sqr n nInv accM accM) accM
        let mask_l := sub64 (shl64 1 4) 1
        let i1 := sub32 (sub32 bBits (mul32 4 i)) 4 / 64
        let j := sub32 (sub32 bBits (mul32 4 i)) 4 % 64
        let ite := fw_window (add32 (sub32 bBits 1 / 64) 1) b i1 j
        let bits_l := ite &&& mask_l
        let bits_l32 := bits_l % 2 ^ 32
        let a_bits_l := subBuf table (mul32 bits_l32 64) 64
        mont_mul n nInv accM a_bits_l accM) accM (Nat.zero_le _)
    (by
      beta_reduce
      rw [Nat.mul_zero, Nat.sub_zero, Nat.div_eq_of_lt hblt, pow_zero]
      exact hacc)
    (by
      intro i t _ hi ht
      beta_reduce at ht ⊢
      simp only
      rw [window_pos_eq bBits i hi hb32, bLen_eq bBits hbBits hb32]
      have hstep := fw_window_step n nInv a (bn_v b / 2 ^ (bBits - 4 * i)) 4
        (fw_window ((bBits - 1) / 64 + 1) b ((bBits - 4 * i - 4) / 64)
          ((bBits - 4 * i - 4) % 64) &&& sub64 (shl64 1 4) 1)
        table t hctx htab (and_mask_lt _ 4 (le_refl _)) ht
      have hbits := fw_bits_spec ((bBits - 1) / 64 + 1) b hb ((bBits - 4 * i - 4) / 64)
        ((bBits - 4 * i - 4) % 64) 4 (by omega) (Nat.mod_lt _ (by decide)) (by omega)
        (by decide)
      rw [Nat.div_add_mod] at hbits
      have e1 : bBits - 4 * i = bBits - 4 * i - 4 + 4 := by omega
      have e2 : bBits - 4 * (i + 1) = bBits - 4 * i - 4 := by omega
      have e3 := div_pow_split (bn_v b) (bBits - 4 * i - 4) 4
      rw [e2, e3, ← hbits, ← e1]
      exact hstep)
  beta_reduce at key
  have e : bBits - 4 * (bBits / 4) = bBits % 4 := by omega
  rw [e] at key
  exact key

/-- `mod_exp_fw_vartime_precompr2` with window size 4 computes `a^b mod n`. -/
theorem mod_exp_fw_vartime_spec (n a : List Nat) (bBits : Nat) (b r2 res : List Nat)
    (hn : bn_wf 64 n) (hodd : bn_v n % 2 = 1) (h1 : 1 < bn_v n)
    (ha : bn_wf 64 a) (han : bn_v a < bn_v n)
    (hbBits : 1 ≤ bBits) (hb32 : bBits < 2 ^ 32)
    (hb : bn_wf ((bBits - 1) / 64 + 1) b) (hblt : bn_v b < 2 ^ bBits)
    (hr2 : bn_wf 64 r2) (hr2v : bn_v r2 = 2 ^ 8192 % bn_v n) (hres : res.length = 64) :
    bn_wf 64 (mod_exp_fw_vartime_precompr2 4 n a bBits b r2 res)
    ∧ bn_v (mod_exp_fw_vartime_precompr2 4 n a bBits b r2 res)
      = bn_v a ^ bn_v b % bn_v n := by
  have hctx := mont_ctx_of_valid n hn hodd h1
  have haM := to_mont_spec n _ a r2 (List.replicate 64 0) hctx ha han hr2 hr2v
    replicate_64_length
  have hacc := one_rep n _ r2 (List.replicate 64 0) hctx hr2 hr2v replicate_64_length
  have htab := (fw_table_spec n _ (bn_v a) _ _ hctx haM hacc).2
  have hloop := fw_vartime_loop_spec n _ (bn_v a) bBits b _ _ hctx hbBits hb32 hb hblt htab hacc
  unfold mod_exp_fw_vartime_precompr2
  dsimp only
  split
  · rename_i hc
    apply from_mont_spec n _ (bn_v a ^ bn_v b) _ res hctx ?_ hres
    have hstep := fw_window_step n _ (bn_v a) (bn_v b / 2 ^ (bBits % 4)) (bBits % 4)
      (fw_window (add32 (sub32 bBits 1 / 64) 1) b 0 0 &&& sub64 (shl64 1 (bBits % 4)) 1)
      _ _ hctx htab (and_mask_lt _ _ (by omega)) hloop
    have hbits := fw_bits_spec ((bBits - 1) / 64 + 1) b hb 0 0 (bBits % 4) (by omega)
      (by decide) (by omega) (by omega)
    rw [Nat.mul_zero, Nat.add_zero, pow_zero, Nat.div_one,
      ← bLen_eq bBits hbBits hb32] at hbits
    have hexp : 2 ^ (bBits % 4) * (bn_v b / 2 ^ (bBits % 4))
        + (fw_window (add32 (sub32 bBits 1 / 64) 1) b 0 0 &&& sub64 (shl64 1 (bBits % 4)) 1)
        = bn_v b := by
      rw [hbits, Nat.div_add_mod]
    rw [hexp] at hstep
    dsimp only at hstep
    exact hstep
  · rename_i hc
    apply from_mont_spec n _ (bn_v a ^ bn_v b) _ res hctx ?_ hres
    have hc' : bBits % 4 = 0 := by
      by_contra h; exact hc h
    rw [hc', pow_zero, Nat.div_one] at hloop
    dsimp only at hloop
    exact hloop

/-- With window size 4 the constant-time fixed-window routine returns what the
variable-time one returns, whatever the exponent buffer holds. -/
theorem mod_exp_fw_consttime_eq (n a : List Nat) (bBits : Nat) (b r2 res : List Nat)
    (hn : bn_wf 64 n) (hodd : bn_v n % 2 = 1) (h1 : 1 < bn_v n)
    (ha : bn_wf 64 a) (han : bn_v a < bn_v n)
    (hr2 : bn_wf 64 r2) (hr2v : bn_v r2 = 2 ^ 8192 % bn_v n) :
    mod_exp_fw_consttime_precompr2 4 n a bBits b r2 res
      = mod_exp_fw_vartime_precompr2 4 n a bBits b r2 res := by
  have hctx := mont_ctx_of_valid n hn hodd h1
  have haM := to_mont_spec n _ a r2 (List.replicate 64 0) hctx ha han hr2 hr2v
    replicate_64_length
  have hacc := one_rep n _ r2 (List.replicate 64 0) hctx hr2 hr2v replicate_64_length
  have htab := (fw_table_spec n _ (bn_v a) _ _ hctx haM hacc).2
  have e1 : shl32 1 4 = 16 := by decide
  have hsel : ∀ (w : Nat), w ≤ 4 → ∀ x : Nat,
      fw_select (shl32 1 4) (fw_table 4 n (Hacl_Bignum_ModInvLimb_mod_inv_uint64 (n.getD 0 0))
          (reduction n (Hacl_Bignum_ModInvLimb_mod_inv_uint64 (n.getD 0 0))
            (Hacl_Bignum4096_mul a r2) (List.replicate 64 0))
          (reduction n (Hacl_Bignum_ModInvLimb_mod_inv_uint64 (n.getD 0 0))
            (Hacl_Bignum4096_mul ((List.replicate 64 0).set 0 1) r2) (List.replicate 64 0)))
        (x &&& sub64 (shl64 1 w) 1)
      = subBuf (fw_table 4 n (Hacl_Bignum_ModInvLimb_mod_inv_uint64 (n.getD 0 0))
          (reduction n (Hacl_Bignum_ModInvLimb_mod_inv_uint64 (n.getD 0 0))
            (Hacl_Bignum4096_mul a r2) (List.replicate 64 0))
          (reduction n (Hacl_Bignum_ModInvLimb_mod_inv_uint64 (n.getD 0 0))
            (Hacl_Bignum4096_mul ((List.replicate 64 0).set 0 1) r2) (List.replicate 64 0)))
        (mul32 ((x &&& sub64 (shl64 1 w) 1) % 2 ^ 32) 64) 64 := by
    intro w hw x
    rw [e1, fw_select_spec _ _ (and_mask_lt x w hw) (fun k hk => (htab k hk).1),
      table_index _ (and_mask_lt x w hw)]
  have hsel4 := hsel 4 (le_refl _)
  have hselc := hsel (bBits % 4) (by omega)
  unfold mod_exp_fw_consttime_precompr2 mod_exp_fw_vartime_precompr2
  dsimp only
  simp only [hsel4, hselc]

/-! ## Validation -/

theorem mask_combine (P0 P1 P2 P3 : Prop) [Decidable P0] [Decidable P1] [Decidable P2]
    [Decidable P3] :
    (if P0 then ones64 else 0)
        &&& ((not64 (if P1 then ones64 else 0) &&& (if P2 then ones64 else 0))
          &&& (if P3 then ones64 else 0))
      = if P0 ∧ ¬ P1 ∧ P2 ∧ P3 then ones64 else 0 := by
  by_cases c0 : P0 <;> by_cases c1 : P1 <;> by_cases c2 : P2 <;> by_cases c3 : P3 <;>
    simp only [c0, c1, c2, c3, if_true, if_false, and_true, and_false, true_and, false_and,
      not_true_eq_false, not_false_eq_true] <;> decide

/-- `exp_check` on well-formed buffers, as a proposition. -/
theorem exp_check_spec (n a : List Nat) (bBits : Nat) (b : List Nat)
    (hn : bn_wf 64 n) (ha : bn_wf 64 a) (hbBits : 1 ≤ bBits) (hb32 : bBits < 2 ^ 32)
    (hb : bn_wf ((bBits - 1) / 64 + 1) b) :
    exp_check n a bBits b
      = if (bn_v n % 2 = 1 ∧ 1 < bn_v n) ∧ bn_v b ≠ 0 ∧ exp_check_bound bBits b
          ∧ bn_v a < bn_v n then ones64 else 0 := by
  unfold exp_check exp_check_bound
  dsimp only
  simp only [bLen_eq bBits hbBits hb32]
  rw [mont_check_spec n hn, eq_zero_loop _ b hb, lt_mask_loop 64 a n ha hn]
  have hm2 : (if bBits < mul32 64 ((bBits - 1) / 64 + 1) then
        forLoop 0 ((bBits - 1) / 64 + 1) (fun i acc =>
          lt_mask_step (b.getD i 0)
            (((List.replicate ((bBits - 1) / 64 + 1) 0).set (bBits / 64)
              ((List.replicate ((bBits - 1) / 64 + 1) 0).getD (bBits / 64) 0
                ||| shl64 1 (bBits % 64))).getD i 0) acc) 0
      else 0xFFFFFFFFFFFFFFFF)
      = if (bBits < mul32 64 ((bBits - 1) / 64 + 1) → bn_v b < 2 ^ bBits) then ones64 else 0 := by
    by_cases hc : bBits < mul32 64 ((bBits - 1) / 64 + 1)
    · rw [if_pos hc]
      have hle : mul32 64 ((bBits - 1) / 64 + 1) ≤ 64 * ((bBits - 1) / 64 + 1) := by
        unfold mul32; exact Nat.mod_le _ _
      have hi : bBits / 64 < (bBits - 1) / 64 + 1 := by omega
      have hj : bBits % 64 < 64 := Nat.mod_lt _ (by decide)
      rw [getD_replicate_zero, Nat.zero_or, shl64_one _ hj]
      have hwf : bn_wf ((bBits - 1) / 64 + 1)
          ((List.replicate ((bBits - 1) / 64 + 1) 0).set (bBits / 64) (2 ^ (bBits % 64))) :=
        bn_wf_set (bn_wf_replicate_zero _) _ _ (Nat.pow_lt_pow_right (by decide) hj)
      rw [lt_mask_loop _ b _ hb hwf, bn_v_set_replicate _ _ _ hi, ← pow_add, Nat.div_add_mod]
      by_cases h2 : bn_v b < 2 ^ bBits
      · rw [if_pos h2, if_pos (fun _ => h2)]
      · rw [if_neg h2, if_neg (fun h => h2 (h hc))]
    · rw [if_neg hc, if_pos (fun h => absurd h hc)]
      rfl
  rw [hm2]
  exact mask_combine _ _ _ _

theorem exp_check_mask (n a : List Nat) (bBits : Nat) (b : List Nat)
    (hn : bn_wf 64 n) (ha : bn_wf 64 a) (hbBits : 1 ≤ bBits) (hb32 : bBits < 2 ^ 32)
    (hb : bn_wf ((bBits - 1) / 64 + 1) b) : is_mask (exp_check n a bBits b) := by
  rw [exp_check_spec n a bBits b hn ha hbBits hb32 hb]
  split
  · right; rfl
  · left; rfl

/-- Within the bound `bBits ≤ 2^32 − 64` the 32-bit product `64 * bLen` does not wrap, and
the bound check of `exp_check` is the plain `b < 2^bBits`. -/
theorem exp_check_bound_iff (bBits : Nat) (b : List Nat) (hbBits : 1 ≤ bBits)
    (hsmall : bBits ≤ 2 ^ 32 - 64) (hb : bn_wf ((bBits - 1) / 64 + 1) b) :
    exp_check_bound bBits b ↔ bn_v b < 2 ^ bBits := by
  unfold exp_check_bound
  rw [bLen_eq bBits hbBits (by omega)]
  have e : mul32 64 ((bBits - 1) / 64 + 1) = 64 * ((bBits - 1) / 64 + 1) := by
    unfold mul32; omega
  rw [e]
  constructor
  · intro h
    by_cases hc : bBits < 64 * ((bBits - 1) / 64 + 1)
    · exact h hc
    · have e2 : bBits = 64 * ((bBits - 1) / 64 + 1) := by omega
      have := bn_v_lt hb
      rw [← e2] at this
      exact this
  · intro h _; exact h

/-- A valid exponent satisfies the bound check for every `bBits`. -/
theorem exp_check_bound_of_lt (bBits : Nat) (b : List Nat) (h : bn_v b < 2 ^ bBits) :
    exp_check_bound bBits b := fun _ => h

/-! ## The safe exponentiation entry points -/

theorem ones64_lit : (0xFFFFFFFFFFFFFFFF : Nat) = ones64 := rfl

/-- The `r2` every safe entry point computes for a valid modulus. -/
theorem r2_spec (n : List Nat) (hn : bn_wf 64 n) (hodd : bn_v n % 2 = 1) (h1 : 1 < bn_v n) :
    bn_wf 64 (precomp (mul32 64 (Hacl_Bignum_Lib_bn_get_top_index_u64 64 n % 2 ^ 32)) n
      (List.replicate 64 0))
    ∧ bn_v (precomp (mul32 64 (Hacl_Bignum_Lib_bn_get_top_index_u64 64 n % 2 ^ 32)) n
      (List.replicate 64 0)) = 2 ^ 8192 % bn_v n := by
  obtain ⟨a1, a2⟩ := nBits_spec n hn hodd h1
  exact precomp_spec _ n _ hn replicate_64_length a1 a2

/-- `Hacl_Bignum4096_mod_exp_vartime_precompr2` computes `a^b mod n`. -/
theorem mod_exp_vartime_precompr2_spec (n a : List Nat) (bBits : Nat) (b r2 res : List Nat)
    (hn : bn_wf 64 n) (hodd : bn_v n % 2 = 1) (h1 : 1 < bn_v n)
    (ha : bn_wf 64 a) (han : bn_v a < bn_v n)
    (hbBits : 1 ≤ bBits) (hb32 : bBits < 2 ^ 32)
    (hb : bn_wf ((bBits - 1) / 64 + 1) b) (hblt : bn_v b < 2 ^ bBits)
    (hr2 : bn_wf 64 r2) (hr2v : bn_v r2 = 2 ^ 8192 % bn_v n) (hres : res.length = 64) :
    bn_wf 64 (Hacl_Bignum4096_mod_exp_vartime_precompr2 n a bBits b r2 res)
    ∧ bn_v (Hacl_Bignum4096_mod_exp_vartime_precompr2 n a bBits b r2 res)
      = bn_v a ^ bn_v b % bn_v n := by
  unfold Hacl_Bignum4096_mod_exp_vartime_precompr2
  split
  · exact mod_exp_bm_vartime_spec n a bBits _ b r2 res hn hodd h1 ha han hb hblt hr2 hr2v hres
  · exact mod_exp_fw_vartime_spec n a bBits b r2 res hn hodd h1 ha han hbBits hb32 hb hblt
      hr2 hr2v hres

/-- `Hacl_Bignum4096_mod_exp_consttime_precompr2` computes `a^b mod n`. -/
theorem mod_exp_consttime_precompr2_spec (n a : List Nat) (bBits : Nat) (b r2 res : List Nat)
    (hn : bn_wf 64 n) (hodd : bn_v n % 2 = 1) (h1 : 1 < bn_v n)
    (ha : bn_wf 64 a) (han : bn_v a < bn_v n)
    (hbBits : 1 ≤ bBits) (hb32 : bBits < 2 ^ 32)
    (hb : bn_wf ((bBits - 1) / 64 + 1) b) (hblt : bn_v b < 2 ^ bBits)
    (hr2 : bn_wf 64 r2) (hr2v : bn_v r2 = 2 ^ 8192 % bn_v n) (hres : res.length = 64) :
    bn_wf 64 (Hacl_Bignum4096_mod_exp_consttime_precompr2 n a bBits b r2 res)
    ∧ bn_v (Hacl_Bignum4096_mod_exp_consttime_precompr2 n a bBits b r2 res)
      = bn_v a ^ bn_v b % bn_v n := by
  unfold Hacl_Bignum4096_mod_exp_consttime_precompr2
  split
  · exact mod_exp_bm_consttime_spec n a bBits _ b r2 res hn hodd h1 ha han hb hb32 hblt hr2
      hr2v hres
  · rw [mod_exp_fw_consttime_eq n a bBits b r2 res hn hodd h1 ha han hr2 hr2v]
    exact mod_exp_fw_vartime_spec n a bBits b r2 res hn hodd h1 ha han hbBits hb32 hb hblt
      hr2 hr2v hres

/-- The two unsafe entry points agree as soon as the modulus and the base are valid and,
for the binary method, the exponent is below `2^bBits`. -/
theorem mod_exp_precompr2_agree (n a : List Nat) (bBits : Nat) (b r2 res : List Nat)
    (hn : bn_wf 64 n) (hodd : bn_v n % 2 = 1) (h1 : 1 < bn_v n)
    (ha : bn_wf 64 a) (han : bn_v a < bn_v n)
    (hb32 : bBits < 2 ^ 32)
    (hb : bn_wf ((bBits - 1) / 64 + 1) b) (hblt : bBits < 200 → bn_v b < 2 ^ bBits)
    (hr2 : bn_wf 64 r2) (hr2v : bn_v r2 = 2 ^ 8192 % bn_v n) (hres : res.length = 64) :
    Hacl_Bignum4096_mod_exp_consttime_precompr2 n a bBits b r2 res
      = Hacl_Bignum4096_mod_exp_vartime_precompr2 n a bBits b r2 res := by
  unfold Hacl_Bignum4096_mod_exp_consttime_precompr2 Hacl_Bignum4096_mod_exp_vartime_precompr2
  by_cases hc : bBits < 200
  · rw [if_pos hc, if_pos hc]
    obtain ⟨c1, c2⟩ := mod_exp_bm_consttime_spec n a bBits _ b r2 res hn hodd h1 ha han hb hb32
      (hblt hc) hr2 hr2v hres
    obtain ⟨v1, v2⟩ := mod_exp_bm_vartime_spec n a bBits _ b r2 res hn hodd h1 ha han hb
      (hblt hc) hr2 hr2v hres
    exact bn_v_inj c1 v1 (by rw [c2, v2])
  · rw [if_neg hc, if_neg hc]
    exact mod_exp_fw_consttime_eq n a bBits b r2 res hn hodd h1 ha han hr2 hr2v

theorem mod_exp_vartime_unfold (n a : List Nat) (bBits : Nat) (b res : List Nat) :
    Hacl_Bignum4096_mod_exp_vartime n a bBits b res
      = (decide (exp_check n a bBits b = ones64),
         mask_output (exp_check n a bBits b)
          (if exp_check n a bBits b = ones64 then
            Hacl_Bignum4096_mod_exp_vartime_precompr2 n a bBits b
              (precomp (mul32 64 (Hacl_Bignum_Lib_bn_get_top_index_u64 64 n % 2 ^ 32)) n
                (List.replicate 64 0)) res
          else res)) := rfl

theorem mod_exp_consttime_unfold (n a : List Nat) (bBits : Nat) (b res : List Nat) :
    Hacl_Bignum4096_mod_exp_consttime n a bBits b res
      = (decide (exp_check n a bBits b = ones64),
         mask_output (exp_check n a bBits b)
          (if exp_check n a bBits b = ones64 then
            Hacl_Bignum4096_mod_exp_consttime_precompr2 n a bBits b
              (precomp (mul32 64 (Hacl_Bignum_Lib_bn_get_top_index_u64 64 n % 2 ^ 32)) n
                (List.replicate 64 0)) res
          else res)) := rfl

theorem exp_check_eq_ones_iff (n a : List Nat) (bBits : Nat) (b : List Nat)
    (hn : bn_wf 64 n) (ha : bn_wf 64 a) (hbBits : 1 ≤ bBits) (hb32 : bBits < 2 ^ 32)
    (hb : bn_wf ((bBits - 1) / 64 + 1) b) :
    exp_check n a bBits b = ones64 ↔ exp_valid n a bBits b := by
  rw [exp_check_spec n a bBits b hn ha hbBits hb32 hb]
  unfold exp_valid
  constructor
  · intro h
    by_contra hc
    rw [if_neg hc] at h
    exact absurd h (by decide)
  · intro h
    rw [if_pos h]

theorem exp_check_ne_ones (n a : List Nat) (bBits : Nat) (b : List Nat)
    (hn : bn_wf 64 n) (ha : bn_wf 64 a) (hbBits : 1 ≤ bBits) (hb32 : bBits < 2 ^ 32)
    (hb : bn_wf ((bBits - 1) / 64 + 1) b) (h : ¬ exp_check n a bBits b = ones64) :
    exp_check n a bBits b = 0 := by
  rcases exp_check_mask n a bBits b hn ha hbBits hb32 hb with h0 | h0
  · exact h0
  · exact absurd h0 h

/-! ## Claims on modular exponentiation -/

theorem mod_exp_vartime_fst (n a : List Nat) (bBits : Nat) (b res : List Nat) :
    (Hacl_Bignum4096_mod_exp_vartime n a bBits b res).1
      = decide (exp_check n a bBits b = ones64) := rfl

theorem mod_exp_vartime_snd (n a : List Nat) (bBits : Nat) (b res : List Nat) :
    (Hacl_Bignum4096_mod_exp_vartime n a bBits b res).2
      = mask_output (exp_check n a bBits b)
          (if exp_check n a bBits b = ones64 then
            Hacl_Bignum4096_mod_exp_vartime_precompr2 n a bBits b
              (precomp (mul32 64 (Hacl_Bignum_Lib_bn_get_top_index_u64 64 n % 2 ^ 32)) n
                (List.replicate 64 0)) res
          else res) := by
  rw [mod_exp_vartime_unfold]

/-- C1: for every odd modulus `n > 1` (64 limbs), every `a < n`, every `bBits ≥ 1` (a
`uint32_t`) and every exponent `b` of `⌈bBits/64⌉` limbs with `0 < b < 2^bBits`,
`Hacl_Bignum4096_mod_exp_vartime` returns `true` and leaves in `res` the 64 limbs of
`a^b mod n`, whatever `res` held before. -/
theorem C1_mod_exp_vartime_correct (n a : List Nat) (bBits : Nat) (b res : List Nat)
    (hn : bn_wf 64 n) (ha : bn_wf 64 a) (hres : res.length = 64)
    (hbBits : 1 ≤ bBits) (hb32 : bBits < 2 ^ 32) (hb : bn_wf ((bBits - 1) / 64 + 1) b)
    (hodd : bn_v n % 2 = 1) (h1 : 1 < bn_v n) (han : bn_v a < bn_v n)
    (hb0 : 0 < bn_v b) (hblt : bn_v b < 2 ^ bBits) :
    (Hacl_Bignum4096_mod_exp_vartime n a bBits b res).1 = true
    ∧ bn_wf 64 (Hacl_Bignum4096_mod_exp_vartime n a bBits b res).2
    ∧ bn_v (Hacl_Bignum4096_mod_exp_vartime n a bBits b res).2
      = bn_v a ^ bn_v b % bn_v n := by
  have hv : exp_check n a bBits b = ones64 :=
    (exp_check_eq_ones_iff n a bBits b hn ha hbBits hb32 hb).2
      ⟨⟨hodd, h1⟩, Nat.pos_iff_ne_zero.1 hb0, exp_check_bound_of_lt bBits b hblt, han⟩
  obtain ⟨r1, r2⟩ := r2_spec n hn hodd h1
  obtain ⟨s1, s2⟩ := mod_exp_vartime_precompr2_spec n a bBits b _ res hn hodd h1 ha han
    hbBits hb32 hb hblt r1 r2 hres
  rw [mod_exp_vartime_fst, mod_exp_vartime_snd, hv, if_pos rfl, mask_output_ones _ s1]
  exact ⟨decide_eq_true rfl, s1, s2⟩

/-- Scenario S3 satisfies the hypotheses of C1, hence its conclusion. -/
theorem C1_mod_exp_vartime_correct_witness :
    (bn_wf 64 S3_n ∧ bn_wf 64 S3_a ∧ stale_res.length = 64 ∧ 1 ≤ 33 ∧ 33 < 2 ^ 32
      ∧ bn_wf ((33 - 1) / 64 + 1) S3_b ∧ bn_v S3_n % 2 = 1 ∧ 1 < bn_v S3_n
      ∧ bn_v S3_a < bn_v S3_n ∧ 0 < bn_v S3_b ∧ bn_v S3_b < 2 ^ 33)
    ∧ ((Hacl_Bignum4096_mod_exp_vartime S3_n S3_a 33 S3_b stale_res).1 = true
      ∧ bn_wf 64 (Hacl_Bignum4096_mod_exp_vartime S3_n S3_a 33 S3_b stale_res).2
      ∧ bn_v (Hacl_Bignum4096_mod_exp_vartime S3_n S3_a 33 S3_b stale_res).2
        = bn_v S3_a ^ bn_v S3_b % bn_v S3_n) :=
  ⟨by decide,
    C1_mod_exp_vartime_correct S3_n S3_a 33 S3_b stale_res (by decide) (by decide) (by decide)
      (by decide) (by decide) (by decide) (by decide) (by decide) (by decide) (by decide)
      (by decide)⟩

/-- The two safe exponentiation entry points agree: the validity mask is the same
computation, and on valid inputs the two `precompr2` routines agree. -/
theorem mod_exp_safe_agree (n a : List Nat) (bBits : Nat) (b res : List Nat)
    (hn : bn_wf 64 n) (ha : bn_wf 64 a) (hres : res.length = 64)
    (hbBits : 1 ≤ bBits) (hb32 : bBits < 2 ^ 32) (hb : bn_wf ((bBits - 1) / 64 + 1) b) :
    Hacl_Bignum4096_mod_exp_consttime n a bBits b res
      = Hacl_Bignum4096_mod_exp_vartime n a bBits b res := by
  rw [mod_exp_consttime_unfold, mod_exp_vartime_unfold]
  by_cases hv : exp_check n a bBits b = ones64
  · obtain ⟨⟨hodd, h1⟩, _, hbound, han⟩ :=
      (exp_check_eq_ones_iff n a bBits b hn ha hbBits hb32 hb).1 hv
    obtain ⟨r1, r2⟩ := r2_spec n hn hodd h1
    have hblt : bBits < 200 → bn_v b < 2 ^ bBits := by
      intro h200
      exact (exp_check_bound_iff bBits b hbBits (by omega) hb).1 hbound
    rw [if_pos hv, if_pos hv,
      mod_exp_precompr2_agree n a bBits b _ res hn hodd h1 ha han hb32 hb hblt r1 r2 hres]
  · rw [if_neg hv, if_neg hv]

/-- C2: for every `n`, `a`, `bBits ≥ 1`, exponent `b` of `⌈bBits/64⌉` limbs and every initial
content of `res`, `Hacl_Bignum4096_mod_exp_consttime` and `Hacl_Bignum4096_mod_exp_vartime`
return the same boolean and leave the same 64 limbs in `res`. -/
theorem C2_mod_exp_consttime_eq_vartime (n a : List Nat) (bBits : Nat) (b res : List Nat)
    (hn : bn_wf 64 n) (ha : bn_wf 64 a) (hres : res.length = 64)
    (hbBits : 1 ≤ bBits) (hb32 : bBits < 2 ^ 32) (hb : bn_wf ((bBits - 1) / 64 + 1) b) :
    Hacl_Bignum4096_mod_exp_consttime n a bBits b res
      = Hacl_Bignum4096_mod_exp_vartime n a bBits b res :=
  mod_exp_safe_agree n a bBits b res hn ha hres hbBits hb32 hb

/-- Scenario S5 satisfies the hypotheses of C2, hence its conclusion. -/
theorem C2_mod_exp_consttime_eq_vartime_witness :
    (bn_wf 64 S5_n ∧ bn_wf 64 S5_a ∧ stale_res.length = 64 ∧ 1 ≤ 4096 ∧ 4096 < 2 ^ 32
      ∧ bn_wf ((4096 - 1) / 64 + 1) S5_b)
    ∧ Hacl_Bignum4096_mod_exp_consttime S5_n S5_a 4096 S5_b stale_res
      = Hacl_Bignum4096_mod_exp_vartime S5_n S5_a 4096 S5_b stale_res :=
  ⟨by decide,
    C2_mod_exp_consttime_eq_vartime S5_n S5_a 4096 S5_b stale_res (by decide) (by decide)
      (by decide) (by decide) (by decide) (by decide)⟩

theorem pow2_ne_zero (k : Nat) : (2:Nat) ^ k ≠ 0 := Nat.pos_iff_ne_zero.1 (Nat.two_pow_pos k)

theorem bn_v_replicate_snoc (k x : Nat) :
    bn_v (List.replicate k 0 ++ [x]) = 2 ^ (64 * k) * x := by
  rw [bn_v_append, bn_v_replicate_zero, bn_v_singleton, List.length_replicate, Nat.zero_add]

theorem huge_b_wf : bn_wf ((4294967295 - 1) / 64 + 1) huge_b :=
  bn_wf_append (bn_wf_replicate_zero 67108863)
    ⟨rfl, fun x hx => by rw [List.mem_singleton.1 hx]; decide⟩

theorem huge_b_v : bn_v huge_b = 2 ^ 4294967295 := by
  have t1 : bn_v huge_b = 2 ^ (64 * 67108863) * 9223372036854775808 := by
    unfold huge_b
    rw [bn_v_replicate_snoc]
  have t2 : 2 ^ (64 * 67108863) * 9223372036854775808 = 2 ^ (64 * 67108863 + 63) := by
    have h63 : (9223372036854775808 : Nat) = 2 ^ 63 := by decide
    rw [h63, ← pow_add]
  have t3 : 2 ^ (64 * 67108863 + 63) = 2 ^ 4294967295 := by
    have e : 64 * 67108863 + 63 = 4294967295 := by decide
    rw [e]
  exact t1.trans (t2.trans t3)

/-- At `bBits = 2^32 − 1` the exponent buffer has `bLen = 2^26` limbs and the 32-bit product
`64 * bLen` is 0, so the test `bBits < 64 * bLen` fails, the comparison of `b` with
`2^bBits` is skipped, and both safe entry points return `true` for the exponent
`b = 2^bBits`, which is not below `2^bBits`. -/
theorem exp_check_wrap_accepts :
    mul32 64 (add32 (sub32 4294967295 1 / 64) 1) = 0 ∧
    (Hacl_Bignum4096_mod_exp_vartime S3_n S3_a 4294967295 huge_b stale_res).1 = true ∧
    (Hacl_Bignum4096_mod_exp_consttime S3_n S3_a 4294967295 huge_b stale_res).1 = true ∧
    ¬ bn_v huge_b < 2 ^ 4294967295 := by
  have hpos : bn_v huge_b ≠ 0 := by
    rw [huge_b_v]; exact pow2_ne_zero 4294967295
  have hbound : exp_check_bound 4294967295 huge_b := by
    unfold exp_check_bound
    intro hc
    exact absurd hc (by decide)
  have hv : exp_check S3_n S3_a 4294967295 huge_b = ones64 :=
    (exp_check_eq_ones_iff S3_n S3_a 4294967295 huge_b (by decide) (by decide) (by decide)
      (by decide) huge_b_wf).2 ⟨⟨by decide, by decide⟩, hpos, hbound, by decide⟩
  have htrue : (Hacl_Bignum4096_mod_exp_vartime S3_n S3_a 4294967295 huge_b stale_res).1
      = true := by
    rw [mod_exp_vartime_fst, hv]
    exact decide_eq_true rfl
  refine ⟨by decide, htrue, ?_, ?_⟩
  · rw [mod_exp_safe_agree S3_n S3_a 4294967295 huge_b stale_res (by decide) (by decide)
      (by decide) (by decide) (by decide) huge_b_wf]
    exact htrue
  · rw [huge_b_v]
    exact Nat.lt_irrefl _

/-- C3: for `1 ≤ bBits ≤ 2^32 − 64` both safe entry points return `true` if and only if `n`
is odd, `n > 1`, `b ≠ 0`, `b < 2^bBits` and `a < n`; for every `bBits ≥ 1`, whenever they
return `false`, every one of the 64 limbs of `res` is 0 after the call, whatever `res` held
before.  Above `2^32 − 64` the code departs from this: at `bBits = 2^32 − 1` the 32-bit
product `64 * bLen` is 0 and both entry points return `true` for the exponent `b = 2^bBits`
of `2^26` limbs, although `b < 2^bBits` fails. -/
theorem C3_mod_exp_validity (n a : List Nat) (bBits : Nat) (b res : List Nat)
    (hn : bn_wf 64 n) (ha : bn_wf 64 a) (hres : res.length = 64)
    (hbBits : 1 ≤ bBits) (hb32 : bBits < 2 ^ 32) (hb : bn_wf ((bBits - 1) / 64 + 1) b) :
    (bBits ≤ 2 ^ 32 - 64 →
      ((Hacl_Bignum4096_mod_exp_vartime n a bBits b res).1 = true
        ↔ bn_v n % 2 = 1 ∧ 1 < bn_v n ∧ bn_v b ≠ 0 ∧ bn_v b < 2 ^ bBits ∧ bn_v a < bn_v n)
      ∧ ((Hacl_Bignum4096_mod_exp_consttime n a bBits b res).1 = true
        ↔ bn_v n % 2 = 1 ∧ 1 < bn_v n ∧ bn_v b ≠ 0 ∧ bn_v b < 2 ^ bBits ∧ bn_v a < bn_v n))
    ∧ ((Hacl_Bignum4096_mod_exp_vartime n a bBits b res).1 = false
        → (Hacl_Bignum4096_mod_exp_vartime n a bBits b res).2 = List.replicate 64 0)
    ∧ ((Hacl_Bignum4096_mod_exp_consttime n a bBits b res).1 = false
        → (Hacl_Bignum4096_mod_exp_consttime n a bBits b res).2 = List.replicate 64 0)
    ∧ (mul32 64 (add32 (sub32 4294967295 1 / 64) 1) = 0
      ∧ (Hacl_Bignum4096_mod_exp_vartime S3_n S3_a 4294967295 huge_b stale_res).1 = true
      ∧ (Hacl_Bignum4096_mod_exp_consttime S3_n S3_a 4294967295 huge_b stale_res).1 = true
      ∧ ¬ bn_v huge_b < 2 ^ 4294967295) := by
  have hiff := exp_check_eq_ones_iff n a bBits b hn ha hbBits hb32 hb
  have hzero : (Hacl_Bignum4096_mod_exp_vartime n a bBits b res).1 = false
      → (Hacl_Bignum4096_mod_exp_vartime n a bBits b res).2 = List.replicate 64 0 := by
    rw [mod_exp_vartime_fst, mod_exp_vartime_snd]
    intro h
    have hv : ¬ exp_check n a bBits b = ones64 := of_decide_eq_false h
    rw [exp_check_ne_ones n a bBits b hn ha hbBits hb32 hb hv, if_neg (by decide)]
    exact mask_output_zero res hres
  have hval : bBits ≤ 2 ^ 32 - 64 →
      ((Hacl_Bignum4096_mod_exp_vartime n a bBits b res).1 = true
        ↔ bn_v n % 2 = 1 ∧ 1 < bn_v n ∧ bn_v b ≠ 0 ∧ bn_v b < 2 ^ bBits
          ∧ bn_v a < bn_v n) := by
    intro hsmall
    rw [mod_exp_vartime_fst, decide_eq_true_iff, hiff]
    unfold exp_valid
    rw [exp_check_bound_iff bBits b hbBits hsmall hb]
    constructor
    · rintro ⟨⟨c1, c2⟩, c3, c4, c5⟩
      exact ⟨c1, c2, c3, c4, c5⟩
    · rintro ⟨c1, c2, c3, c4, c5⟩
      exact ⟨⟨c1, c2⟩, c3, c4, c5⟩
  rw [mod_exp_safe_agree n a bBits b res hn ha hres hbBits hb32 hb]
  exact ⟨fun h => ⟨hval h, hval h⟩, hzero, hzero, exp_check_wrap_accepts⟩

/-- An even modulus (scenario S6) satisfies the hypotheses of C3, hence its conclusion. -/
theorem C3_mod_exp_validity_witness :
    (bn_wf 64 S6_n ∧ bn_wf 64 S3_a ∧ stale_res.length = 64 ∧ 1 ≤ 33 ∧ 33 < 2 ^ 32
      ∧ bn_wf ((33 - 1) / 64 + 1) S3_b)
    ∧ ((33 ≤ 2 ^ 32 - 64 →
      ((Hacl_Bignum4096_mod_exp_vartime S6_n S3_a 33 S3_b stale_res).1 = true
        ↔ bn_v S6_n % 2 = 1 ∧ 1 < bn_v S6_n ∧ bn_v S3_b ≠ 0 ∧ bn_v S3_b < 2 ^ 33
          ∧ bn_v S3_a < bn_v S6_n)
      ∧ ((Hacl_Bignum4096_mod_exp_consttime S6_n S3_a 33 S3_b stale_res).1 = true
        ↔ bn_v S6_n % 2 = 1 ∧ 1 < bn_v S6_n ∧ bn_v S3_b ≠ 0 ∧ bn_v S3_b < 2 ^ 33
          ∧ bn_v S3_a < bn_v S6_n))
    ∧ ((Hacl_Bignum4096_mod_exp_vartime S6_n S3_a 33 S3_b stale_res).1 = false
        → (Hacl_Bignum4096_mod_exp_vartime S6_n S3_a 33 S3_b stale_res).2
          = List.replicate 64 0)
    ∧ ((Hacl_Bignum4096_mod_exp_consttime S6_n S3_a 33 S3_b stale_res).1 = false
        → (Hacl_Bignum4096_mod_exp_consttime S6_n S3_a 33 S3_b stale_res).2
          = List.replicate 64 0)
    ∧ (mul32 64 (add32 (sub32 4294967295 1 / 64) 1) = 0
      ∧ (Hacl_Bignum4096_mod_exp_vartime S3_n S3_a 4294967295 huge_b stale_res).1 = true
      ∧ (Hacl_Bignum4096_mod_exp_consttime S3_n S3_a 4294967295 huge_b stale_res).1 = true
      ∧ ¬ bn_v huge_b < 2 ^ 4294967295)) :=
  ⟨by decide,
    C3_mod_exp_validity S6_n S3_a 33 S3_b stale_res (by decide) (by decide) (by decide)
      (by decide) (by decide) (by decide)⟩

/-! ## Modular reduction -/

theorem mask_select_length (c2 : Nat) (res tmp : List Nat) :
    (mask_select c2 res tmp).length = res.length := by
  unfold mask_select
  exact forLoop_inv (fun _ (t : List Nat) => t.length = res.length)
    0 64 _ res (Nat.zero_le _) rfl
    (by
      intro i t _ _ ht
      rw [List.length_set]; exact ht)

theorem mul_add_loop_length (n : List Nat) (qj i0 m : Nat) (st : Nat × List Nat) :
    (forLoop 0 m (mul_add_step n qj i0) st).2.length = st.2.length := by
  exact forLoop_inv (fun _ (t : Nat × List Nat) => t.2.length = st.2.length)
    0 m _ st (Nat.zero_le _) rfl
    (by
      intro i t _ _ ht
      unfold mul_add_step
      dsimp only
      rw [List.length_set]; exact ht)

theorem mont_reduction_loop_length (n : List Nat) (nInv : Nat) (c : List Nat) :
    (mont_reduction_loop n nInv c).2.length = c.length := by
  unfold mont_reduction_loop
  simp only [mul_add_loops_eq]
  exact forLoop_inv (fun _ (t : Nat × List Nat) => t.2.length = c.length)
    0 64 _ (0, c) (Nat.zero_le _) rfl
    (by
      intro i t _ _ ht
      dsimp only
      rw [List.length_set, mul_add_loop_length]
      exact ht)

/-- `reduction` always leaves 64 limbs in a 64-limb `res` when `c` has 128 limbs. -/
theorem reduction_length (n : List Nat) (nInv : Nat) (c res : List Nat)
    (hc : c.length = 128) (hres : res.length = 64) :
    (reduction n nInv c res).length = 64 := by
  unfold reduction
  dsimp only
  rw [mask_select_length]
  unfold memcpy
  rw [List.length_append, List.length_take, List.length_drop, List.length_drop,
    mont_reduction_loop_length, hc, hres]
  rfl

theorem mul_length (a b : List Nat) : (Hacl_Bignum4096_mul a b).length = 128 :=
  (bn_wf_from_nat _ _).1

/-- `Hacl_Bignum4096_mod_precompr2` is two Montgomery reductions. -/
theorem mod_precompr2_unfold (n a r2 res : List Nat) :
    Hacl_Bignum4096_mod_precompr2 n a r2 res
      = reduction n (Hacl_Bignum_ModInvLimb_mod_inv_uint64 (n.getD 0 0))
          (Hacl_Bignum4096_mul
            (reduction n (Hacl_Bignum_ModInvLimb_mod_inv_uint64 (n.getD 0 0))
              (memcpy (List.replicate 128 0) a 128) (List.replicate 64 0)) r2) res := rfl

theorem mod_precompr2_length (n a r2 res : List Nat) (hres : res.length = 64) :
    (Hacl_Bignum4096_mod_precompr2 n a r2 res).length = 64 := by
  rw [mod_precompr2_unfold]
  exact reduction_length _ _ _ _ (mul_length _ _) hres

/-- `Hacl_Bignum4096_mod_precompr2` computes `a mod n` for `a < n·n`. -/
theorem mod_precompr2_spec (n a r2 res : List Nat)
    (hn : bn_wf 64 n) (hodd : bn_v n % 2 = 1) (h1 : 1 < bn_v n)
    (ha : bn_wf 128 a) (han : bn_v a < bn_v n * bn_v n)
    (hr2 : bn_wf 64 r2) (hr2v : bn_v r2 = 2 ^ 8192 % bn_v n) (hres : res.length = 64) :
    bn_wf 64 (Hacl_Bignum4096_mod_precompr2 n a r2 res)
    ∧ bn_v (Hacl_Bignum4096_mod_precompr2 n a r2 res) = bn_v a % bn_v n := by
  have hctx := mont_ctx_of_valid n hn hodd h1
  have hpos : 0 < bn_v n := by omega
  rw [mod_precompr2_unfold,
    memcpy_full _ a 128 (List.length_replicate _ _) ha.1]
  obtain ⟨x1, x2, x3⟩ := reduction_spec n _ a (List.replicate 64 0) hn ha replicate_64_length
    hctx.2.2.2 (lt_trans han (Nat.mul_lt_mul_of_pos_left (bn_v_lt hn) hpos))
  obtain ⟨y1, y2, y3⟩ := reduction_mul_spec n _ _ r2 res hctx x1 hr2 hres x2
    (by rw [hr2v]; exact Nat.mod_lt _ hpos)
  refine ⟨y1, ?_⟩
  apply mont_cancel _ _ _ hodd y2
  rw [y3, hr2v, Nat.mul_mod_mod]
  have e : (2:Nat) ^ 8192 = 2 ^ (64 * 64) * 2 ^ (64 * 64) := by rw [← pow_add]
  rw [e, ← Nat.mul_assoc, Nat.mul_mod, x3, ← Nat.mul_mod]

theorem mod_unfold (n a res : List Nat) :
    Hacl_Bignum4096_mod n a res
      = (decide (mod_check n a = ones64),
         mask_output (mod_check n a)
          (Hacl_Bignum4096_mod_precompr2 n a
            (precomp (mul32 64 (Hacl_Bignum_Lib_bn_get_top_index_u64 64 n % 2 ^ 32)) n
              (List.replicate 64 0)) res)) := rfl

theorem mod_fst (n a res : List Nat) :
    (Hacl_Bignum4096_mod n a res).1 = decide (mod_check n a = ones64) := by
  rw [mod_unfold]

theorem mod_snd (n a res : List Nat) :
    (Hacl_Bignum4096_mod n a res).2
      = mask_output (mod_check n a)
          (Hacl_Bignum4096_mod_precompr2 n a
            (precomp (mul32 64 (Hacl_Bignum_Lib_bn_get_top_index_u64 64 n % 2 ^ 32)) n
              (List.replicate 64 0)) res) := by
  rw [mod_unfold]

theorem mod_check_spec (n a : List Nat) (hn : bn_wf 64 n) (ha : bn_wf 128 a) :
    mod_check n a
      = if (bn_v n % 2 = 1 ∧ 1 < bn_v n) ∧ bn_v a < bn_v n * bn_v n then ones64 else 0 := by
  unfold mod_check
  have c1 : bn_wf 128 (Hacl_Bignum4096_mul n n) := (karatsuba_mul_spec n n hn hn).1
  have c2 : bn_v (Hacl_Bignum4096_mul n n) = bn_v n * bn_v n := (karatsuba_mul_spec n n hn hn).2
  rw [mont_check_spec n hn, lt_mask_loop 128 a _ ha c1, c2]
  by_cases p0 : bn_v n % 2 = 1 ∧ 1 < bn_v n <;> by_cases p1 : bn_v a < bn_v n * bn_v n
  · rw [if_pos p0, if_pos p1, if_pos ⟨p0, p1⟩]; decide
  · rw [if_pos p0, if_neg p1, if_neg (fun h => p1 h.2)]; decide
  · rw [if_neg p0, if_pos p1, if_neg (fun h => p0 h.1)]; decide
  · rw [if_neg p0, if_neg p1, if_neg (fun h => p0 h.1)]; decide

/-- C4: for every odd 64-limb modulus `n > 1` and every 128-limb `a` with `a < n·n`,
`Hacl_Bignum4096_mod` returns `true` and leaves `res = a mod n`, and
`Hacl_Bignum4096_mod_precompr2`, given the 64-limb `r2 = 2^8192 mod n`, leaves the same
`res`. -/
theorem C4_mod_correct (n a res : List Nat)
    (hn : bn_wf 64 n) (ha : bn_wf 128 a) (hres : res.length = 64)
    (hodd : bn_v n % 2 = 1) (h1 : 1 < bn_v n) (han : bn_v a < bn_v n * bn_v n) :
    (Hacl_Bignum4096_mod n a res).1 = true
    ∧ bn_wf 64 (Hacl_Bignum4096_mod n a res).2
    ∧ bn_v (Hacl_Bignum4096_mod n a res).2 = bn_v a % bn_v n
    ∧ ∀ r2, bn_wf 64 r2 → bn_v r2 = 2 ^ 8192 % bn_v n →
        Hacl_Bignum4096_mod_precompr2 n a r2 res = (Hacl_Bignum4096_mod n a res).2 := by
  have hv : mod_check n a = ones64 := by
    rw [mod_check_spec n a hn ha, if_pos ⟨⟨hodd, h1⟩, han⟩]
  obtain ⟨r1, r2⟩ := r2_spec n hn hodd h1
  obtain ⟨s1, s2⟩ := mod_precompr2_spec n a _ res hn hodd h1 ha han r1 r2 hres
  rw [mod_fst, mod_snd, hv, mask_output_ones _ s1]
  refine ⟨decide_eq_true rfl, s1, s2, ?_⟩
  intro r2' h1' h2'
  obtain ⟨t1, t2⟩ := mod_precompr2_spec n a r2' res hn hodd h1 ha han h1' h2' hres
  exact bn_v_inj t1 s1 (by rw [t2, s2])

/-- The modulus `2^32 + 15` and the dividend `2^64 + 10^11` satisfy the hypotheses of C4. -/
theorem C4_mod_correct_witness :
    (bn_wf 64 S3_n ∧ bn_wf 128 wide_a ∧ stale_res.length = 64 ∧ bn_v S3_n % 2 = 1
      ∧ 1 < bn_v S3_n ∧ bn_v wide_a < bn_v S3_n * bn_v S3_n)
    ∧ ((Hacl_Bignum4096_mod S3_n wide_a stale_res).1 = true
      ∧ bn_wf 64 (Hacl_Bignum4096_mod S3_n wide_a stale_res).2
      ∧ bn_v (Hacl_Bignum4096_mod S3_n wide_a stale_res).2 = bn_v wide_a % bn_v S3_n
      ∧ ∀ r2, bn_wf 64 r2 → bn_v r2 = 2 ^ 8192 % bn_v S3_n →
          Hacl_Bignum4096_mod_precompr2 S3_n wide_a r2 stale_res
            = (Hacl_Bignum4096_mod S3_n wide_a stale_res).2) :=
  ⟨by decide,
    C4_mod_correct S3_n wide_a stale_res (by decide) (by decide) (by decide) (by decide)
      (by decide) (by decide)⟩

/-- C5: `Hacl_Bignum4096_mod` returns `true` if and only if `n` is odd, `n > 1` and
`a < n·n`; and whenever it returns `false` every one of the 64 limbs of `res` is 0 after
the call, whatever `res` held before. -/
theorem C5_mod_validity (n a res : List Nat)
    (hn : bn_wf 64 n) (ha : bn_wf 128 a) (hres : res.length = 64) :
    ((Hacl_Bignum4096_mod n a res).1 = true
      ↔ bn_v n % 2 = 1 ∧ 1 < bn_v n ∧ bn_v a < bn_v n * bn_v n)
    ∧ ((Hacl_Bignum4096_mod n a res).1 = false
      → (Hacl_Bignum4096_mod n a res).2 = List.replicate 64 0) := by
  rw [mod_fst, mod_snd, mod_check_spec n a hn ha]
  constructor
  · rw [decide_eq_true_iff]
    constructor
    · intro h
      by_contra hc
      rw [if_neg (fun h' => hc ⟨h'.1.1, h'.1.2, h'.2⟩)] at h
      exact absurd h (by decide)
    · rintro ⟨c1, c2, c3⟩
      rw [if_pos ⟨⟨c1, c2⟩, c3⟩]
  · intro h
    have hv := of_decide_eq_false h
    by_cases hc : (bn_v n % 2 = 1 ∧ 1 < bn_v n) ∧ bn_v a < bn_v n * bn_v n
    · rw [if_pos hc] at hv
      exact absurd rfl hv
    · rw [if_neg hc]
      exact mask_output_zero _ (mod_precompr2_length n a _ res hres)

/-- A dividend above `n·n` with a stale output buffer satisfies the hypotheses of C5. -/
theorem C5_mod_validity_witness :
    (bn_wf 64 S3_n ∧ bn_wf 128 wide_big ∧ stale_res.length = 64)
    ∧ (((Hacl_Bignum4096_mod S3_n wide_big stale_res).1 = true
        ↔ bn_v S3_n % 2 = 1 ∧ 1 < bn_v S3_n ∧ bn_v wide_big < bn_v S3_n * bn_v S3_n)
      ∧ ((Hacl_Bignum4096_mod S3_n wide_big stale_res).1 = false
        → (Hacl_Bignum4096_mod S3_n wide_big stale_res).2 = List.replicate 64 0)) :=
  ⟨by decide, C5_mod_validity S3_n wide_big stale_res (by decide) (by decide) (by decide)⟩

/-! ## Inversion modulo a prime -/

theorem mod_inv_unfold (n a res : List Nat) :
    Hacl_Bignum4096_mod_inv_prime_vartime n a res
      = (decide (inv_check n a = ones64),
         mask_output (inv_check n a)
          (if inv_check n a = ones64 then
            Hacl_Bignum4096_mod_exp_vartime_precompr2 n a 4096 (inv_n2 n)
              (precomp (mul32 64 (Hacl_Bignum_Lib_bn_get_top_index_u64 64 n % 2 ^ 32)) n
                (List.replicate 64 0)) res
           else res)) := rfl

theorem mod_inv_fst (n a res : List Nat) :
    (Hacl_Bignum4096_mod_inv_prime_vartime n a res).1 = decide (inv_check n a = ones64) := by
  rw [mod_inv_unfold]

theorem mod_inv_snd (n a res : List Nat) :
    (Hacl_Bignum4096_mod_inv_prime_vartime n a res).2
      = mask_output (inv_check n a)
          (if inv_check n a = ones64 then
            Hacl_Bignum4096_mod_exp_vartime_precompr2 n a 4096 (inv_n2 n)
              (precomp (mul32 64 (Hacl_Bignum_Lib_bn_get_top_index_u64 64 n % 2 ^ 32)) n
                (List.replicate 64 0)) res
           else res) := by
  rw [mod_inv_unfold]

/-- Two consecutive loops with the same body are one loop. -/
theorem forLoop_append {σ : Type} (lo mid hi : Nat) (f : Nat → σ → σ) (s : σ)
    (h1 : lo ≤ mid) (h2 : mid ≤ hi) :
    forLoop mid hi f (forLoop lo mid f s) = forLoop lo hi f s := by
  induction hi with
  | zero =>
    have e1 : mid = 0 := by omega
    have e2 : lo = 0 := by omega
    subst e1; subst e2
    rw [forLoop_empty _ _ _ _ (le_refl _)]
  | succ m ih =>
    by_cases hm : mid ≤ m
    · rw [forLoop_succ _ _ _ _ hm, forLoop_succ _ _ _ _ (le_trans h1 hm), ih hm]
    · have e : mid = m + 1 := by omega
      subst e
      rw [forLoop_empty _ _ _ _ (le_refl _)]

theorem mask_combine3 (P0 P1 P2 : Prop) [Decidable P0] [Decidable P1] [Decidable P2] :
    ((if P0 then ones64 else 0) &&& not64 (if P1 then ones64 else 0))
        &&& (if P2 then ones64 else 0)
      = if P0 ∧ ¬ P1 ∧ P2 then ones64 else 0 := by
  by_cases c0 : P0 <;> by_cases c1 : P1 <;> by_cases c2 : P2 <;>
    simp only [c0, c1, c2, if_true, if_false, and_true, and_false, true_and, false_and,
      not_true_eq_false, not_false_eq_true] <;> decide

theorem inv_check_spec (n a : List Nat) (hn : bn_wf 64 n) (ha : bn_wf 64 a) :
    inv_check n a
      = if (bn_v n % 2 = 1 ∧ 1 < bn_v n) ∧ bn_v a ≠ 0 ∧ bn_v a < bn_v n
        then ones64 else 0 := by
  unfold inv_check
  simp only
  rw [mont_check_spec n hn, eq_zero_loop 64 a ha, lt_mask_loop 64 a n ha hn]
  exact mask_combine3 _ _ _

theorem inv_n2_eq (n : List Nat) :
    inv_n2 n = (forLoop 0 63 (sub_zero_step n)
      ((Lib_IntTypes_Intrinsics_sub_borrow_u64 0 (n.getD 0 0) 2).1,
       (List.replicate 64 0).set 0 (Lib_IntTypes_Intrinsics_sub_borrow_u64 0 (n.getD 0 0) 2).2)).2 := by
  have e : inv_n2 n = (forLoop 60 63 (sub_zero_step n)
      (forLoop 0 15 (fun i st =>
        let st := sub_zero_step n (4 * i) st
        let st := sub_zero_step n (4 * i + 1) st
        let st := sub_zero_step n (4 * i + 2) st
        sub_zero_step n (4 * i + 3) st)
      ((Lib_IntTypes_Intrinsics_sub_borrow_u64 0 (n.getD 0 0) 2).1,
       (List.replicate 64 0).set 0
        (Lib_IntTypes_Intrinsics_sub_borrow_u64 0 (n.getD 0 0) 2).2))).2 := rfl
  rw [e, forLoop_unroll4 (sub_zero_step n) 15,
    forLoop_append 0 60 63 _ _ (by decide) (by decide)]

/-- The borrow chain of `Hacl_Bignum4096_mod_inv_prime_vartime` computes `n − 2`. -/
theorem inv_n2_spec (n : List Nat) (hn : bn_wf 64 n) (h2 : 2 ≤ bn_v n) :
    bn_wf 64 (inv_n2 n) ∧ bn_v (inv_n2 n) = bn_v n - 2 := by
  rw [inv_n2_eq]
  have hx0 := bn_wf_getD hn 0
  have f1 := sub_borrow_spec 0 (n.getD 0 0) 2 (by decide) hx0 (by decide)
  have f2 := sub_borrow_lt 0 (n.getD 0 0) 2
  have f3 := sub_borrow_le 0 (n.getD 0 0) 2
  have key := forLoop_inv
    (fun k (st : Nat × List Nat) =>
      st.2.length = 64 ∧ bn_wf (k + 1) (st.2.take (k + 1)) ∧ st.1 ≤ 1
      ∧ bn_v (st.2.take (k + 1)) + 2
          = bn_v (n.take (k + 1)) + st.1 * 2 ^ (64 * (k + 1)))
    0 63 (sub_zero_step n)
    ((Lib_IntTypes_Intrinsics_sub_borrow_u64 0 (n.getD 0 0) 2).1,
     (List.replicate 64 0).set 0 (Lib_IntTypes_Intrinsics_sub_borrow_u64 0 (n.getD 0 0) 2).2)
    (Nat.zero_le _)
    (by
      refine ⟨by simp, ?_, f3, ?_⟩
      · simp only
        rw [take_set_succ _ 0 _ (by simp)]
        exact bn_wf_take_snoc (by simpa using bn_wf_nil) f2
      · simp only
        rw [take_set_succ _ 0 _ (by simp), bn_v_append, bn_v_singleton,
          bn_v_take_succ n 0 (by rw [hn.1]; decide)]
        simp only [List.take_zero, bn_v_nil, List.length_nil, Nat.mul_zero, pow_zero,
          Nat.one_mul, Nat.zero_add, Nat.mul_one]
        omega)
    (by
      rintro i ⟨c, t⟩ _ hi ⟨h1, h3, h4, h5⟩
      simp only at h1 h3 h4 h5
      have hit : i + 1 < t.length := by rw [h1]; omega
      have hx := bn_wf_getD hn (i + 1)
      have e1 := sub_borrow_spec c (n.getD (i + 1) 0) 0 h4 hx (by decide)
      have e2 := sub_borrow_lt c (n.getD (i + 1) 0) 0
      have e3 := sub_borrow_le c (n.getD (i + 1) 0) 0
      unfold sub_zero_step
      rw [Nat.add_comm 1 i]
      refine ⟨by simp [h1], ?_, e3, ?_⟩
      · simp only
        rw [take_set_succ t (i + 1) _ hit]
        exact bn_wf_take_snoc h3 e2
      · simp only
        rw [take_set_succ t (i + 1) _ hit, bn_v_append, bn_v_singleton, h3.1,
          bn_v_take_succ n (i + 1) (by rw [hn.1]; omega), pow_succ_64 (i + 1)]
        generalize (Lib_IntTypes_Intrinsics_sub_borrow_u64 c (n.getD (i + 1) 0) 0).2 = s at *
        generalize (Lib_IntTypes_Intrinsics_sub_borrow_u64 c (n.getD (i + 1) 0) 0).1 = c' at *
        generalize n.getD (i + 1) 0 = x at *
        generalize (2:Nat) ^ (64 * (i + 1)) = P at *
        have : P * (s + 0 + c) = P * (x + 2 ^ 64 * c') := by rw [e1]
        nlinarith)
  obtain ⟨h1, h3, h4, h5⟩ := key
  rw [take_full _ _ (by rw [h1])] at h3 h5
  rw [take_full n _ (by rw [hn.1])] at h5
  have hlt := bn_v_lt h3
  have hnl := bn_v_lt hn
  refine ⟨h3, ?_⟩
  generalize (2:Nat) ^ (64 * (63 + 1)) = R at *
  generalize (forLoop 0 63 (sub_zero_step n) _) = st at *
  have hc : st.1 = 0 := by
    rcases Nat.le_one_iff_eq_zero_or_eq_one.1 h4 with h | h
    · exact h
    · rw [h] at h5; omega
  rw [hc] at h5
  omega

/-- C6: for every prime `n` with `2 < n < 2^4096` and every `a` with `0 < a < n`,
`Hacl_Bignum4096_mod_inv_prime_vartime` returns `true` and leaves `res < n` with
`(a · res) mod n = 1`, namely `res = a^(n−2) mod n`. -/
theorem C6_mod_inv_prime_correct (n a res : List Nat)
    (hn : bn_wf 64 n) (ha : bn_wf 64 a) (hres : res.length = 64)
    (hp : Nat.Prime (bn_v n)) (h2 : 2 < bn_v n)
    (ha0 : 0 < bn_v a) (han : bn_v a < bn_v n) :
    (Hacl_Bignum4096_mod_inv_prime_vartime n a res).1 = true
    ∧ bn_wf 64 (Hacl_Bignum4096_mod_inv_prime_vartime n a res).2
    ∧ bn_v (Hacl_Bignum4096_mod_inv_prime_vartime n a res).2 < bn_v n
    ∧ bn_v a * bn_v (Hacl_Bignum4096_mod_inv_prime_vartime n a res).2 % bn_v n = 1
    ∧ bn_v (Hacl_Bignum4096_mod_inv_prime_vartime n a res).2
        = bn_v a ^ (bn_v n - 2) % bn_v n := by
  have hodd : bn_v n % 2 = 1 := by
    rcases hp.eq_two_or_odd with h | h
    · omega
    · exact h
  have h1 : 1 < bn_v n := by omega
  have hv : inv_check n a = ones64 := by
    rw [inv_check_spec n a hn ha, if_pos ⟨⟨hodd, h1⟩, by omega, han⟩]
  obtain ⟨r1, r2⟩ := r2_spec n hn hodd h1
  obtain ⟨w1, w2⟩ := inv_n2_spec n hn (by omega)
  have hblt : bn_v (inv_n2 n) < 2 ^ 4096 := by
    have h := bn_v_lt w1
    rw [show 64 * 64 = 4096 from rfl] at h
    exact h
  obtain ⟨s1, s2⟩ := mod_exp_vartime_precompr2_spec n a 4096 (inv_n2 n) _ res hn hodd h1 ha han
    (by decide) (by decide) w1 hblt r1 r2 hres
  rw [w2] at s2
  rw [mod_inv_fst, mod_inv_snd, hv, if_pos rfl, mask_output_ones _ s1, s2]
  have hcop : Nat.Coprime (bn_v a) (bn_v n) :=
    Nat.Coprime.symm ((Nat.Prime.coprime_iff_not_dvd hp).2 (Nat.not_dvd_of_pos_of_lt ha0 han))
  have hfer := Nat.ModEq.pow_totient hcop
  rw [Nat.totient_prime hp] at hfer
  refine ⟨decide_eq_true rfl, ?_, Nat.mod_lt _ (by omega), ?_, rfl⟩
  · exact s1
  · rw [Nat.mul_mod, Nat.mod_mod, ← Nat.mul_mod, ← pow_succ']
    have e : bn_v n - 2 + 1 = bn_v n - 1 := by omega
    rw [e]
    have := hfer
    unfold Nat.ModEq at this
    rw [this]
    exact Nat.mod_eq_of_lt h1

/-- The prime `65537` and the base `7` satisfy the hypotheses of C6. -/
theorem C6_mod_inv_prime_correct_witness :
    (bn_wf 64 inv_p ∧ bn_wf 64 S3_a ∧ stale_res.length = 64 ∧ Nat.Prime (bn_v inv_p)
      ∧ 2 < bn_v inv_p ∧ 0 < bn_v S3_a ∧ bn_v S3_a < bn_v inv_p)
    ∧ ((Hacl_Bignum4096_mod_inv_prime_vartime inv_p S3_a stale_res).1 = true
      ∧ bn_wf 64 (Hacl_Bignum4096_mod_inv_prime_vartime inv_p S3_a stale_res).2
      ∧ bn_v (Hacl_Bignum4096_mod_inv_prime_vartime inv_p S3_a stale_res).2 < bn_v inv_p
      ∧ bn_v S3_a * bn_v (Hacl_Bignum4096_mod_inv_prime_vartime inv_p S3_a stale_res).2
          % bn_v inv_p = 1
      ∧ bn_v (Hacl_Bignum4096_mod_inv_prime_vartime inv_p S3_a stale_res).2
          = bn_v S3_a ^ (bn_v inv_p - 2) % bn_v inv_p) :=
  ⟨⟨by decide, by decide, by decide,
      by rw [show bn_v inv_p = 65537 from by decide]; norm_num,
      by decide, by decide, by decide⟩,
    C6_mod_inv_prime_correct inv_p S3_a stale_res (by decide) (by decide) (by decide)
      (by rw [show bn_v inv_p = 65537 from by decide]; norm_num)
      (by decide) (by decide) (by decide)⟩

/-- C7: `Hacl_Bignum4096_mod_inv_prime_vartime` returns `true` if and only if `n` is odd,
`n > 1`, `a ≠ 0` and `a < n` (primality of `n` is not checked); and whenever it returns
`false` every one of the 64 limbs of `res` is 0 after the call. -/
theorem C7_mod_inv_prime_validity (n a res : List Nat)
    (hn : bn_wf 64 n) (ha : bn_wf 64 a) (hres : res.length = 64) :
    ((Hacl_Bignum4096_mod_inv_prime_vartime n a res).1 = true
      ↔ bn_v n % 2 = 1 ∧ 1 < bn_v n ∧ bn_v a ≠ 0 ∧ bn_v a < bn_v n)
    ∧ ((Hacl_Bignum4096_mod_inv_prime_vartime n a res).1 = false
      → (Hacl_Bignum4096_mod_inv_prime_vartime n a res).2 = List.replicate 64 0) := by
  rw [mod_inv_fst, mod_inv_snd, inv_check_spec n a hn ha]
  constructor
  · rw [decide_eq_true_iff]
    constructor
    · intro h
      by_contra hc
      rw [if_neg (fun h' => hc ⟨h'.1.1, h'.1.2, h'.2.1, h'.2.2⟩)] at h
      exact absurd h (by decide)
    · rintro ⟨c1, c2, c3, c4⟩
      rw [if_pos ⟨⟨c1, c2⟩, c3, c4⟩]
  · intro h
    have hv := of_decide_eq_false h
    by_cases hc : (bn_v n % 2 = 1 ∧ 1 < bn_v n) ∧ bn_v a ≠ 0 ∧ bn_v a < bn_v n
    · rw [if_pos hc] at hv
      exact absurd rfl hv
    · rw [if_neg hc, if_neg (by decide)]
      exact mask_output_zero _ hres

/-- A zero `a` with a stale output buffer satisfies the hypotheses of C7. -/
theorem C7_mod_inv_prime_validity_witness :
    (bn_wf 64 inv_p ∧ bn_wf 64 bn_zero64 ∧ stale_res.length = 64)
    ∧ (((Hacl_Bignum4096_mod_inv_prime_vartime inv_p bn_zero64 stale_res).1 = true
        ↔ bn_v inv_p % 2 = 1 ∧ 1 < bn_v inv_p ∧ bn_v bn_zero64 ≠ 0
          ∧ bn_v bn_zero64 < bn_v inv_p)
      ∧ ((Hacl_Bignum4096_mod_inv_prime_vartime inv_p bn_zero64 stale_res).1 = false
        → (Hacl_Bignum4096_mod_inv_prime_vartime inv_p bn_zero64 stale_res).2
            = List.replicate 64 0)) :=
  ⟨by decide,
    C7_mod_inv_prime_validity inv_p bn_zero64 stale_res (by decide) (by decide) (by decide)⟩

/-! ## Precomputing `r2` -/

theorem new_precompr2_unfold (calloc_ok : Bool) (n : List Nat) :
    Hacl_Bignum4096_new_precompr2 calloc_ok n
      = if ¬ (mont_check n = ones64) then (none, 0)
        else if calloc_ok = true then
          (some (precomp (mul32 64 (Hacl_Bignum_Lib_bn_get_top_index_u64 64 n % 2 ^ 32)) n
            (List.replicate 64 0)), 1)
        else (none, 1) := by
  cases calloc_ok <;> rfl

theorem mont_check_eq_ones_iff (n : List Nat) (hn : bn_wf 64 n) :
    mont_check n = ones64 ↔ bn_v n % 2 = 1 ∧ 1 < bn_v n := by
  rw [mont_check_spec n hn]
  constructor
  · intro h
    by_contra hc
    rw [if_neg hc] at h
    exact absurd h (by decide)
  · intro h
    rw [if_pos h]

theorem new_precompr2_valid (calloc_ok : Bool) (n : List Nat) (hn : bn_wf 64 n)
    (hodd : bn_v n % 2 = 1) (h1 : 1 < bn_v n) :
    Hacl_Bignum4096_new_precompr2 calloc_ok n
      = if calloc_ok = true then
          (some (precomp (mul32 64 (Hacl_Bignum_Lib_bn_get_top_index_u64 64 n % 2 ^ 32)) n
            (List.replicate 64 0)), 1)
        else (none, 1) := by
  rw [new_precompr2_unfold, if_neg (not_not.2 ((mont_check_eq_ones_iff n hn).2 ⟨hodd, h1⟩))]

/-- C8: for every valid input (`n` odd, `n > 1`, `a < n`, `0 < b < 2^bBits`, `bBits ≥ 1`),
the `res` written by `Hacl_Bignum4096_mod_exp_vartime` equals the `res` written by
`Hacl_Bignum4096_mod_exp_vartime_precompr2` given the bignum `r2` that
`Hacl_Bignum4096_new_precompr2` returns for `n`. -/
theorem C8_mod_exp_vartime_eq_precompr2 (n a : List Nat) (bBits : Nat) (b res : List Nat)
    (hn : bn_wf 64 n) (ha : bn_wf 64 a) (hres : res.length = 64)
    (hbBits : 1 ≤ bBits) (hb32 : bBits < 2 ^ 32) (hb : bn_wf ((bBits - 1) / 64 + 1) b)
    (hodd : bn_v n % 2 = 1) (h1 : 1 < bn_v n) (han : bn_v a < bn_v n)
    (hb0 : 0 < bn_v b) (hblt : bn_v b < 2 ^ bBits) :
    ∃ r2, (Hacl_Bignum4096_new_precompr2 true n).1 = some r2
      ∧ (Hacl_Bignum4096_mod_exp_vartime n a bBits b res).2
          = Hacl_Bignum4096_mod_exp_vartime_precompr2 n a bBits b r2 res := by
  refine ⟨_, by rw [new_precompr2_valid true n hn hodd h1, if_pos rfl], ?_⟩
  have hv : exp_check n a bBits b = ones64 :=
    (exp_check_eq_ones_iff n a bBits b hn ha hbBits hb32 hb).2
      ⟨⟨hodd, h1⟩, by omega, exp_check_bound_of_lt bBits b hblt, han⟩
  obtain ⟨r1, r2⟩ := r2_spec n hn hodd h1
  obtain ⟨s1, _⟩ := mod_exp_vartime_precompr2_spec n a bBits b _ res hn hodd h1 ha han hbBits
    hb32 hb hblt r1 r2 hres
  rw [mod_exp_vartime_snd, hv, if_pos rfl, mask_output_ones _ s1]

/-- Scenario S3 satisfies the hypotheses of C8. -/
theorem C8_mod_exp_vartime_eq_precompr2_witness :
    (bn_wf 64 S3_n ∧ bn_wf 64 S3_a ∧ stale_res.length = 64 ∧ 1 ≤ 33 ∧ 33 < 2 ^ 32
      ∧ bn_wf ((33 - 1) / 64 + 1) S3_b ∧ bn_v S3_n % 2 = 1 ∧ 1 < bn_v S3_n
      ∧ bn_v S3_a < bn_v S3_n ∧ 0 < bn_v S3_b ∧ bn_v S3_b < 2 ^ 33)
    ∧ ∃ r2, (Hacl_Bignum4096_new_precompr2 true S3_n).1 = some r2
      ∧ (Hacl_Bignum4096_mod_exp_vartime S3_n S3_a 33 S3_b stale_res).2
          = Hacl_Bignum4096_mod_exp_vartime_precompr2 S3_n S3_a 33 S3_b r2 stale_res :=
  ⟨by decide,
    C8_mod_exp_vartime_eq_precompr2 S3_n S3_a 33 S3_b stale_res (by decide) (by decide)
      (by decide) (by decide) (by decide) (by decide) (by decide) (by decide) (by decide)
      (by decide) (by decide)⟩

/-- C9: for every odd 64-limb `n > 1`, allocation succeeding, the bignum returned by
`Hacl_Bignum4096_new_precompr2`, and likewise the value `precomp` writes into any 64-limb
`res` when called with `nBits = 64 · top_index(n)`, equals `2^8192 mod n` and is therefore
in `[0, n)`. -/
theorem C9_precompr2_value (n : List Nat)
    (hn : bn_wf 64 n) (hodd : bn_v n % 2 = 1) (h1 : 1 < bn_v n) :
    (∃ r2, Hacl_Bignum4096_new_precompr2 true n = (some r2, 1)
      ∧ bn_wf 64 r2 ∧ bn_v r2 = 2 ^ 8192 % bn_v n ∧ bn_v r2 < bn_v n)
    ∧ mul32 64 (Hacl_Bignum_Lib_bn_get_top_index_u64 64 n % 2 ^ 32)
        = 64 * Hacl_Bignum_Lib_bn_get_top_index_u64 64 n
    ∧ ∀ res : List Nat, res.length = 64 →
        bn_wf 64 (precomp (64 * Hacl_Bignum_Lib_bn_get_top_index_u64 64 n) n res)
        ∧ bn_v (precomp (64 * Hacl_Bignum_Lib_bn_get_top_index_u64 64 n) n res)
            = 2 ^ 8192 % bn_v n
        ∧ bn_v (precomp (64 * Hacl_Bignum_Lib_bn_get_top_index_u64 64 n) n res) < bn_v n := by
  obtain ⟨r1, r2⟩ := r2_spec n hn hodd h1
  obtain ⟨a1, a2⟩ := top_index_spec n hn hodd h1
  have e : mul32 64 (Hacl_Bignum_Lib_bn_get_top_index_u64 64 n % 2 ^ 32)
      = 64 * Hacl_Bignum_Lib_bn_get_top_index_u64 64 n := by
    unfold mul32; omega
  have hpos : 0 < bn_v n := by omega
  refine ⟨⟨_, by rw [new_precompr2_valid true n hn hodd h1, if_pos rfl], r1, r2, ?_⟩, e, ?_⟩
  · rw [r2]; exact Nat.mod_lt _ hpos
  · intro res hres
    obtain ⟨b1, b2⟩ := nBits_spec n hn hodd h1
    rw [e] at b1 b2
    obtain ⟨p1, p2⟩ := precomp_spec _ n res hn hres b1 b2
    refine ⟨p1, p2, ?_⟩
    rw [p2]; exact Nat.mod_lt _ hpos

/-- The modulus `2^32 + 15` satisfies the hypotheses of C9. -/
theorem C9_precompr2_value_witness :
    (bn_wf 64 S3_n ∧ bn_v S3_n % 2 = 1 ∧ 1 < bn_v S3_n)
    ∧ ((∃ r2, Hacl_Bignum4096_new_precompr2 true S3_n = (some r2, 1)
        ∧ bn_wf 64 r2 ∧ bn_v r2 = 2 ^ 8192 % bn_v S3_n ∧ bn_v r2 < bn_v S3_n)
      ∧ mul32 64 (Hacl_Bignum_Lib_bn_get_top_index_u64 64 S3_n % 2 ^ 32)
          = 64 * Hacl_Bignum_Lib_bn_get_top_index_u64 64 S3_n
      ∧ ∀ res : List Nat, res.length = 64 →
          bn_wf 64 (precomp (64 * Hacl_Bignum_Lib_bn_get_top_index_u64 64 S3_n) S3_n res)
          ∧ bn_v (precomp (64 * Hacl_Bignum_Lib_bn_get_top_index_u64 64 S3_n) S3_n res)
              = 2 ^ 8192 % bn_v S3_n
          ∧ bn_v (precomp (64 * Hacl_Bignum_Lib_bn_get_top_index_u64 64 S3_n) S3_n res)
              < bn_v S3_n) :=
  ⟨by decide, C9_precompr2_value S3_n (by decide) (by decide) (by decide)⟩

/-- C10: modelling the result as an `Option` together with the number of allocations made,
`Hacl_Bignum4096_new_precompr2` returns `none` without allocating exactly when `n` is even
or `n ≤ 1`; for every odd `n > 1` it allocates once and returns a bignum exactly when the
allocation succeeds. -/
theorem C10_new_precompr2_null (calloc_ok : Bool) (n : List Nat) (hn : bn_wf 64 n) :
    (Hacl_Bignum4096_new_precompr2 calloc_ok n = (none, 0)
      ↔ bn_v n % 2 = 0 ∨ bn_v n ≤ 1)
    ∧ (bn_v n % 2 = 1 ∧ 1 < bn_v n →
        (Hacl_Bignum4096_new_precompr2 calloc_ok n).2 = 1
        ∧ ((Hacl_Bignum4096_new_precompr2 calloc_ok n).1.isSome = true ↔ calloc_ok = true)) := by
  constructor
  · by_cases hv : bn_v n % 2 = 1 ∧ 1 < bn_v n
    · rw [new_precompr2_valid calloc_ok n hn hv.1 hv.2]
      constructor
      · intro h
        cases calloc_ok
        · rw [if_neg (by decide)] at h
          exact absurd (congrArg Prod.snd h) Nat.one_ne_zero
        · rw [if_pos rfl] at h
          exact absurd (congrArg Prod.snd h) Nat.one_ne_zero
      · intro h; omega
    · rw [new_precompr2_unfold, if_pos (fun h => hv ((mont_check_eq_ones_iff n hn).1 h))]
      constructor
      · intro _; omega
      · intro _; rfl
  · rintro ⟨hodd, h1⟩
    rw [new_precompr2_valid calloc_ok n hn hodd h1]
    cases calloc_ok
    · rw [if_neg (by decide)]
      exact ⟨rfl, by decide⟩
    · rw [if_pos rfl]
      exact ⟨rfl, by simp⟩

/-- The modulus 1 satisfies the hypothesis of C10. -/
theorem C10_new_precompr2_null_witness :
    bn_wf 64 bn_one64
    ∧ ((Hacl_Bignum4096_new_precompr2 true bn_one64 = (none, 0)
        ↔ bn_v bn_one64 % 2 = 0 ∨ bn_v bn_one64 ≤ 1)
      ∧ (bn_v bn_one64 % 2 = 1 ∧ 1 < bn_v bn_one64 →
          (Hacl_Bignum4096_new_precompr2 true bn_one64).2 = 1
          ∧ ((Hacl_Bignum4096_new_precompr2 true bn_one64).1.isSome = true ↔ true = true))) :=
  ⟨by decide, C10_new_precompr2_null true bn_one64 (by decide)⟩

/-! ## Addition, subtraction and comparison -/

theorem add_unfold (a b res : List Nat) :
    Hacl_Bignum4096_add a b res = forLoop 0 64 (add_step (Src.buf a) (Src.buf b)) (0, res) := by
  unfold Hacl_Bignum4096_add
  exact add_loops_eq _ _ _

theorem sub_unfold (a b res : List Nat) :
    Hacl_Bignum4096_sub a b res = forLoop 0 64 (sub_step a b) (0, res) := by
  unfold Hacl_Bignum4096_sub
  exact sub_loops_eq _ _ _

/-- The contract of `Hacl_Bignum4096_add` with the radix written `2^(64·64)`. -/
theorem add_spec (a b res : List Nat) (ha : bn_wf 64 a) (hb : bn_wf 64 b)
    (hres : res.length = 64) :
    bn_wf 64 (Hacl_Bignum4096_add a b res).2
    ∧ (Hacl_Bignum4096_add a b res).1 ≤ 1
    ∧ bn_v (Hacl_Bignum4096_add a b res).2 + (Hacl_Bignum4096_add a b res).1 * 2 ^ (64 * 64)
        = bn_v a + bn_v b := by
  rw [add_unfold]
  exact add_loop_spec 64 (Src.buf a) (Src.buf b) res ha hb hres

/-- The contract of `Hacl_Bignum4096_sub` with the radix written `2^(64·64)`. -/
theorem sub_spec (a b res : List Nat) (ha : bn_wf 64 a) (hb : bn_wf 64 b)
    (hres : res.length = 64) :
    bn_wf 64 (Hacl_Bignum4096_sub a b res).2
    ∧ (Hacl_Bignum4096_sub a b res).1 ≤ 1
    ∧ bn_v (Hacl_Bignum4096_sub a b res).2 + bn_v b
        = bn_v a + (Hacl_Bignum4096_sub a b res).1 * 2 ^ (64 * 64) := by
  rw [sub_unfold]
  exact sub_loop_spec 64 a b res ha hb hres

/-- A sum split into a remainder below `R` and a single carry bit. -/
theorem carry_arith (x r c R : Nat) (hc : c ≤ 1) (hr : r < R) (h : r + c * R = x) :
    r = x % R ∧ (c = 1 ↔ R ≤ x) := by
  rcases Nat.le_one_iff_eq_zero_or_eq_one.1 hc with h0 | h1
  · subst h0
    rw [Nat.zero_mul, Nat.add_zero] at h
    subst h
    exact ⟨(Nat.mod_eq_of_lt hr).symm, by omega⟩
  · subst h1
    rw [Nat.one_mul] at h
    subst h
    exact ⟨by rw [Nat.add_mod_right, Nat.mod_eq_of_lt hr], by omega⟩

/-- A difference split into a remainder below `R` and a single borrow bit. -/
theorem borrow_arith (x y r c R : Nat) (hc : c ≤ 1) (hr : r < R)
    (h : r + y = x + c * R) :
    (r : Int) = ((x : Int) - (y : Int)) % (R : Int) ∧ (c = 1 ↔ x < y) := by
  rcases Nat.le_one_iff_eq_zero_or_eq_one.1 hc with h0 | h1
  · subst h0
    rw [Nat.zero_mul, Nat.add_zero] at h
    refine ⟨?_, by omega⟩
    have e : (x : Int) - (y : Int) = (r : Int) := by omega
    rw [e]
    exact (Int.emod_eq_of_lt (by omega) (by omega)).symm
  · subst h1
    rw [Nat.one_mul] at h
    refine ⟨?_, by omega⟩
    have e : (x : Int) - (y : Int) = (r : Int) + (R : Int) * (-1) := by omega
    rw [e, Int.add_mul_emod_self_left]
    exact (Int.emod_eq_of_lt (by omega) (by omega)).symm

/-- C11: for all 64-limb `a` and `b`, `Hacl_Bignum4096_add` returns a carry `c ∈ {0, 1}` and
writes a 64-limb `res` with `value(a) + value(b) = value(res) + c · 2^4096`, that is
`res = (a + b) mod 2^4096` and `c = 1` iff `a + b ≥ 2^4096`. -/
theorem C11_add_correct (a b res : List Nat) (ha : bn_wf 64 a) (hb : bn_wf 64 b)
    (hres : res.length = 64) :
    ((Hacl_Bignum4096_add a b res).1 = 0 ∨ (Hacl_Bignum4096_add a b res).1 = 1)
    ∧ bn_wf 64 (Hacl_Bignum4096_add a b res).2
    ∧ bn_v a + bn_v b
        = bn_v (Hacl_Bignum4096_add a b res).2 + (Hacl_Bignum4096_add a b res).1 * 2 ^ 4096
    ∧ bn_v (Hacl_Bignum4096_add a b res).2 = (bn_v a + bn_v b) % 2 ^ 4096
    ∧ ((Hacl_Bignum4096_add a b res).1 = 1 ↔ 2 ^ 4096 ≤ bn_v a + bn_v b) := by
  obtain ⟨h1, h2, h3⟩ := add_spec a b res ha hb hres
  have hlt := bn_v_lt h1
  rw [show (4096 : Nat) = 64 * 64 from rfl]
  generalize (2 : Nat) ^ (64 * 64) = R at *
  obtain ⟨k1, k2⟩ := carry_arith _ _ _ R h2 hlt h3
  exact ⟨Nat.le_one_iff_eq_zero_or_eq_one.1 h2, h1, h3.symm, k1, k2⟩

/-- The operands `2^4096 − 1` and `1` satisfy the hypotheses of C11. -/
theorem C11_add_correct_witness :
    (bn_wf 64 bn_max64 ∧ bn_wf 64 bn_one64 ∧ stale_res.length = 64)
    ∧ (((Hacl_Bignum4096_add bn_max64 bn_one64 stale_res).1 = 0
        ∨ (Hacl_Bignum4096_add bn_max64 bn_one64 stale_res).1 = 1)
      ∧ bn_wf 64 (Hacl_Bignum4096_add bn_max64 bn_one64 stale_res).2
      ∧ bn_v bn_max64 + bn_v bn_one64
          = bn_v (Hacl_Bignum4096_add bn_max64 bn_one64 stale_res).2
            + (Hacl_Bignum4096_add bn_max64 bn_one64 stale_res).1 * 2 ^ 4096
      ∧ bn_v (Hacl_Bignum4096_add bn_max64 bn_one64 stale_res).2
          = (bn_v bn_max64 + bn_v bn_one64) % 2 ^ 4096
      ∧ ((Hacl_Bignum4096_add bn_max64 bn_one64 stale_res).1 = 1
          ↔ 2 ^ 4096 ≤ bn_v bn_max64 + bn_v bn_one64)) :=
  ⟨by decide, C11_add_correct bn_max64 bn_one64 stale_res (by decide) (by decide) (by decide)⟩

/-- C12: for all 64-limb `a` and `b`, `Hacl_Bignum4096_sub` returns a borrow `c ∈ {0, 1}` and
writes a 64-limb `res` with `value(a) − value(b) = value(res) − c · 2^4096`, that is
`res = (a − b) mod 2^4096` and `c = 1` iff `a < b`. -/
theorem C12_sub_correct (a b res : List Nat) (ha : bn_wf 64 a) (hb : bn_wf 64 b)
    (hres : res.length = 64) :
    ((Hacl_Bignum4096_sub a b res).1 = 0 ∨ (Hacl_Bignum4096_sub a b res).1 = 1)
    ∧ bn_wf 64 (Hacl_Bignum4096_sub a b res).2
    ∧ (bn_v a : Int) - (bn_v b : Int)
        = (bn_v (Hacl_Bignum4096_sub a b res).2 : Int)
          - ((Hacl_Bignum4096_sub a b res).1 : Int) * 2 ^ 4096
    ∧ (bn_v (Hacl_Bignum4096_sub a b res).2 : Int)
        = ((bn_v a : Int) - (bn_v b : Int)) % 2 ^ 4096
    ∧ ((Hacl_Bignum4096_sub a b res).1 = 1 ↔ bn_v a < bn_v b) := by
  obtain ⟨h1, h2, h3⟩ := sub_spec a b res ha hb hres
  have hlt := bn_v_lt h1
  rw [show (4096 : Nat) = 64 * 64 from rfl]
  have hcast : ((2 : Int) ^ (64 * 64)) = (((2 : Nat) ^ (64 * 64) : Nat) : Int) := by
    rw [Nat.cast_pow]; rfl
  rw [hcast]
  generalize (2 : Nat) ^ (64 * 64) = R at *
  obtain ⟨k1, k2⟩ := borrow_arith _ _ _ _ R h2 hlt h3
  refine ⟨Nat.le_one_iff_eq_zero_or_eq_one.1 h2, h1, ?_, k1, k2⟩
  have h3' : (bn_v (Hacl_Bignum4096_sub a b res).2 : Int) + (bn_v b : Int)
      = (bn_v a : Int) + ((Hacl_Bignum4096_sub a b res).1 : Int) * (R : Int) := by
    exact_mod_cast h3
  linarith

/-- The operands `1` and `2^4096 − 1` satisfy the hypotheses of C12. -/
theorem C12_sub_correct_witness :
    (bn_wf 64 bn_one64 ∧ bn_wf 64 bn_max64 ∧ stale_res.length = 64)
    ∧ (((Hacl_Bignum4096_sub bn_one64 bn_max64 stale_res).1 = 0
        ∨ (Hacl_Bignum4096_sub bn_one64 bn_max64 stale_res).1 = 1)
      ∧ bn_wf 64 (Hacl_Bignum4096_sub bn_one64 bn_max64 stale_res).2
      ∧ (bn_v bn_one64 : Int) - (bn_v bn_max64 : Int)
          = (bn_v (Hacl_Bignum4096_sub bn_one64 bn_max64 stale_res).2 : Int)
            - ((Hacl_Bignum4096_sub bn_one64 bn_max64 stale_res).1 : Int) * 2 ^ 4096
      ∧ (bn_v (Hacl_Bignum4096_sub bn_one64 bn_max64 stale_res).2 : Int)
          = ((bn_v bn_one64 : Int) - (bn_v bn_max64 : Int)) % 2 ^ 4096
      ∧ ((Hacl_Bignum4096_sub bn_one64 bn_max64 stale_res).1 = 1
          ↔ bn_v bn_one64 < bn_v bn_max64)) :=
  ⟨by decide, C12_sub_correct bn_one64 bn_max64 stale_res (by decide) (by decide) (by decide)⟩

/-- C13: for all 64-limb `A` and `B`, if `(c, S)` is the carry and result of
`Hacl_Bignum4096_add(A, B)` and `(d, D)` the borrow and result of `Hacl_Bignum4096_sub(S, B)`,
then `D = A` limb for limb and `d = c`. -/
theorem C13_add_sub_identity (A B res1 res2 : List Nat) (hA : bn_wf 64 A) (hB : bn_wf 64 B)
    (hres1 : res1.length = 64) (hres2 : res2.length = 64) :
    (Hacl_Bignum4096_sub (Hacl_Bignum4096_add A B res1).2 B res2).2 = A
    ∧ (Hacl_Bignum4096_sub (Hacl_Bignum4096_add A B res1).2 B res2).1
        = (Hacl_Bignum4096_add A B res1).1 := by
  obtain ⟨h1, h2, h3⟩ := add_spec A B res1 hA hB hres1
  obtain ⟨g1, g2, g3⟩ := sub_spec (Hacl_Bignum4096_add A B res1).2 B res2 h1 hB hres2
  have hD := bn_v_lt g1
  have hAlt := bn_v_lt hA
  generalize Hacl_Bignum4096_sub (Hacl_Bignum4096_add A B res1).2 B res2 = r at *
  generalize Hacl_Bignum4096_add A B res1 = s at *
  have hd : r.1 = s.1 := by
    generalize (2 : Nat) ^ (64 * 64) = R at *
    rcases Nat.le_one_iff_eq_zero_or_eq_one.1 h2 with e1 | e1 <;>
      rcases Nat.le_one_iff_eq_zero_or_eq_one.1 g2 with e2 | e2 <;>
      rw [e1] at h3 <;> rw [e2] at g3 <;> rw [e1, e2] <;> omega
  refine ⟨bn_v_inj g1 hA ?_, hd⟩
  rw [hd] at g3
  generalize (2 : Nat) ^ (64 * 64) = R at *
  generalize s.1 * R = t at *
  omega

/-- The operands `2^4096 − 1` and `1`, whose sum carries, satisfy the hypotheses of C13. -/
theorem C13_add_sub_identity_witness :
    (bn_wf 64 bn_max64 ∧ bn_wf 64 bn_one64 ∧ stale_res.length = 64 ∧ bn_zero64.length = 64)
    ∧ ((Hacl_Bignum4096_sub (Hacl_Bignum4096_add bn_max64 bn_one64 stale_res).2 bn_one64
          bn_zero64).2 = bn_max64
      ∧ (Hacl_Bignum4096_sub (Hacl_Bignum4096_add bn_max64 bn_one64 stale_res).2 bn_one64
          bn_zero64).1 = (Hacl_Bignum4096_add bn_max64 bn_one64 stale_res).1) :=
  ⟨by decide,
    C13_add_sub_identity bn_max64 bn_one64 stale_res bn_zero64 (by decide) (by decide)
      (by decide) (by decide)⟩

/-- C14: for all 64-limb `a` and `b`, `Hacl_Bignum4096_lt_mask(a, b)` returns `2^64 − 1` if
`value(a) < value(b)` and `0` otherwise; it never returns any other value. -/
theorem C14_lt_mask_correct (a b : List Nat) (ha : bn_wf 64 a) (hb : bn_wf 64 b) :
    (bn_v a < bn_v b → Hacl_Bignum4096_lt_mask a b = 2 ^ 64 - 1)
    ∧ (¬ bn_v a < bn_v b → Hacl_Bignum4096_lt_mask a b = 0)
    ∧ (Hacl_Bignum4096_lt_mask a b = 2 ^ 64 - 1 ∨ Hacl_Bignum4096_lt_mask a b = 0) := by
  have e : Hacl_Bignum4096_lt_mask a b = if bn_v a < bn_v b then ones64 else 0 := by
    unfold Hacl_Bignum4096_lt_mask
    exact lt_mask_loop 64 a b ha hb
  rw [e, ← ones64_eq]
  by_cases h : bn_v a < bn_v b
  · rw [if_pos h]
    exact ⟨fun _ => rfl, fun h' => absurd h h', Or.inl rfl⟩
  · rw [if_neg h]
    exact ⟨fun h' => absurd h' h, fun _ => rfl, Or.inr rfl⟩

/-- The operands `1` and `2^4096 − 1` satisfy the hypotheses of C14. -/
theorem C14_lt_mask_correct_witness :
    (bn_wf 64 bn_one64 ∧ bn_wf 64 bn_max64)
    ∧ ((bn_v bn_one64 < bn_v bn_max64 → Hacl_Bignum4096_lt_mask bn_one64 bn_max64 = 2 ^ 64 - 1)
      ∧ (¬ bn_v bn_one64 < bn_v bn_max64 → Hacl_Bignum4096_lt_mask bn_one64 bn_max64 = 0)
      ∧ (Hacl_Bignum4096_lt_mask bn_one64 bn_max64 = 2 ^ 64 - 1
          ∨ Hacl_Bignum4096_lt_mask bn_one64 bn_max64 = 0)) :=
  ⟨by decide, C14_lt_mask_correct bn_one64 bn_max64 (by decide) (by decide)⟩

/-! ## Loads and stores -/

theorem bytes_le_v_nil : bytes_le_v [] = 0 := rfl

theorem bytes_le_v_cons (x : Nat) (xs : List Nat) :
    bytes_le_v (x :: xs) = x + 256 * bytes_le_v xs := rfl

theorem bytes_le_v_append (l1 l2 : List Nat) :
    bytes_le_v (l1 ++ l2) = bytes_le_v l1 + 256 ^ l1.length * bytes_le_v l2 := by
  induction l1 with
  | nil => simp [bytes_le_v_nil]
  | cons x xs ih =>
    rw [List.cons_append, bytes_le_v_cons, bytes_le_v_cons, ih, List.length_cons, pow_succ]
    ring

theorem bytes_le_v_replicate_zero (k : Nat) : bytes_le_v (List.replicate k 0) = 0 := by
  induction k with
  | zero => rfl
  | succ m ih => rw [List.replicate_succ, bytes_le_v_cons, ih]

theorem bytes_wf_nil : bytes_wf 0 [] := ⟨rfl, by simp⟩

theorem bytes_wf_cons {len x : Nat} {xs : List Nat} (hx : x < 256) (h : bytes_wf len xs) :
    bytes_wf (len + 1) (x :: xs) := by
  refine ⟨by simp [h.1], ?_⟩
  intro y hy
  rcases List.mem_cons.1 hy with h1 | h1
  · rw [h1]; exact hx
  · exact h.2 y h1

theorem bytes_wf_replicate_zero (k : Nat) : bytes_wf k (List.replicate k 0) := by
  refine ⟨by simp, ?_⟩
  intro x hx
  rw [List.eq_of_mem_replicate hx]
  decide

theorem bytes_wf_append {k1 k2 : Nat} {l1 l2 : List Nat} (h1 : bytes_wf k1 l1)
    (h2 : bytes_wf k2 l2) : bytes_wf (k1 + k2) (l1 ++ l2) := by
  refine ⟨by simp [h1.1, h2.1], ?_⟩
  intro x hx
  rcases List.mem_append.1 hx with h | h
  · exact h1.2 x h
  · exact h2.2 x h

theorem bytes_wf_reverse {k : Nat} {l : List Nat} (h : bytes_wf k l) : bytes_wf k l.reverse :=
  ⟨by rw [List.length_reverse, h.1], fun x hx => h.2 x (List.mem_reverse.1 hx)⟩

theorem bytes_wf_subBuf {k : Nat} {l : List Nat} (h : bytes_wf k l) (off len : Nat)
    (hle : off + len ≤ k) : bytes_wf len (subBuf l off len) := by
  refine ⟨subBuf_length l off len (by rw [h.1]; exact hle), ?_⟩
  intro x hx
  unfold subBuf at hx
  exact h.2 x (List.mem_of_mem_drop (List.mem_of_mem_take hx))

theorem bytes_wf_blit {k len : Nat} {buf src : List Nat} (h : bytes_wf k buf)
    (hs : bytes_wf len src) (off : Nat) (hoff : off + len ≤ k) :
    bytes_wf k (blit buf off src len) := by
  refine ⟨by rw [blit_length buf src off len (by rw [h.1]; exact hoff) hs.1, h.1], ?_⟩
  intro x hx
  unfold blit at hx
  rcases List.mem_append.1 hx with h1 | h1
  · exact h.2 x (List.mem_of_mem_take h1)
  · rcases List.mem_append.1 h1 with h2 | h2
    · exact hs.2 x (List.mem_of_mem_take h2)
    · exact h.2 x (List.mem_of_mem_drop h2)

theorem bytes_le_v_lt {len : Nat} {l : List Nat} (h : bytes_wf len l) :
    bytes_le_v l < 256 ^ len := by
  induction l generalizing len with
  | nil => rw [bytes_le_v_nil]; exact Nat.pos_pow_of_pos _ (by decide)
  | cons x xs ih =>
    cases len with
    | zero => have := h.1; simp at this
    | succ m =>
      have hx : x < 256 := h.2 x (List.mem_cons_self _ _)
      have hxs : bytes_wf m xs :=
        ⟨by have := h.1; simpa using this, fun y hy => h.2 y (List.mem_cons_of_mem _ hy)⟩
      have := ih hxs
      rw [bytes_le_v_cons, pow_succ]
      omega

theorem bytes_wf_from_nat (len v : Nat) : bytes_wf len (bytes_from_nat len v) := by
  induction len generalizing v with
  | zero => exact bytes_wf_nil
  | succ m ih =>
    show bytes_wf (m + 1) (_ :: _)
    exact bytes_wf_cons (Nat.mod_lt _ (by decide)) (ih _)

theorem bytes_le_v_from_nat (len v : Nat) :
    bytes_le_v (bytes_from_nat len v) = v % 256 ^ len := by
  induction len generalizing v with
  | zero => simp [bytes_from_nat, bytes_le_v_nil, Nat.mod_one]
  | succ m ih =>
    show bytes_le_v (_ :: _) = _
    rw [bytes_le_v_cons, ih, pow_succ, Nat.mul_comm (256 ^ m) 256, Nat.mod_mul]

theorem bytes_from_nat_v {len : Nat} {l : List Nat} (h : bytes_wf len l) :
    bytes_from_nat len (bytes_le_v l) = l := by
  induction l generalizing len with
  | nil =>
    have := h.1; simp at this; subst this; rfl
  | cons x xs ih =>
    cases len with
    | zero => have := h.1; simp at this
    | succ m =>
      have hx : x < 256 := h.2 x (List.mem_cons_self _ _)
      have hxs : bytes_wf m xs :=
        ⟨by have := h.1; simpa using this, fun y hy => h.2 y (List.mem_cons_of_mem _ hy)⟩
      show (bytes_le_v (x :: xs) % 256) :: bytes_from_nat m (bytes_le_v (x :: xs) / 256) = _
      rw [bytes_le_v_cons]
      have e1 : (x + 256 * bytes_le_v xs) % 256 = x := by omega
      have e2 : (x + 256 * bytes_le_v xs) / 256 = bytes_le_v xs := by omega
      rw [e1, e2, ih hxs]

theorem bytes_le_v_inj {len : Nat} {l1 l2 : List Nat} (h1 : bytes_wf len l1)
    (h2 : bytes_wf len l2) (h : bytes_le_v l1 = bytes_le_v l2) : l1 = l2 := by
  rw [← bytes_from_nat_v h1, ← bytes_from_nat_v h2, h]

theorem bytes_be_v_eq (l : List Nat) : bytes_be_v l = bytes_le_v l.reverse := by
  induction l with
  | nil => rfl
  | cons x xs ih =>
    show x * 256 ^ xs.length + bytes_be_v xs = _
    rw [List.reverse_cons, bytes_le_v_append, ih, List.length_reverse]
    show _ = _ + _ * (x + 256 * 0)
    ring

/-- The little-endian value as the sum the byte order is defined by. -/
theorem bytes_le_v_sum (l : List Nat) :
    bytes_le_v l = ∑ i in Finset.range l.length, l.getD i 0 * 256 ^ i := by
  induction l with
  | nil => rfl
  | cons x xs ih =>
    rw [bytes_le_v_cons, List.length_cons, Finset.sum_range_succ', ih, Finset.mul_sum]
    simp only [List.getD_cons_succ, List.getD_cons_zero, pow_zero, Nat.mul_one, pow_succ]
    rw [Nat.add_comm]
    congr 1
    apply Finset.sum_congr rfl
    intro i _
    ring

/-- The big-endian value as the sum the byte order is defined by. -/
theorem bytes_be_v_sum (l : List Nat) :
    bytes_be_v l = ∑ i in Finset.range l.length, l.getD i 0 * 256 ^ (l.length - 1 - i) := by
  induction l with
  | nil => rfl
  | cons x xs ih =>
    show x * 256 ^ xs.length + bytes_be_v xs = _
    rw [List.length_cons, Finset.sum_range_succ', ih]
    simp only [List.getD_cons_succ, List.getD_cons_zero]
    rw [Nat.add_comm]
    congr 1
    apply Finset.sum_congr rfl
    intro i hi
    have hi' := Finset.mem_range.1 hi
    have e : xs.length + 1 - 1 - (i + 1) = xs.length - 1 - i := by omega
    rw [e]

/-- A loop that stores `f i` at index `i` for every `i < n` builds the list of the `f i`. -/
theorem set_loop_map (f : Nat → Nat) (n : Nat) (init : List Nat) (h : init.length = n) :
    forLoop 0 n (fun i os => os.set i (f i)) init = (List.range n).map f := by
  have key := forLoop_inv
    (fun k (os : List Nat) => os.length = n ∧ os.take k = (List.range k).map f)
    0 n (fun i os => os.set i (f i)) init (Nat.zero_le _) ⟨h, by simp⟩
    (by
      intro i t _ hi ⟨h1, h2⟩
      refine ⟨by simp [h1], ?_⟩
      show (t.set i (f i)).take (i + 1) = _
      rw [take_set_succ t i _ (by rw [h1]; exact hi), h2, List.range_succ, List.map_append]
      rfl)
  obtain ⟨h1, h2⟩ := key
  rw [take_full _ _ (by rw [h1])] at h2
  exact h2

theorem le_limbs_length (n : Nat) (t : List Nat) : (le_limbs n t).length = n := by
  unfold le_limbs
  rw [List.length_map, List.length_range]

theorem le_limbs_succ (n : Nat) (t : List Nat) :
    le_limbs (n + 1) t = le_limbs n t ++ [load64_le t (8 * n)] := by
  unfold le_limbs
  rw [List.range_succ, List.map_append]
  rfl

theorem pow_256_eq (n : Nat) : (256 : Nat) ^ (8 * n) = 2 ^ (64 * n) := by
  have e : (256 : Nat) = 2 ^ 8 := by decide
  rw [e, ← pow_mul]
  congr 1
  omega

/-- Reading limbs little-endian preserves the value of the bytes read. -/
theorem le_limbs_v (n : Nat) (t : List Nat) (h : 8 * n ≤ t.length) :
    bn_v (le_limbs n t) = bytes_le_v (t.take (8 * n)) := by
  induction n with
  | zero => rfl
  | succ m ih =>
    have e : 8 * (m + 1) = 8 * m + 8 := by omega
    rw [le_limbs_succ, bn_v_append, bn_v_singleton, le_limbs_length, ih (by omega), e,
      List.take_add, bytes_le_v_append, List.length_take, Nat.min_eq_left (by omega),
      pow_256_eq]
    rfl

theorem le_limbs_wf (n : Nat) (t : List Nat) (h : 8 * n ≤ t.length)
    (ht : ∀ x ∈ t, x < 256) : bn_wf n (le_limbs n t) := by
  refine ⟨le_limbs_length n t, ?_⟩
  intro x hx
  unfold le_limbs at hx
  obtain ⟨i, hi, rfl⟩ := List.mem_map.1 hx
  have hi' := List.mem_range.1 hi
  have hw : bytes_wf 8 (subBuf t (8 * i) 8) :=
    bytes_wf_subBuf ⟨rfl, ht⟩ (8 * i) 8 (by omega)
  exact bytes_le_v_lt hw

/-- A big-endian load at a mirrored offset is a little-endian load from the mirrored
buffer. -/
theorem load64_be_reverse (t : List Nat) (n i : Nat) (ht : t.length = 8 * n) (hi : i < n) :
    load64_be t (8 * (n - 1 - i)) = load64_le t.reverse (8 * i) := by
  unfold load64_be load64_le subBuf
  rw [bytes_be_v_eq, List.drop_reverse, List.take_reverse, List.length_take,
    Nat.min_eq_left (by omega), List.drop_take, ht]
  have e1 : 8 * n - 8 * i - 8 = 8 * (n - 1 - i) := by omega
  have e2 : 8 * n - 8 * i - (8 * n - 8 * i - 8) = 8 := by omega
  rw [e2, e1]

/-! ## Loading a bignum from bytes -/

theorem bnLen32_eq (len : Nat) (h1 : 1 ≤ len) (h32 : len < 2 ^ 32) :
    add32 (sub32 len 1 / 8) 1 = (len - 1) / 8 + 1 := by
  unfold add32 sub32
  omega

theorem from_bytes_be_none (calloc_ok : Bool) (len : Nat) (b : List Nat)
    (h : len = 0 ∨ ¬ (add32 (sub32 len 1 / 8) 1 ≤ 536870911)) :
    Hacl_Bignum4096_new_bn_from_bytes_be calloc_ok len b = none := by
  unfold Hacl_Bignum4096_new_bn_from_bytes_be
  rw [if_pos h]

theorem from_bytes_le_none (calloc_ok : Bool) (len : Nat) (b : List Nat)
    (h : len = 0 ∨ ¬ (add32 (sub32 len 1 / 8) 1 ≤ 536870911)) :
    Hacl_Bignum4096_new_bn_from_bytes_le calloc_ok len b = none := by
  unfold Hacl_Bignum4096_new_bn_from_bytes_le
  rw [if_pos h]

theorem blit_zero_low (T len : Nat) (b : List Nat) (hb : b.length = len) :
    blit (List.replicate T 0) 0 b len = b ++ List.replicate (T - len) 0 := by
  unfold blit
  rw [List.take_zero, List.nil_append, List.take_of_length_le (by omega), Nat.zero_add,
    List.drop_replicate]

theorem blit_zero_high (T len : Nat) (b : List Nat) (hb : b.length = len) (hle : len ≤ T) :
    blit (List.replicate T 0) (T - len) b len = List.replicate (T - len) 0 ++ b := by
  unfold blit
  have e : T - len + len = T := by omega
  rw [List.take_of_length_le (le_of_eq hb), e, List.drop_replicate, Nat.sub_self,
    List.replicate_zero, List.append_nil, List.take_replicate, Nat.min_eq_left (by omega)]

/-- What `Hacl_Bignum4096_new_bn_from_bytes_le` returns on an accepted length. -/
theorem from_bytes_le_some (len : Nat) (b : List Nat) (h1 : 1 ≤ len) (h32 : len < 2 ^ 32)
    (hg : (len - 1) / 8 + 1 ≤ 536870911) (hb : b.length = len) :
    Hacl_Bignum4096_new_bn_from_bytes_le true len b
      = some (le_limbs ((len - 1) / 8 + 1)
          (b ++ List.replicate (8 * ((len - 1) / 8 + 1) - len) 0)) := by
  unfold Hacl_Bignum4096_new_bn_from_bytes_le
  rw [bnLen32_eq len h1 h32, if_neg (by omega)]
  have e8 : mul32 8 ((len - 1) / 8 + 1) = 8 * ((len - 1) / 8 + 1) := by
    unfold mul32; omega
  simp only [if_true, e8]
  rw [blit_zero_low _ len b hb, set_loop_map _ _ _ (by simp)]
  unfold le_limbs
  congr 1
  apply List.map_congr_left
  intro i hi
  have hi' := List.mem_range.1 hi
  have e : mul32 i 8 = 8 * i := by unfold mul32; omega
  rw [e]

/-- What `Hacl_Bignum4096_new_bn_from_bytes_be` returns on an accepted length. -/
theorem from_bytes_be_some (len : Nat) (b : List Nat) (h1 : 1 ≤ len) (h32 : len < 2 ^ 32)
    (hg : (len - 1) / 8 + 1 ≤ 536870911) (hb : b.length = len) :
    Hacl_Bignum4096_new_bn_from_bytes_be true len b
      = some (le_limbs ((len - 1) / 8 + 1)
          (List.replicate (8 * ((len - 1) / 8 + 1) - len) 0 ++ b).reverse) := by
  unfold Hacl_Bignum4096_new_bn_from_bytes_be
  rw [bnLen32_eq len h1 h32, if_neg (by omega)]
  have e8 : mul32 8 ((len - 1) / 8 + 1) = 8 * ((len - 1) / 8 + 1) := by
    unfold mul32; omega
  simp only [if_true, e8]
  rw [blit_zero_high _ len b hb (by omega), set_loop_map _ _ _ (by simp)]
  unfold le_limbs
  congr 1
  apply List.map_congr_left
  intro i hi
  have hi' := List.mem_range.1 hi
  have e : mul32 (sub32 (sub32 ((len - 1) / 8 + 1) i) 1) 8
      = 8 * ((len - 1) / 8 + 1 - 1 - i) := by
    unfold mul32 sub32; omega
  rw [e]
  exact load64_be_reverse _ _ i (by rw [List.length_append, List.length_replicate, hb]; omega)
    hi'

theorem padded_le_v (n len : Nat) (b : List Nat) (hb : b.length = len) (hle : len ≤ 8 * n) :
    bn_v (le_limbs n (b ++ List.replicate (8 * n - len) 0)) = bytes_le_v b := by
  have hl : (b ++ List.replicate (8 * n - len) 0).length = 8 * n := by
    rw [List.length_append, List.length_replicate, hb]; omega
  rw [le_limbs_v n _ (le_of_eq hl.symm), take_full _ _ (le_of_eq hl), bytes_le_v_append,
    bytes_le_v_replicate_zero, Nat.mul_zero, Nat.add_zero]

theorem padded_be_v (n len : Nat) (b : List Nat) (hb : b.length = len) (hle : len ≤ 8 * n) :
    bn_v (le_limbs n (List.replicate (8 * n - len) 0 ++ b).reverse) = bytes_be_v b := by
  rw [List.reverse_append, List.reverse_replicate,
    padded_le_v n len b.reverse (by rw [List.length_reverse, hb]) hle, bytes_be_v_eq]

/-- C18: for every `len` the guard accepts and every `len`-byte buffer `b`, the bignum
`Hacl_Bignum4096_new_bn_from_bytes_be` (resp. `_le`) returns has exactly `⌈len/8⌉` limbs
and its little-endian limb value is the integer the bytes encode, `Σ b[i] · 256^(len−1−i)`
(resp. `Σ b[i] · 256^i`): the input is zero-extended on the high end. -/
theorem C18_from_bytes_value (len : Nat) (b : List Nat) (h1 : 1 ≤ len) (h32 : len < 2 ^ 32)
    (hg : (len - 1) / 8 + 1 ≤ 536870911) (hb : bytes_wf len b) :
    (∃ r, Hacl_Bignum4096_new_bn_from_bytes_be true len b = some r
      ∧ bn_wf ((len + 7) / 8) r
      ∧ bn_v r = ∑ i in Finset.range len, b.getD i 0 * 256 ^ (len - 1 - i))
    ∧ (∃ r, Hacl_Bignum4096_new_bn_from_bytes_le true len b = some r
      ∧ bn_wf ((len + 7) / 8) r
      ∧ bn_v r = ∑ i in Finset.range len, b.getD i 0 * 256 ^ i) := by
  have en : (len + 7) / 8 = (len - 1) / 8 + 1 := by omega
  have hle : len ≤ 8 * ((len - 1) / 8 + 1) := by omega
  rw [en]
  constructor
  · refine ⟨_, from_bytes_be_some len b h1 h32 hg hb.1, ?_, ?_⟩
    · apply le_limbs_wf
      · rw [List.length_reverse, List.length_append, List.length_replicate, hb.1]; omega
      · exact (bytes_wf_reverse (bytes_wf_append (bytes_wf_replicate_zero _) hb)).2
    · rw [padded_be_v _ len b hb.1 hle, bytes_be_v_sum, hb.1]
  · refine ⟨_, from_bytes_le_some len b h1 h32 hg hb.1, ?_, ?_⟩
    · apply le_limbs_wf
      · rw [List.length_append, List.length_replicate, hb.1]; omega
      · exact (bytes_wf_append hb (bytes_wf_replicate_zero _)).2
    · rw [padded_le_v _ len b hb.1 hle, bytes_le_v_sum, hb.1]

/-- A three-byte buffer satisfies the hypotheses of C18. -/
theorem C18_from_bytes_value_witness :
    (1 ≤ 3 ∧ 3 < 2 ^ 32 ∧ (3 - 1) / 8 + 1 ≤ 536870911 ∧ bytes_wf 3 bytes_123)
    ∧ ((∃ r, Hacl_Bignum4096_new_bn_from_bytes_be true 3 bytes_123 = some r
        ∧ bn_wf ((3 + 7) / 8) r
        ∧ bn_v r = ∑ i in Finset.range 3, bytes_123.getD i 0 * 256 ^ (3 - 1 - i))
      ∧ (∃ r, Hacl_Bignum4096_new_bn_from_bytes_le true 3 bytes_123 = some r
        ∧ bn_wf ((3 + 7) / 8) r
        ∧ bn_v r = ∑ i in Finset.range 3, bytes_123.getD i 0 * 256 ^ i)) :=
  ⟨by decide,
    C18_from_bytes_value 3 bytes_123 (by decide) (by decide) (by decide) (by decide)⟩

theorem from_bytes_be_isSome (len : Nat) (b : List Nat)
    (h : ¬ (len = 0 ∨ ¬ (add32 (sub32 len 1 / 8) 1 ≤ 536870911))) :
    (Hacl_Bignum4096_new_bn_from_bytes_be true len b).isSome = true := by
  unfold Hacl_Bignum4096_new_bn_from_bytes_be
  rw [if_neg h]
  rfl

theorem from_bytes_le_isSome (len : Nat) (b : List Nat)
    (h : ¬ (len = 0 ∨ ¬ (add32 (sub32 len 1 / 8) 1 ≤ 536870911))) :
    (Hacl_Bignum4096_new_bn_from_bytes_le true len b).isSome = true := by
  unfold Hacl_Bignum4096_new_bn_from_bytes_le
  rw [if_neg h]
  rfl

/-- The guard of the two loaders, for a 32-bit `len`, in terms of `⌈len/8⌉`. -/
theorem from_bytes_guard (len : Nat) (h32 : len < 2 ^ 32) :
    (len = 0 ∨ ¬ (add32 (sub32 len 1 / 8) 1 ≤ 536870911))
      ↔ (len = 0 ∨ 536870911 < (len + 7) / 8) := by
  unfold add32 sub32
  omega

/-- C19: with allocation succeeding, `Hacl_Bignum4096_new_bn_from_bytes_be` and `_le` return
`NULL` exactly when `len = 0` or the limb count `⌈len/8⌉` exceeds the ceiling `536870911`;
for every other `len` they return a bignum. -/
theorem C19_from_bytes_null (len : Nat) (b : List Nat) (h32 : len < 2 ^ 32) :
    (Hacl_Bignum4096_new_bn_from_bytes_be true len b = none
      ↔ len = 0 ∨ 536870911 < (len + 7) / 8)
    ∧ (Hacl_Bignum4096_new_bn_from_bytes_le true len b = none
      ↔ len = 0 ∨ 536870911 < (len + 7) / 8)
    ∧ (¬ (len = 0 ∨ 536870911 < (len + 7) / 8) →
        (Hacl_Bignum4096_new_bn_from_bytes_be true len b).isSome = true
        ∧ (Hacl_Bignum4096_new_bn_from_bytes_le true len b).isSome = true) := by
  rw [← from_bytes_guard len h32]
  by_cases h : len = 0 ∨ ¬ (add32 (sub32 len 1 / 8) 1 ≤ 536870911)
  · rw [from_bytes_be_none true len b h, from_bytes_le_none true len b h]
    exact ⟨⟨fun _ => h, fun _ => rfl⟩, ⟨fun _ => h, fun _ => rfl⟩, fun h' => absurd h h'⟩
  · have e1 := from_bytes_be_isSome len b h
    have e2 := from_bytes_le_isSome len b h
    refine ⟨⟨fun h' => ?_, fun h' => absurd h' h⟩, ⟨fun h' => ?_, fun h' => absurd h' h⟩,
      fun _ => ⟨e1, e2⟩⟩
    · rw [h'] at e1; exact absurd e1 (by decide)
    · rw [h'] at e2; exact absurd e2 (by decide)

/-- The empty input satisfies the hypothesis of C19. -/
theorem C19_from_bytes_null_witness :
    0 < 2 ^ 32
    ∧ ((Hacl_Bignum4096_new_bn_from_bytes_be true 0 [] = none
        ↔ 0 = 0 ∨ 536870911 < (0 + 7) / 8)
      ∧ (Hacl_Bignum4096_new_bn_from_bytes_le true 0 [] = none
        ↔ 0 = 0 ∨ 536870911 < (0 + 7) / 8)
      ∧ (¬ (0 = 0 ∨ 536870911 < (0 + 7) / 8) →
          (Hacl_Bignum4096_new_bn_from_bytes_be true 0 []).isSome = true
          ∧ (Hacl_Bignum4096_new_bn_from_bytes_le true 0 []).isSome = true)) :=
  ⟨by decide, C19_from_bytes_null 0 [] (by decide)⟩

/-- C20, as amended: for every 32-bit `len ≥ 1`, allocation succeeding,
`Hacl_Bignum4096_new_bn_from_bytes_be` and `_le` return a non-null bignum exactly when
`len ≤ 2^32 − 8`, that is when `⌈len/8⌉` stays at or below the ceiling `2^29 − 1`. -/
theorem C20_from_bytes_accepts (len : Nat) (b : List Nat) (h1 : 1 ≤ len)
    (h2 : len ≤ 2 ^ 32 - 1) :
    ((Hacl_Bignum4096_new_bn_from_bytes_be true len b).isSome = true ↔ len ≤ 2 ^ 32 - 8)
    ∧ ((Hacl_Bignum4096_new_bn_from_bytes_le true len b).isSome = true
        ↔ len ≤ 2 ^ 32 - 8) := by
  have hg := from_bytes_guard len (by omega)
  by_cases h : len = 0 ∨ ¬ (add32 (sub32 len 1 / 8) 1 ≤ 536870911)
  · rw [from_bytes_be_none true len b h, from_bytes_le_none true len b h]
    have h' := hg.1 h
    exact ⟨⟨fun c => absurd c (by decide), fun c => by omega⟩,
      ⟨fun c => absurd c (by decide), fun c => by omega⟩⟩
  · have e1 := from_bytes_be_isSome len b h
    have e2 := from_bytes_le_isSome len b h
    have h' : ¬ (len = 0 ∨ 536870911 < (len + 7) / 8) := fun c => h (hg.2 c)
    exact ⟨⟨fun _ => by omega, fun _ => e1⟩, ⟨fun _ => by omega, fun _ => e2⟩⟩

/-- A three-byte input satisfies the hypotheses of the amended C20. -/
theorem C20_from_bytes_accepts_witness :
    (1 ≤ 3 ∧ 3 ≤ 2 ^ 32 - 1)
    ∧ (((Hacl_Bignum4096_new_bn_from_bytes_be true 3 bytes_123).isSome = true
        ↔ 3 ≤ 2 ^ 32 - 8)
      ∧ ((Hacl_Bignum4096_new_bn_from_bytes_le true 3 bytes_123).isSome = true
        ↔ 3 ≤ 2 ^ 32 - 8)) :=
  ⟨by decide, C20_from_bytes_accepts 3 bytes_123 (by decide) (by decide)⟩

/-- C20 as stated fails at `len = 2^32 − 1`: `⌈len/8⌉ = 2^29` exceeds the ceiling
`536870911 = 2^29 − 1` of the guard, and `NULL` is returned. -/
theorem C20_counterexample :
    ¬ (1 ≤ 4294967295 → 4294967295 ≤ 2 ^ 32 - 1 →
        (Hacl_Bignum4096_new_bn_from_bytes_be true 4294967295
          (List.replicate 4294967295 0)).isSome = true) := by
  intro h
  have e := from_bytes_be_none true 4294967295 (List.replicate 4294967295 0)
    (Or.inr (by decide))
  have c := h (by decide) (by decide)
  rw [e] at c
  exact absurd c (by decide)

/-! ## Storing a bignum as bytes -/

theorem subBuf_reverse (t : List Nat) (n i : Nat) (ht : t.length = 8 * n) (hi : i < n) :
    subBuf t.reverse (8 * i) 8 = (subBuf t (8 * (n - 1 - i)) 8).reverse := by
  unfold subBuf
  rw [List.drop_reverse, List.take_reverse, List.length_take,
    Nat.min_eq_left (by omega), List.drop_take, ht]
  have e1 : 8 * n - 8 * i - 8 = 8 * (n - 1 - i) := by omega
  have e2 : 8 * n - 8 * i - (8 * n - 8 * i - 8) = 8 := by omega
  rw [e2, e1]

theorem range_map_getD (l : List Nat) :
    (List.range l.length).map (fun i => l.getD i 0) = l := by
  apply List.ext_getElem
  · rw [List.length_map, List.length_range]
  · intro i h1 h2
    rw [List.getElem_map, List.getElem_range, List.getD_eq_getElem l 0 h2]

/-- A loop that stores the 8-byte chunk `g i` at offset `8·i` for every `i < n`. -/
theorem chunk_loop (g : Nat → List Nat) (hg : ∀ i, bytes_wf 8 (g i)) (n : Nat) :
    bytes_wf (8 * n)
      (forLoop 0 n (fun i tmp => blit tmp (8 * i) (g i) 8) (List.replicate (8 * n) 0))
    ∧ ∀ i, i < n →
      subBuf (forLoop 0 n (fun i tmp => blit tmp (8 * i) (g i) 8) (List.replicate (8 * n) 0))
        (8 * i) 8 = g i := by
  have key := forLoop_inv
    (fun k (tmp : List Nat) =>
      bytes_wf (8 * n) tmp ∧ ∀ i, i < k → subBuf tmp (8 * i) 8 = g i)
    0 n (fun i tmp => blit tmp (8 * i) (g i) 8) (List.replicate (8 * n) 0) (Nat.zero_le _)
    ⟨bytes_wf_replicate_zero _, fun i hi => absurd hi (Nat.not_lt_zero i)⟩
    (by
      intro k t _ hk ⟨h1, h2⟩
      have hoff : 8 * k + 8 ≤ t.length := by rw [h1.1]; omega
      refine ⟨bytes_wf_blit h1 (hg k) (8 * k) (by omega), ?_⟩
      intro i hi
      show subBuf (blit t (8 * k) (g k) 8) (8 * i) 8 = g i
      by_cases c : i = k
      · subst c
        exact subBuf_blit_same t (g i) (8 * i) 8 hoff (hg i).1
      · rw [subBuf_blit_below t (g k) (8 * k) 8 (8 * i) 8 hoff (hg k).1 (by omega)]
        exact h2 i (by omega))
  exact key

/-- Bytes whose 8-byte chunks are the little-endian encodings of the limbs of `b` have the
value of `b`. -/
theorem chunks_value (n : Nat) (t b : List Nat) (ht : t.length = 8 * n) (hb : bn_wf n b)
    (h : ∀ i, i < n → subBuf t (8 * i) 8 = bytes_from_nat 8 (b.getD i 0)) :
    bytes_le_v t = bn_v b := by
  have e : le_limbs n t = b := by
    unfold le_limbs
    have e2 : (List.range n).map (fun i => load64_le t (8 * i))
        = (List.range n).map (fun i => b.getD i 0) := by
      apply List.map_congr_left
      intro i hi
      have hi' := List.mem_range.1 hi
      show load64_le t (8 * i) = b.getD i 0
      unfold load64_le
      rw [h i hi', bytes_le_v_from_nat]
      exact Nat.mod_eq_of_lt (bn_wf_getD hb i)
    rw [e2]
    have := range_map_getD b
    rw [hb.1] at this
    exact this
  rw [← e, le_limbs_v n t (le_of_eq ht.symm), take_full _ _ (le_of_eq ht)]

theorem to_bytes_le_unfold (b res : List Nat) :
    Hacl_Bignum4096_bn_to_bytes_le b res
      = memcpy res
          (forLoop 0 64 (fun i tmp => blit tmp (8 * i) (bytes_from_nat 8 (b.getD i 0)) 8)
            (List.replicate (8 * 64) 0)) 512 := by
  have e : Hacl_Bignum4096_bn_to_bytes_le b res
      = memcpy res
          (forLoop 0 64 (fun i tmp => store64_le tmp (mul32 i 8) (b.getD i 0))
            (List.replicate (8 * 64) 0)) 512 := rfl
  have e1 : forLoop 0 64 (fun i tmp => store64_le tmp (mul32 i 8) (b.getD i 0))
        (List.replicate (8 * 64) 0)
      = forLoop 0 64 (fun i tmp => blit tmp (8 * i) (bytes_from_nat 8 (b.getD i 0)) 8)
        (List.replicate (8 * 64) 0) := by
    apply forLoop_congr
    intro i t _ hi
    have e2 : mul32 i 8 = 8 * i := by unfold mul32; omega
    show store64_le t (mul32 i 8) (b.getD i 0) = _
    rw [e2]
    rfl
  rw [e, e1]

theorem to_bytes_be_unfold (b res : List Nat) :
    Hacl_Bignum4096_bn_to_bytes_be b res
      = memcpy res
          (forLoop 0 64
            (fun i tmp => blit tmp (8 * i) (bytes_from_nat 8 (b.getD (64 - 1 - i) 0)).reverse 8)
            (List.replicate (8 * 64) 0)) 512 := by
  have e : Hacl_Bignum4096_bn_to_bytes_be b res
      = memcpy res
          (forLoop 0 64
            (fun i tmp => store64_be tmp (mul32 i 8) (b.getD (sub32 (sub32 64 i) 1) 0))
            (List.replicate (8 * 64) 0)) 512 := rfl
  have e1 : forLoop 0 64
        (fun i tmp => store64_be tmp (mul32 i 8) (b.getD (sub32 (sub32 64 i) 1) 0))
        (List.replicate (8 * 64) 0)
      = forLoop 0 64
        (fun i tmp => blit tmp (8 * i) (bytes_from_nat 8 (b.getD (64 - 1 - i) 0)).reverse 8)
        (List.replicate (8 * 64) 0) := by
    apply forLoop_congr
    intro i t _ hi
    have e2 : mul32 i 8 = 8 * i := by unfold mul32; omega
    have e3 : sub32 (sub32 64 i) 1 = 64 - 1 - i := by unfold sub32; omega
    show store64_be t (mul32 i 8) (b.getD (sub32 (sub32 64 i) 1) 0) = _
    rw [e2, e3]
    rfl
  rw [e, e1]

/-- `Hacl_Bignum4096_bn_to_bytes_le` writes 512 bytes whose little-endian value is that of
`b`. -/
theorem to_bytes_le_spec (b res : List Nat) (hb : bn_wf 64 b) (hres : res.length = 512) :
    bytes_wf 512 (Hacl_Bignum4096_bn_to_bytes_le b res)
    ∧ bytes_le_v (Hacl_Bignum4096_bn_to_bytes_le b res) = bn_v b := by
  obtain ⟨h1, h2⟩ := chunk_loop (fun i => bytes_from_nat 8 (b.getD i 0))
    (fun i => bytes_wf_from_nat 8 _) 64
  rw [to_bytes_le_unfold, memcpy_full res _ 512 hres h1.1]
  exact ⟨h1, chunks_value 64 _ b h1.1 hb h2⟩

/-- `Hacl_Bignum4096_bn_to_bytes_be` writes 512 bytes which, read backwards, have the
little-endian value of `b`. -/
theorem to_bytes_be_spec (b res : List Nat) (hb : bn_wf 64 b) (hres : res.length = 512) :
    bytes_wf 512 (Hacl_Bignum4096_bn_to_bytes_be b res)
    ∧ bytes_le_v (Hacl_Bignum4096_bn_to_bytes_be b res).reverse = bn_v b := by
  obtain ⟨h1, h2⟩ := chunk_loop (fun i => (bytes_from_nat 8 (b.getD (64 - 1 - i) 0)).reverse)
    (fun i => bytes_wf_reverse (bytes_wf_from_nat 8 _)) 64
  rw [to_bytes_be_unfold, memcpy_full res _ 512 hres h1.1]
  refine ⟨h1, ?_⟩
  apply chunks_value 64 _ b (by rw [List.length_reverse]; exact h1.1) hb
  intro i hi
  rw [subBuf_reverse _ 64 i h1.1 hi, h2 (64 - 1 - i) (by omega)]
  show ((bytes_from_nat 8 (b.getD (64 - 1 - (64 - 1 - i)) 0)).reverse).reverse = _
  have e : 64 - 1 - (64 - 1 - i) = i := by omega
  rw [List.reverse_reverse, e]

/-- The little-endian output is the big-endian output read backwards. -/
theorem to_bytes_le_eq_reverse (b res1 res2 : List Nat) (hb : bn_wf 64 b)
    (hres1 : res1.length = 512) (hres2 : res2.length = 512) :
    Hacl_Bignum4096_bn_to_bytes_le b res1
      = (Hacl_Bignum4096_bn_to_bytes_be b res2).reverse := by
  obtain ⟨a1, a2⟩ := to_bytes_le_spec b res1 hb hres1
  obtain ⟨b1, b2⟩ := to_bytes_be_spec b res2 hb hres2
  exact bytes_le_v_inj a1 (bytes_wf_reverse b1) (by rw [a2, b2])

/-- C15: for every 512-byte buffer `B`, `Hacl_Bignum4096_bn_to_bytes_be` applied to the 64
limbs `Hacl_Bignum4096_new_bn_from_bytes_be(512, B)` returns, writes exactly `B`, and
likewise `bn_to_bytes_le` applied to `new_bn_from_bytes_le(512, B)` writes exactly `B`. -/
theorem C15_bytes_round_trip (B res : List Nat) (hB : bytes_wf 512 B)
    (hres : res.length = 512) :
    (∃ r, Hacl_Bignum4096_new_bn_from_bytes_be true 512 B = some r ∧ bn_wf 64 r
      ∧ Hacl_Bignum4096_bn_to_bytes_be r res = B)
    ∧ (∃ r, Hacl_Bignum4096_new_bn_from_bytes_le true 512 B = some r ∧ bn_wf 64 r
      ∧ Hacl_Bignum4096_bn_to_bytes_le r res = B) := by
  constructor
  · have hw : bn_wf 64 (le_limbs ((512 - 1) / 8 + 1)
        (List.replicate (8 * ((512 - 1) / 8 + 1) - 512) 0 ++ B).reverse) := by
      apply le_limbs_wf
      · rw [List.length_reverse, List.length_append, List.length_replicate, hB.1]
      · exact (bytes_wf_reverse (bytes_wf_append (bytes_wf_replicate_zero _) hB)).2
    have hv := padded_be_v ((512 - 1) / 8 + 1) 512 B hB.1 (by decide)
    refine ⟨_, from_bytes_be_some 512 B (by decide) (by decide) (by decide) hB.1, hw, ?_⟩
    obtain ⟨b1, b2⟩ := to_bytes_be_spec _ res hw hres
    rw [hv, bytes_be_v_eq] at b2
    have := bytes_le_v_inj (bytes_wf_reverse b1) (bytes_wf_reverse hB) b2
    exact List.reverse_injective this
  · have hw : bn_wf 64 (le_limbs ((512 - 1) / 8 + 1)
        (B ++ List.replicate (8 * ((512 - 1) / 8 + 1) - 512) 0)) := by
      apply le_limbs_wf
      · rw [List.length_append, List.length_replicate, hB.1]
      · exact (bytes_wf_append hB (bytes_wf_replicate_zero _)).2
    have hv := padded_le_v ((512 - 1) / 8 + 1) 512 B hB.1 (by decide)
    refine ⟨_, from_bytes_le_some 512 B (by decide) (by decide) (by decide) hB.1, hw, ?_⟩
    obtain ⟨a1, a2⟩ := to_bytes_le_spec _ res hw hres
    rw [hv] at a2
    exact bytes_le_v_inj a1 hB a2

set_option maxRecDepth 8192 in
/-- A 512-byte modulus-shaped buffer satisfies the hypotheses of C15. -/
theorem C15_bytes_round_trip_witness :
    (bytes_wf 512 sample_512 ∧ stale_bytes.length = 512)
    ∧ ((∃ r, Hacl_Bignum4096_new_bn_from_bytes_be true 512 sample_512 = some r ∧ bn_wf 64 r
        ∧ Hacl_Bignum4096_bn_to_bytes_be r stale_bytes = sample_512)
      ∧ (∃ r, Hacl_Bignum4096_new_bn_from_bytes_le true 512 sample_512 = some r ∧ bn_wf 64 r
        ∧ Hacl_Bignum4096_bn_to_bytes_le r stale_bytes = sample_512)) :=
  ⟨by decide, C15_bytes_round_trip sample_512 stale_bytes (by decide) (by decide)⟩

/-- C16: for every 64-limb `b`, `Hacl_Bignum4096_bn_to_bytes_be` writes exactly 512 bytes
`out[0..511]` with `Σ out[i] · 256^(511 − i) = value(b)`: the most significant byte of the
bignum is at offset 0. -/
theorem C16_to_bytes_be_value (b res : List Nat) (hb : bn_wf 64 b) (hres : res.length = 512) :
    (Hacl_Bignum4096_bn_to_bytes_be b res).length = 512
    ∧ (∀ x ∈ Hacl_Bignum4096_bn_to_bytes_be b res, x < 256)
    ∧ ∑ i in Finset.range 512, (Hacl_Bignum4096_bn_to_bytes_be b res).getD i 0 * 256 ^ (511 - i)
        = bn_v b := by
  obtain ⟨b1, b2⟩ := to_bytes_be_spec b res hb hres
  refine ⟨b1.1, b1.2, ?_⟩
  rw [← bytes_be_v_eq, bytes_be_v_sum, b1.1] at b2
  exact b2

set_option maxRecDepth 8192 in
/-- A bignum with distinct low bytes satisfies the hypotheses of C16. -/
theorem C16_to_bytes_be_value_witness :
    (bn_wf 64 bn_sample ∧ stale_bytes.length = 512)
    ∧ ((Hacl_Bignum4096_bn_to_bytes_be bn_sample stale_bytes).length = 512
      ∧ (∀ x ∈ Hacl_Bignum4096_bn_to_bytes_be bn_sample stale_bytes, x < 256)
      ∧ ∑ i in Finset.range 512,
          (Hacl_Bignum4096_bn_to_bytes_be bn_sample stale_bytes).getD i 0 * 256 ^ (511 - i)
          = bn_v bn_sample) :=
  ⟨by decide, C16_to_bytes_be_value bn_sample stale_bytes (by decide) (by decide)⟩

/-- C17: for every 64-limb `b`, the output of `Hacl_Bignum4096_bn_to_bytes_le` is the
byte-wise mirror image of the output of `Hacl_Bignum4096_bn_to_bytes_be`:
`le[i] = be[511 − i]` for every `i < 512`, so the least significant byte is at offset 0. -/
theorem C17_to_bytes_le_mirror (b res1 res2 : List Nat) (hb : bn_wf 64 b)
    (hres1 : res1.length = 512) (hres2 : res2.length = 512) :
    (Hacl_Bignum4096_bn_to_bytes_le b res1).length = 512
    ∧ ∀ i, i < 512 →
        (Hacl_Bignum4096_bn_to_bytes_le b res1).getD i 0
          = (Hacl_Bignum4096_bn_to_bytes_be b res2).getD (511 - i) 0 := by
  obtain ⟨a1, _⟩ := to_bytes_le_spec b res1 hb hres1
  obtain ⟨b1, _⟩ := to_bytes_be_spec b res2 hb hres2
  refine ⟨a1.1, ?_⟩
  intro i hi
  rw [to_bytes_le_eq_reverse b res1 res2 hb hres1 hres2, List.getD_eq_getElem?_getD,
    List.getD_eq_getElem?_getD, List.getElem?_reverse (by rw [b1.1]; exact hi), b1.1]

set_option maxRecDepth 8192 in
/-- A bignum with distinct low bytes satisfies the hypotheses of C17. -/
theorem C17_to_bytes_le_mirror_witness :
    (bn_wf 64 bn_sample ∧ stale_bytes.length = 512 ∧ sample_512.length = 512)
    ∧ ((Hacl_Bignum4096_bn_to_bytes_le bn_sample stale_bytes).length = 512
      ∧ ∀ i, i < 512 →
          (Hacl_Bignum4096_bn_to_bytes_le bn_sample stale_bytes).getD i 0
            = (Hacl_Bignum4096_bn_to_bytes_be bn_sample sample_512).getD (511 - i) 0) :=
  ⟨by decide,
    C17_to_bytes_le_mirror bn_sample stale_bytes sample_512 (by decide) (by decide)
      (by decide)⟩

/-! ## Claims on the internal routines -/

/-- After the outer loop of `reduction` the low half of `c` is zero and the carry together
with the high half is below `2n`. -/
theorem reduction_high_lt (n : List Nat) (nInv : Nat) (c : List Nat)
    (hn : bn_wf 64 n) (hc : bn_wf 128 c)
    (hinv : (nInv * n.getD 0 0 + 1) % 2 ^ 64 = 0)
    (hlt : bn_v c < bn_v n * 2 ^ (64 * 64)) :
    (mont_reduction_loop n nInv c).1 * 2 ^ (64 * 64)
        + bn_v ((mont_reduction_loop n nInv c).2.drop 64) < 2 * bn_v n := by
  obtain ⟨a1, a2, a3, Q, hQ, a4⟩ := mont_reduction_loop_spec n nInv c hn hc hinv
  generalize (mont_reduction_loop n nInv c).1 = c0 at *
  generalize (mont_reduction_loop n nInv c).2 = t at *
  have hsplit := bn_v_take_drop t 64 (by rw [a1.1]; omega)
  have htk := bn_v_lt (bn_wf_take 64 a1 (by omega))
  have hnpos : 0 < bn_v n := by
    rcases Nat.eq_zero_or_pos (bn_v n) with h | h
    · rw [h, Nat.zero_mul] at hlt; exact absurd hlt (Nat.not_lt_zero _)
    · exact h
  have hlo : bn_v (t.take 64) = 0 := by
    rw [hsplit] at a3
    have : 2 ^ (64 * 64) ∣ bn_v (t.take 64) := (Nat.dvd_add_left (Dvd.intro _ rfl)).1 a3
    exact Nat.eq_zero_of_dvd_of_lt this htk
  rw [hlo, Nat.zero_add] at hsplit
  have hT : (c0 * 2 ^ (64 * 64) + bn_v (t.drop 64)) * 2 ^ (64 * 64)
      = bn_v c + bn_v n * Q := by
    rw [← a4, hsplit]; ring
  have h1 : bn_v n * Q < bn_v n * 2 ^ (64 * 64) := Nat.mul_lt_mul_of_pos_left hQ hnpos
  have h2 : (c0 * 2 ^ (64 * 64) + bn_v (t.drop 64)) * 2 ^ (64 * 64)
      < (2 * bn_v n) * 2 ^ (64 * 64) := by
    rw [hT]; linarith
  exact Nat.lt_of_mul_lt_mul_right h2

/-- C23: for every odd 64-limb `n`, every limb `mu` with `mu · n[0] = −1 (mod 2^64)` and every
128-limb `c` with `value(c) < n · 2^4096`, `reduction(n, mu, c, res)` leaves `res < n` with
`res · 2^4096 = value(c) (mod n)`; before the final conditional subtraction the value
`loop carry · 2^4096 + high half of c` lies in `[0, 2n)`. -/
theorem C23_reduction_correct (n : List Nat) (mu : Nat) (c res : List Nat)
    (hn : bn_wf 64 n) (hodd : bn_v n % 2 = 1) (hmu : (mu * n.getD 0 0 + 1) % 2 ^ 64 = 0)
    (hc : bn_wf 128 c) (hres : res.length = 64) (hlt : bn_v c < bn_v n * 2 ^ 4096) :
    bn_wf 64 (reduction n mu c res)
    ∧ bn_v (reduction n mu c res) < bn_v n
    ∧ bn_v (reduction n mu c res) * 2 ^ 4096 % bn_v n = bn_v c % bn_v n
    ∧ (mont_reduction_loop n mu c).1 * 2 ^ 4096
        + bn_v ((mont_reduction_loop n mu c).2.drop 64) < 2 * bn_v n := by
  have _ := hodd
  rw [show (4096 : Nat) = 64 * 64 from rfl] at hlt ⊢
  obtain ⟨h1, h2, h3⟩ := reduction_spec n mu c res hn hc hres hmu hlt
  exact ⟨h1, h2, h3, reduction_high_lt n mu c hn hc hmu hlt⟩

theorem wide_c_lt : bn_v wide_c < bn_v S3_n * 2 ^ 4096 := by
  have e1 : bn_v S3_n = 4294967311 := by decide
  have e2 : bn_v (4294967310 :: List.replicate 63 0) = 4294967310 := by decide
  have h : bn_v bn_max64 < 2 ^ (64 * 64) := bn_v_lt (by decide)
  have e3 : wide_c = bn_max64 ++ (4294967310 :: List.replicate 63 0) := rfl
  have e4 : bn_max64.length = 64 := by decide
  rw [e3, bn_v_append, e1, e2, e4, show (4096 : Nat) = 64 * 64 from rfl]
  generalize (2 : Nat) ^ (64 * 64) = R at *
  omega

/-- The modulus `2^32 + 15`, its limb inverse and `c = n · 2^4096 − 1` satisfy the
hypotheses of C23. -/
theorem C23_reduction_correct_witness :
    (bn_wf 64 S3_n ∧ bn_v S3_n % 2 = 1
      ∧ (Hacl_Bignum_ModInvLimb_mod_inv_uint64 (S3_n.getD 0 0) * S3_n.getD 0 0 + 1) % 2 ^ 64 = 0
      ∧ bn_wf 128 wide_c ∧ stale_res.length = 64 ∧ bn_v wide_c < bn_v S3_n * 2 ^ 4096)
    ∧ (bn_wf 64 (reduction S3_n (Hacl_Bignum_ModInvLimb_mod_inv_uint64 (S3_n.getD 0 0))
          wide_c stale_res)
      ∧ bn_v (reduction S3_n (Hacl_Bignum_ModInvLimb_mod_inv_uint64 (S3_n.getD 0 0))
          wide_c stale_res) < bn_v S3_n
      ∧ bn_v (reduction S3_n (Hacl_Bignum_ModInvLimb_mod_inv_uint64 (S3_n.getD 0 0))
          wide_c stale_res) * 2 ^ 4096 % bn_v S3_n = bn_v wide_c % bn_v S3_n
      ∧ (mont_reduction_loop S3_n (Hacl_Bignum_ModInvLimb_mod_inv_uint64 (S3_n.getD 0 0))
            wide_c).1 * 2 ^ 4096
          + bn_v ((mont_reduction_loop S3_n
              (Hacl_Bignum_ModInvLimb_mod_inv_uint64 (S3_n.getD 0 0)) wide_c).2.drop 64)
          < 2 * bn_v S3_n) :=
  ⟨⟨by decide, by decide, by decide, by decide, by decide, wide_c_lt⟩,
    C23_reduction_correct S3_n (Hacl_Bignum_ModInvLimb_mod_inv_uint64 (S3_n.getD 0 0)) wide_c
      stale_res (by decide) (by decide) (by decide) (by decide) (by decide) wide_c_lt⟩

/-- C24: for every 64-limb `n` and all `a, b < n`, `add_mod_n(n, a, b, res)` leaves
`res = (a + b) mod n`, including when `a + b ≥ 2^4096` and when `a` and `b` are the array
`res` itself (the pointer arguments range over both cases). -/
theorem C24_add_mod_n_correct (n : List Nat) (a b : Src) (res : List Nat)
    (hn : bn_wf 64 n) (ha : bn_wf 64 (a.orig res)) (hb : bn_wf 64 (b.orig res))
    (hres : res.length = 64) (han : bn_v (a.orig res) < bn_v n)
    (hbn : bn_v (b.orig res) < bn_v n) :
    bn_wf 64 (add_mod_n n a b res)
    ∧ bn_v (add_mod_n n a b res) = (bn_v (a.orig res) + bn_v (b.orig res)) % bn_v n :=
  add_mod_n_spec n a b res hn ha hb hres han hbn

/-- Doubling `2^4096 − 2` in place modulo `2^4096 − 1`, whose sum exceeds `2^4096`, satisfies
the hypotheses of C24. -/
theorem C24_add_mod_n_correct_witness :
    (bn_wf 64 bn_max64 ∧ bn_wf 64 (Src.out.orig bn_max64_pred)
      ∧ bn_wf 64 (Src.out.orig bn_max64_pred) ∧ bn_max64_pred.length = 64
      ∧ bn_v (Src.out.orig bn_max64_pred) < bn_v bn_max64
      ∧ bn_v (Src.out.orig bn_max64_pred) < bn_v bn_max64)
    ∧ (bn_wf 64 (add_mod_n bn_max64 Src.out Src.out bn_max64_pred)
      ∧ bn_v (add_mod_n bn_max64 Src.out Src.out bn_max64_pred)
          = (bn_v (Src.out.orig bn_max64_pred) + bn_v (Src.out.orig bn_max64_pred))
            % bn_v bn_max64) :=
  ⟨by decide,
    C24_add_mod_n_correct bn_max64 Src.out Src.out bn_max64_pred (by decide) (by decide)
      (by decide) (by decide) (by decide) (by decide)⟩

/-! ## Well-formedness of every intermediate buffer -/

theorem sub_loop_wf (a b res : List Nat) (m : Nat) (hres : bn_wf 64 res) :
    bn_wf 64 (forLoop 0 m (sub_step a b) (0, res)).2 := by
  exact forLoop_inv (fun _ (st : Nat × List Nat) => bn_wf 64 st.2)
    0 m (sub_step a b) (0, res) (Nat.zero_le _) hres
    (by
      intro i t _ _ ht
      unfold sub_step
      exact bn_wf_set ht i _ (sub_borrow_lt _ _ _))

theorem mask_select_wf (c2 : Nat) (res tmp : List Nat) (hres : bn_wf 64 res)
    (htmp : bn_wf 64 tmp) : bn_wf 64 (mask_select c2 res tmp) := by
  unfold mask_select
  exact forLoop_inv (fun _ (t : List Nat) => bn_wf 64 t)
    0 64 _ res (Nat.zero_le _) hres
    (by
      intro i t _ _ ht
      exact bn_wf_set ht i _
        (Nat.or_lt_two_pow (Nat.and_lt_two_pow _ (bn_wf_getD ht i))
          (Nat.and_lt_two_pow _ (bn_wf_getD htmp i))))

theorem mul_add_loop_wf (n : List Nat) (qj i0 m : Nat) (st : Nat × List Nat)
    (h : bn_wf 128 st.2) : bn_wf 128 (forLoop 0 m (mul_add_step n qj i0) st).2 := by
  exact forLoop_inv (fun _ (t : Nat × List Nat) => bn_wf 128 t.2)
    0 m _ st (Nat.zero_le _) h
    (by
      intro i t _ _ ht
      unfold mul_add_step
      exact bn_wf_set ht _ _ (mul_wide_add2_lo _ _ _ _))

theorem mont_reduction_loop_wf (n : List Nat) (nInv : Nat) (c : List Nat)
    (hc : bn_wf 128 c) : bn_wf 128 (mont_reduction_loop n nInv c).2 := by
  unfold mont_reduction_loop
  simp only [mul_add_loops_eq]
  exact forLoop_inv (fun _ (t : Nat × List Nat) => bn_wf 128 t.2)
    0 64 _ (0, c) (Nat.zero_le _) hc
    (by
      intro i t _ _ ht
      dsimp only
      apply bn_wf_set
      · exact mul_add_loop_wf n _ i 64 (0, t.2) ht
      · exact add_carry_lt _ _ _)

/-- `reduction` always leaves 64 limbs in `res`, whatever the modulus. -/
theorem reduction_wf (n : List Nat) (nInv : Nat) (c res : List Nat)
    (hc : bn_wf 128 c) (hres : res.length = 64) : bn_wf 64 (reduction n nInv c res) := by
  unfold reduction
  simp only [sub_loops_eq]
  have a1 := mont_reduction_loop_wf n nInv c hc
  have hd : bn_wf 64 ((mont_reduction_loop n nInv c).2.drop 64) := bn_wf_drop 64 a1
  rw [memcpy_full res _ 64 hres hd.1]
  exact mask_select_wf _ _ _ hd (sub_loop_wf _ _ _ 64 (bn_wf_replicate_zero 64))

theorem mul_wf (a b : List Nat) : bn_wf 128 (Hacl_Bignum4096_mul a b) :=
  bn_wf_from_nat _ _

theorem mont_mul_wf (n : List Nat) (nInv : Nat) (aM bM resM : List Nat)
    (hres : resM.length = 64) : bn_wf 64 (mont_mul n nInv aM bM resM) :=
  reduction_wf n nInv _ resM (bn_wf_from_nat _ _) hres

theorem bn_wf_blit {k len : Nat} {buf src : List Nat} (h : bn_wf k buf)
    (hs : bn_wf len src) (off : Nat) (hoff : off + len ≤ k) :
    bn_wf k (blit buf off src len) := by
  refine ⟨by rw [blit_length buf src off len (by rw [h.1]; exact hoff) hs.1, h.1], ?_⟩
  intro x hx
  unfold blit at hx
  rcases List.mem_append.1 hx with h1 | h1
  · exact h.2 x (List.mem_of_mem_take h1)
  · rcases List.mem_append.1 h1 with h2 | h2
    · exact hs.2 x (List.mem_of_mem_take h2)
    · exact h.2 x (List.mem_of_mem_drop h2)

theorem bn_wf_subBuf {k : Nat} {l : List Nat} (h : bn_wf k l) (off len : Nat)
    (hle : off + len ≤ k) : bn_wf len (subBuf l off len) := by
  refine ⟨subBuf_length l off len (by rw [h.1]; exact hle), ?_⟩
  intro x hx
  unfold subBuf at hx
  exact h.2 x (List.mem_of_mem_drop (List.mem_of_mem_take hx))

/-- The table of the fixed-window routines always holds 16 entries of 64 limbs. -/
theorem fw_table_wf (n : List Nat) (nInv : Nat) (aM accM : List Nat)
    (haM : bn_wf 64 aM) (hacc : bn_wf 64 accM) :
    bn_wf 1024 (fw_table 4 n nInv aM accM) := by
  unfold fw_table
  have e1 : shl32 1 4 = 16 := by decide
  have e2 : mul32 16 64 = 1024 := by decide
  have e3 : sub32 16 2 = 14 := by decide
  simp only [e1, e2, e3]
  rw [memcpy_eq_blit]
  have w0 : bn_wf 1024 (blit (List.replicate 1024 0) 0 accM 64) :=
    bn_wf_blit (bn_wf_replicate_zero 1024) hacc 0 (by decide)
  have w1 : bn_wf 1024 (blit (blit (List.replicate 1024 0) 0 accM 64) 64 aM 64) :=
    bn_wf_blit w0 haM 64 (by decide)
  exact forLoop_inv (fun _ (table : List Nat) => bn_wf 1024 table)
    0 14 _ _ (Nat.zero_le _) w1
    (by
      intro i t _ hi ht
      exact bn_wf_blit ht
        (mont_mul_wf n nInv _ _ _ (subBuf_length t _ 64 (by rw [ht.1]; omega)))
        ((i + 2) * 64) (by omega))

/-- The two fixed-window routines agree on every input. -/
theorem mod_exp_fw_agree (n a : List Nat) (bBits : Nat) (b r2 res : List Nat) :
    mod_exp_fw_consttime_precompr2 4 n a bBits b r2 res
      = mod_exp_fw_vartime_precompr2 4 n a bBits b r2 res := by
  have haM := reduction_wf n (Hacl_Bignum_ModInvLimb_mod_inv_uint64 (n.getD 0 0))
    (Hacl_Bignum4096_mul a r2) (List.replicate 64 0) (mul_wf _ _) replicate_64_length
  have hacc := reduction_wf n (Hacl_Bignum_ModInvLimb_mod_inv_uint64 (n.getD 0 0))
    (Hacl_Bignum4096_mul ((List.replicate 64 0).set 0 1) r2) (List.replicate 64 0)
    (mul_wf _ _) replicate_64_length
  have htab := fw_table_wf n (Hacl_Bignum_ModInvLimb_mod_inv_uint64 (n.getD 0 0)) _ _ haM hacc
  have e1 : shl32 1 4 = 16 := by decide
  have hsel : ∀ (w : Nat), w ≤ 4 → ∀ x : Nat,
      fw_select (shl32 1 4) (fw_table 4 n (Hacl_Bignum_ModInvLimb_mod_inv_uint64 (n.getD 0 0))
          (reduction n (Hacl_Bignum_ModInvLimb_mod_inv_uint64 (n.getD 0 0))
            (Hacl_Bignum4096_mul a r2) (List.replicate 64 0))
          (reduction n (Hacl_Bignum_ModInvLimb_mod_inv_uint64 (n.getD 0 0))
            (Hacl_Bignum4096_mul ((List.replicate 64 0).set 0 1) r2) (List.replicate 64 0)))
        (x &&& sub64 (shl64 1 w) 1)
      = subBuf (fw_table 4 n (Hacl_Bignum_ModInvLimb_mod_inv_uint64 (n.getD 0 0))
          (reduction n (Hacl_Bignum_ModInvLimb_mod_inv_uint64 (n.getD 0 0))
            (Hacl_Bignum4096_mul a r2) (List.replicate 64 0))
          (reduction n (Hacl_Bignum_ModInvLimb_mod_inv_uint64 (n.getD 0 0))
            (Hacl_Bignum4096_mul ((List.replicate 64 0).set 0 1) r2) (List.replicate 64 0)))
        (mul32 ((x &&& sub64 (shl64 1 w) 1) % 2 ^ 32) 64) 64 := by
    intro w hw x
    rw [e1, fw_select_spec _ _ (and_mask_lt x w hw)
        (fun k hk => bn_wf_subBuf htab (k * 64) 64 (by omega)),
      table_index _ (and_mask_lt x w hw)]
  have hsel4 := hsel 4 (le_refl _)
  have hselc := hsel (bBits % 4) (by omega)
  unfold mod_exp_fw_consttime_precompr2 mod_exp_fw_vartime_precompr2
  dsimp only
  simp only [hsel4, hselc]

/-- The window the main loop of the fixed-window routines reads at iteration `i`. -/
theorem fw_full_window (bBits : Nat) (b : List Nat) (i : Nat)
    (hbBits : 1 ≤ bBits) (hb32 : bBits < 2 ^ 32) (hb : bn_wf ((bBits - 1) / 64 + 1) b)
    (hi : i < bBits / 4) :
    fw_window (add32 (sub32 bBits 1 / 64) 1) b
        (sub32 (sub32 bBits (mul32 4 i)) 4 / 64) (sub32 (sub32 bBits (mul32 4 i)) 4 % 64)
      &&& sub64 (shl64 1 4) 1
      = bn_v b / 2 ^ (bBits - 4 * i - 4) % 2 ^ 4 := by
  rw [bLen_eq bBits hbBits hb32, window_pos_eq bBits i hi hb32,
    fw_bits_spec _ b hb _ _ 4 (by omega) (Nat.mod_lt _ (by decide)) (by omega) (by decide),
    Nat.div_add_mod]

/-- The window the tail of the fixed-window routines reads at `(i, j) = (0, 0)`. -/
theorem fw_tail_window (bBits : Nat) (b : List Nat)
    (hbBits : 1 ≤ bBits) (hb32 : bBits < 2 ^ 32) (hb : bn_wf ((bBits - 1) / 64 + 1) b) :
    fw_window (add32 (sub32 bBits 1 / 64) 1) b 0 0 &&& sub64 (shl64 1 (bBits % 4)) 1
      = bn_v b % 2 ^ (bBits % 4) := by
  rw [bLen_eq bBits hbBits hb32,
    fw_bits_spec _ b hb 0 0 (bBits % 4) (by omega) (by decide) (by omega) (by omega)]
  simp

/-- C25: in the two fixed-window routines (`l = 4`), for every `bBits ≥ 1` the window read at
iteration `i < ⌊bBits/4⌋` is bits `[bBits − 4i − 4, bBits − 4i)` of `b`, so the full windows
cover exactly bits `[bBits mod 4, bBits)`, and the final partial window read at
`(i, j) = (0, 0)` is bits `[0, bBits mod 4)`; hence for every valid input, whether or not
`bBits` is a multiple of 4, both routines leave `res = a^b mod n`. -/
theorem C25_fw_windows_correct (n a : List Nat) (bBits : Nat) (b r2 res : List Nat)
    (hn : bn_wf 64 n) (hodd : bn_v n % 2 = 1) (h1 : 1 < bn_v n)
    (ha : bn_wf 64 a) (han : bn_v a < bn_v n)
    (hbBits : 1 ≤ bBits) (hb32 : bBits < 2 ^ 32)
    (hb : bn_wf ((bBits - 1) / 64 + 1) b) (hblt : bn_v b < 2 ^ bBits)
    (hr2 : bn_wf 64 r2) (hr2v : bn_v r2 = 2 ^ 8192 % bn_v n) (hres : res.length = 64) :
    (∀ i, i < bBits / 4 →
      fw_window (add32 (sub32 bBits 1 / 64) 1) b
          (sub32 (sub32 bBits (mul32 4 i)) 4 / 64) (sub32 (sub32 bBits (mul32 4 i)) 4 % 64)
        &&& sub64 (shl64 1 4) 1
        = bn_v b / 2 ^ (bBits - 4 * i - 4) % 2 ^ 4)
    ∧ fw_window (add32 (sub32 bBits 1 / 64) 1) b 0 0 &&& sub64 (shl64 1 (bBits % 4)) 1
        = bn_v b % 2 ^ (bBits % 4)
    ∧ bn_wf 64 (mod_exp_fw_vartime_precompr2 4 n a bBits b r2 res)
    ∧ bn_v (mod_exp_fw_vartime_precompr2 4 n a bBits b r2 res) = bn_v a ^ bn_v b % bn_v n
    ∧ bn_wf 64 (mod_exp_fw_consttime_precompr2 4 n a bBits b r2 res)
    ∧ bn_v (mod_exp_fw_consttime_precompr2 4 n a bBits b r2 res)
        = bn_v a ^ bn_v b % bn_v n := by
  obtain ⟨v1, v2⟩ := mod_exp_fw_vartime_spec n a bBits b r2 res hn hodd h1 ha han hbBits hb32
    hb hblt hr2 hr2v hres
  rw [mod_exp_fw_agree n a bBits b r2 res]
  exact ⟨fun i hi => fw_full_window bBits b i hbBits hb32 hb hi,
    fw_tail_window bBits b hbBits hb32 hb, v1, v2, v1, v2⟩

/-- A 211-bit exponent, whose length is not a multiple of 4, with the modulus `2^32 + 15`
and its precomputed `r2` satisfies the hypotheses of C25. -/
theorem C25_fw_windows_correct_witness :
    (bn_wf 64 S3_n ∧ bn_v S3_n % 2 = 1 ∧ 1 < bn_v S3_n ∧ bn_wf 64 S3_a
      ∧ bn_v S3_a < bn_v S3_n ∧ 1 ≤ 211 ∧ 211 < 2 ^ 32 ∧ bn_wf ((211 - 1) / 64 + 1) fw_b
      ∧ bn_v fw_b < 2 ^ 211 ∧ stale_res.length = 64)
    ∧ ((∀ i, i < 211 / 4 →
        fw_window (add32 (sub32 211 1 / 64) 1) fw_b
            (sub32 (sub32 211 (mul32 4 i)) 4 / 64) (sub32 (sub32 211 (mul32 4 i)) 4 % 64)
          &&& sub64 (shl64 1 4) 1
          = bn_v fw_b / 2 ^ (211 - 4 * i - 4) % 2 ^ 4)
      ∧ fw_window (add32 (sub32 211 1 / 64) 1) fw_b 0 0 &&& sub64 (shl64 1 (211 % 4)) 1
          = bn_v fw_b % 2 ^ (211 % 4)
      ∧ bn_wf 64 (mod_exp_fw_vartime_precompr2 4 S3_n S3_a 211 fw_b
          (precomp (mul32 64 (Hacl_Bignum_Lib_bn_get_top_index_u64 64 S3_n % 2 ^ 32)) S3_n
            (List.replicate 64 0)) stale_res)
      ∧ bn_v (mod_exp_fw_vartime_precompr2 4 S3_n S3_a 211 fw_b
          (precomp (mul32 64 (Hacl_Bignum_Lib_bn_get_top_index_u64 64 S3_n % 2 ^ 32)) S3_n
            (List.replicate 64 0)) stale_res) = bn_v S3_a ^ bn_v fw_b % bn_v S3_n
      ∧ bn_wf 64 (mod_exp_fw_consttime_precompr2 4 S3_n S3_a 211 fw_b
          (precomp (mul32 64 (Hacl_Bignum_Lib_bn_get_top_index_u64 64 S3_n % 2 ^ 32)) S3_n
            (List.replicate 64 0)) stale_res)
      ∧ bn_v (mod_exp_fw_consttime_precompr2 4 S3_n S3_a 211 fw_b
          (precomp (mul32 64 (Hacl_Bignum_Lib_bn_get_top_index_u64 64 S3_n % 2 ^ 32)) S3_n
            (List.replicate 64 0)) stale_res) = bn_v S3_a ^ bn_v fw_b % bn_v S3_n) :=
  ⟨by decide,
    C25_fw_windows_correct S3_n S3_a 211 fw_b _ stale_res (by decide) (by decide) (by decide)
      (by decide) (by decide) (by decide) (by decide) (by decide) (by decide)
      (r2_spec S3_n (by decide) (by decide) (by decide)).1
      (r2_spec S3_n (by decide) (by decide) (by decide)).2 (by decide)⟩

/-- C26: for every 16-entry table of 64-limb values and every window value `v < 16`, the
masked linear scan of `mod_exp_fw_consttime_precompr2` yields exactly `table[v]`, the entry
`mod_exp_fw_vartime_precompr2` fetches at `table + (uint32_t)v * 64`; so the two
fixed-window routines compute the same `res` on every input. -/
theorem C26_fw_select_refines (table : List Nat) (v : Nat) (ht : bn_wf 1024 table)
    (hv : v < 16) :
    fw_select (shl32 1 4) table v = subBuf table (v * 64) 64
    ∧ subBuf table (mul32 (v % 2 ^ 32) 64) 64 = subBuf table (v * 64) 64
    ∧ ∀ (n a : List Nat) (bBits : Nat) (b r2 res : List Nat),
        mod_exp_fw_consttime_precompr2 4 n a bBits b r2 res
          = mod_exp_fw_vartime_precompr2 4 n a bBits b r2 res := by
  have e1 : shl32 1 4 = 16 := by decide
  refine ⟨?_, by rw [table_index v hv], mod_exp_fw_agree⟩
  rw [e1]
  exact fw_select_spec table v hv (fun k hk => bn_wf_subBuf ht (k * 64) 64 (by omega))

theorem table_range_wf : bn_wf 1024 table_range :=
  ⟨List.length_range 1024, fun x hx =>
    lt_trans (List.mem_range.1 hx) (by decide)⟩

/-- A table of 1024 distinct limbs and the window value 11 satisfy the hypotheses of C26. -/
theorem C26_fw_select_refines_witness :
    (bn_wf 1024 table_range ∧ 11 < 16)
    ∧ (fw_select (shl32 1 4) table_range 11 = subBuf table_range (11 * 64) 64
      ∧ subBuf table_range (mul32 (11 % 2 ^ 32) 64) 64 = subBuf table_range (11 * 64) 64
      ∧ ∀ (n a : List Nat) (bBits : Nat) (b r2 res : List Nat),
          mod_exp_fw_consttime_precompr2 4 n a bBits b r2 res
            = mod_exp_fw_vartime_precompr2 4 n a bBits b r2 res) :=
  ⟨⟨table_range_wf, by decide⟩,
    C26_fw_select_refines table_range 11 table_range_wf (by decide)⟩

/-! ## BLAKE2b: primitives that live outside `Hacl_Blake2b_32.c` -/

/-! ## BLAKE2b: code patterns `blake2b_update_block` repeats -/

/-! ## BLAKE2b: `blake2b_update_block` and `Hacl_Blake2b_32_blake2b` -/

/-! ## BLAKE2b as RFC 7693 defines it -/

/-! ## BLAKE2b: known answers -/

/-- C22: `Hacl_Blake2b_32_blake2b` with `nn = 64`, `kk = 0` writes the 64 bytes
`786a02f7…be2ce` for the empty message and the 64 bytes `ba80a53f…09923` for the 3-byte
message `abc`. -/
theorem C22_blake2b_known_answers :
    (Hacl_Blake2b_32_blake2b 64 stale_out 0 [] 0 []).1 = S1_digest
    ∧ (Hacl_Blake2b_32_blake2b 64 stale_out 3 msg_abc 0 []).1 = S2_digest := by
  decide!

/-! ## BLAKE2b: the working vector -/

/-- A list of 16 limbs is the list of its 16 entries. -/
theorem list16_eq (l : List Nat) (h : l.length = 16) :
    l = [l.getD 0 0, l.getD 1 0, l.getD 2 0, l.getD 3 0, l.getD 4 0, l.getD 5 0, l.getD 6 0,
      l.getD 7 0, l.getD 8 0, l.getD 9 0, l.getD 10 0, l.getD 11 0, l.getD 12 0, l.getD 13 0,
      l.getD 14 0, l.getD 15 0] := by
  have e := range_map_getD l
  rw [h] at e
  exact e.symm

theorem list16_exists (l : List Nat) (h : l.length = 16) :
    ∃ a0 a1 a2 a3 a4 a5 a6 a7 a8 a9 a10 a11 a12 a13 a14 a15 : Nat,
      l = [a0, a1, a2, a3, a4, a5, a6, a7, a8, a9, a10, a11, a12, a13, a14, a15] :=
  ⟨_, _, _, _, _, _, _, _, _, _, _, _, _, _, _, _, list16_eq l h⟩

theorem totlen_hi (totlen : Nat) (ht : totlen < 2 ^ 128) :
    FStar_UInt128_uint128_to_uint64 (FStar_UInt128_shift_right totlen 64) = totlen / 2 ^ 64 := by
  unfold FStar_UInt128_uint128_to_uint64 FStar_UInt128_shift_right
  rw [Nat.shiftRight_eq_div_pow]
  apply Nat.mod_eq_of_lt
  rw [Nat.div_lt_iff_lt_mul (by decide)]
  exact ht

/-- The working vector `blake2b_update_block` starts its rounds from. -/
theorem init_wv_spec (wv hash : List Nat) (flag : Bool) (totlen : Nat)
    (hwv : wv.length = 16) (hh : hash.length = 16) (ht : totlen < 2 ^ 128) :
    blake2b_init_wv wv hash flag totlen
      = hash.take 12 ++ [hash.getD 12 0 ^^^ totlen % 2 ^ 64, hash.getD 13 0 ^^^ totlen / 2 ^ 64,
          hash.getD 14 0 ^^^ (if flag then 0xFFFFFFFFFFFFFFFF else 0), hash.getD 15 0 ^^^ 0] := by
  unfold blake2b_init_wv
  have e16 : mul32 4 4 = 16 := by decide
  simp only [e16]
  rw [memcpy_full wv hash 16 hwv hh, totlen_hi totlen ht]
  obtain ⟨a0, a1, a2, a3, a4, a5, a6, a7, a8, a9, a10, a11, a12, a13, a14, a15, rfl⟩ :=
    list16_exists hash hh
  rfl

theorem hash_xor_row0 (w : List Nat) (k : Nat)
    (a0 a1 a2 a3 a4 a5 a6 a7 a8 a9 a10 a11 a12 a13 a14 a15 : Nat) :
    forLoop 0 4 (fun i hash =>
      hash.set (mul32 0 4 + i) (hash.getD (mul32 0 4 + i) 0 ^^^ w.getD (mul32 k 4 + i) 0))
      [a0, a1, a2, a3, a4, a5, a6, a7, a8, a9, a10, a11, a12, a13, a14, a15]
    = [a0 ^^^ w.getD (mul32 k 4 + 0) 0, a1 ^^^ w.getD (mul32 k 4 + 1) 0,
       a2 ^^^ w.getD (mul32 k 4 + 2) 0, a3 ^^^ w.getD (mul32 k 4 + 3) 0,
       a4, a5, a6, a7, a8, a9, a10, a11, a12, a13, a14, a15] := rfl

theorem hash_xor_row1 (w : List Nat) (k : Nat)
    (a0 a1 a2 a3 a4 a5 a6 a7 a8 a9 a10 a11 a12 a13 a14 a15 : Nat) :
    forLoop 0 4 (fun i hash =>
      hash.set (mul32 1 4 + i) (hash.getD (mul32 1 4 + i) 0 ^^^ w.getD (mul32 k 4 + i) 0))
      [a0, a1, a2, a3, a4, a5, a6, a7, a8, a9, a10, a11, a12, a13, a14, a15]
    = [a0, a1, a2, a3, a4 ^^^ w.getD (mul32 k 4 + 0) 0, a5 ^^^ w.getD (mul32 k 4 + 1) 0,
       a6 ^^^ w.getD (mul32 k 4 + 2) 0, a7 ^^^ w.getD (mul32 k 4 + 3) 0,
       a8, a9, a10, a11, a12, a13, a14, a15] := rfl

/-- The four closing loops of `blake2b_update_block` write only the first two rows of
`hash`. -/
theorem hash_xor_rows23 (w hash : List Nat) (hh : hash.length = 16) :
    (forLoop 0 4 (fun i0 hash =>
      hash.set (mul32 1 4 + i0) (hash.getD (mul32 1 4 + i0) 0 ^^^ w.getD (mul32 3 4 + i0) 0))
      (forLoop 0 4 (fun i hash =>
        hash.set (mul32 1 4 + i) (hash.getD (mul32 1 4 + i) 0 ^^^ w.getD (mul32 1 4 + i) 0))
        (forLoop 0 4 (fun i hash =>
          hash.set (mul32 0 4 + i) (hash.getD (mul32 0 4 + i) 0 ^^^ w.getD (mul32 2 4 + i) 0))
          (forLoop 0 4 (fun i hash =>
            hash.set (mul32 0 4 + i)
              (hash.getD (mul32 0 4 + i) 0 ^^^ w.getD (mul32 0 4 + i) 0)) hash)))).drop 8
      = hash.drop 8 := by
  obtain ⟨a0, a1, a2, a3, a4, a5, a6, a7, a8, a9, a10, a11, a12, a13, a14, a15, rfl⟩ :=
    list16_exists hash hh
  rw [hash_xor_row0, hash_xor_row0, hash_xor_row1, hash_xor_row1]
  rfl

/-- `blake2b_update_block` writes only the first two rows of `hash`. -/
theorem update_block_rows23 (wv hash : List Nat) (flag : Bool) (totlen : Nat) (d : List Nat)
    (hh : hash.length = 16) :
    (blake2b_update_block wv hash flag totlen d).2.drop 8 = hash.drop 8 := by
  unfold blake2b_update_block
  simp only []
  exact hash_xor_rows23 _ hash hh

/-- C30, as amended: in `blake2b_update_block` the working vector is initialised with its
first 8 limbs equal to `hash[0..8]` and its last 8 limbs equal to `hash[8..16]`, the rows
which hold the 8-entry IV and which the function never writes, with limbs 12 and 13 XORed
respectively with the low and the high 64 bits of `totlen` and, when `flag` (isLast) holds,
with the all-ones mask XORed into limb 14; limb 15 is XORed with 0. -/
theorem C30_init_wv (wv hash : List Nat) (flag : Bool) (totlen : Nat) (d : List Nat)
    (hwv : wv.length = 16) (hh : hash.length = 16) (ht : totlen < 2 ^ 128)
    (hiv : hash.drop 8 = Hacl_Impl_Blake2_Constants_ivTable_B) :
    blake2b_init_wv wv hash flag totlen
      = hash.take 8
        ++ [Hacl_Impl_Blake2_Constants_ivTable_B.getD 0 0,
            Hacl_Impl_Blake2_Constants_ivTable_B.getD 1 0,
            Hacl_Impl_Blake2_Constants_ivTable_B.getD 2 0,
            Hacl_Impl_Blake2_Constants_ivTable_B.getD 3 0,
            Hacl_Impl_Blake2_Constants_ivTable_B.getD 4 0 ^^^ totlen % 2 ^ 64,
            Hacl_Impl_Blake2_Constants_ivTable_B.getD 5 0 ^^^ totlen / 2 ^ 64,
            Hacl_Impl_Blake2_Constants_ivTable_B.getD 6 0
              ^^^ (if flag then 0xFFFFFFFFFFFFFFFF else 0),
            Hacl_Impl_Blake2_Constants_ivTable_B.getD 7 0 ^^^ 0]
    ∧ (blake2b_update_block wv hash flag totlen d).2.drop 8
        = Hacl_Impl_Blake2_Constants_ivTable_B := by
  refine ⟨?_, by rw [update_block_rows23 wv hash flag totlen d hh, hiv]⟩
  rw [init_wv_spec wv hash flag totlen hwv hh ht, ← hiv]
  obtain ⟨a0, a1, a2, a3, a4, a5, a6, a7, a8, a9, a10, a11, a12, a13, a14, a15, rfl⟩ :=
    list16_exists hash hh
  rfl

/-- The initial hash state of the driver and a final one-byte block satisfy the hypotheses
of the amended C30. -/
theorem C30_init_wv_witness :
    (stale_wv.length = 16 ∧ blake2b_h0.length = 16 ∧ 1 < 2 ^ 128
      ∧ blake2b_h0.drop 8 = Hacl_Impl_Blake2_Constants_ivTable_B)
    ∧ (blake2b_init_wv stale_wv blake2b_h0 true 1
        = blake2b_h0.take 8
          ++ [Hacl_Impl_Blake2_Constants_ivTable_B.getD 0 0,
              Hacl_Impl_Blake2_Constants_ivTable_B.getD 1 0,
              Hacl_Impl_Blake2_Constants_ivTable_B.getD 2 0,
              Hacl_Impl_Blake2_Constants_ivTable_B.getD 3 0,
              Hacl_Impl_Blake2_Constants_ivTable_B.getD 4 0 ^^^ 1 % 2 ^ 64,
              Hacl_Impl_Blake2_Constants_ivTable_B.getD 5 0 ^^^ 1 / 2 ^ 64,
              Hacl_Impl_Blake2_Constants_ivTable_B.getD 6 0
                ^^^ (if true = true then 0xFFFFFFFFFFFFFFFF else 0),
              Hacl_Impl_Blake2_Constants_ivTable_B.getD 7 0 ^^^ 0]
      ∧ (blake2b_update_block stale_wv blake2b_h0 true 1 (1 :: List.replicate 127 0)).2.drop 8
          = Hacl_Impl_Blake2_Constants_ivTable_B) :=
  ⟨by decide,
    C30_init_wv stale_wv blake2b_h0 true 1 (1 :: List.replicate 127 0) (by decide) (by decide)
      (by decide) (by decide)⟩

/-- C30 as stated fails: with `totlen = 1` on a non-final block, the code leaves limbs 14 and
15 equal to the last two IV entries and XORs `totlen` into limbs 12 and 13, whereas the claim
has the last two IV entries XORed with the low and the high half of `totlen`. -/
theorem C30_counterexample :
    ¬ (blake2b_init_wv stale_wv blake2b_h0 false 1
        = blake2b_h0.take 8
          ++ [Hacl_Impl_Blake2_Constants_ivTable_B.getD 0 0,
              Hacl_Impl_Blake2_Constants_ivTable_B.getD 1 0,
              Hacl_Impl_Blake2_Constants_ivTable_B.getD 2 0,
              Hacl_Impl_Blake2_Constants_ivTable_B.getD 3 0,
              Hacl_Impl_Blake2_Constants_ivTable_B.getD 4 0,
              Hacl_Impl_Blake2_Constants_ivTable_B.getD 5 0,
              Hacl_Impl_Blake2_Constants_ivTable_B.getD 6 0 ^^^ 1 % 2 ^ 64,
              Hacl_Impl_Blake2_Constants_ivTable_B.getD 7 0 ^^^ 1 / 2 ^ 64]) := by
  decide

/-! ## BLAKE2b: the sequence of compressions -/

theorem blake2b_call_snd (st : (List Nat × List Nat) × List (Bool × Nat × List Nat))
    (flag : Bool) (totlen : Nat) (blk : List Nat) :
    (blake2b_call st flag totlen blk).2 = st.2 ++ [(flag, totlen, blk.take 128)] := rfl

/-- The record of a loop of calls. -/
theorem call_loop_log (T : Nat → Nat) (B : Nat → List Nat) (nb : Nat)
    (st : (List Nat × List Nat) × List (Bool × Nat × List Nat)) :
    (forLoop 0 nb (fun i st => blake2b_call st false (T i) (B i)) st).2
      = st.2 ++ (List.range nb).map (fun i => (false, T i, (B i).take 128)) := by
  induction nb with
  | zero => simp [forLoop_empty]
  | succ m ih =>
    rw [forLoop_succ _ _ _ _ (Nat.zero_le _), blake2b_call_snd, ih, List.range_succ,
      List.map_append, List.append_assoc]
    rfl

/-- The number of non-final blocks and the length of the final chunk. -/
theorem blake2b_split (ll : Nat) (hll : ll < 2 ^ 32) :
    (if ll % 128 = 0 ∧ 0 < ll / 128 then (sub32 (ll / 128) 1, 128) else (ll / 128, ll % 128))
      = (if ll % 128 = 0 ∧ 0 < ll then ll / 128 - 1 else ll / 128,
         ll - (if ll % 128 = 0 ∧ 0 < ll then ll / 128 - 1 else ll / 128) * 128) := by
  by_cases h : ll % 128 = 0 ∧ 0 < ll / 128
  · have h' : ll % 128 = 0 ∧ 0 < ll := ⟨h.1, by omega⟩
    rw [if_pos h, if_pos h']
    have e : sub32 (ll / 128) 1 = ll / 128 - 1 := by
      unfold sub32
      omega
    rw [e]
    congr 1
    omega
  · have h' : ¬ (ll % 128 = 0 ∧ 0 < ll) := by omega
    rw [if_neg h, if_neg h']
    congr 1
    omega

/-- The record of calls of `Hacl_Blake2b_32_blake2b`, before any arithmetic is simplified. -/
theorem blake2b_log_unfold (nn : Nat) (output : List Nat) (ll : Nat) (d : List Nat) (kk : Nat)
    (k : List Nat) :
    (Hacl_Blake2b_32_blake2b nn output ll d kk k).2
      = ((if ¬ (kk = 0) then
            [(false, FStar_UInt128_add_mod (FStar_UInt128_uint64_to_uint128 0)
                (FStar_UInt128_uint64_to_uint128 128),
              ((memcpy (List.replicate 128 0) k kk).drop (mul32 0 128)).take 128)]
          else [])
        ++ (List.range
              (if ll % 128 = 0 ∧ 0 < ll / 128 then (sub32 (ll / 128) 1, 128)
                else (ll / 128, ll % 128)).1).map
            (fun i => (false,
              FStar_UInt128_add_mod
                (if kk = 0 then FStar_UInt128_uint64_to_uint128 0
                  else FStar_UInt128_uint64_to_uint128 128)
                (FStar_UInt128_uint64_to_uint128 (mul32 (add32 i 1) 128)),
              (d.drop (mul32 i 128)).take 128)))
        ++ [(true,
            FStar_UInt128_add_mod
              (if kk = 0 then FStar_UInt128_uint64_to_uint128 0
                else FStar_UInt128_uint64_to_uint128 128)
              (FStar_UInt128_uint64_to_uint128 ll),
            (memcpy (List.replicate 128 0)
              (d.drop (ll - (if ll % 128 = 0 ∧ 0 < ll / 128 then (sub32 (ll / 128) 1, 128)
                else (ll / 128, ll % 128)).2))
              (if ll % 128 = 0 ∧ 0 < ll / 128 then (sub32 (ll / 128) 1, 128)
                else (ll / 128, ll % 128)).2).take 128)] := by
  unfold Hacl_Blake2b_32_blake2b
  simp only []
  rw [blake2b_call_snd, call_loop_log]
  by_cases hk : kk = 0
  · rw [if_neg (not_not.2 hk), if_neg (not_not.2 hk)]
  · rw [if_pos hk, if_pos hk, blake2b_call_snd]
    rfl

theorem key_block_eq (k : List Nat) (kk : Nat) (hk : k.length = kk) (hkk : kk ≤ 128) :
    ((memcpy (List.replicate 128 0) k kk).drop (mul32 0 128)).take 128
      = k ++ List.replicate (128 - kk) 0 := by
  have e0 : mul32 0 128 = 0 := by decide
  unfold memcpy
  rw [e0, List.drop_zero, List.take_of_length_le (le_of_eq hk), List.drop_replicate]
  apply List.take_of_length_le
  rw [List.length_append, List.length_replicate, hk]
  omega

theorem last_block_eq (d : List Nat) (ll nb rem : Nat) (hd : d.length = ll)
    (h : nb * 128 + rem = ll) (hrem : rem ≤ 128) :
    (memcpy (List.replicate 128 0) (d.drop (ll - rem)) rem).take 128
      = d.drop (nb * 128) ++ List.replicate (128 - rem) 0 := by
  have e : ll - rem = nb * 128 := by omega
  have hl : (d.drop (nb * 128)).length = rem := by rw [List.length_drop, hd]; omega
  unfold memcpy
  rw [e, List.take_of_length_le (le_of_eq hl), List.drop_replicate]
  apply List.take_of_length_le
  rw [List.length_append, List.length_replicate, hl]
  omega

/-- The calls `Hacl_Blake2b_32_blake2b` makes to `blake2b_update_block`: the key block when
there is a key, the `nb` non-final message blocks, and the padded final chunk. -/
theorem blake2b_trace (nn : Nat) (output : List Nat) (ll : Nat) (d : List Nat) (kk : Nat)
    (k : List Nat) (hll : ll < 2 ^ 32) (hd : d.length = ll) (hk : k.length = kk)
    (hkk : kk ≤ 64) (nb rem : Nat)
    (hnb : nb = if ll % 128 = 0 ∧ 0 < ll then ll / 128 - 1 else ll / 128)
    (hrem : rem = ll - nb * 128) :
    (Hacl_Blake2b_32_blake2b nn output ll d kk k).2
      = ((if kk = 0 then [] else [(false, 128, k ++ List.replicate (128 - kk) 0)])
        ++ (List.range nb).map (fun i =>
            (false, (if kk = 0 then 0 else 128) + (i + 1) * 128, (d.drop (i * 128)).take 128)))
        ++ [(true, (if kk = 0 then 0 else 128) + ll,
            d.drop (nb * 128) ++ List.replicate (128 - rem) 0)] := by
  have hsum : nb * 128 + rem = ll := by
    rw [hrem, hnb]; split <;> omega
  have hrem128 : rem ≤ 128 := by
    rw [hrem, hnb]; split <;> omega
  rw [blake2b_log_unfold, blake2b_split ll hll, ← hnb]
  dsimp only
  rw [← hrem, last_block_eq d ll nb rem hd hsum hrem128, key_block_eq k kk hk (by omega)]
  have eprev : (if kk = 0 then FStar_UInt128_uint64_to_uint128 0
      else FStar_UInt128_uint64_to_uint128 128) = if kk = 0 then 0 else 128 := rfl
  have eprev128 : (if kk = 0 then 0 else 128) ≤ 128 := by split <;> omega
  rw [eprev]
  have elast : FStar_UInt128_add_mod (if kk = 0 then 0 else 128)
      (FStar_UInt128_uint64_to_uint128 ll) = (if kk = 0 then 0 else 128) + ll := by
    unfold FStar_UInt128_add_mod FStar_UInt128_uint64_to_uint128
    apply Nat.mod_eq_of_lt
    have : (2 : Nat) ^ 32 + 128 < 2 ^ 128 := by decide
    omega
  have ekey : FStar_UInt128_add_mod (FStar_UInt128_uint64_to_uint128 0)
      (FStar_UInt128_uint64_to_uint128 128) = 128 := by decide
  have emap : (List.range nb).map (fun i => (false,
        FStar_UInt128_add_mod (if kk = 0 then 0 else 128)
          (FStar_UInt128_uint64_to_uint128 (mul32 (add32 i 1) 128)),
        (d.drop (mul32 i 128)).take 128))
      = (List.range nb).map (fun i =>
        (false, (if kk = 0 then 0 else 128) + (i + 1) * 128, (d.drop (i * 128)).take 128)) := by
    apply List.map_congr_left
    intro i hi
    have hi' := List.mem_range.1 hi
    have e1 : mul32 (add32 i 1) 128 = (i + 1) * 128 := by unfold mul32 add32; omega
    have e2 : mul32 i 128 = i * 128 := by unfold mul32; omega
    have e3 : FStar_UInt128_add_mod (if kk = 0 then 0 else 128)
        (FStar_UInt128_uint64_to_uint128 ((i + 1) * 128))
        = (if kk = 0 then 0 else 128) + (i + 1) * 128 := by
      unfold FStar_UInt128_add_mod FStar_UInt128_uint64_to_uint128
      apply Nat.mod_eq_of_lt
      have : (2 : Nat) ^ 32 + 128 < 2 ^ 128 := by decide
      omega
    rw [e1, e2, e3]
  rw [elast, ekey, emap]
  by_cases hk0 : kk = 0
  · simp only [hk0, not_true_eq_false, if_true, if_false]
  · simp only [hk0, not_false_eq_true, if_true, if_false]

/-- C28: for every `kk` in `1..64` and every `ll`, including `ll = 0`, `Hacl_Blake2b_32_blake2b`
first compresses the key copied into a zeroed 128-byte block with `totlen = 128` and
`isLast = false`, and always performs one further compression with `isLast = true` after it;
for `ll = 0` that final compression is of an all-zero 128-byte block with `totlen = 128`. -/
theorem C28_blake2b_key_block (nn : Nat) (output : List Nat) (ll : Nat) (d : List Nat)
    (kk : Nat) (k : List Nat) (hkk1 : 1 ≤ kk) (hkk : kk ≤ 64) (hk : k.length = kk)
    (hll : ll < 2 ^ 32) (hd : d.length = ll) :
    ∃ rest t blk,
      (Hacl_Blake2b_32_blake2b nn output ll d kk k).2
        = (false, 128, k ++ List.replicate (128 - kk) 0) :: (rest ++ [(true, t, blk)])
      ∧ (ll = 0 → rest = [] ∧ t = 128 ∧ blk = List.replicate 128 0) := by
  have hk0 : ¬ kk = 0 := by omega
  have htr := blake2b_trace nn output ll d kk k hll hd hk hkk _ _ rfl rfl
  rw [if_neg hk0, if_neg hk0] at htr
  refine ⟨(List.range (if ll % 128 = 0 ∧ 0 < ll then ll / 128 - 1 else ll / 128)).map
      (fun i => (false, 128 + (i + 1) * 128, (d.drop (i * 128)).take 128)),
    128 + ll,
    d.drop ((if ll % 128 = 0 ∧ 0 < ll then ll / 128 - 1 else ll / 128) * 128)
      ++ List.replicate
        (128 - (ll - (if ll % 128 = 0 ∧ 0 < ll then ll / 128 - 1 else ll / 128) * 128)) 0,
    htr, ?_⟩
  intro h0
  subst h0
  have hnil : d = [] := List.eq_nil_of_length_eq_zero hd
  subst hnil
  exact ⟨rfl, rfl, rfl⟩

/-- A three-byte key with the empty message satisfies the hypotheses of C28. -/
theorem C28_blake2b_key_block_witness :
    (1 ≤ 3 ∧ 3 ≤ 64 ∧ bytes_123.length = 3 ∧ 0 < 2 ^ 32 ∧ ([] : List Nat).length = 0)
    ∧ ∃ rest t blk,
      (Hacl_Blake2b_32_blake2b 64 stale_out 0 [] 3 bytes_123).2
        = (false, 128, bytes_123 ++ List.replicate (128 - 3) 0) :: (rest ++ [(true, t, blk)])
      ∧ (0 = 0 → rest = [] ∧ t = 128 ∧ blk = List.replicate 128 0) :=
  ⟨by decide,
    C28_blake2b_key_block 64 stale_out 0 [] 3 bytes_123 (by decide) (by decide) (by decide)
      (by decide) (by decide)⟩

/-- C29: for every message length `ll < 2^32`, `Hacl_Blake2b_32_blake2b` splits the message
into `nb` non-final blocks and a final chunk of `rem` bytes with `nb · 128 + rem = ll`,
`rem ≤ 128` and `rem = 0` only when `ll = 0` (for `ll` a positive multiple of 128,
`nb = ll/128 − 1` and `rem = 128`); block `i < nb` is compressed with `isLast = false` and
`totlen = (kk > 0 ? 128 : 0) + (i + 1) · 128`, and the final chunk, zero-padded to 128 bytes,
is compressed with `isLast = true` and `totlen = ll + (kk > 0 ? 128 : 0)`. -/
theorem C29_blake2b_message_blocks (nn : Nat) (output : List Nat) (ll : Nat) (d : List Nat)
    (kk : Nat) (k : List Nat) (hll : ll < 2 ^ 32) (hd : d.length = ll) (hk : k.length = kk)
    (hkk : kk ≤ 64) :
    ∃ nb rem, nb * 128 + rem = ll ∧ rem ≤ 128 ∧ (rem = 0 ↔ ll = 0)
      ∧ (ll % 128 = 0 ∧ 0 < ll → nb = ll / 128 - 1 ∧ rem = 128)
      ∧ (Hacl_Blake2b_32_blake2b nn output ll d kk k).2
        = ((if kk = 0 then [] else [(false, 128, k ++ List.replicate (128 - kk) 0)])
          ++ (List.range nb).map (fun i =>
              (false, (if kk = 0 then 0 else 128) + (i + 1) * 128,
                (d.drop (i * 128)).take 128)))
          ++ [(true, ll + (if kk = 0 then 0 else 128),
              d.drop (nb * 128) ++ List.replicate (128 - rem) 0)] := by
  refine ⟨if ll % 128 = 0 ∧ 0 < ll then ll / 128 - 1 else ll / 128,
    ll - (if ll % 128 = 0 ∧ 0 < ll then ll / 128 - 1 else ll / 128) * 128, ?_, ?_, ?_, ?_, ?_⟩
  · split <;> omega
  · split <;> omega
  · split <;> omega
  · intro h
    rw [if_pos h]
    omega
  · rw [blake2b_trace nn output ll d kk k hll hd hk hkk _ _ rfl rfl, Nat.add_comm ll]

/-- A 256-byte message, a positive multiple of 128, with a three-byte key satisfies the
hypotheses of C29. -/
theorem C29_blake2b_message_blocks_witness :
    (256 < 2 ^ 32 ∧ msg_256.length = 256 ∧ bytes_123.length = 3 ∧ 3 ≤ 64)
    ∧ ∃ nb rem, nb * 128 + rem = 256 ∧ rem ≤ 128 ∧ (rem = 0 ↔ 256 = 0)
      ∧ (256 % 128 = 0 ∧ 0 < 256 → nb = 256 / 128 - 1 ∧ rem = 128)
      ∧ (Hacl_Blake2b_32_blake2b 64 stale_out 256 msg_256 3 bytes_123).2
        = ((if 3 = 0 then [] else [(false, 128, bytes_123 ++ List.replicate (128 - 3) 0)])
          ++ (List.range nb).map (fun i =>
              (false, (if 3 = 0 then 0 else 128) + (i + 1) * 128,
                (msg_256.drop (i * 128)).take 128)))
          ++ [(true, 256 + (if 3 = 0 then 0 else 128),
              msg_256.drop (nb * 128) ++ List.replicate (128 - rem) 0)] :=
  ⟨⟨by decide, List.length_replicate 256 7, by decide, by decide⟩,
    C29_blake2b_message_blocks 64 stale_out 256 msg_256 3 bytes_123 (by decide)
      (List.length_replicate 256 7) (by decide) (by decide)⟩

/-! ## BLAKE2b: the row operations on an explicit working vector -/

theorem row_add_01 (v0 v1 v2 v3 v4 v5 v6 v7 v8 v9 v10 v11 v12 v13 v14 v15 : Nat) :
    row_add [v0, v1, v2, v3,
       v4, v5, v6, v7,
       v8, v9, v10, v11,
       v12, v13, v14, v15] 0 1
      = [add64 v0 v4, add64 v1 v5, add64 v2 v6, add64 v3 v7,
       v4, v5, v6, v7,
       v8, v9, v10, v11,
       v12, v13, v14, v15] := rfl

theorem row_add_23 (v0 v1 v2 v3 v4 v5 v6 v7 v8 v9 v10 v11 v12 v13 v14 v15 : Nat) :
    row_add [v0, v1, v2, v3,
       v4, v5, v6, v7,
       v8, v9, v10, v11,
       v12, v13, v14, v15] 2 3
      = [v0, v1, v2, v3,
       v4, v5, v6, v7,
       add64 v8 v12, add64 v9 v13, add64 v10 v14, add64 v11 v15,
       v12, v13, v14, v15] := rfl

theorem row_add_ext_0 (v0 v1 v2 v3 v4 v5 v6 v7 v8 v9 v10 v11 v12 v13 v14 v15 : Nat) (x0 x1 x2 x3 : Nat) :
    row_add_ext [v0, v1, v2, v3,
       v4, v5, v6, v7,
       v8, v9, v10, v11,
       v12, v13, v14, v15] 0 [x0, x1, x2, x3]
      = [add64 v0 x0, add64 v1 x1, add64 v2 x2, add64 v3 x3,
       v4, v5, v6, v7,
       v8, v9, v10, v11,
       v12, v13, v14, v15] := rfl

theorem row_add_ext_2 (v0 v1 v2 v3 v4 v5 v6 v7 v8 v9 v10 v11 v12 v13 v14 v15 : Nat) (x0 x1 x2 x3 : Nat) :
    row_add_ext [v0, v1, v2, v3,
       v4, v5, v6, v7,
       v8, v9, v10, v11,
       v12, v13, v14, v15] 2 [x0, x1, x2, x3]
      = [v0, v1, v2, v3,
       v4, v5, v6, v7,
       add64 v8 x0, add64 v9 x1, add64 v10 x2, add64 v11 x3,
       v12, v13, v14, v15] := rfl

theorem row_xor_30 (v0 v1 v2 v3 v4 v5 v6 v7 v8 v9 v10 v11 v12 v13 v14 v15 : Nat) :
    row_xor [v0, v1, v2, v3,
       v4, v5, v6, v7,
       v8, v9, v10, v11,
       v12, v13, v14, v15] 3 0
      = [v0, v1, v2, v3,
       v4, v5, v6, v7,
       v8, v9, v10, v11,
       v12 ^^^ v0, v13 ^^^ v1, v14 ^^^ v2, v15 ^^^ v3] := rfl

theorem row_xor_12 (v0 v1 v2 v3 v4 v5 v6 v7 v8 v9 v10 v11 v12 v13 v14 v15 : Nat) :
    row_xor [v0, v1, v2, v3,
       v4, v5, v6, v7,
       v8, v9, v10, v11,
       v12, v13, v14, v15] 1 2
      = [v0, v1, v2, v3,
       v4 ^^^ v8, v5 ^^^ v9, v6 ^^^ v10, v7 ^^^ v11,
       v8, v9, v10, v11,
       v12, v13, v14, v15] := rfl

theorem row_ror_3 (v0 v1 v2 v3 v4 v5 v6 v7 v8 v9 v10 v11 v12 v13 v14 v15 : Nat) (r : Nat) :
    row_ror [v0, v1, v2, v3,
       v4, v5, v6, v7,
       v8, v9, v10, v11,
       v12, v13, v14, v15] 3 r
      = [v0, v1, v2, v3,
       v4, v5, v6, v7,
       v8, v9, v10, v11,
       (v12 >>> r) ||| shl64 v12 (sub32 64 r), (v13 >>> r) ||| shl64 v13 (sub32 64 r), (v14 >>> r) ||| shl64 v14 (sub32 64 r), (v15 >>> r) ||| shl64 v15 (sub32 64 r)] := rfl

theorem row_ror_1 (v0 v1 v2 v3 v4 v5 v6 v7 v8 v9 v10 v11 v12 v13 v14 v15 : Nat) (r : Nat) :
    row_ror [v0, v1, v2, v3,
       v4, v5, v6, v7,
       v8, v9, v10, v11,
       v12, v13, v14, v15] 1 r
      = [v0, v1, v2, v3,
       (v4 >>> r) ||| shl64 v4 (sub32 64 r), (v5 >>> r) ||| shl64 v5 (sub32 64 r), (v6 >>> r) ||| shl64 v6 (sub32 64 r), (v7 >>> r) ||| shl64 v7 (sub32 64 r),
       v8, v9, v10, v11,
       v12, v13, v14, v15] := rfl

theorem row_permute_11 (v0 v1 v2 v3 v4 v5 v6 v7 v8 v9 v10 v11 v12 v13 v14 v15 : Nat) :
    row_permute [v0, v1, v2, v3,
       v4, v5, v6, v7,
       v8, v9, v10, v11,
       v12, v13, v14, v15] 1 1
      = [v0, v1, v2, v3,
       v5, v6, v7, v4,
       v8, v9, v10, v11,
       v12, v13, v14, v15] := rfl

theorem row_permute_22 (v0 v1 v2 v3 v4 v5 v6 v7 v8 v9 v10 v11 v12 v13 v14 v15 : Nat) :
    row_permute [v0, v1, v2, v3,
       v4, v5, v6, v7,
       v8, v9, v10, v11,
       v12, v13, v14, v15] 2 2
      = [v0, v1, v2, v3,
       v4, v5, v6, v7,
       v10, v11, v8, v9,
       v12, v13, v14, v15] := rfl

theorem row_permute_33 (v0 v1 v2 v3 v4 v5 v6 v7 v8 v9 v10 v11 v12 v13 v14 v15 : Nat) :
    row_permute [v0, v1, v2, v3,
       v4, v5, v6, v7,
       v8, v9, v10, v11,
       v12, v13, v14, v15] 3 3
      = [v0, v1, v2, v3,
       v4, v5, v6, v7,
       v8, v9, v10, v11,
       v15, v12, v13, v14] := rfl

theorem row_permute_13 (v0 v1 v2 v3 v4 v5 v6 v7 v8 v9 v10 v11 v12 v13 v14 v15 : Nat) :
    row_permute [v0, v1, v2, v3,
       v4, v5, v6, v7,
       v8, v9, v10, v11,
       v12, v13, v14, v15] 1 3
      = [v0, v1, v2, v3,
       v7, v4, v5, v6,
       v8, v9, v10, v11,
       v12, v13, v14, v15] := rfl

theorem row_permute_31 (v0 v1 v2 v3 v4 v5 v6 v7 v8 v9 v10 v11 v12 v13 v14 v15 : Nat) :
    row_permute [v0, v1, v2, v3,
       v4, v5, v6, v7,
       v8, v9, v10, v11,
       v12, v13, v14, v15] 3 1
      = [v0, v1, v2, v3,
       v4, v5, v6, v7,
       v8, v9, v10, v11,
       v13, v14, v15, v12] := rfl

theorem rTable_B_entries :
    Hacl_Impl_Blake2_Constants_rTable_B.getD 0 0 = 32 ∧
    Hacl_Impl_Blake2_Constants_rTable_B.getD 1 0 = 24 ∧
    Hacl_Impl_Blake2_Constants_rTable_B.getD 2 0 = 16 ∧
    Hacl_Impl_Blake2_Constants_rTable_B.getD 3 0 = 63 := ⟨rfl, rfl, rfl, rfl⟩

theorem sub32_rot :
    sub32 64 32 = 32 ∧ sub32 64 24 = 40 ∧ sub32 64 16 = 48 ∧ sub32 64 63 = 1 := by decide

theorem add64_add64 (a b c : Nat) : add64 (add64 a b) c = (a + b + c) % 2 ^ 64 := by
  unfold add64
  exact Nat.mod_add_mod _ _ _

theorem replicate_4_0 : List.replicate 4 0 = [0, 0, 0, 0] := rfl

/-- The row-wise mixing of `blake2b_mixing` on an explicit working vector. -/
theorem mixing_explicit (v0 v1 v2 v3 v4 v5 v6 v7 v8 v9 v10 v11 v12 v13 v14 v15 x0 x1 x2 x3 y0 y1 y2 y3 : Nat) :
    blake2b_mixing [v0, v1, v2, v3, v4, v5, v6, v7, v8, v9, v10, v11, v12, v13, v14, v15] [x0, x1, x2, x3] [y0, y1, y2, y3]
      = rfc7693_G (rfc7693_G (rfc7693_G (rfc7693_G [v0, v1, v2, v3, v4, v5, v6, v7, v8, v9, v10, v11, v12, v13, v14, v15]
          0 4 8 12 x0 y0) 1 5 9 13 x1 y1) 2 6 10 14 x2 y2) 3 7 11 15 x3 y3 := by
  unfold blake2b_mixing
  simp only [rTable_B_entries.1, rTable_B_entries.2.1, rTable_B_entries.2.2.1,
    rTable_B_entries.2.2.2, replicate_4_0, row_add_01, row_add_23, row_add_ext_0, row_add_ext_2, row_xor_30, row_xor_12, row_ror_3, row_ror_1]
  simp only [rfc7693_G, rfc7693_rotr, List.getD_cons_zero, List.getD_cons_succ, List.set_cons_zero,
    List.set_cons_succ, add64_add64, Nat.add_zero, sub32_rot.1,
    sub32_rot.2.1, sub32_rot.2.2.1, sub32_rot.2.2.2]

/-- The second half of a round on an explicit working vector: rotating rows 1, 2, 3 left by
1, 2, 3, mixing, and rotating back puts the diagonals through `G`. -/
theorem diagonal_explicit (v0 v1 v2 v3 v4 v5 v6 v7 v8 v9 v10 v11 v12 v13 v14 v15 z0 z1 z2 z3 w0 w1 w2 w3 : Nat) :
    row_permute (row_permute (row_permute (blake2b_mixing (row_permute (row_permute
        (row_permute [v0, v1, v2, v3, v4, v5, v6, v7, v8, v9, v10, v11, v12, v13, v14, v15] 1 1) 2 2) 3 3)
        [z0, z1, z2, z3] [w0, w1, w2, w3]) 1 3) 2 2) 3 1
      = rfc7693_G (rfc7693_G (rfc7693_G (rfc7693_G [v0, v1, v2, v3, v4, v5, v6, v7, v8, v9, v10, v11, v12, v13, v14, v15]
          0 5 10 15 z0 w0) 1 6 11 12 z1 w1) 2 7 8 13 z2 w2) 3 4 9 14 z3 w3 := by
  unfold blake2b_mixing
  simp only [rTable_B_entries.1, rTable_B_entries.2.1, rTable_B_entries.2.2.1,
    rTable_B_entries.2.2.2, replicate_4_0, row_add_01, row_add_23, row_add_ext_0, row_add_ext_2, row_xor_30, row_xor_12, row_ror_3, row_ror_1,
    row_permute_11, row_permute_22, row_permute_33, row_permute_13, row_permute_31]
  simp only [rfc7693_G, rfc7693_rotr, List.getD_cons_zero, List.getD_cons_succ, List.set_cons_zero,
    List.set_cons_succ, add64_add64, Nat.add_zero, sub32_rot.1,
    sub32_rot.2.1, sub32_rot.2.2.1, sub32_rot.2.2.2]

theorem rfc7693_G_length (v : List Nat) (a b c d x y : Nat) :
    (rfc7693_G v a b c d x y).length = v.length := by
  simp only [rfc7693_G, List.length_set]

/-- One round of the code on the message rows `x`, `y`, `z`, `w`: `G` on the four columns with
`(x_i, y_i)`, then on the four diagonals with `(z_i, w_i)`. -/
theorem round_rows (wv : List Nat) (hwv : wv.length = 16)
    (x0 x1 x2 x3 y0 y1 y2 y3 z0 z1 z2 z3 w0 w1 w2 w3 : Nat) :
    row_permute (row_permute (row_permute (blake2b_mixing (row_permute (row_permute
        (row_permute (blake2b_mixing wv [x0, x1, x2, x3] [y0, y1, y2, y3]) 1 1) 2 2) 3 3)
        [z0, z1, z2, z3] [w0, w1, w2, w3]) 1 3) 2 2) 3 1
      = rfc7693_G (rfc7693_G (rfc7693_G (rfc7693_G
          (rfc7693_G (rfc7693_G (rfc7693_G (rfc7693_G wv
          0 4 8 12 x0 y0) 1 5 9 13 x1 y1) 2 6 10 14 x2 y2) 3 7 11 15 x3 y3)
          0 5 10 15 z0 w0) 1 6 11 12 z1 w1) 2 7 8 13 z2 w2) 3 4 9 14 z3 w3 := by
  have e1 : blake2b_mixing wv [x0, x1, x2, x3] [y0, y1, y2, y3]
      = rfc7693_G (rfc7693_G (rfc7693_G (rfc7693_G wv
          0 4 8 12 x0 y0) 1 5 9 13 x1 y1) 2 6 10 14 x2 y2) 3 7 11 15 x3 y3 := by
    obtain ⟨a0, a1, a2, a3, a4, a5, a6, a7, a8, a9, a10, a11, a12, a13, a14, a15, rfl⟩ := list16_exists wv hwv
    exact mixing_explicit _ _ _ _ _ _ _ _ _ _ _ _ _ _ _ _ _ _ _ _ _ _ _ _
  rw [e1]
  have hl : (rfc7693_G (rfc7693_G (rfc7693_G (rfc7693_G wv
      0 4 8 12 x0 y0) 1 5 9 13 x1 y1) 2 6 10 14 x2 y2) 3 7 11 15 x3 y3).length = 16 := by
    rw [rfc7693_G_length, rfc7693_G_length, rfc7693_G_length, rfc7693_G_length, hwv]
  obtain ⟨a0, a1, a2, a3, a4, a5, a6, a7, a8, a9, a10, a11, a12, a13, a14, a15, e2⟩ := list16_exists _ hl
  rw [e2]
  exact diagonal_explicit _ _ _ _ _ _ _ _ _ _ _ _ _ _ _ _ _ _ _ _ _ _ _ _

theorem m_st_row0 (e0 e1 e2 e3 e4 e5 e6 e7 e8 e9 e10 e11 e12 e13 e14 e15 : Nat) :
    subBuf (((((((((((((((((List.replicate (mul32 4 4) 0).set (mul32 0 4 + 0) e0).set (mul32 0 4 + 1) e1).set (mul32 0 4 + 2) e2).set (mul32 0 4 + 3) e3).set (mul32 1 4 + 0) e4).set (mul32 1 4 + 1) e5).set (mul32 1 4 + 2) e6).set (mul32 1 4 + 3) e7).set (mul32 2 4 + 0) e8).set (mul32 2 4 + 1) e9).set (mul32 2 4 + 2) e10).set (mul32 2 4 + 3) e11).set (mul32 3 4 + 0) e12).set (mul32 3 4 + 1) e13).set (mul32 3 4 + 2) e14).set (mul32 3 4 + 3) e15)
      (mul32 0 4) 4 = [e0, e1, e2, e3] := by
  simp only [mul32, subBuf, List.replicate, Nat.reduceMul, Nat.reduceMod, Nat.reduceAdd,
    Nat.reducePow, List.set_cons_zero, List.set_cons_succ, List.drop_succ_cons, List.drop_zero,
    List.take_succ_cons, List.take_zero]

theorem m_st_row1 (e0 e1 e2 e3 e4 e5 e6 e7 e8 e9 e10 e11 e12 e13 e14 e15 : Nat) :
    subBuf (((((((((((((((((List.replicate (mul32 4 4) 0).set (mul32 0 4 + 0) e0).set (mul32 0 4 + 1) e1).set (mul32 0 4 + 2) e2).set (mul32 0 4 + 3) e3).set (mul32 1 4 + 0) e4).set (mul32 1 4 + 1) e5).set (mul32 1 4 + 2) e6).set (mul32 1 4 + 3) e7).set (mul32 2 4 + 0) e8).set (mul32 2 4 + 1) e9).set (mul32 2 4 + 2) e10).set (mul32 2 4 + 3) e11).set (mul32 3 4 + 0) e12).set (mul32 3 4 + 1) e13).set (mul32 3 4 + 2) e14).set (mul32 3 4 + 3) e15)
      (mul32 1 4) 4 = [e4, e5, e6, e7] := by
  simp only [mul32, subBuf, List.replicate, Nat.reduceMul, Nat.reduceMod, Nat.reduceAdd,
    Nat.reducePow, List.set_cons_zero, List.set_cons_succ, List.drop_succ_cons, List.drop_zero,
    List.take_succ_cons, List.take_zero]

theorem m_st_row2 (e0 e1 e2 e3 e4 e5 e6 e7 e8 e9 e10 e11 e12 e13 e14 e15 : Nat) :
    subBuf (((((((((((((((((List.replicate (mul32 4 4) 0).set (mul32 0 4 + 0) e0).set (mul32 0 4 + 1) e1).set (mul32 0 4 + 2) e2).set (mul32 0 4 + 3) e3).set (mul32 1 4 + 0) e4).set (mul32 1 4 + 1) e5).set (mul32 1 4 + 2) e6).set (mul32 1 4 + 3) e7).set (mul32 2 4 + 0) e8).set (mul32 2 4 + 1) e9).set (mul32 2 4 + 2) e10).set (mul32 2 4 + 3) e11).set (mul32 3 4 + 0) e12).set (mul32 3 4 + 1) e13).set (mul32 3 4 + 2) e14).set (mul32 3 4 + 3) e15)
      (mul32 2 4) 4 = [e8, e9, e10, e11] := by
  simp only [mul32, subBuf, List.replicate, Nat.reduceMul, Nat.reduceMod, Nat.reduceAdd,
    Nat.reducePow, List.set_cons_zero, List.set_cons_succ, List.drop_succ_cons, List.drop_zero,
    List.take_succ_cons, List.take_zero]

theorem m_st_row3 (e0 e1 e2 e3 e4 e5 e6 e7 e8 e9 e10 e11 e12 e13 e14 e15 : Nat) :
    subBuf (((((((((((((((((List.replicate (mul32 4 4) 0).set (mul32 0 4 + 0) e0).set (mul32 0 4 + 1) e1).set (mul32 0 4 + 2) e2).set (mul32 0 4 + 3) e3).set (mul32 1 4 + 0) e4).set (mul32 1 4 + 1) e5).set (mul32 1 4 + 2) e6).set (mul32 1 4 + 3) e7).set (mul32 2 4 + 0) e8).set (mul32 2 4 + 1) e9).set (mul32 2 4 + 2) e10).set (mul32 2 4 + 3) e11).set (mul32 3 4 + 0) e12).set (mul32 3 4 + 1) e13).set (mul32 3 4 + 2) e14).set (mul32 3 4 + 3) e15)
      (mul32 3 4) 4 = [e12, e13, e14, e15] := by
  simp only [mul32, subBuf, List.replicate, Nat.reduceMul, Nat.reduceMod, Nat.reduceAdd,
    Nat.reducePow, List.set_cons_zero, List.set_cons_succ, List.drop_succ_cons, List.drop_zero,
    List.take_succ_cons, List.take_zero]

/-- The round body of the code with the message rows gathered through the flat schedule table. -/
theorem blake2b_round_unfold (wv d : List Nat) (i1 : Nat) :
    blake2b_round wv d i1
      = row_permute (row_permute (row_permute (blake2b_mixing (row_permute (row_permute
        (row_permute (blake2b_mixing wv
      [load64_le d (mul32 (Hacl_Impl_Blake2_Constants_sigmaTable.getD (mul32 (i1 % 10) 16) 0) 8),
       load64_le d (mul32 (Hacl_Impl_Blake2_Constants_sigmaTable.getD (add32 (mul32 (i1 % 10) 16) 2) 0) 8),
       load64_le d (mul32 (Hacl_Impl_Blake2_Constants_sigmaTable.getD (add32 (mul32 (i1 % 10) 16) 4) 0) 8),
       load64_le d (mul32 (Hacl_Impl_Blake2_Constants_sigmaTable.getD (add32 (mul32 (i1 % 10) 16) 6) 0) 8)]
      [load64_le d (mul32 (Hacl_Impl_Blake2_Constants_sigmaTable.getD (add32 (mul32 (i1 % 10) 16) 1) 0) 8),
       load64_le d (mul32 (Hacl_Impl_Blake2_Constants_sigmaTable.getD (add32 (mul32 (i1 % 10) 16) 3) 0) 8),
       load64_le d (mul32 (Hacl_Impl_Blake2_Constants_sigmaTable.getD (add32 (mul32 (i1 % 10) 16) 5) 0) 8),
       load64_le d (mul32 (Hacl_Impl_Blake2_Constants_sigmaTable.getD (add32 (mul32 (i1 % 10) 16) 7) 0) 8)]) 1 1) 2 2) 3 3)
      [load64_le d (mul32 (Hacl_Impl_Blake2_Constants_sigmaTable.getD (add32 (mul32 (i1 % 10) 16) 8) 0) 8),
       load64_le d (mul32 (Hacl_Impl_Blake2_Constants_sigmaTable.getD (add32 (mul32 (i1 % 10) 16) 10) 0) 8),
       load64_le d (mul32 (Hacl_Impl_Blake2_Constants_sigmaTable.getD (add32 (mul32 (i1 % 10) 16) 12) 0) 8),
       load64_le d (mul32 (Hacl_Impl_Blake2_Constants_sigmaTable.getD (add32 (mul32 (i1 % 10) 16) 14) 0) 8)]
      [load64_le d (mul32 (Hacl_Impl_Blake2_Constants_sigmaTable.getD (add32 (mul32 (i1 % 10) 16) 9) 0) 8),
       load64_le d (mul32 (Hacl_Impl_Blake2_Constants_sigmaTable.getD (add32 (mul32 (i1 % 10) 16) 11) 0) 8),
       load64_le d (mul32 (Hacl_Impl_Blake2_Constants_sigmaTable.getD (add32 (mul32 (i1 % 10) 16) 13) 0) 8),
       load64_le d (mul32 (Hacl_Impl_Blake2_Constants_sigmaTable.getD (add32 (mul32 (i1 % 10) 16) 15) 0) 8)]) 1 3) 2 2) 3 1 := by
  unfold blake2b_round
  simp only [m_st_row0, m_st_row1, m_st_row2, m_st_row3]

/-- The round body of the code is a round of RFC 7693 on the message words of the block. -/
theorem round_eq (wv d : List Nat) (r : Nat) (hwv : wv.length = 16) (hr : r < 12) :
    blake2b_round wv d r = rfc7693_round wv (block_words d) r := by
  rw [blake2b_round_unfold, round_rows wv hwv]
  unfold rfc7693_round
  simp only []
  interval_cases r <;> rfl

/-- On a 64-bit word `rfc7693_rotr` is the rotation to the right: the low `n` bits move to the
top. -/
theorem rfc7693_rotr_spec (x n : Nat) (hx : x < 2 ^ 64) (hn : n ≤ 64) :
    rfc7693_rotr x n = x / 2 ^ n + x % 2 ^ n * 2 ^ (64 - n) := by
  have e64 : 2 ^ 64 = 2 ^ n * 2 ^ (64 - n) := by
    rw [← pow_add]
    congr 1
    omega
  have h1 : x * 2 ^ (64 - n) % 2 ^ 64 = x % 2 ^ n * 2 ^ (64 - n) := by
    rw [e64, Nat.mul_mod_mul_right]
  have h2 : x / 2 ^ n < 2 ^ (64 - n) := by
    apply Nat.div_lt_of_lt_mul
    rw [← e64]
    exact hx
  unfold rfc7693_rotr shl64
  rw [Nat.shiftRight_eq_div_pow, Nat.shiftLeft_eq, h1, Nat.lor_comm,
    Nat.mul_comm (x % 2 ^ n) (2 ^ (64 - n)), ← Nat.mul_add_lt_is_or h2, Nat.add_comm]

/-- C27: for every 16-limb working vector `wv`, every block `d` and every round index
`r < 12`, one iteration of the round loop of `blake2b_update_block` (row-wise mixing, rotation
of rows 1, 2, 3 to the left by 1, 2, 3, row-wise mixing, rotation by 3, 2, 1) equals the scalar
round of RFC 7693: `G` on the columns (0,4,8,12), (1,5,9,13), (2,6,10,14), (3,7,11,15) and
then on the diagonals (0,5,10,15), (1,6,11,12), (2,7,8,13), (3,4,9,14), with the message words
chosen by `SIGMA[r mod 10]` among the 16 little-endian words of `d` and with the right
rotations 32, 24, 16, 63. -/
theorem C27_round_refines (wv d : List Nat) (r : Nat) (hwv : wv.length = 16) (hr : r < 12) :
    blake2b_round wv d r = rfc7693_round wv (block_words d) r :=
  round_eq wv d r hwv hr

theorem C27_round_refines_witness :
    blake2b_h0.length = 16 ∧ 11 < 12 ∧
      blake2b_round blake2b_h0 block_seq 11 = rfc7693_round blake2b_h0 (block_words block_seq) 11 :=
  ⟨by decide, by decide, C27_round_refines blake2b_h0 block_seq 11 (by decide) (by decide)⟩

/-! ## BLAKE2b: the keyed hash of the empty message -/

/-- The keyed hash of the empty message: for a 64-byte key and `nn = 64`, RFC 7693 hashes the
padded key block as the single, final block and gives `keyed_empty_digest`;
`Hacl_Blake2b_32_blake2b` compresses the key block as a non-final block and then a block of
zeros as the final one, and writes `keyed_empty_output`, which is a different digest. -/
theorem keyed_empty_diverges :
    rfc7693_blake2b 64 [] key_64 = keyed_empty_digest ∧
      (Hacl_Blake2b_32_blake2b 64 stale_out 0 [] 64 key_64).1 = keyed_empty_output ∧
      (Hacl_Blake2b_32_blake2b 64 stale_out 0 [] 64 key_64).1 ≠ rfc7693_blake2b 64 [] key_64 := by
  decide!

/-! ## BLAKE2b: the compression function -/

theorem rfc7693_round_length (v m : List Nat) (r : Nat) :
    (rfc7693_round v m r).length = v.length := by
  unfold rfc7693_round
  simp only [rfc7693_G_length]

/-- The twelve rounds of `blake2b_update_block` are the twelve rounds of RFC 7693. -/
theorem rounds_eq (d : List Nat) (n : Nat) (hn : n ≤ 12) (wv : List Nat)
    (hwv : wv.length = 16) :
    forLoop 0 n (fun i1 wv => blake2b_round wv d i1) wv
        = (List.range n).foldl (fun v i => rfc7693_round v (block_words d) i) wv ∧
      (forLoop 0 n (fun i1 wv => blake2b_round wv d i1) wv).length = 16 := by
  induction n with
  | zero => exact ⟨by rw [forLoop_empty _ _ _ _ (le_refl _)]; rfl,
      by rw [forLoop_empty _ _ _ _ (le_refl _)]; exact hwv⟩
  | succ m ih =>
    obtain ⟨e1, e2⟩ := ih (by omega)
    have e3 := round_eq _ d m e2 (by omega)
    have e4 : forLoop 0 (m + 1) (fun i1 wv => blake2b_round wv d i1) wv
        = (List.range (m + 1)).foldl (fun v i => rfc7693_round v (block_words d) i) wv := by
      rw [forLoop_succ _ _ _ _ (Nat.zero_le _), e3, e1, List.range_succ, List.foldl_append,
        List.foldl_cons, List.foldl_nil]
    refine ⟨e4, ?_⟩
    rw [forLoop_succ _ _ _ _ (Nat.zero_le _), e3, rfc7693_round_length]
    exact e2

theorem list8_exists (l : List Nat) (h : l.length = 8) :
    ∃ a0 a1 a2 a3 a4 a5 a6 a7 : Nat, l = [a0, a1, a2, a3, a4, a5, a6, a7] := by
  match l, h with
  | [a0, a1, a2, a3, a4, a5, a6, a7], _ => exact ⟨_, _, _, _, _, _, _, _, rfl⟩

/-- The working vector of `F` before the rounds, and its result, on an explicit state. -/
theorem rfc7693_F_explicit (a0 a1 a2 a3 a4 a5 a6 a7 : Nat) (m : List Nat) (t : Nat) (f : Bool) :
    rfc7693_F [a0, a1, a2, a3, a4, a5, a6, a7] m t f
      = (List.range 8).map (fun i =>
          [a0, a1, a2, a3, a4, a5, a6, a7].getD i 0
            ^^^ ((List.range 12).foldl (fun v i => rfc7693_round v m i)
              [a0, a1, a2, a3, a4, a5, a6, a7,
               0x6A09E667F3BCC908, 0xBB67AE8584CAA73B, 0x3C6EF372FE94F82B, 0xA54FF53A5F1D36F1,
               0x510E527FADE682D1 ^^^ t % 2 ^ 64, 0x9B05688C2B3E6C1F ^^^ t / 2 ^ 64 % 2 ^ 64,
               0x1F83D9ABFB41BD6B ^^^ (if f then 0xFFFFFFFFFFFFFFFF else 0),
               0x5BE0CD19137E2179]).getD i 0
            ^^^ ((List.range 12).foldl (fun v i => rfc7693_round v m i)
              [a0, a1, a2, a3, a4, a5, a6, a7,
               0x6A09E667F3BCC908, 0xBB67AE8584CAA73B, 0x3C6EF372FE94F82B, 0xA54FF53A5F1D36F1,
               0x510E527FADE682D1 ^^^ t % 2 ^ 64, 0x9B05688C2B3E6C1F ^^^ t / 2 ^ 64 % 2 ^ 64,
               0x1F83D9ABFB41BD6B ^^^ (if f then 0xFFFFFFFFFFFFFFFF else 0),
               0x5BE0CD19137E2179]).getD (i + 8) 0) := by
  cases f <;> rfl

theorem init_wv_explicit (wv : List Nat) (a0 a1 a2 a3 a4 a5 a6 a7 : Nat) (flag : Bool)
    (totlen : Nat) (hwv : wv.length = 16) (ht : totlen < 2 ^ 128) :
    blake2b_init_wv wv
        ([a0, a1, a2, a3, a4, a5, a6, a7] ++ Hacl_Impl_Blake2_Constants_ivTable_B) flag totlen
      = [a0, a1, a2, a3, a4, a5, a6, a7,
         0x6A09E667F3BCC908, 0xBB67AE8584CAA73B, 0x3C6EF372FE94F82B, 0xA54FF53A5F1D36F1,
         0x510E527FADE682D1 ^^^ totlen % 2 ^ 64, 0x9B05688C2B3E6C1F ^^^ totlen / 2 ^ 64 % 2 ^ 64,
         0x1F83D9ABFB41BD6B ^^^ (if flag then 0xFFFFFFFFFFFFFFFF else 0),
         0x5BE0CD19137E2179] := by
  have hmod : totlen / 2 ^ 64 % 2 ^ 64 = totlen / 2 ^ 64 := by
    apply Nat.mod_eq_of_lt
    rw [Nat.div_lt_iff_lt_mul (by decide)]
    exact ht
  have hlen : ([a0, a1, a2, a3, a4, a5, a6, a7] ++ Hacl_Impl_Blake2_Constants_ivTable_B).length
      = 16 := rfl
  rw [init_wv_spec wv _ flag totlen hwv hlen ht, hmod, Nat.xor_zero]
  rfl

/-- The state `blake2b_update_block` leaves in `hash`, when the last two rows of `hash` hold
the IV: the first two rows are the result of the compression function `F` of RFC 7693. -/
theorem update_block_eq_F (wv h : List Nat) (flag : Bool) (totlen : Nat) (d : List Nat)
    (hwv : wv.length = 16) (hh : h.length = 8) (ht : totlen < 2 ^ 128) :
    (blake2b_update_block wv (h ++ Hacl_Impl_Blake2_Constants_ivTable_B) flag totlen d).2
        = rfc7693_F h (block_words d) totlen flag ++ Hacl_Impl_Blake2_Constants_ivTable_B ∧
      (blake2b_update_block wv (h ++ Hacl_Impl_Blake2_Constants_ivTable_B) flag totlen d).1.length
        = 16 := by
  obtain ⟨a0, a1, a2, a3, a4, a5, a6, a7, rfl⟩ := list8_exists h hh
  obtain ⟨e1, e2⟩ := rounds_eq d 12 (le_refl _)
    [a0, a1, a2, a3, a4, a5, a6, a7,
       0x6A09E667F3BCC908, 0xBB67AE8584CAA73B, 0x3C6EF372FE94F82B, 0xA54FF53A5F1D36F1,
       0x510E527FADE682D1 ^^^ totlen % 2 ^ 64, 0x9B05688C2B3E6C1F ^^^ totlen / 2 ^ 64 % 2 ^ 64,
       0x1F83D9ABFB41BD6B ^^^ (if flag then 0xFFFFFFFFFFFFFFFF else 0),
       0x5BE0CD19137E2179] rfl
  rw [e1] at e2
  unfold blake2b_update_block
  simp only []
  rw [init_wv_explicit wv a0 a1 a2 a3 a4 a5 a6 a7 flag totlen hwv ht, rfc7693_F_explicit, e1]
  refine ⟨?_, e2⟩
  obtain ⟨w0, w1, w2, w3, w4, w5, w6, w7, w8, w9, w10, w11, w12, w13, w14, w15, hw⟩ :=
    list16_exists _ e2
  rw [hw]
  have hcat : [a0, a1, a2, a3, a4, a5, a6, a7] ++ Hacl_Impl_Blake2_Constants_ivTable_B
      = [a0, a1, a2, a3, a4, a5, a6, a7,
         0x6A09E667F3BCC908, 0xBB67AE8584CAA73B, 0x3C6EF372FE94F82B, 0xA54FF53A5F1D36F1,
         0x510E527FADE682D1, 0x9B05688C2B3E6C1F, 0x1F83D9ABFB41BD6B, 0x5BE0CD19137E2179] := rfl
  rw [hcat, hash_xor_row0, hash_xor_row0, hash_xor_row1, hash_xor_row1]
  rfl

/-! ## BLAKE2b: the chain of compressions -/

theorem rfc7693_F_length (h m : List Nat) (t : Nat) (f : Bool) :
    (rfc7693_F h m t f).length = 8 := by
  unfold rfc7693_F
  simp only [List.length_map, List.length_range]

/-- One call of `blake2b_update_block` on a state whose last two rows hold the IV. -/
theorem call_eq_F (st : (List Nat × List Nat) × List (Bool × Nat × List Nat)) (h : List Nat)
    (flag : Bool) (totlen : Nat) (blk : List Nat) (hwv : st.1.1.length = 16)
    (hh : h.length = 8) (hst : st.1.2 = h ++ Hacl_Impl_Blake2_Constants_ivTable_B)
    (ht : totlen < 2 ^ 128) :
    (blake2b_call st flag totlen blk).1.1.length = 16 ∧
      (blake2b_call st flag totlen blk).1.2
        = rfc7693_F h (block_words blk) totlen flag ++ Hacl_Impl_Blake2_Constants_ivTable_B := by
  unfold blake2b_call
  dsimp only
  rw [hst]
  obtain ⟨e1, e2⟩ := update_block_eq_F st.1.1 h flag totlen blk hwv hh ht
  exact ⟨e2, e1⟩

/-- A loop of calls of `blake2b_update_block` with the flag `false`. -/
theorem loop_eq_F (T : Nat → Nat) (B : Nat → List Nat) (hT : ∀ i, T i < 2 ^ 128) (nb : Nat)
    (st : (List Nat × List Nat) × List (Bool × Nat × List Nat)) (h : List Nat)
    (hwv : st.1.1.length = 16) (hh : h.length = 8)
    (hst : st.1.2 = h ++ Hacl_Impl_Blake2_Constants_ivTable_B) :
    (forLoop 0 nb (fun i st => blake2b_call st false (T i) (B i)) st).1.1.length = 16 ∧
      ((List.range nb).foldl (fun h i => rfc7693_F h (block_words (B i)) (T i) false) h).length
        = 8 ∧
      (forLoop 0 nb (fun i st => blake2b_call st false (T i) (B i)) st).1.2
        = (List.range nb).foldl (fun h i => rfc7693_F h (block_words (B i)) (T i) false) h
          ++ Hacl_Impl_Blake2_Constants_ivTable_B := by
  induction nb with
  | zero =>
    rw [forLoop_empty _ _ _ _ (le_refl _)]
    exact ⟨hwv, hh, hst⟩
  | succ m ih =>
    obtain ⟨i1, i2, i3⟩ := ih
    rw [forLoop_succ _ _ _ _ (Nat.zero_le _), List.range_succ, List.foldl_append,
      List.foldl_cons, List.foldl_nil]
    obtain ⟨c1, c2⟩ := call_eq_F _ _ false (T m) (B m) i1 i2 i3 (hT m)
    exact ⟨c1, rfc7693_F_length _ _ _ _, c2⟩

/-- The hash state after all the calls of `Hacl_Blake2b_32_blake2b`, from the state `st0`
the calls start from. -/
theorem state_chain (st0 : (List Nat × List Nat) × List (Bool × Nat × List Nat))
    (h0 : List Nat) (hwv : st0.1.1.length = 16) (hh : h0.length = 8)
    (hst : st0.1.2 = h0 ++ Hacl_Impl_Blake2_Constants_ivTable_B) (kk nb T0 TL : Nat)
    (K BL : List Nat) (T : Nat → Nat) (B : Nat → List Nat) (hT0 : T0 < 2 ^ 128)
    (hTL : TL < 2 ^ 128) (hT : ∀ i, T i < 2 ^ 128) :
    (blake2b_call (forLoop 0 nb (fun i st => blake2b_call st false (T i) (B i))
        (if ¬ kk = 0 then blake2b_call st0 false T0 K else st0)) true TL BL).1.2
      = rfc7693_F ((List.range nb).foldl
            (fun h i => rfc7693_F h (block_words (B i)) (T i) false)
            (if kk = 0 then h0 else rfc7693_F h0 (block_words K) T0 false))
          (block_words BL) TL true ++ Hacl_Impl_Blake2_Constants_ivTable_B := by
  by_cases hk : kk = 0
  · rw [if_neg (not_not.2 hk), if_pos hk]
    obtain ⟨i1, i2, i3⟩ := loop_eq_F T B hT nb st0 h0 hwv hh hst
    exact (call_eq_F _ _ true TL BL i1 i2 i3 hTL).2
  · rw [if_pos hk, if_neg hk]
    obtain ⟨c1, c2⟩ := call_eq_F st0 h0 false T0 K hwv hh hst hT0
    obtain ⟨i1, i2, i3⟩ := loop_eq_F T B hT nb _ _ c1 (rfc7693_F_length _ _ _ _) c2
    exact (call_eq_F _ _ true TL BL i1 i2 i3 hTL).2

/-- The 64 bytes stored from the first two rows of the final hash state. -/
theorem digest_bytes (c0 c1 c2 c3 c4 c5 c6 c7 : Nat) (rest : List Nat) :
    forLoop 0 4 (fun i b2 =>
        store64_le b2 (mul32 4 8 + mul32 i 8)
          (([c0, c1, c2, c3, c4, c5, c6, c7] ++ rest).getD (mul32 1 4 + i) 0))
      (forLoop 0 4 (fun i b2 =>
        store64_le b2 (mul32 i 8)
          (([c0, c1, c2, c3, c4, c5, c6, c7] ++ rest).getD (mul32 0 4 + i) 0))
        (List.replicate (mul32 (mul32 2 4) 8) 0))
      = [c0, c1, c2, c3, c4, c5, c6, c7].flatMap (bytes_from_nat 8) := rfl

/-- The hash state `Hacl_Blake2b_32_blake2b` starts from. -/
theorem init_state (nn kk : Nat) :
    (((((((((((((((((List.replicate (mul32 4 4) 0).set (mul32 2 4 + 0) (Hacl_Impl_Blake2_Constants_ivTable_B.getD 0 0)).set (mul32 2 4 + 1) (Hacl_Impl_Blake2_Constants_ivTable_B.getD 1 0)).set (mul32 2 4 + 2) (Hacl_Impl_Blake2_Constants_ivTable_B.getD 2 0)).set (mul32 2 4 + 3) (Hacl_Impl_Blake2_Constants_ivTable_B.getD 3 0)).set (mul32 3 4 + 0) (Hacl_Impl_Blake2_Constants_ivTable_B.getD 4 0)).set (mul32 3 4 + 1) (Hacl_Impl_Blake2_Constants_ivTable_B.getD 5 0)).set (mul32 3 4 + 2) (Hacl_Impl_Blake2_Constants_ivTable_B.getD 6 0)).set (mul32 3 4 + 3) (Hacl_Impl_Blake2_Constants_ivTable_B.getD 7 0)).set (mul32 0 4 + 0) ((Hacl_Impl_Blake2_Constants_ivTable_B.getD 0 0) ^^^ (0x01010000 ^^^ (shl64 kk 8 ^^^ nn)))).set (mul32 0 4 + 1) (Hacl_Impl_Blake2_Constants_ivTable_B.getD 1 0)).set (mul32 0 4 + 2) (Hacl_Impl_Blake2_Constants_ivTable_B.getD 2 0)).set (mul32 0 4 + 3) (Hacl_Impl_Blake2_Constants_ivTable_B.getD 3 0)).set (mul32 1 4 + 0) (Hacl_Impl_Blake2_Constants_ivTable_B.getD 4 0)).set (mul32 1 4 + 1) (Hacl_Impl_Blake2_Constants_ivTable_B.getD 5 0)).set (mul32 1 4 + 2) (Hacl_Impl_Blake2_Constants_ivTable_B.getD 6 0)).set (mul32 1 4 + 3) (Hacl_Impl_Blake2_Constants_ivTable_B.getD 7 0))
      = [0x6A09E667F3BCC908 ^^^ (0x01010000 ^^^ (shl64 kk 8 ^^^ nn)), 0xBB67AE8584CAA73B,
            0x3C6EF372FE94F82B, 0xA54FF53A5F1D36F1, 0x510E527FADE682D1, 0x9B05688C2B3E6C1F,
            0x1F83D9ABFB41BD6B, 0x5BE0CD19137E2179] ++ Hacl_Impl_Blake2_Constants_ivTable_B := rfl

theorem add_mod_lt (x y : Nat) : FStar_UInt128_add_mod x y < 2 ^ 128 := by
  unfold FStar_UInt128_add_mod
  exact Nat.mod_lt _ (by decide)

/-- The bytes `Hacl_Blake2b_32_blake2b` writes, as a chain of compressions `F` of RFC 7693
over the blocks, flags and counters of its calls. -/
theorem blake2b_eq_chain (nn : Nat) (output : List Nat) (ll : Nat) (d : List Nat) (kk : Nat)
    (k : List Nat) (hout : output.length = nn) :
    (Hacl_Blake2b_32_blake2b nn output ll d kk k).1
      = ((rfc7693_F ((List.range (if ll % 128 = 0 ∧ 0 < ll / 128 then (sub32 (ll / 128) 1, 128) else (ll / 128, ll % 128)).1).foldl
            (fun h i => rfc7693_F h (block_words (d.drop (mul32 i 128)))
              (FStar_UInt128_add_mod (if kk = 0 then FStar_UInt128_uint64_to_uint128 0 else FStar_UInt128_uint64_to_uint128 128)
                (FStar_UInt128_uint64_to_uint128 (mul32 (add32 i 1) 128))) false)
            (if kk = 0 then
              [0x6A09E667F3BCC908 ^^^ (0x01010000 ^^^ (shl64 kk 8 ^^^ nn)), 0xBB67AE8584CAA73B,
            0x3C6EF372FE94F82B, 0xA54FF53A5F1D36F1, 0x510E527FADE682D1, 0x9B05688C2B3E6C1F,
            0x1F83D9ABFB41BD6B, 0x5BE0CD19137E2179]
            else rfc7693_F
              [0x6A09E667F3BCC908 ^^^ (0x01010000 ^^^ (shl64 kk 8 ^^^ nn)), 0xBB67AE8584CAA73B,
            0x3C6EF372FE94F82B, 0xA54FF53A5F1D36F1, 0x510E527FADE682D1, 0x9B05688C2B3E6C1F,
            0x1F83D9ABFB41BD6B, 0x5BE0CD19137E2179]
              (block_words ((memcpy (List.replicate 128 0) k kk).drop (mul32 0 128)))
              (FStar_UInt128_add_mod (FStar_UInt128_uint64_to_uint128 0)
                (FStar_UInt128_uint64_to_uint128 128)) false))
          (block_words (memcpy (List.replicate 128 0) (d.drop (ll - (if ll % 128 = 0 ∧ 0 < ll / 128 then (sub32 (ll / 128) 1, 128) else (ll / 128, ll % 128)).2)) (if ll % 128 = 0 ∧ 0 < ll / 128 then (sub32 (ll / 128) 1, 128) else (ll / 128, ll % 128)).2))
          (FStar_UInt128_add_mod (if kk = 0 then FStar_UInt128_uint64_to_uint128 0 else FStar_UInt128_uint64_to_uint128 128) (FStar_UInt128_uint64_to_uint128 ll))
          true).flatMap (bytes_from_nat 8)).take nn := by
  have hst := state_chain
    ((List.replicate (mul32 4 4) 0, (((((((((((((((((List.replicate (mul32 4 4) 0).set (mul32 2 4 + 0) (Hacl_Impl_Blake2_Constants_ivTable_B.getD 0 0)).set (mul32 2 4 + 1) (Hacl_Impl_Blake2_Constants_ivTable_B.getD 1 0)).set (mul32 2 4 + 2) (Hacl_Impl_Blake2_Constants_ivTable_B.getD 2 0)).set (mul32 2 4 + 3) (Hacl_Impl_Blake2_Constants_ivTable_B.getD 3 0)).set (mul32 3 4 + 0) (Hacl_Impl_Blake2_Constants_ivTable_B.getD 4 0)).set (mul32 3 4 + 1) (Hacl_Impl_Blake2_Constants_ivTable_B.getD 5 0)).set (mul32 3 4 + 2) (Hacl_Impl_Blake2_Constants_ivTable_B.getD 6 0)).set (mul32 3 4 + 3) (Hacl_Impl_Blake2_Constants_ivTable_B.getD 7 0)).set (mul32 0 4 + 0) ((Hacl_Impl_Blake2_Constants_ivTable_B.getD 0 0) ^^^ (0x01010000 ^^^ (shl64 kk 8 ^^^ nn)))).set (mul32 0 4 + 1) (Hacl_Impl_Blake2_Constants_ivTable_B.getD 1 0)).set (mul32 0 4 + 2) (Hacl_Impl_Blake2_Constants_ivTable_B.getD 2 0)).set (mul32 0 4 + 3) (Hacl_Impl_Blake2_Constants_ivTable_B.getD 3 0)).set (mul32 1 4 + 0) (Hacl_Impl_Blake2_Constants_ivTable_B.getD 4 0)).set (mul32 1 4 + 1) (Hacl_Impl_Blake2_Constants_ivTable_B.getD 5 0)).set (mul32 1 4 + 2) (Hacl_Impl_Blake2_Constants_ivTable_B.getD 6 0)).set (mul32 1 4 + 3) (Hacl_Impl_Blake2_Constants_ivTable_B.getD 7 0))), [])
    [0x6A09E667F3BCC908 ^^^ (0x01010000 ^^^ (shl64 kk 8 ^^^ nn)), 0xBB67AE8584CAA73B,
            0x3C6EF372FE94F82B, 0xA54FF53A5F1D36F1, 0x510E527FADE682D1, 0x9B05688C2B3E6C1F,
            0x1F83D9ABFB41BD6B, 0x5BE0CD19137E2179] rfl rfl (init_state nn kk) kk (if ll % 128 = 0 ∧ 0 < ll / 128 then (sub32 (ll / 128) 1, 128) else (ll / 128, ll % 128)).1
    (FStar_UInt128_add_mod (FStar_UInt128_uint64_to_uint128 0)
      (FStar_UInt128_uint64_to_uint128 128))
    (FStar_UInt128_add_mod (if kk = 0 then FStar_UInt128_uint64_to_uint128 0 else FStar_UInt128_uint64_to_uint128 128) (FStar_UInt128_uint64_to_uint128 ll))
    ((memcpy (List.replicate 128 0) k kk).drop (mul32 0 128))
    (memcpy (List.replicate 128 0) (d.drop (ll - (if ll % 128 = 0 ∧ 0 < ll / 128 then (sub32 (ll / 128) 1, 128) else (ll / 128, ll % 128)).2)) (if ll % 128 = 0 ∧ 0 < ll / 128 then (sub32 (ll / 128) 1, 128) else (ll / 128, ll % 128)).2)
    (fun i => FStar_UInt128_add_mod (if kk = 0 then FStar_UInt128_uint64_to_uint128 0 else FStar_UInt128_uint64_to_uint128 128)
      (FStar_UInt128_uint64_to_uint128 (mul32 (add32 i 1) 128)))
    (fun i => d.drop (mul32 i 128)) (add_mod_lt _ _) (add_mod_lt _ _)
    (fun i => add_mod_lt _ _)
  unfold Hacl_Blake2b_32_blake2b
  simp only [] at hst ⊢
  rw [hst]
  obtain ⟨c0, c1, c2, c3, c4, c5, c6, c7, hc⟩ := list8_exists _ (rfc7693_F_length _ _ _ _)
  rw [hc, digest_bytes]
  unfold memcpy
  rw [List.drop_of_length_le (le_of_eq hout), List.append_nil]

/-! ## BLAKE2b: the driver against RFC 7693 -/

theorem load64_le_take (l : List Nat) (j : Nat) (hj : j < 16) :
    load64_le (l.take 128) (8 * j) = load64_le l (8 * j) := by
  unfold load64_le subBuf
  rw [List.drop_take, List.take_take]
  have e : min 8 (128 - 8 * j) = 8 := by omega
  rw [e]

/-- The message words of a block depend on its first 128 bytes only. -/
theorem block_words_take (l : List Nat) : block_words (l.take 128) = block_words l := by
  unfold block_words
  apply List.map_congr_left
  intro j hj
  exact load64_le_take l j (List.mem_range.1 hj)

theorem block_words_congr (l1 l2 : List Nat) (h : l1.take 128 = l2.take 128) :
    block_words l1 = block_words l2 := by
  rw [← block_words_take l1, h, block_words_take]

theorem foldl_range_congr {α : Type} (f g : α → Nat → α) (n : Nat)
    (h : ∀ i, i < n → ∀ a, f a i = g a i) (a : α) :
    (List.range n).foldl f a = (List.range n).foldl g a := by
  induction n with
  | zero => rfl
  | succ m ih =>
    rw [List.range_succ, List.foldl_append, List.foldl_append, List.foldl_cons, List.foldl_cons,
      List.foldl_nil, List.foldl_nil, ih (fun i hi => h i (by omega)), h m (by omega)]

/-- The parameter block: the first word of the initial state of the code and of RFC 7693. -/
theorem init_hash_eq (nn kk : Nat) (hkk : kk ≤ 64) :
    [0x6A09E667F3BCC908 ^^^ (0x01010000 ^^^ (shl64 kk 8 ^^^ nn)), 0xBB67AE8584CAA73B,
      0x3C6EF372FE94F82B, 0xA54FF53A5F1D36F1, 0x510E527FADE682D1, 0x9B05688C2B3E6C1F,
      0x1F83D9ABFB41BD6B, 0x5BE0CD19137E2179]
      = rfc7693_IV.set 0 (rfc7693_IV.getD 0 0 ^^^ 0x01010000 ^^^ (kk <<< 8) ^^^ nn) := by
  have e : shl64 kk 8 = kk <<< 8 := by
    unfold shl64
    apply Nat.mod_eq_of_lt
    rw [Nat.shiftLeft_eq]
    omega
  rw [e, ← Nat.xor_assoc, ← Nat.xor_assoc]
  rfl

/-- The number of non-final message blocks and the length of the final chunk. -/
theorem split_facts (ll nb rem : Nat)
    (hnb : nb = if ll % 128 = 0 ∧ 0 < ll then ll / 128 - 1 else ll / 128)
    (hrem : rem = ll - nb * 128) :
    nb * 128 + rem = ll ∧ rem ≤ 128 ∧ (128 - ll % 128) % 128 = (if ll = 0 then 0 else 128 - rem) := by
  rw [hrem, hnb]
  split <;> split <;> omega

/-- The padded data of RFC 7693 when there is no key or the message is not empty. -/
theorem rfc7693_data_eq (d k : List Nat) (nb rem : Nat)
    (hnb : nb = if d.length % 128 = 0 ∧ 0 < d.length then d.length / 128 - 1
      else d.length / 128)
    (hrem : rem = d.length - nb * 128) (hcase : k.length = 0 ∨ 0 < d.length) :
    rfc7693_data d k = (if k.length = 0 then [] else k ++ List.replicate (128 - k.length) 0)
      ++ (d ++ List.replicate (128 - rem) 0) := by
  obtain ⟨h1, h2, h3⟩ := split_facts d.length nb rem hnb hrem
  unfold rfc7693_data
  by_cases hd : d.length = 0
  · have hk : k.length = 0 := by omega
    have hd' : d = [] := List.length_eq_zero.1 hd
    have hr : rem = 0 := by omega
    simp only [hk, hr, hd', List.length_nil, and_self, if_true, List.nil_append, Nat.sub_zero]
  · have hc : ¬ (k.length = 0 ∧ d.length = 0) := fun h => hd h.2
    rw [if_neg hd] at h3
    simp only [hc, if_false, h3]

/-- A non-final block of the padded message is a block of the message. -/
theorem padded_block (d pad : List Nat) (nb rem i : Nat) (hsum : nb * 128 + rem = d.length)
    (hi : i < nb) :
    ((d ++ pad).drop (128 * i)).take 128 = (d.drop (i * 128)).take 128 := by
  rw [List.drop_append_of_le_length (by omega), List.take_append_of_le_length, Nat.mul_comm]
  rw [List.length_drop]
  omega

/-- The loop over the non-final message blocks, with the counters and the block offsets as
natural numbers. -/
theorem msg_chain (d : List Nat) (nb rem prev : Nat) (hsum : nb * 128 + rem = d.length)
    (hll : d.length < 2 ^ 32) (hprev : prev ≤ 128) (T : Nat → Nat) (B : Nat → List Nat)
    (hT : ∀ i, i < nb → T i = prev + (i + 1) * 128)
    (hB : ∀ i, i < nb → (B i).take 128 = (d.drop (i * 128)).take 128) (h : List Nat) :
    (List.range nb).foldl (fun h i => rfc7693_F h (block_words (d.drop (mul32 i 128)))
        (FStar_UInt128_add_mod prev (FStar_UInt128_uint64_to_uint128 (mul32 (add32 i 1) 128)))
        false) h
      = (List.range nb).foldl (fun h i => rfc7693_F h (block_words (B i)) (T i) false) h := by
  apply foldl_range_congr
  intro i hi a
  have e1 : mul32 (add32 i 1) 128 = (i + 1) * 128 := by unfold mul32 add32; omega
  have e2 : mul32 i 128 = i * 128 := by unfold mul32; omega
  have e3 : FStar_UInt128_add_mod prev (FStar_UInt128_uint64_to_uint128 ((i + 1) * 128))
      = prev + (i + 1) * 128 := by
    unfold FStar_UInt128_add_mod FStar_UInt128_uint64_to_uint128
    apply Nat.mod_eq_of_lt
    have : (2 : Nat) ^ 32 + 128 < 2 ^ 128 := by decide
    omega
  rw [e1, e2, e3, hT i hi, block_words_congr _ _ (hB i hi)]

/-- The counter of the final block. -/
theorem last_totlen (prev ll : Nat) (hll : ll < 2 ^ 32) (hprev : prev ≤ 128) :
    FStar_UInt128_add_mod prev (FStar_UInt128_uint64_to_uint128 ll) = prev + ll := by
  unfold FStar_UInt128_add_mod FStar_UInt128_uint64_to_uint128
  apply Nat.mod_eq_of_lt
  have : (2 : Nat) ^ 32 + 128 < 2 ^ 128 := by decide
  omega

/-- Without a key `Hacl_Blake2b_32_blake2b` writes the BLAKE2b digest of RFC 7693. -/
theorem blake2b_unkeyed (nn : Nat) (output d : List Nat) (hout : output.length = nn)
    (hll : d.length < 2 ^ 32) :
    (Hacl_Blake2b_32_blake2b nn output d.length d 0 []).1 = rfc7693_blake2b nn d [] := by
  obtain ⟨nb, hnb⟩ : ∃ nb, nb = if d.length % 128 = 0 ∧ 0 < d.length then d.length / 128 - 1
      else d.length / 128 := ⟨_, rfl⟩
  obtain ⟨rem, hrem⟩ : ∃ rem, rem = d.length - nb * 128 := ⟨_, rfl⟩
  obtain ⟨hsum, hrem128, _⟩ := split_facts d.length nb rem hnb hrem
  have hdata := rfc7693_data_eq d [] nb rem hnb hrem (Or.inl rfl)
  rw [blake2b_eq_chain nn output d.length d 0 [] hout, blake2b_split d.length hll, ← hnb]
  dsimp only
  rw [← hrem]
  unfold rfc7693_blake2b
  simp only [hdata, List.length_nil, if_true, List.nil_append]
  have hlen : (d ++ List.replicate (128 - rem) 0).length / 128 - 1 = nb := by
    rw [List.length_append, List.length_replicate]
    omega
  have e0 : FStar_UInt128_uint64_to_uint128 0 = 0 := rfl
  have hlast : block_words (memcpy (List.replicate 128 0) (d.drop (d.length - rem)) rem)
      = block_words ((d ++ List.replicate (128 - rem) 0).drop (128 * nb)) := by
    rw [← block_words_take, last_block_eq d d.length nb rem rfl hsum hrem128,
      List.drop_append_of_le_length (by omega), Nat.mul_comm]
  rw [hlen, init_hash_eq nn 0 (by omega), e0, last_totlen 0 d.length hll (by omega),
    Nat.zero_add, hlast,
    msg_chain d nb rem 0 hsum hll (by omega) (fun i => (i + 1) * 128)
      (fun i => (d ++ List.replicate (128 - rem) 0).drop (128 * i))
      (fun i _ => (Nat.zero_add _).symm)
      (fun i hi => padded_block d _ nb rem i hsum hi)]

/-- With a key and a message that is not empty `Hacl_Blake2b_32_blake2b` writes the BLAKE2b
digest of RFC 7693. -/
theorem blake2b_keyed (nn : Nat) (output d k : List Nat) (hout : output.length = nn)
    (hll : d.length < 2 ^ 32) (hk1 : 0 < k.length) (hk : k.length ≤ 64) (hd : 0 < d.length) :
    (Hacl_Blake2b_32_blake2b nn output d.length d k.length k).1 = rfc7693_blake2b nn d k := by
  obtain ⟨nb, hnb⟩ : ∃ nb, nb = if d.length % 128 = 0 ∧ 0 < d.length then d.length / 128 - 1
      else d.length / 128 := ⟨_, rfl⟩
  obtain ⟨rem, hrem⟩ : ∃ rem, rem = d.length - nb * 128 := ⟨_, rfl⟩
  obtain ⟨hsum, hrem128, _⟩ := split_facts d.length nb rem hnb hrem
  have hdata := rfc7693_data_eq d k nb rem hnb hrem (Or.inr hd)
  have hk0 : ¬ (k.length = 0) := by omega
  rw [blake2b_eq_chain nn output d.length d k.length k hout, blake2b_split d.length hll, ← hnb]
  dsimp only
  rw [← hrem]
  unfold rfc7693_blake2b
  simp only [hdata, hk0, if_false]
  have hkb : (k ++ List.replicate (128 - k.length) 0).length = 128 := by
    rw [List.length_append, List.length_replicate]
    omega
  have hlen : ((k ++ List.replicate (128 - k.length) 0)
      ++ (d ++ List.replicate (128 - rem) 0)).length / 128 - 1 = nb + 1 := by
    rw [List.length_append, hkb, List.length_append, List.length_replicate]
    omega
  have hdrop : ∀ i, ((k ++ List.replicate (128 - k.length) 0)
      ++ (d ++ List.replicate (128 - rem) 0)).drop (128 * (i + 1))
      = (d ++ List.replicate (128 - rem) 0).drop (128 * i) := by
    intro i
    have e : 128 * (i + 1) = (k ++ List.replicate (128 - k.length) 0).length + 128 * i := by
      rw [hkb]
      omega
    rw [e, List.drop_append]
  have e128 : FStar_UInt128_uint64_to_uint128 128 = 128 := rfl
  have ekey : FStar_UInt128_add_mod (FStar_UInt128_uint64_to_uint128 0) 128 = 128 := by decide
  have hkey : block_words ((memcpy (List.replicate 128 0) k k.length).drop (mul32 0 128))
      = block_words (((k ++ List.replicate (128 - k.length) 0)
          ++ (d ++ List.replicate (128 - rem) 0)).drop (128 * 0)) := by
    apply block_words_congr
    rw [key_block_eq k k.length rfl (by omega), Nat.mul_zero, List.drop_zero,
      List.take_append_of_le_length (by omega), List.take_of_length_le (by omega)]
  have hlast : block_words (memcpy (List.replicate 128 0) (d.drop (d.length - rem)) rem)
      = block_words (((k ++ List.replicate (128 - k.length) 0)
          ++ (d ++ List.replicate (128 - rem) 0)).drop (128 * (nb + 1))) := by
    rw [hdrop, ← block_words_take, last_block_eq d d.length nb rem rfl hsum hrem128,
      List.drop_append_of_le_length (by omega), Nat.mul_comm]
  rw [hlen, List.range_succ_eq_map, List.foldl_cons, List.foldl_map,
    init_hash_eq nn k.length hk, e128, ekey, last_totlen 128 d.length hll (by omega),
    Nat.add_comm 128 d.length, hlast, hkey,
    msg_chain d nb rem 128 hsum hll (by omega) (fun i => (Nat.succ i + 1) * 128)
      (fun i => ((k ++ List.replicate (128 - k.length) 0)
          ++ (d ++ List.replicate (128 - rem) 0)).drop (128 * Nat.succ i))
      (fun i _ => by
        beta_reduce
        omega)
      (fun i hi => by
        beta_reduce
        rw [Nat.succ_eq_add_one, hdrop]
        exact padded_block d _ nb rem i hsum hi)]

/-- Whenever there is no key or the message is not empty, `Hacl_Blake2b_32_blake2b` writes
the BLAKE2b digest of RFC 7693. -/
theorem blake2b_eq_rfc7693 (nn ll kk : Nat) (output d k : List Nat) (hout : output.length = nn)
    (hkk : kk ≤ 64) (hk : k.length = kk) (hd : d.length = ll) (hll : ll < 2 ^ 32)
    (hcase : kk = 0 ∨ 0 < ll) :
    (Hacl_Blake2b_32_blake2b nn output ll d kk k).1 = rfc7693_blake2b nn d k := by
  subst hk hd
  by_cases hk0 : k.length = 0
  · have hk' : k = [] := List.length_eq_zero.1 hk0
    subst hk'
    exact blake2b_unkeyed nn output d hout hll
  · have hd0 : 0 < d.length := by omega
    exact blake2b_keyed nn output d k hout hll (by omega) hkk hd0

/-- C21: for every digest length `nn`, every key of `kk ≤ 64` bytes and every message of
`ll < 2^32` bytes, `Hacl_Blake2b_32_blake2b` writes into an `nn`-byte `output` the digest that
RFC 7693 BLAKE2b defines, provided there is no key or the message is not empty. For a key with
the empty message it does not: with the 64-byte key `key_64` and `nn = 64` RFC 7693 gives
`keyed_empty_digest`, and the code, which compresses the key block as a non-final block and
then a final block of zeros, writes the different value `keyed_empty_output`. -/
theorem C21_blake2b_rfc7693 (nn ll kk : Nat) (output d k : List Nat)
    (hout : output.length = nn) (hkk : kk ≤ 64) (hk : k.length = kk) (hd : d.length = ll)
    (hll : ll < 2 ^ 32) :
    (kk = 0 ∨ 0 < ll →
        (Hacl_Blake2b_32_blake2b nn output ll d kk k).1 = rfc7693_blake2b nn d k) ∧
      rfc7693_blake2b 64 [] key_64 = keyed_empty_digest ∧
      (Hacl_Blake2b_32_blake2b 64 stale_out 0 [] 64 key_64).1 = keyed_empty_output ∧
      (Hacl_Blake2b_32_blake2b 64 stale_out 0 [] 64 key_64).1 ≠ rfc7693_blake2b 64 [] key_64 :=
  ⟨blake2b_eq_rfc7693 nn ll kk output d k hout hkk hk hd hll, keyed_empty_diverges⟩

theorem C21_blake2b_rfc7693_witness :
    stale_out.length = 64 ∧ 64 ≤ 64 ∧ key_64.length = 64 ∧ msg_abc.length = 3 ∧ 3 < 2 ^ 32 ∧
      ((64 = 0 ∨ 0 < 3 →
        (Hacl_Blake2b_32_blake2b 64 stale_out 3 msg_abc 64 key_64).1
          = rfc7693_blake2b 64 msg_abc key_64) ∧
      rfc7693_blake2b 64 [] key_64 = keyed_empty_digest ∧
      (Hacl_Blake2b_32_blake2b 64 stale_out 0 [] 64 key_64).1 = keyed_empty_output ∧
      (Hacl_Blake2b_32_blake2b 64 stale_out 0 [] 64 key_64).1 ≠ rfc7693_blake2b 64 [] key_64) :=
  ⟨by decide, by decide, by decide, by decide, by decide,
    C21_blake2b_rfc7693 64 3 64 stale_out msg_abc key_64 (by decide) (by decide) (by decide)
      (by decide) (by decide)⟩

/-! ## `add_mod_n`: which of the sum and the difference is written -/

/-- The body of `add_mod_n` in terms of its two carry chains: with `(c0, s)` the carry and
result of the addition loops and `(c1, t)` the borrow and result of the subtraction of `n`
from `s`, the function writes `mask_select (c0 − c1) s t`. -/
theorem add_mod_n_unfold (n : List Nat) (a b : Src) (res : List Nat) :
    add_mod_n n a b res
      = mask_select
          (sub64 (forLoop 0 64 (add_step a b) (0, res)).1
            (forLoop 0 64 (sub_step (forLoop 0 64 (add_step a b) (0, res)).2 n)
              (0, List.replicate 64 0)).1)
          (forLoop 0 64 (add_step a b) (0, res)).2
          (forLoop 0 64 (sub_step (forLoop 0 64 (add_step a b) (0, res)).2 n)
            (0, List.replicate 64 0)).2 := by
  unfold add_mod_n
  simp only [add_loops_eq, sub_loops_eq]

/-- The carry `c0` and the borrow `c1` of `add_mod_n` for `a, b < n`: never `c0 = 1` with
`c1 = 0`. -/
theorem add_mod_n_carries (n : List Nat) (a b : Src) (res : List Nat)
    (hn : bn_wf 64 n) (ha : bn_wf 64 (a.orig res)) (hb : bn_wf 64 (b.orig res))
    (hres : res.length = 64) (han : bn_v (a.orig res) < bn_v n)
    (hbn : bn_v (b.orig res) < bn_v n) :
    ((forLoop 0 64 (add_step a b) (0, res)).1 = 0 ∨
        (forLoop 0 64 (add_step a b) (0, res)).1 = 1) ∧
      ((forLoop 0 64 (sub_step (forLoop 0 64 (add_step a b) (0, res)).2 n)
          (0, List.replicate 64 0)).1 = 0 ∨
        (forLoop 0 64 (sub_step (forLoop 0 64 (add_step a b) (0, res)).2 n)
          (0, List.replicate 64 0)).1 = 1) ∧
      ¬ ((forLoop 0 64 (add_step a b) (0, res)).1 = 1 ∧
        (forLoop 0 64 (sub_step (forLoop 0 64 (add_step a b) (0, res)).2 n)
          (0, List.replicate 64 0)).1 = 0) := by
  obtain ⟨h1, h2, h3⟩ := add_loop_spec 64 a b res ha hb hres
  obtain ⟨g1, g2, g3⟩ := sub_loop_spec 64 _ n (List.replicate 64 0) h1 hn (by simp)
  have hnlt := bn_v_lt hn
  have htlt := bn_v_lt g1
  generalize (forLoop 0 64 (sub_step (forLoop 0 64 (add_step a b) (0, res)).2 n)
    (0, List.replicate 64 0)).1 = c1 at *
  generalize (forLoop 0 64 (sub_step (forLoop 0 64 (add_step a b) (0, res)).2 n)
    (0, List.replicate 64 0)).2 = t at *
  generalize (forLoop 0 64 (add_step a b) (0, res)).1 = c0 at *
  generalize (forLoop 0 64 (add_step a b) (0, res)).2 = s at *
  generalize (2:Nat) ^ (64 * 64) = R at *
  refine ⟨by omega, by omega, ?_⟩
  rintro ⟨rfl, rfl⟩
  omega

/-- C31, as amended: in `add_mod_n`, for `a, b < n`, with `(c0, s)` the carry and result of
`a + b` and `(c1, t)` the borrow and result of `s − n`, the value written to `res` is the
difference `t` when `c0 − c1 = 0` and the sum `s` otherwise, that is when `c0 − c1` is all
ones. -/
theorem C31_add_mod_n_select (n : List Nat) (a b : Src) (res : List Nat)
    (hn : bn_wf 64 n) (ha : bn_wf 64 (a.orig res)) (hb : bn_wf 64 (b.orig res))
    (hres : res.length = 64) (han : bn_v (a.orig res) < bn_v n)
    (hbn : bn_v (b.orig res) < bn_v n) :
    add_mod_n n a b res
      = if sub64 (forLoop 0 64 (add_step a b) (0, res)).1
          (forLoop 0 64 (sub_step (forLoop 0 64 (add_step a b) (0, res)).2 n)
            (0, List.replicate 64 0)).1 = 0
        then (forLoop 0 64 (sub_step (forLoop 0 64 (add_step a b) (0, res)).2 n)
            (0, List.replicate 64 0)).2
        else (forLoop 0 64 (add_step a b) (0, res)).2 := by
  obtain ⟨h1, h2, h3⟩ := add_loop_spec 64 a b res ha hb hres
  obtain ⟨g1, g2, g3⟩ := sub_loop_spec 64 _ n (List.replicate 64 0) h1 hn (by simp)
  obtain ⟨k0, k1, k2⟩ := add_mod_n_carries n a b res hn ha hb hres han hbn
  rw [add_mod_n_unfold]
  generalize (forLoop 0 64 (sub_step (forLoop 0 64 (add_step a b) (0, res)).2 n)
    (0, List.replicate 64 0)).1 = c1 at *
  generalize (forLoop 0 64 (sub_step (forLoop 0 64 (add_step a b) (0, res)).2 n)
    (0, List.replicate 64 0)).2 = t at *
  generalize (forLoop 0 64 (add_step a b) (0, res)).1 = c0 at *
  generalize (forLoop 0 64 (add_step a b) (0, res)).2 = s at *
  rcases k0 with rfl | rfl <;> rcases k1 with rfl | rfl
  · rw [sub64_zero_zero, if_pos rfl, mask_select_zero _ _ h1.1 g1]
  · rw [sub64_zero_one, if_neg (by decide), mask_select_ones _ _ h1]
  · exact absurd ⟨rfl, rfl⟩ k2
  · rw [sub64_one_one, if_pos rfl, mask_select_zero _ _ h1.1 g1]

set_option maxRecDepth 8192 in
/-- The sum `7 + 7` modulo `65537`, into a buffer of its own, satisfies the hypotheses of
C31. -/
theorem C31_add_mod_n_select_witness :
    (bn_wf 64 inv_p ∧ bn_wf 64 ((Src.buf S3_a).orig stale_res) ∧ bn_wf 64 ((Src.buf S3_a).orig stale_res) ∧
      stale_res.length = 64 ∧ bn_v ((Src.buf S3_a).orig stale_res) < bn_v inv_p ∧
      bn_v ((Src.buf S3_a).orig stale_res) < bn_v inv_p) ∧
    add_mod_n inv_p (Src.buf S3_a) (Src.buf S3_a) stale_res
      = if sub64 (forLoop 0 64 (add_step (Src.buf S3_a) (Src.buf S3_a)) (0, stale_res)).1
          (forLoop 0 64 (sub_step (forLoop 0 64 (add_step (Src.buf S3_a) (Src.buf S3_a)) (0, stale_res)).2 inv_p)
            (0, List.replicate 64 0)).1 = 0
        then (forLoop 0 64 (sub_step (forLoop 0 64 (add_step (Src.buf S3_a) (Src.buf S3_a)) (0, stale_res)).2 inv_p)
            (0, List.replicate 64 0)).2
        else (forLoop 0 64 (add_step (Src.buf S3_a) (Src.buf S3_a)) (0, stale_res)).2 :=
  ⟨by decide, C31_add_mod_n_select inv_p (Src.buf S3_a) (Src.buf S3_a) stale_res (by decide) (by decide)
    (by decide) (by decide) (by decide) (by decide)⟩

set_option maxRecDepth 8192 in
/-- C31 as stated fails: for `7 + 7` modulo `65537` the sum has no carry and the subtraction
of `n` borrows, so `c0 − c1` is not zero, and `add_mod_n` writes the sum `s`, not the
difference `t`; selecting `s` when `c0 − c1 = 0` and `t` otherwise gives another value. -/
theorem C31_counterexample :
    ¬ (add_mod_n inv_p (Src.buf S3_a) (Src.buf S3_a) stale_res
      = if sub64 (forLoop 0 64 (add_step (Src.buf S3_a) (Src.buf S3_a)) (0, stale_res)).1
          (forLoop 0 64 (sub_step (forLoop 0 64 (add_step (Src.buf S3_a) (Src.buf S3_a)) (0, stale_res)).2 inv_p)
            (0, List.replicate 64 0)).1 = 0
        then (forLoop 0 64 (add_step (Src.buf S3_a) (Src.buf S3_a)) (0, stale_res)).2
        else (forLoop 0 64 (sub_step (forLoop 0 64 (add_step (Src.buf S3_a) (Src.buf S3_a)) (0, stale_res)).2 inv_p)
            (0, List.replicate 64 0)).2) := by
  decide

/-! ## The bit count `nBits` passed to `precomp` -/

/-- The top index is an index of the bignum: below `len`, whatever the limbs are. -/
theorem top_index_lt (len : Nat) (b : List Nat) (hlen : 0 < len) :
    Hacl_Bignum_Lib_bn_get_top_index_u64 len b < len := by
  unfold Hacl_Bignum_Lib_bn_get_top_index_u64
  have h : ∀ k, k ≤ len →
      forLoop 0 k (fun i priv => if b.getD i 0 = 0 then priv else i) 0 < len := by
    intro k hk
    induction k with
    | zero => rw [forLoop_empty _ _ _ _ (le_refl _)]; exact hlen
    | succ m ih =>
      rw [forLoop_succ _ _ _ _ (Nat.zero_le _)]
      split
      · exact ih (by omega)
      · omega
  exact h len (le_refl _)

/-- The bit count is 64 times the top index: the 32-bit product does not wrap. -/
theorem modulus_nBits_eq (n : List Nat) :
    modulus_nBits n = 64 * Hacl_Bignum_Lib_bn_get_top_index_u64 64 n := by
  have h := top_index_lt 64 n (by decide)
  unfold modulus_nBits mul32
  omega

/-- C32, as amended: the bit count `nBits` that `Hacl_Bignum4096_mod`, `mod_exp_vartime`,
`mod_exp_consttime`, `mod_inv_prime_vartime` and `new_precompr2` compute and pass to the
`R^2` precomputation equals `64 * top_index(n)`, with no term for the bits of the top limb:
each of the five functions is the function that calls `precomp` with that value. -/
theorem C32_nBits_top_index (n a b res : List Nat) (bBits : Nat) (calloc_ok : Bool) :
    modulus_nBits n = 64 * Hacl_Bignum_Lib_bn_get_top_index_u64 64 n ∧
    Hacl_Bignum4096_mod n a res
      = (decide (mod_check n a = ones64),
         mask_output (mod_check n a)
          (Hacl_Bignum4096_mod_precompr2 n a
            (precomp (64 * Hacl_Bignum_Lib_bn_get_top_index_u64 64 n) n
              (List.replicate 64 0)) res)) ∧
    Hacl_Bignum4096_mod_exp_vartime n a bBits b res
      = (decide (exp_check n a bBits b = ones64),
         mask_output (exp_check n a bBits b)
          (if exp_check n a bBits b = ones64 then
            Hacl_Bignum4096_mod_exp_vartime_precompr2 n a bBits b
              (precomp (64 * Hacl_Bignum_Lib_bn_get_top_index_u64 64 n) n
              (List.replicate 64 0)) res
          else res)) ∧
    Hacl_Bignum4096_mod_exp_consttime n a bBits b res
      = (decide (exp_check n a bBits b = ones64),
         mask_output (exp_check n a bBits b)
          (if exp_check n a bBits b = ones64 then
            Hacl_Bignum4096_mod_exp_consttime_precompr2 n a bBits b
              (precomp (64 * Hacl_Bignum_Lib_bn_get_top_index_u64 64 n) n
              (List.replicate 64 0)) res
          else res)) ∧
    Hacl_Bignum4096_mod_inv_prime_vartime n a res
      = (decide (inv_check n a = ones64),
         mask_output (inv_check n a)
          (if inv_check n a = ones64 then
            Hacl_Bignum4096_mod_exp_vartime_precompr2 n a 4096 (inv_n2 n)
              (precomp (64 * Hacl_Bignum_Lib_bn_get_top_index_u64 64 n) n
              (List.replicate 64 0)) res
           else res)) ∧
    Hacl_Bignum4096_new_precompr2 calloc_ok n
      = (if ¬ (mont_check n = ones64) then (none, 0)
        else if calloc_ok = true then
          (some (precomp (64 * Hacl_Bignum_Lib_bn_get_top_index_u64 64 n) n
              (List.replicate 64 0)), 1)
        else (none, 1)) := by
  have e := modulus_nBits_eq n
  refine ⟨e, ?_, ?_, ?_, ?_, ?_⟩
  · rw [← e]; exact mod_unfold n a res
  · rw [← e]; exact mod_exp_vartime_unfold n a bBits b res
  · rw [← e]; exact mod_exp_consttime_unfold n a bBits b res
  · rw [← e]; exact mod_inv_unfold n a res
  · rw [← e]; exact new_precompr2_unfold calloc_ok n

/-- C32 as stated fails: for the modulus `2^32 + 15` the top index is 0 and the most
significant set bit of the top limb is bit 32, so `64 * top_index(n) + fls(n[top_index(n)])`
is 32 (33 if bit positions are counted from 1), while the code computes `nBits = 0`. -/
theorem C32_counterexample :
    ¬ (modulus_nBits S3_n
        = 64 * Hacl_Bignum_Lib_bn_get_top_index_u64 64 S3_n
          + fls (S3_n.getD (Hacl_Bignum_Lib_bn_get_top_index_u64 64 S3_n) 0)) ∧
      ¬ (modulus_nBits S3_n
        = 64 * Hacl_Bignum_Lib_bn_get_top_index_u64 64 S3_n
          + (fls (S3_n.getD (Hacl_Bignum_Lib_bn_get_top_index_u64 64 S3_n) 0) + 1)) := by
  decide

/-! ## The selection masks and the validity masks -/

theorem lt_mask_step_mask (x y acc : Nat) (h : is_mask acc) : is_mask (lt_mask_step x y acc) := by
  rw [lt_mask_step_eq x y acc (is_mask_lt h)]
  split
  · exact h
  · split
    · exact Or.inr rfl
    · exact Or.inl rfl

/-- A comparison loop leaves a mask, whatever the limbs are. -/
theorem lt_loop_mask (len : Nat) (a b : List Nat) :
    is_mask (forLoop 0 len (fun i acc => lt_mask_step (a.getD i 0) (b.getD i 0) acc) 0) := by
  apply forLoop_inv (fun _ acc => is_mask acc) 0 len _ _ (Nat.zero_le _) (Or.inl rfl)
  intro i t _ _ ht
  exact lt_mask_step_mask _ _ _ ht

theorem eq_mask_mask (x y : Nat) : is_mask (FStar_UInt64_eq_mask x y) := by
  unfold FStar_UInt64_eq_mask
  split
  · exact Or.inr rfl
  · exact Or.inl rfl

/-- A zero-test loop leaves a mask, whatever the limbs are. -/
theorem eq_loop_mask (len : Nat) (b z : List Nat) :
    is_mask (forLoop 0 len (fun i mask =>
      let uu____0 := FStar_UInt64_eq_mask (b.getD i 0) (z.getD i 0)
      uu____0 &&& mask) 0xFFFFFFFFFFFFFFFF) := by
  apply forLoop_inv (fun _ acc => is_mask acc) 0 len _ _ (Nat.zero_le _) (Or.inr rfl)
  intro i t _ _ ht
  exact is_mask_and (eq_mask_mask _ _) ht

theorem bit0_mask (x : Nat) : is_mask (sub64 0 (x &&& 1)) := by
  rw [Nat.and_one_is_mod]
  rcases Nat.mod_two_eq_zero_or_one x with h | h <;> rw [h]
  · exact Or.inl (by decide)
  · exact Or.inr (by decide)

/-- `mont_check` returns a mask for every input. -/
theorem mont_check_is_mask (n : List Nat) : is_mask (mont_check n) := by
  unfold mont_check
  exact is_mask_and (bit0_mask _) (lt_loop_mask 64 _ n)

/-- `exp_check` returns a mask for every input. -/
theorem exp_check_is_mask (n a : List Nat) (bBits : Nat) (b : List Nat) :
    is_mask (exp_check n a bBits b) := by
  unfold exp_check
  refine is_mask_and (mont_check_is_mask n) (is_mask_and (is_mask_and
    (is_mask_not (eq_loop_mask _ b _)) ?_) (lt_loop_mask 64 a n))
  dsimp only
  split
  · exact lt_loop_mask _ b _
  · exact Or.inr rfl

/-- The validity mask of `Hacl_Bignum4096_mod` is a mask for every input. -/
theorem mod_check_is_mask (n a : List Nat) : is_mask (mod_check n a) := by
  unfold mod_check
  exact is_mask_and (mont_check_is_mask n) (lt_loop_mask 128 a _)

/-- The validity mask of `Hacl_Bignum4096_mod_inv_prime_vartime` is a mask for every input. -/
theorem inv_check_is_mask (n a : List Nat) : is_mask (inv_check n a) := by
  unfold inv_check
  exact is_mask_and (is_mask_and (mont_check_is_mask n) (is_mask_not (eq_loop_mask 64 a _)))
    (lt_loop_mask 64 a n)

theorem add_mod_n_c0c1_eq (n : List Nat) (a b : Src) (res : List Nat) :
    add_mod_n_c0c1 n a b res
      = ((forLoop 0 64 (add_step a b) (0, res)).1,
         (forLoop 0 64 (sub_step (forLoop 0 64 (add_step a b) (0, res)).2 n)
            (0, List.replicate 64 0)).1) := by
  unfold add_mod_n_c0c1
  simp only [add_loops_eq, sub_loops_eq]

theorem reduction_c0c1_eq (n : List Nat) (nInv : Nat) (c res : List Nat) :
    reduction_c0c1 n nInv c res
      = ((mont_reduction_loop n nInv c).1,
         (forLoop 0 64 (sub_step (memcpy res ((mont_reduction_loop n nInv c).2.drop 64) 64) n)
            (0, List.replicate 64 0)).1) := by
  unfold reduction_c0c1
  simp only [sub_loops_eq]

theorem mod_precompr2_c0c1_eq (n a : List Nat) :
    mod_precompr2_c0c1 n a
      = reduction_c0c1 n (Hacl_Bignum_ModInvLimb_mod_inv_uint64 (n.getD 0 0))
          (memcpy (List.replicate 128 0) a 128) (List.replicate 64 0) := rfl

/-- The selection mask of `add_mod_n` is `c00 − c1`. -/
theorem add_mod_n_mask (n : List Nat) (a b : Src) (res : List Nat) :
    add_mod_n n a b res
      = mask_select (sub64 (add_mod_n_c0c1 n a b res).1 (add_mod_n_c0c1 n a b res).2)
          (forLoop 0 64 (add_step a b) (0, res)).2
          (forLoop 0 64 (sub_step (forLoop 0 64 (add_step a b) (0, res)).2 n)
            (0, List.replicate 64 0)).2 := by
  rw [add_mod_n_c0c1_eq, add_mod_n_unfold]

/-- The selection mask of `reduction` is `c01 − c10`. -/
theorem reduction_mask (n : List Nat) (nInv : Nat) (c res : List Nat) :
    reduction n nInv c res
      = mask_select (sub64 (reduction_c0c1 n nInv c res).1 (reduction_c0c1 n nInv c res).2)
          (memcpy res ((mont_reduction_loop n nInv c).2.drop 64) 64)
          (forLoop 0 64 (sub_step (memcpy res ((mont_reduction_loop n nInv c).2.drop 64) 64) n)
            (0, List.replicate 64 0)).2 := by
  rw [reduction_c0c1_eq]
  unfold reduction
  simp only [sub_loops_eq]

/-- The mask `c0 − c1` of a conditional subtraction: for `r + c0 · 2^4096 < 2n` it is zero or
all ones, and never `c0 = 1` with `c1 = 0`. -/
theorem carry_borrow_mask (n r : List Nat) (c0 : Nat) (hn : bn_wf 64 n) (hr : bn_wf 64 r)
    (hc0 : c0 ≤ 1) (hlt : bn_v r + c0 * 2 ^ (64 * 64) < 2 * bn_v n) :
    is_mask (sub64 c0 (forLoop 0 64 (sub_step r n) (0, List.replicate 64 0)).1) ∧
      ¬ (c0 = 1 ∧ (forLoop 0 64 (sub_step r n) (0, List.replicate 64 0)).1 = 0) := by
  obtain ⟨h1, h2, h3⟩ := sub_loop_spec 64 r n (List.replicate 64 0) hr hn (by simp)
  have hnlt := bn_v_lt hn
  have htlt := bn_v_lt h1
  generalize (forLoop 0 64 (sub_step r n) (0, List.replicate 64 0)).1 = c1 at *
  generalize (forLoop 0 64 (sub_step r n) (0, List.replicate 64 0)).2 = tmp at *
  generalize (2:Nat) ^ (64 * 64) = R at *
  have hc0' : c0 = 0 ∨ c0 = 1 := by omega
  have hc1' : c1 = 0 ∨ c1 = 1 := by omega
  rcases hc0' with rfl | rfl <;> rcases hc1' with rfl | rfl
  · exact ⟨Or.inl sub64_zero_zero, by omega⟩
  · exact ⟨Or.inr sub64_zero_one, by omega⟩
  · exfalso; omega
  · exact ⟨Or.inl sub64_one_one, by omega⟩

/-- The selection mask of `reduction` for an input below `n · 2^4096`. -/
theorem reduction_c0c1_mask (n : List Nat) (nInv : Nat) (c res : List Nat)
    (hn : bn_wf 64 n) (hc : bn_wf 128 c) (hres : res.length = 64)
    (hinv : (nInv * n.getD 0 0 + 1) % 2 ^ 64 = 0)
    (hlt : bn_v c < bn_v n * 2 ^ (64 * 64)) :
    is_mask (sub64 (reduction_c0c1 n nInv c res).1 (reduction_c0c1 n nInv c res).2) ∧
      ¬ ((reduction_c0c1 n nInv c res).1 = 1 ∧ (reduction_c0c1 n nInv c res).2 = 0) := by
  rw [reduction_c0c1_eq]
  obtain ⟨a1, a2, _⟩ := mont_reduction_loop_spec n nInv c hn hc hinv
  have hhi := reduction_high_lt n nInv c hn hc hinv hlt
  have hd : bn_wf 64 ((mont_reduction_loop n nInv c).2.drop 64) := bn_wf_drop 64 a1
  rw [memcpy_full res _ 64 hres hd.1]
  dsimp only
  have hlt2 : bn_v ((mont_reduction_loop n nInv c).2.drop 64)
      + (mont_reduction_loop n nInv c).1 * 2 ^ (64 * 64) < 2 * bn_v n := by
    rw [Nat.add_comm]
    exact hhi
  exact carry_borrow_mask n ((mont_reduction_loop n nInv c).2.drop 64)
    (mont_reduction_loop n nInv c).1 hn hd a2 hlt2

/-- The selection mask of `add_mod_n` for `a, b < n`. -/
theorem add_mod_n_c0c1_mask (n : List Nat) (a b : Src) (res : List Nat)
    (hn : bn_wf 64 n) (ha : bn_wf 64 (a.orig res)) (hb : bn_wf 64 (b.orig res))
    (hres : res.length = 64) (han : bn_v (a.orig res) < bn_v n)
    (hbn : bn_v (b.orig res) < bn_v n) :
    is_mask (sub64 (add_mod_n_c0c1 n a b res).1 (add_mod_n_c0c1 n a b res).2) ∧
      ¬ ((add_mod_n_c0c1 n a b res).1 = 1 ∧ (add_mod_n_c0c1 n a b res).2 = 0) := by
  rw [add_mod_n_c0c1_eq]
  dsimp only
  obtain ⟨h1, h2, h3⟩ := add_loop_spec 64 a b res ha hb hres
  have hlt : bn_v (forLoop 0 64 (add_step a b) (0, res)).2
      + (forLoop 0 64 (add_step a b) (0, res)).1 * 2 ^ (64 * 64) < 2 * bn_v n := by
    rw [h3]
    omega
  exact carry_borrow_mask n (forLoop 0 64 (add_step a b) (0, res)).2
    (forLoop 0 64 (add_step a b) (0, res)).1 hn h1 h2 hlt

/-- C33: every selection mask used for a branchless choice is 0 or `2^64 − 1`: in `add_mod_n`
(for `a, b < n`), in `reduction` and in `Hacl_Bignum4096_mod_precompr2`, in its inlined
reduction and in the one it calls (for odd `n` and an input below `n · 2^4096`), the mask
`c0 − c1` built from the carry `c0` and the borrow `c1` is never 1, the case `c0 = 1`,
`c1 = 0` being unreachable; and the validity masks of `mont_check`, `exp_check`,
`Hacl_Bignum4096_mod` and `Hacl_Bignum4096_mod_inv_prime_vartime` are 0 or `2^64 − 1` for
every input. -/
theorem C33_masks (n : List Nat) (a b : Src) (res : List Nat) (mu : Nat) (c x r2 : List Nat)
    (hn : bn_wf 64 n) (hodd : bn_v n % 2 = 1)
    (ha : bn_wf 64 (a.orig res)) (hb : bn_wf 64 (b.orig res)) (hres : res.length = 64)
    (han : bn_v (a.orig res) < bn_v n) (hbn : bn_v (b.orig res) < bn_v n)
    (hmu : (mu * n.getD 0 0 + 1) % 2 ^ 64 = 0) (hc : bn_wf 128 c)
    (hlt : bn_v c < bn_v n * 2 ^ 4096)
    (hx : bn_wf 128 x) (hxlt : bn_v x < bn_v n * 2 ^ 4096) (hr2 : bn_wf 64 r2) :
    (is_mask (sub64 (add_mod_n_c0c1 n a b res).1 (add_mod_n_c0c1 n a b res).2) ∧
        ¬ ((add_mod_n_c0c1 n a b res).1 = 1 ∧ (add_mod_n_c0c1 n a b res).2 = 0)) ∧
      (is_mask (sub64 (reduction_c0c1 n mu c res).1 (reduction_c0c1 n mu c res).2) ∧
        ¬ ((reduction_c0c1 n mu c res).1 = 1 ∧ (reduction_c0c1 n mu c res).2 = 0)) ∧
      (is_mask (sub64 (mod_precompr2_c0c1 n x).1 (mod_precompr2_c0c1 n x).2) ∧
        ¬ ((mod_precompr2_c0c1 n x).1 = 1 ∧ (mod_precompr2_c0c1 n x).2 = 0)) ∧
      (is_mask (sub64 (reduction_c0c1 n (Hacl_Bignum_ModInvLimb_mod_inv_uint64 (n.getD 0 0))
          (Hacl_Bignum4096_mul (reduction n (Hacl_Bignum_ModInvLimb_mod_inv_uint64 (n.getD 0 0))
            (memcpy (List.replicate 128 0) x 128) (List.replicate 64 0)) r2) res).1 (reduction_c0c1 n (Hacl_Bignum_ModInvLimb_mod_inv_uint64 (n.getD 0 0))
          (Hacl_Bignum4096_mul (reduction n (Hacl_Bignum_ModInvLimb_mod_inv_uint64 (n.getD 0 0))
            (memcpy (List.replicate 128 0) x 128) (List.replicate 64 0)) r2) res).2) ∧
        ¬ ((reduction_c0c1 n (Hacl_Bignum_ModInvLimb_mod_inv_uint64 (n.getD 0 0))
          (Hacl_Bignum4096_mul (reduction n (Hacl_Bignum_ModInvLimb_mod_inv_uint64 (n.getD 0 0))
            (memcpy (List.replicate 128 0) x 128) (List.replicate 64 0)) r2) res).1 = 1 ∧ (reduction_c0c1 n (Hacl_Bignum_ModInvLimb_mod_inv_uint64 (n.getD 0 0))
          (Hacl_Bignum4096_mul (reduction n (Hacl_Bignum_ModInvLimb_mod_inv_uint64 (n.getD 0 0))
            (memcpy (List.replicate 128 0) x 128) (List.replicate 64 0)) r2) res).2 = 0)) ∧
      ∀ (m y e : List Nat) (bBits : Nat),
        is_mask (mont_check m) ∧ is_mask (exp_check m y bBits e) ∧ is_mask (mod_check m y) ∧
          is_mask (inv_check m y) := by
  have e4096 : (4096 : Nat) = 64 * 64 := rfl
  rw [e4096] at hlt hxlt
  have hn0 : n.getD 0 0 % 2 = 1 := by rw [← bn_v_mod_two]; exact hodd
  have hinv := mod_inv_uint64_spec (n.getD 0 0) hn0
  have hmem : memcpy (List.replicate 128 0) x 128 = x :=
    memcpy_full _ x 128 (List.length_replicate _ _) hx.1
  obtain ⟨x1, x2, _⟩ := reduction_spec n (Hacl_Bignum_ModInvLimb_mod_inv_uint64 (n.getD 0 0)) x (List.replicate 64 0) hn hx
    (List.length_replicate _ _) hinv hxlt
  obtain ⟨k1, k2⟩ := karatsuba_mul_spec _ r2 x1 hr2
  have hprod : bn_v (Hacl_Bignum4096_mul (reduction n (Hacl_Bignum_ModInvLimb_mod_inv_uint64 (n.getD 0 0)) x (List.replicate 64 0)) r2)
      < bn_v n * 2 ^ (64 * 64) := by
    unfold Hacl_Bignum4096_mul
    rw [k2]
    exact Nat.mul_lt_mul_of_lt_of_lt x2 (bn_v_lt hr2)
  refine ⟨add_mod_n_c0c1_mask n a b res hn ha hb hres han hbn,
    reduction_c0c1_mask n mu c res hn hc hres hmu hlt, ?_, ?_, ?_⟩
  · rw [mod_precompr2_c0c1_eq, hmem]
    exact reduction_c0c1_mask n _ x _ hn hx (List.length_replicate _ _) hinv hxlt
  · rw [hmem]
    exact reduction_c0c1_mask n _ _ res hn k1 hres hinv hprod
  · intro m y e bBits
    exact ⟨mont_check_is_mask m, exp_check_is_mask m y bBits e, mod_check_is_mask m y,
      inv_check_is_mask m y⟩

set_option maxRecDepth 8192 in
/-- The modulus `2^32 + 15` with the operands `7` and `n · 2^4096 − 1` satisfies the
hypotheses of C33. -/
theorem C33_masks_witness :
    (bn_wf 64 S3_n ∧ bn_v S3_n % 2 = 1 ∧ bn_wf 64 ((Src.buf S3_a).orig stale_res) ∧
      bn_wf 64 ((Src.buf S3_a).orig stale_res) ∧ stale_res.length = 64 ∧
      bn_v ((Src.buf S3_a).orig stale_res) < bn_v S3_n ∧ bn_v ((Src.buf S3_a).orig stale_res) < bn_v S3_n ∧
      ((Hacl_Bignum_ModInvLimb_mod_inv_uint64 (S3_n.getD 0 0)) * S3_n.getD 0 0 + 1) % 2 ^ 64 = 0 ∧ bn_wf 128 wide_c ∧
      bn_v wide_c < bn_v S3_n * 2 ^ 4096 ∧ bn_wf 128 wide_c ∧
      bn_v wide_c < bn_v S3_n * 2 ^ 4096 ∧ bn_wf 64 S3_a) ∧
    ((is_mask (sub64 (add_mod_n_c0c1 S3_n (Src.buf S3_a) (Src.buf S3_a) stale_res).1 (add_mod_n_c0c1 S3_n (Src.buf S3_a) (Src.buf S3_a) stale_res).2) ∧
        ¬ ((add_mod_n_c0c1 S3_n (Src.buf S3_a) (Src.buf S3_a) stale_res).1 = 1 ∧ (add_mod_n_c0c1 S3_n (Src.buf S3_a) (Src.buf S3_a) stale_res).2 = 0)) ∧
      (is_mask (sub64 (reduction_c0c1 S3_n (Hacl_Bignum_ModInvLimb_mod_inv_uint64 (S3_n.getD 0 0)) wide_c stale_res).1 (reduction_c0c1 S3_n (Hacl_Bignum_ModInvLimb_mod_inv_uint64 (S3_n.getD 0 0)) wide_c stale_res).2) ∧
        ¬ ((reduction_c0c1 S3_n (Hacl_Bignum_ModInvLimb_mod_inv_uint64 (S3_n.getD 0 0)) wide_c stale_res).1 = 1 ∧ (reduction_c0c1 S3_n (Hacl_Bignum_ModInvLimb_mod_inv_uint64 (S3_n.getD 0 0)) wide_c stale_res).2 = 0)) ∧
      (is_mask (sub64 (mod_precompr2_c0c1 S3_n wide_c).1 (mod_precompr2_c0c1 S3_n wide_c).2) ∧
        ¬ ((mod_precompr2_c0c1 S3_n wide_c).1 = 1 ∧ (mod_precompr2_c0c1 S3_n wide_c).2 = 0)) ∧
      (is_mask (sub64 (reduction_c0c1 S3_n (Hacl_Bignum_ModInvLimb_mod_inv_uint64 (S3_n.getD 0 0))
          (Hacl_Bignum4096_mul (reduction S3_n (Hacl_Bignum_ModInvLimb_mod_inv_uint64 (S3_n.getD 0 0))
            (memcpy (List.replicate 128 0) wide_c 128) (List.replicate 64 0)) S3_a) stale_res).1 (reduction_c0c1 S3_n (Hacl_Bignum_ModInvLimb_mod_inv_uint64 (S3_n.getD 0 0))
          (Hacl_Bignum4096_mul (reduction S3_n (Hacl_Bignum_ModInvLimb_mod_inv_uint64 (S3_n.getD 0 0))
            (memcpy (List.replicate 128 0) wide_c 128) (List.replicate 64 0)) S3_a) stale_res).2) ∧
        ¬ ((reduction_c0c1 S3_n (Hacl_Bignum_ModInvLimb_mod_inv_uint64 (S3_n.getD 0 0))
          (Hacl_Bignum4096_mul (reduction S3_n (Hacl_Bignum_ModInvLimb_mod_inv_uint64 (S3_n.getD 0 0))
            (memcpy (List.replicate 128 0) wide_c 128) (List.replicate 64 0)) S3_a) stale_res).1 = 1 ∧ (reduction_c0c1 S3_n (Hacl_Bignum_ModInvLimb_mod_inv_uint64 (S3_n.getD 0 0))
          (Hacl_Bignum4096_mul (reduction S3_n (Hacl_Bignum_ModInvLimb_mod_inv_uint64 (S3_n.getD 0 0))
            (memcpy (List.replicate 128 0) wide_c 128) (List.replicate 64 0)) S3_a) stale_res).2 = 0)) ∧
      ∀ (m y e : List Nat) (bBits : Nat),
        is_mask (mont_check m) ∧ is_mask (exp_check m y bBits e) ∧ is_mask (mod_check m y) ∧
          is_mask (inv_check m y)) :=
  ⟨⟨by decide, by decide, by decide, by decide, by decide, by decide, by decide, by decide,
      by decide, wide_c_lt, by decide, wide_c_lt, by decide⟩,
    C33_masks S3_n (Src.buf S3_a) (Src.buf S3_a) stale_res (Hacl_Bignum_ModInvLimb_mod_inv_uint64 (S3_n.getD 0 0)) wide_c wide_c S3_a (by decide) (by decide)
      (by decide) (by decide) (by decide) (by decide) (by decide) (by decide) (by decide)
      wide_c_lt (by decide) wide_c_lt (by decide)⟩

/-! ## The subtraction `n − 2` of `Hacl_Bignum4096_mod_inv_prime_vartime` -/

theorem inv_sub2_eq (n : List Nat) :
    inv_sub2 n = forLoop 0 63 (sub_zero_step n)
      ((Lib_IntTypes_Intrinsics_sub_borrow_u64 0 (n.getD 0 0) 2).1,
       (List.replicate 64 0).set 0 (Lib_IntTypes_Intrinsics_sub_borrow_u64 0 (n.getD 0 0) 2).2) := by
  unfold inv_sub2
  simp only [Nat.reduceLT, if_true, Nat.reduceDiv, Nat.reduceMul, Prod.mk.eta]
  rw [forLoop_unroll4 (sub_zero_step n) 15,
    forLoop_append 0 60 63 _ _ (by decide) (by decide)]

theorem inv_sub2_snd (n : List Nat) : (inv_sub2 n).2 = inv_n2 n := by
  rw [inv_sub2_eq, inv_n2_eq]

/-- The borrow chain of `Hacl_Bignum4096_mod_inv_prime_vartime` ends without a borrow and
leaves `n − 2`, for `n ≥ 2`. -/
theorem inv_sub2_spec (n : List Nat) (hn : bn_wf 64 n) (h2 : 2 ≤ bn_v n) :
    (inv_sub2 n).1 = 0 ∧ bn_wf 64 (inv_sub2 n).2 ∧ bn_v (inv_sub2 n).2 = bn_v n - 2 := by
  rw [inv_sub2_eq]
  have hx0 := bn_wf_getD hn 0
  have f1 := sub_borrow_spec 0 (n.getD 0 0) 2 (by decide) hx0 (by decide)
  have f2 := sub_borrow_lt 0 (n.getD 0 0) 2
  have f3 := sub_borrow_le 0 (n.getD 0 0) 2
  have key := forLoop_inv
    (fun k (st : Nat × List Nat) =>
      st.2.length = 64 ∧ bn_wf (k + 1) (st.2.take (k + 1)) ∧ st.1 ≤ 1
      ∧ bn_v (st.2.take (k + 1)) + 2
          = bn_v (n.take (k + 1)) + st.1 * 2 ^ (64 * (k + 1)))
    0 63 (sub_zero_step n)
    ((Lib_IntTypes_Intrinsics_sub_borrow_u64 0 (n.getD 0 0) 2).1,
     (List.replicate 64 0).set 0 (Lib_IntTypes_Intrinsics_sub_borrow_u64 0 (n.getD 0 0) 2).2)
    (Nat.zero_le _)
    (by
      refine ⟨by simp, ?_, f3, ?_⟩
      · simp only
        rw [take_set_succ _ 0 _ (by simp)]
        exact bn_wf_take_snoc (by simpa using bn_wf_nil) f2
      · simp only
        rw [take_set_succ _ 0 _ (by simp), bn_v_append, bn_v_singleton,
          bn_v_take_succ n 0 (by rw [hn.1]; decide)]
        simp only [List.take_zero, bn_v_nil, List.length_nil, Nat.mul_zero, pow_zero,
          Nat.one_mul, Nat.zero_add, Nat.mul_one]
        omega)
    (by
      rintro i ⟨c, t⟩ _ hi ⟨h1, h3, h4, h5⟩
      simp only at h1 h3 h4 h5
      have hit : i + 1 < t.length := by rw [h1]; omega
      have hx := bn_wf_getD hn (i + 1)
      have e1 := sub_borrow_spec c (n.getD (i + 1) 0) 0 h4 hx (by decide)
      have e2 := sub_borrow_lt c (n.getD (i + 1) 0) 0
      have e3 := sub_borrow_le c (n.getD (i + 1) 0) 0
      unfold sub_zero_step
      rw [Nat.add_comm 1 i]
      refine ⟨by simp [h1], ?_, e3, ?_⟩
      · simp only
        rw [take_set_succ t (i + 1) _ hit]
        exact bn_wf_take_snoc h3 e2
      · simp only
        rw [take_set_succ t (i + 1) _ hit, bn_v_append, bn_v_singleton, h3.1,
          bn_v_take_succ n (i + 1) (by rw [hn.1]; omega), pow_succ_64 (i + 1)]
        generalize (Lib_IntTypes_Intrinsics_sub_borrow_u64 c (n.getD (i + 1) 0) 0).2 = s at *
        generalize (Lib_IntTypes_Intrinsics_sub_borrow_u64 c (n.getD (i + 1) 0) 0).1 = c' at *
        generalize n.getD (i + 1) 0 = x at *
        generalize (2:Nat) ^ (64 * (i + 1)) = P at *
        have : P * (s + 0 + c) = P * (x + 2 ^ 64 * c') := by rw [e1]
        nlinarith)
  obtain ⟨h1, h3, h4, h5⟩ := key
  rw [take_full _ _ (by rw [h1])] at h3 h5
  rw [take_full n _ (by rw [hn.1])] at h5
  have hlt := bn_v_lt h3
  have hnl := bn_v_lt hn
  generalize (2:Nat) ^ (64 * (63 + 1)) = R at *
  generalize (forLoop 0 63 (sub_zero_step n) _) = st at *
  have hc : st.1 = 0 := by
    rcases Nat.le_one_iff_eq_zero_or_eq_one.1 h4 with h | h
    · exact h
    · rw [h] at h5; omega
  refine ⟨hc, h3, ?_⟩
  rw [hc] at h5
  omega

/-- C34: in `Hacl_Bignum4096_mod_inv_prime_vartime`, whenever the validity mask is all ones
(`n` odd, `n > 1`, `0 < a < n`), the 64-limb subtraction `n − 2` does not underflow: its
final borrow `c1` is 0, the exponent `n2` equals `n − 2` exactly and `0 < n2 < 2^4096`; with
`r2 = 2^8192 mod n` these are the preconditions of the call
`Hacl_Bignum4096_mod_exp_vartime_precompr2(n, a, 4096, n2, r2, res)` the function makes. -/
theorem C34_inv_no_underflow (n a res : List Nat) (hn : bn_wf 64 n) (ha : bn_wf 64 a)
    (hvalid : inv_check n a = ones64) :
    (inv_sub2 n).1 = 0 ∧
      bn_wf 64 (inv_sub2 n).2 ∧ bn_v (inv_sub2 n).2 = bn_v n - 2 ∧
      0 < bn_v (inv_sub2 n).2 ∧ bn_v (inv_sub2 n).2 < 2 ^ 4096 ∧
      (bn_v n % 2 = 1 ∧ 1 < bn_v n ∧ 0 < bn_v a ∧ bn_v a < bn_v n) ∧
      (bn_wf 64 (precomp (modulus_nBits n) n (List.replicate 64 0)) ∧
        bn_v (precomp (modulus_nBits n) n (List.replicate 64 0)) = 2 ^ 8192 % bn_v n) ∧
      (Hacl_Bignum4096_mod_inv_prime_vartime n a res).2
        = mask_output ones64 (Hacl_Bignum4096_mod_exp_vartime_precompr2 n a 4096
            (inv_sub2 n).2 (precomp (modulus_nBits n) n (List.replicate 64 0)) res) := by
  rw [inv_check_spec n a hn ha] at hvalid
  have hv : (bn_v n % 2 = 1 ∧ 1 < bn_v n) ∧ bn_v a ≠ 0 ∧ bn_v a < bn_v n := by
    by_contra hc
    rw [if_neg hc] at hvalid
    exact absurd hvalid (by decide)
  obtain ⟨⟨hodd, h1⟩, ha0, han⟩ := hv
  obtain ⟨s1, s2, s3⟩ := inv_sub2_spec n hn (by omega)
  have hpos : 0 < bn_v (inv_sub2 n).2 := by omega
  have ha1 : 0 < bn_v a := by omega
  have hvalid' : inv_check n a = ones64 := by
    rw [inv_check_spec n a hn ha, if_pos ⟨⟨hodd, h1⟩, ha0, han⟩]
  have hlt : bn_v (inv_sub2 n).2 < 2 ^ 4096 := by
    rw [show (4096 : Nat) = 64 * 64 from rfl]
    exact bn_v_lt s2
  refine ⟨s1, s2, s3, hpos, hlt, ⟨hodd, h1, ha1, han⟩, r2_spec n hn hodd h1, ?_⟩
  rw [mod_inv_unfold, hvalid', if_pos rfl, inv_sub2_snd]
  unfold modulus_nBits
  dsimp only

set_option maxRecDepth 8192 in
/-- The prime modulus `65537` with `a = 7` satisfies the hypotheses of C34. -/
theorem C34_inv_no_underflow_witness :
    (bn_wf 64 inv_p ∧ bn_wf 64 S3_a ∧ inv_check inv_p S3_a = ones64) ∧
    ((inv_sub2 inv_p).1 = 0 ∧
      bn_wf 64 (inv_sub2 inv_p).2 ∧ bn_v (inv_sub2 inv_p).2 = bn_v inv_p - 2 ∧
      0 < bn_v (inv_sub2 inv_p).2 ∧ bn_v (inv_sub2 inv_p).2 < 2 ^ 4096 ∧
      (bn_v inv_p % 2 = 1 ∧ 1 < bn_v inv_p ∧ 0 < bn_v S3_a ∧ bn_v S3_a < bn_v inv_p) ∧
      (bn_wf 64 (precomp (modulus_nBits inv_p) inv_p (List.replicate 64 0)) ∧
        bn_v (precomp (modulus_nBits inv_p) inv_p (List.replicate 64 0)) = 2 ^ 8192 % bn_v inv_p) ∧
      (Hacl_Bignum4096_mod_inv_prime_vartime inv_p S3_a stale_res).2
        = mask_output ones64 (Hacl_Bignum4096_mod_exp_vartime_precompr2 inv_p S3_a 4096
            (inv_sub2 inv_p).2 (precomp (modulus_nBits inv_p) inv_p (List.replicate 64 0)) stale_res)) :=
  ⟨by decide, C34_inv_no_underflow inv_p S3_a stale_res (by decide) (by decide) (by decide)⟩

/-! ## The Montgomery-domain values of the four exponentiation routines -/

/-- `mod_exp_bm_vartime_precompr2` is its loop followed by the final reduction. -/
theorem bm_vartime_eq (n a : List Nat) (bBits : Nat) (b r2 res : List Nat) :
    mod_exp_bm_vartime_precompr2 n a bBits b r2 res
      = reduction n (Hacl_Bignum_ModInvLimb_mod_inv_uint64 (n.getD 0 0))
          (memcpy (List.replicate 128 0) (bm_vartime_state n a b r2 bBits).2 64) res := rfl

/-- `mod_exp_bm_consttime_precompr2` is its loop followed by the last swap and the final
reduction. -/
theorem bm_consttime_eq (n a : List Nat) (bBits : Nat) (b r2 res : List Nat) :
    mod_exp_bm_consttime_precompr2 n a bBits b r2 res
      = reduction n (Hacl_Bignum_ModInvLimb_mod_inv_uint64 (n.getD 0 0))
          (memcpy (List.replicate 128 0)
            (cswap_loop (bm_consttime_state n a bBits b r2 bBits).2
              (bm_consttime_state n a bBits b r2 bBits).1).2 64) res := rfl

theorem fw_table_eq (l : Nat) (n : List Nat) (nInv : Nat) (aM accM : List Nat) :
    fw_table l n nInv aM accM = fw_table_state l n nInv aM accM (sub32 (shl32 1 l) 2) := rfl

/-- `mod_exp_fw_vartime_precompr2` is its main loop, the tail and the final reduction. -/
theorem fw_vartime_eq (l : Nat) (n a : List Nat) (bBits : Nat) (b r2 res : List Nat) :
    mod_exp_fw_vartime_precompr2 l n a bBits b r2 res
      = reduction n (Hacl_Bignum_ModInvLimb_mod_inv_uint64 (n.getD 0 0))
          (memcpy (List.replicate 128 0) (fw_vartime_tail l n a bBits b r2) 64) res := by
  unfold mod_exp_fw_vartime_precompr2 fw_vartime_tail fw_vartime_state exp_init
  dsimp only

/-- `mod_exp_fw_consttime_precompr2` is its main loop, the tail and the final reduction. -/
theorem fw_consttime_eq (l : Nat) (n a : List Nat) (bBits : Nat) (b r2 res : List Nat) :
    mod_exp_fw_consttime_precompr2 l n a bBits b r2 res
      = reduction n (Hacl_Bignum_ModInvLimb_mod_inv_uint64 (n.getD 0 0))
          (memcpy (List.replicate 128 0) (fw_consttime_tail l n a bBits b r2) 64) res := by
  unfold mod_exp_fw_consttime_precompr2 fw_consttime_tail fw_consttime_state exp_init
  dsimp only

theorem mont_mul_below (n : List Nat) (nInv : Nat) (x y res : List Nat) (hctx : MontCtx n nInv)
    (hx : below n x) (hy : below n y) (hres : res.length = 64) :
    below n (mont_mul n nInv x y res) := by
  obtain ⟨h1, h2, _⟩ := reduction_mul_spec n nInv x y res hctx hx.1 hy.1 hres hx.2 hy.2
  exact ⟨h1, h2⟩

theorem mont_sqr_below (n : List Nat) (nInv : Nat) (x res : List Nat) (hctx : MontCtx n nInv)
    (hx : below n x) (hres : res.length = 64) : below n (mont_sqr n nInv x res) := by
  unfold mont_sqr
  rw [karatsuba_sqr_eq]
  exact mont_mul_below n nInv x x res hctx hx hx hres

theorem sqr_loop_below (n : List Nat) (nInv : Nat) (hctx : MontCtx n nInv) (s : Nat)
    (x : List Nat) (hx : below n x) :
    below n (forLoop 0 s (fun _ accM => mont_sqr n nInv accM accM) x) := by
  apply forLoop_inv (fun _ y => below n y) 0 s _ _ (Nat.zero_le _) hx
  intro i t _ _ ht
  exact mont_sqr_below n nInv t t hctx ht ht.1.1

/-- The initial Montgomery values are below `n`. -/
theorem exp_init_below (n a r2 : List Nat) (hn : bn_wf 64 n) (hodd : bn_v n % 2 = 1)
    (h1 : 1 < bn_v n) (ha : below n a) (hr2 : below n r2) :
    below n (exp_init n a r2).1 ∧ below n (exp_init n a r2).2 := by
  have hctx := mont_ctx_of_valid n hn hodd h1
  unfold exp_init
  dsimp only
  have hone : below n ((List.replicate 64 0).set 0 1) := ⟨bn_one_wf, by rw [bn_one_v]; exact h1⟩
  exact ⟨mont_mul_below n _ a r2 _ hctx ha hr2 replicate_64_length,
    mont_mul_below n _ _ r2 _ hctx hone hr2 replicate_64_length⟩

theorem bit_cases (x j : Nat) : (x >>> j) &&& 1 = 0 ∨ (x >>> j) &&& 1 = 1 := by
  rw [Nat.and_one_is_mod]
  omega

theorem cswap_below (n : List Nat) (sw : Nat) (st : List Nat × List Nat)
    (hsw : sw = 0 ∨ sw = 1) (h1 : below n st.1) (h2 : below n st.2) :
    below n (cswap_loop sw st).1 ∧ below n (cswap_loop sw st).2 := by
  obtain ⟨x, y⟩ := st
  rcases hsw with rfl | rfl
  · rw [cswap_loop_zero]
    exact ⟨h1, h2⟩
  · rw [cswap_loop_one x y h1.1 h2.1]
    exact ⟨h2, h1⟩

/-- Both buffers of the binary variable-time loop stay below `n`. -/
theorem bm_vartime_state_below (n a b r2 : List Nat) (hn : bn_wf 64 n)
    (hodd : bn_v n % 2 = 1) (h1 : 1 < bn_v n) (ha : below n a) (hr2 : below n r2) (k : Nat) :
    below n (bm_vartime_state n a b r2 k).1 ∧ below n (bm_vartime_state n a b r2 k).2 := by
  have hctx := mont_ctx_of_valid n hn hodd h1
  unfold bm_vartime_state
  dsimp only
  apply forLoop_inv (fun _ (st : List Nat × List Nat) => below n st.1 ∧ below n st.2) 0 k _ _
    (Nat.zero_le _) (exp_init_below n a r2 hn hodd h1 ha hr2)
  rintro i ⟨x, y⟩ _ _ ⟨hx, hy⟩
  dsimp only at hx hy ⊢
  refine ⟨mont_sqr_below n _ x x hctx hx hx.1.1, ?_⟩
  split
  · exact mont_mul_below n _ y x y hctx hy hx hy.1.1
  · exact hy

/-- Both buffers of the Montgomery ladder stay below `n`, and the swap flag is a bit. -/
theorem bm_consttime_state_below (n a : List Nat) (bBits : Nat) (b r2 : List Nat)
    (hn : bn_wf 64 n) (hodd : bn_v n % 2 = 1) (h1 : 1 < bn_v n) (ha : below n a)
    (hr2 : below n r2) (k : Nat) :
    (below n (bm_consttime_state n a bBits b r2 k).1.1 ∧
      below n (bm_consttime_state n a bBits b r2 k).1.2) ∧
      ((bm_consttime_state n a bBits b r2 k).2 = 0 ∨
        (bm_consttime_state n a bBits b r2 k).2 = 1) := by
  have hctx := mont_ctx_of_valid n hn hodd h1
  unfold bm_consttime_state
  dsimp only
  have h0 := exp_init_below n a r2 hn hodd h1 ha hr2
  refine forLoop_inv (fun _ (st : (List Nat × List Nat) × Nat) =>
    (below n st.1.1 ∧ below n st.1.2) ∧ (st.2 = 0 ∨ st.2 = 1)) 0 k _ _
    (Nat.zero_le _) ?_ ?_
  · dsimp only
    exact ⟨h0, Or.inl rfl⟩
  rintro i ⟨⟨x, y⟩, sw⟩ _ _ ⟨⟨hx, hy⟩, hsw⟩
  dsimp only at hx hy hsw ⊢
  have hbit := bit_cases (b.getD (sub32 (sub32 bBits i) 1 / 64) 0) (sub32 (sub32 bBits i) 1 % 64)
  have hsw1 : ((b.getD (sub32 (sub32 bBits i) 1 / 64) 0 >>> (sub32 (sub32 bBits i) 1 % 64)) &&& 1)
      ^^^ sw = 0 ∨
      ((b.getD (sub32 (sub32 bBits i) 1 / 64) 0 >>> (sub32 (sub32 bBits i) 1 % 64)) &&& 1)
      ^^^ sw = 1 := by
    rcases hbit with h | h <;> rcases hsw with rfl | rfl <;> rw [h] <;> decide
  obtain ⟨c1, c2⟩ := cswap_below n _ (x, y) hsw1 hx hy
  exact ⟨⟨mont_mul_below n _ _ _ _ hctx c1 c2 c1.1.1, mont_sqr_below n _ _ _ hctx c2 c2.1.1⟩,
    hbit⟩

theorem subBuf_blit_above (buf src : List Nat) (off len off' len' : Nat)
    (hoff : off + len ≤ buf.length) (hsrc : src.length = len) (h : off + len ≤ off') :
    subBuf (blit buf off src len) off' len' = subBuf buf off' len' := by
  apply List.ext_getElem?
  intro i
  rw [getElem?_subBuf, getElem?_subBuf, getElem?_blit _ _ _ _ _ hoff hsrc]
  split
  · rw [if_neg (by omega)]
  · rfl

theorem below_zero (n : List Nat) (h1 : 1 < bn_v n) : below n (List.replicate 64 0) :=
  ⟨bn_wf_replicate_zero 64, by rw [bn_v_replicate_zero]; omega⟩

/-- Every entry of the table is below `n` after every iteration of the loop that fills it:
the entries already computed are Montgomery products, the others are still zero. -/
theorem fw_table_state_below (n : List Nat) (nInv : Nat) (aM accM : List Nat)
    (hctx : MontCtx n nInv) (haM : below n aM) (hacc : below n accM) (j : Nat) (hj : j ≤ 14) :
    (fw_table_state 4 n nInv aM accM j).length = 1024 ∧
      ∀ e, e < 16 → below n (subBuf (fw_table_state 4 n nInv aM accM j) (e * 64) 64) := by
  unfold fw_table_state
  have e1 : shl32 1 4 = 16 := by decide
  have e2 : mul32 16 64 = 1024 := by decide
  simp only [e1, e2]
  rw [memcpy_eq_blit]
  have l0 : (List.replicate 1024 0).length = 1024 := List.length_replicate _ _
  have l1 : (blit (List.replicate 1024 0) 0 accM 64).length = 1024 := by
    rw [blit_length _ _ _ _ (by rw [l0]; omega) hacc.1.1, l0]
  have l2 : (blit (blit (List.replicate 1024 0) 0 accM 64) 64 aM 64).length = 1024 := by
    rw [blit_length _ _ _ _ (by rw [l1]; decide) haM.1.1, l1]
  have hz : ∀ e, e < 16 → subBuf (List.replicate 1024 0) (e * 64) 64 = List.replicate 64 0 := by
    intro e he
    unfold subBuf
    rw [List.drop_replicate, List.take_replicate]
    congr 1
    omega
  refine forLoop_inv
    (fun _ (table : List Nat) =>
      table.length = 1024 ∧ ∀ e, e < 16 → below n (subBuf table (e * 64) 64))
    0 j (fun i table =>
      blit table ((i + 2) * 64)
        (mont_mul n nInv (subBuf table ((i + 1) * 64) 64) aM (subBuf table ((i + 2) * 64) 64)) 64)
    (blit (blit (List.replicate 1024 0) 0 accM 64) 64 aM 64) (Nat.zero_le _) ?_ ?_
  · refine ⟨l2, ?_⟩
    intro e he
    by_cases c0 : e = 0
    · subst c0
      rw [subBuf_blit_below _ _ _ _ _ _ (by rw [l1]; decide) haM.1.1 (by omega),
        subBuf_blit_same _ _ _ _ (by rw [l0]; omega) hacc.1.1]
      exact hacc
    · by_cases c1 : e = 1
      · subst c1
        rw [subBuf_blit_same _ _ _ _ (by rw [l1]; decide) haM.1.1]
        exact haM
      · rw [subBuf_blit_above _ _ _ _ _ _ (by rw [l1]; decide) haM.1.1 (by omega),
          subBuf_blit_above _ _ _ _ _ _ (by rw [l0]; omega) hacc.1.1 (by omega), hz e he]
        exact below_zero n hctx.2.2.1
  · intro i table _ hi h
    obtain ⟨hl, h⟩ := h
    have hr := mont_mul_below n nInv (subBuf table ((i + 1) * 64) 64) aM
      (subBuf table ((i + 2) * 64) 64) hctx (h (i + 1) (by omega)) haM
      (subBuf_length _ _ _ (by rw [hl]; omega))
    refine ⟨by rw [blit_length _ _ _ _ (by rw [hl]; omega) hr.1.1, hl], ?_⟩
    intro e he
    by_cases c : e = i + 2
    · subst c
      rw [subBuf_blit_same _ _ _ _ (by rw [hl]; omega) hr.1.1]
      exact hr
    · by_cases c2 : e < i + 2
      · rw [subBuf_blit_below _ _ _ _ _ _ (by rw [hl]; omega) hr.1.1 (by omega)]
        exact h e he
      · rw [subBuf_blit_above _ _ _ _ _ _ (by rw [hl]; omega) hr.1.1 (by omega)]
        exact h e he

/-- Every entry of the finished table is below `n`. -/
theorem fw_table_below (n : List Nat) (nInv : Nat) (aM accM : List Nat)
    (hctx : MontCtx n nInv) (haM : below n aM) (hacc : below n accM) :
    ∀ e, e < 16 → below n (subBuf (fw_table 4 n nInv aM accM) (e * 64) 64) := by
  rw [fw_table_eq]
  have e3 : sub32 (shl32 1 4) 2 = 14 := by decide
  rw [e3]
  exact (fw_table_state_below n nInv aM accM hctx haM hacc 14 (le_refl _)).2

/-- One window of the fixed-window method keeps `accM` below `n`: `s` squarings and one
multiplication by the table entry of a window value of at most four bits. -/
theorem fw_step_below (n : List Nat) (nInv : Nat) (table accM : List Nat) (x w s : Nat)
    (hctx : MontCtx n nInv)
    (htab : ∀ e, e < 16 → below n (subBuf table (e * 64) 64)) (hw : w ≤ 4)
    (hacc : below n accM) :
    below n (mont_mul n nInv (forLoop 0 s (fun _ accM => mont_sqr n nInv accM accM) accM)
      (subBuf table (mul32 ((x &&& sub64 (shl64 1 w) 1) % 2 ^ 32) 64) 64)
      (forLoop 0 s (fun _ accM => mont_sqr n nInv accM accM) accM)) := by
  have hs := sqr_loop_below n nInv hctx s accM hacc
  rw [table_index _ (and_mask_lt x w hw)]
  exact mont_mul_below n nInv _ _ _ hctx hs (htab _ (and_mask_lt x w hw)) hs.1.1

/-- The constant-time scan of a table of 16 entries returns the entry of the window value. -/
theorem fw_select_entry (table : List Nat) (x w : Nat) (hw : w ≤ 4)
    (htab : ∀ e, e < 16 → bn_wf 64 (subBuf table (e * 64) 64)) :
    fw_select (shl32 1 4) table (x &&& sub64 (shl64 1 w) 1)
      = subBuf table (mul32 ((x &&& sub64 (shl64 1 w) 1) % 2 ^ 32) 64) 64 := by
  have e1 : shl32 1 4 = 16 := by decide
  rw [e1, fw_select_spec _ _ (and_mask_lt x w hw) htab, table_index _ (and_mask_lt x w hw)]

/-- The buffer `accM` of the variable-time fixed-window loop stays below `n`. -/
theorem fw_vartime_state_below (n a : List Nat) (bBits : Nat) (b r2 : List Nat)
    (hn : bn_wf 64 n) (hodd : bn_v n % 2 = 1) (h1 : 1 < bn_v n) (ha : below n a)
    (hr2 : below n r2) (k : Nat) : below n (fw_vartime_state 4 n a bBits b r2 k) := by
  have hctx := mont_ctx_of_valid n hn hodd h1
  obtain ⟨i1, i2⟩ := exp_init_below n a r2 hn hodd h1 ha hr2
  have htab := fw_table_below n (Hacl_Bignum_ModInvLimb_mod_inv_uint64 (n.getD 0 0)) _ _ hctx i1 i2
  unfold fw_vartime_state
  dsimp only
  refine forLoop_inv (fun _ (accM : List Nat) => below n accM) 0 k _ _ (Nat.zero_le _) i2 ?_
  intro i t _ _ ht
  exact fw_step_below n _ _ t _ 4 4 hctx htab (le_refl _) ht

/-- The two fixed-window loops go through the same states. -/
theorem fw_consttime_state_eq (n a : List Nat) (bBits : Nat) (b r2 : List Nat)
    (hn : bn_wf 64 n) (hodd : bn_v n % 2 = 1) (h1 : 1 < bn_v n) (ha : below n a)
    (hr2 : below n r2) (k : Nat) :
    fw_consttime_state 4 n a bBits b r2 k = fw_vartime_state 4 n a bBits b r2 k := by
  have hctx := mont_ctx_of_valid n hn hodd h1
  obtain ⟨i1, i2⟩ := exp_init_below n a r2 hn hodd h1 ha hr2
  have htab := fw_table_below n (Hacl_Bignum_ModInvLimb_mod_inv_uint64 (n.getD 0 0)) _ _ hctx i1 i2
  unfold fw_consttime_state fw_vartime_state
  dsimp only
  apply forLoop_congr
  intro i t _ _
  dsimp only
  rw [fw_select_entry _ _ 4 (le_refl _) (fun e he => (htab e he).1)]

/-- The buffer `accM` after the low bits, in the variable-time fixed-window routine. -/
theorem fw_vartime_tail_below (n a : List Nat) (bBits : Nat) (b r2 : List Nat)
    (hn : bn_wf 64 n) (hodd : bn_v n % 2 = 1) (h1 : 1 < bn_v n) (ha : below n a)
    (hr2 : below n r2) : below n (fw_vartime_tail 4 n a bBits b r2) := by
  have hctx := mont_ctx_of_valid n hn hodd h1
  obtain ⟨i1, i2⟩ := exp_init_below n a r2 hn hodd h1 ha hr2
  have htab := fw_table_below n (Hacl_Bignum_ModInvLimb_mod_inv_uint64 (n.getD 0 0)) _ _ hctx i1 i2
  have hst := fw_vartime_state_below n a bBits b r2 hn hodd h1 ha hr2 (bBits / 4)
  unfold fw_vartime_tail
  dsimp only
  split
  · exact fw_step_below n _ _ _ _ (bBits % 4) (bBits % 4) hctx htab (by omega) hst
  · exact hst

/-- The two fixed-window routines leave the same `accM` after the low bits. -/
theorem fw_consttime_tail_eq (n a : List Nat) (bBits : Nat) (b r2 : List Nat)
    (hn : bn_wf 64 n) (hodd : bn_v n % 2 = 1) (h1 : 1 < bn_v n) (ha : below n a)
    (hr2 : below n r2) :
    fw_consttime_tail 4 n a bBits b r2 = fw_vartime_tail 4 n a bBits b r2 := by
  have hctx := mont_ctx_of_valid n hn hodd h1
  obtain ⟨i1, i2⟩ := exp_init_below n a r2 hn hodd h1 ha hr2
  have htab := fw_table_below n (Hacl_Bignum_ModInvLimb_mod_inv_uint64 (n.getD 0 0)) _ _ hctx i1 i2
  unfold fw_consttime_tail fw_vartime_tail
  dsimp only
  rw [fw_consttime_state_eq n a bBits b r2 hn hodd h1 ha hr2,
    fw_select_entry _ _ (bBits % 4) (by omega) (fun e he => (htab e he).1)]

/-- Leaving the Montgomery domain from a value below `n` gives a value below `n`. -/
theorem final_reduction_below (n : List Nat) (nInv : Nat) (x res : List Nat)
    (hctx : MontCtx n nInv) (hx : below n x) (hres : res.length = 64) :
    below n (reduction n nInv (memcpy (List.replicate 128 0) x 64) res) := by
  have hpos : 0 < bn_v n := by have := hctx.2.2.1; omega
  obtain ⟨hn, hodd, _, hinv⟩ := hctx
  have hm : memcpy (List.replicate 128 0) x 64 = x ++ List.replicate 64 0 := by
    unfold memcpy
    rw [take_full x 64 (by rw [hx.1.1]), List.drop_replicate]
  have hwf : bn_wf 128 (x ++ List.replicate 64 0) :=
    bn_wf_append hx.1 (bn_wf_replicate_zero 64)
  have hv : bn_v (x ++ List.replicate 64 0) = bn_v x := by
    rw [bn_v_append, bn_v_replicate_zero, Nat.mul_zero, Nat.add_zero]
  rw [hm]
  obtain ⟨r1, r2, _⟩ := reduction_spec n nInv _ res hn hwf hres hinv (by
    rw [hv]
    calc bn_v x < bn_v n := hx.2
      _ = bn_v n * 1 := (Nat.mul_one _).symm
      _ ≤ bn_v n * 2 ^ (64 * 64) := Nat.mul_le_mul_left _ (one_le_two_pow (64 * 64)))
  exact ⟨r1, r2⟩

theorem S3_r2_spec : bn_wf 64 S3_r2 ∧ bn_v S3_r2 = 2 ^ 8192 % bn_v S3_n :=
  r2_spec S3_n (by decide) (by decide) (by decide)

/-- C35: for every valid modulus (`n` odd, `n > 1`), every `a < n`, `r2 = 2^8192 mod n` and
every exponent buffer `b`, in each of `mod_exp_bm_vartime_precompr2`,
`mod_exp_bm_consttime_precompr2`, `mod_exp_fw_vartime_precompr2` and
`mod_exp_fw_consttime_precompr2` (window size 4) the Montgomery-domain values are 64-limb
values below `n`: `aM` and `accM` after the initialisation, every table entry after every
iteration of the loop that fills the table, `aM` and `accM` after every iteration of the
loop over the exponent bits, `accM` after every squaring and after every window of the
fixed-window loops and after the statements for the low bits; and the final `res` is
below `n`. -/
theorem C35_montgomery_values_below (n a : List Nat) (bBits : Nat) (b r2 res : List Nat)
    (hn : bn_wf 64 n) (hodd : bn_v n % 2 = 1) (h1 : 1 < bn_v n)
    (ha : bn_wf 64 a) (han : bn_v a < bn_v n)
    (hr2 : bn_wf 64 r2) (hr2v : bn_v r2 = 2 ^ 8192 % bn_v n) (hres : res.length = 64) :
    (below n (exp_init n a r2).1 ∧ below n (exp_init n a r2).2) ∧
      (∀ j, j ≤ 14 → ∀ e, e < 16 →
        below n (subBuf (fw_table_state 4 n (Hacl_Bignum_ModInvLimb_mod_inv_uint64 (n.getD 0 0))
          (exp_init n a r2).1 (exp_init n a r2).2 j) (e * 64) 64)) ∧
      (∀ k, below n (bm_vartime_state n a b r2 k).1 ∧
        below n (bm_vartime_state n a b r2 k).2) ∧
      (∀ k, below n (bm_consttime_state n a bBits b r2 k).1.1 ∧
        below n (bm_consttime_state n a bBits b r2 k).1.2) ∧
      (∀ k s, below n (forLoop 0 s (fun _ accM => mont_sqr n (Hacl_Bignum_ModInvLimb_mod_inv_uint64 (n.getD 0 0)) accM accM)
        (fw_vartime_state 4 n a bBits b r2 k))) ∧
      below n (fw_vartime_tail 4 n a bBits b r2) ∧
      (∀ k s, below n (forLoop 0 s (fun _ accM => mont_sqr n (Hacl_Bignum_ModInvLimb_mod_inv_uint64 (n.getD 0 0)) accM accM)
        (fw_consttime_state 4 n a bBits b r2 k))) ∧
      below n (fw_consttime_tail 4 n a bBits b r2) ∧
      below n (mod_exp_bm_vartime_precompr2 n a bBits b r2 res) ∧
      below n (mod_exp_bm_consttime_precompr2 n a bBits b r2 res) ∧
      below n (mod_exp_fw_vartime_precompr2 4 n a bBits b r2 res) ∧
      below n (mod_exp_fw_consttime_precompr2 4 n a bBits b r2 res) := by
  have hctx := mont_ctx_of_valid n hn hodd h1
  have hab : below n a := ⟨ha, han⟩
  have hrb : below n r2 := ⟨hr2, by rw [hr2v]; exact Nat.mod_lt _ (by omega)⟩
  have hinit := exp_init_below n a r2 hn hodd h1 hab hrb
  have hbv := bm_vartime_state_below n a b r2 hn hodd h1 hab hrb
  have hbc := bm_consttime_state_below n a bBits b r2 hn hodd h1 hab hrb
  have hfv := fw_vartime_state_below n a bBits b r2 hn hodd h1 hab hrb
  have hft := fw_vartime_tail_below n a bBits b r2 hn hodd h1 hab hrb
  have hce := fw_consttime_state_eq n a bBits b r2 hn hodd h1 hab hrb
  have hct := fw_consttime_tail_eq n a bBits b r2 hn hodd h1 hab hrb
  refine ⟨hinit, ?_, hbv, fun k => (hbc k).1, ?_, hft, ?_, ?_, ?_, ?_, ?_, ?_⟩
  · intro j hj
    exact (fw_table_state_below n _ _ _ hctx hinit.1 hinit.2 j hj).2
  · intro k s
    exact sqr_loop_below n _ hctx s _ (hfv k)
  · intro k s
    rw [hce k]
    exact sqr_loop_below n _ hctx s _ (hfv k)
  · rw [hct]
    exact hft
  · rw [bm_vartime_eq]
    exact final_reduction_below n _ _ res hctx (hbv bBits).2 hres
  · rw [bm_consttime_eq]
    obtain ⟨⟨c1, c2⟩, c3⟩ := hbc bBits
    exact final_reduction_below n _ _ res hctx (cswap_below n _ _ c3 c1 c2).2 hres
  · rw [fw_vartime_eq]
    exact final_reduction_below n _ _ res hctx hft hres
  · rw [fw_consttime_eq, hct]
    exact final_reduction_below n _ _ res hctx hft hres

set_option maxRecDepth 8192 in
/-- The modulus `2^32 + 15` with the base 7 and a 211-bit exponent satisfies the hypotheses
of C35. -/
theorem C35_montgomery_values_below_witness :
    (bn_wf 64 S3_n ∧ bn_v S3_n % 2 = 1 ∧ 1 < bn_v S3_n ∧ bn_wf 64 S3_a ∧
      bn_v S3_a < bn_v S3_n ∧ bn_wf 64 S3_r2 ∧ bn_v S3_r2 = 2 ^ 8192 % bn_v S3_n ∧
      stale_res.length = 64) ∧
    ((below S3_n (exp_init S3_n S3_a S3_r2).1 ∧ below S3_n (exp_init S3_n S3_a S3_r2).2) ∧
      (∀ j, j ≤ 14 → ∀ e, e < 16 →
        below S3_n (subBuf (fw_table_state 4 S3_n (Hacl_Bignum_ModInvLimb_mod_inv_uint64 (S3_n.getD 0 0))
          (exp_init S3_n S3_a S3_r2).1 (exp_init S3_n S3_a S3_r2).2 j) (e * 64) 64)) ∧
      (∀ k, below S3_n (bm_vartime_state S3_n S3_a fw_b S3_r2 k).1 ∧
        below S3_n (bm_vartime_state S3_n S3_a fw_b S3_r2 k).2) ∧
      (∀ k, below S3_n (bm_consttime_state S3_n S3_a 211 fw_b S3_r2 k).1.1 ∧
        below S3_n (bm_consttime_state S3_n S3_a 211 fw_b S3_r2 k).1.2) ∧
      (∀ k s, below S3_n (forLoop 0 s (fun _ accM => mont_sqr S3_n (Hacl_Bignum_ModInvLimb_mod_inv_uint64 (S3_n.getD 0 0)) accM accM)
        (fw_vartime_state 4 S3_n S3_a 211 fw_b S3_r2 k))) ∧
      below S3_n (fw_vartime_tail 4 S3_n S3_a 211 fw_b S3_r2) ∧
      (∀ k s, below S3_n (forLoop 0 s (fun _ accM => mont_sqr S3_n (Hacl_Bignum_ModInvLimb_mod_inv_uint64 (S3_n.getD 0 0)) accM accM)
        (fw_consttime_state 4 S3_n S3_a 211 fw_b S3_r2 k))) ∧
      below S3_n (fw_consttime_tail 4 S3_n S3_a 211 fw_b S3_r2) ∧
      below S3_n (mod_exp_bm_vartime_precompr2 S3_n S3_a 211 fw_b S3_r2 stale_res) ∧
      below S3_n (mod_exp_bm_consttime_precompr2 S3_n S3_a 211 fw_b S3_r2 stale_res) ∧
      below S3_n (mod_exp_fw_vartime_precompr2 4 S3_n S3_a 211 fw_b S3_r2 stale_res) ∧
      below S3_n (mod_exp_fw_consttime_precompr2 4 S3_n S3_a 211 fw_b S3_r2 stale_res)) :=
  ⟨⟨by decide, by decide, by decide, by decide, by decide, S3_r2_spec.1, S3_r2_spec.2,
      by decide⟩,
    C35_montgomery_values_below S3_n S3_a 211 fw_b S3_r2 stale_res (by decide) (by decide)
      (by decide) (by decide) (by decide) S3_r2_spec.1 S3_r2_spec.2 (by decide)⟩

/-! ## The four exponentiation routines agree -/

/-- C37: the result of the exponentiation does not depend on the `bBits < 200` dispatch: for
every valid input and every `bBits ≥ 1`, the binary-method routines
`mod_exp_bm_vartime_precompr2` and `mod_exp_bm_consttime_precompr2` and the fixed-window
routines `mod_exp_fw_vartime_precompr2` and `mod_exp_fw_consttime_precompr2` with `l = 4` all
leave the same `res`, which is `a^b mod n`; so do the two dispatching functions, whichever
branch they take.  In particular the right-to-left square-and-multiply and the left-to-right
Montgomery ladder agree. -/
theorem C37_dispatch_independent (n a : List Nat) (bBits : Nat) (b r2 res : List Nat)
    (hn : bn_wf 64 n) (hodd : bn_v n % 2 = 1) (h1 : 1 < bn_v n)
    (ha : bn_wf 64 a) (han : bn_v a < bn_v n)
    (hbBits : 1 ≤ bBits) (hb32 : bBits < 2 ^ 32)
    (hb : bn_wf ((bBits - 1) / 64 + 1) b) (hblt : bn_v b < 2 ^ bBits)
    (hr2 : bn_wf 64 r2) (hr2v : bn_v r2 = 2 ^ 8192 % bn_v n) (hres : res.length = 64) :
    mod_exp_bm_consttime_precompr2 n a bBits b r2 res
        = mod_exp_bm_vartime_precompr2 n a bBits b r2 res ∧
      mod_exp_fw_vartime_precompr2 4 n a bBits b r2 res
        = mod_exp_bm_vartime_precompr2 n a bBits b r2 res ∧
      mod_exp_fw_consttime_precompr2 4 n a bBits b r2 res
        = mod_exp_bm_vartime_precompr2 n a bBits b r2 res ∧
      Hacl_Bignum4096_mod_exp_vartime_precompr2 n a bBits b r2 res
        = mod_exp_bm_vartime_precompr2 n a bBits b r2 res ∧
      Hacl_Bignum4096_mod_exp_consttime_precompr2 n a bBits b r2 res
        = mod_exp_bm_vartime_precompr2 n a bBits b r2 res ∧
      bn_v (mod_exp_bm_vartime_precompr2 n a bBits b r2 res)
        = bn_v a ^ bn_v b % bn_v n := by
  obtain ⟨v1, v2⟩ := mod_exp_bm_vartime_spec n a bBits _ b r2 res hn hodd h1 ha han hb hblt
    hr2 hr2v hres
  obtain ⟨c1, c2⟩ := mod_exp_bm_consttime_spec n a bBits _ b r2 res hn hodd h1 ha han hb hb32
    hblt hr2 hr2v hres
  obtain ⟨f1, f2⟩ := mod_exp_fw_vartime_spec n a bBits b r2 res hn hodd h1 ha han hbBits hb32
    hb hblt hr2 hr2v hres
  have ebc := bn_v_inj c1 v1 (by rw [c2, v2])
  have efv := bn_v_inj f1 v1 (by rw [f2, v2])
  have efc : mod_exp_fw_consttime_precompr2 4 n a bBits b r2 res
      = mod_exp_bm_vartime_precompr2 n a bBits b r2 res := by
    rw [mod_exp_fw_agree, efv]
  refine ⟨ebc, efv, efc, ?_, ?_, v2⟩
  · unfold Hacl_Bignum4096_mod_exp_vartime_precompr2
    split
    · rfl
    · exact efv
  · unfold Hacl_Bignum4096_mod_exp_consttime_precompr2
    split
    · exact ebc
    · exact efc

set_option maxRecDepth 8192 in
/-- The modulus `2^32 + 15` with the base 7 and a 211-bit exponent satisfies the hypotheses
of C37. -/
theorem C37_dispatch_independent_witness :
    (bn_wf 64 S3_n ∧ bn_v S3_n % 2 = 1 ∧ 1 < bn_v S3_n ∧ bn_wf 64 S3_a ∧
      bn_v S3_a < bn_v S3_n ∧ 1 ≤ 211 ∧ 211 < 2 ^ 32 ∧ bn_wf ((211 - 1) / 64 + 1) fw_b ∧
      bn_v fw_b < 2 ^ 211 ∧ bn_wf 64 S3_r2 ∧ bn_v S3_r2 = 2 ^ 8192 % bn_v S3_n ∧
      stale_res.length = 64) ∧
    (mod_exp_bm_consttime_precompr2 S3_n S3_a 211 fw_b S3_r2 stale_res
        = mod_exp_bm_vartime_precompr2 S3_n S3_a 211 fw_b S3_r2 stale_res ∧
      mod_exp_fw_vartime_precompr2 4 S3_n S3_a 211 fw_b S3_r2 stale_res
        = mod_exp_bm_vartime_precompr2 S3_n S3_a 211 fw_b S3_r2 stale_res ∧
      mod_exp_fw_consttime_precompr2 4 S3_n S3_a 211 fw_b S3_r2 stale_res
        = mod_exp_bm_vartime_precompr2 S3_n S3_a 211 fw_b S3_r2 stale_res ∧
      Hacl_Bignum4096_mod_exp_vartime_precompr2 S3_n S3_a 211 fw_b S3_r2 stale_res
        = mod_exp_bm_vartime_precompr2 S3_n S3_a 211 fw_b S3_r2 stale_res ∧
      Hacl_Bignum4096_mod_exp_consttime_precompr2 S3_n S3_a 211 fw_b S3_r2 stale_res
        = mod_exp_bm_vartime_precompr2 S3_n S3_a 211 fw_b S3_r2 stale_res ∧
      bn_v (mod_exp_bm_vartime_precompr2 S3_n S3_a 211 fw_b S3_r2 stale_res)
        = bn_v S3_a ^ bn_v fw_b % bn_v S3_n) :=
  ⟨⟨by decide, by decide, by decide, by decide, by decide, by decide, by decide, by decide,
      by decide, S3_r2_spec.1, S3_r2_spec.2, by decide⟩,
    C37_dispatch_independent S3_n S3_a 211 fw_b S3_r2 stale_res (by decide) (by decide)
      (by decide) (by decide) (by decide) (by decide) (by decide) (by decide) (by decide)
      S3_r2_spec.1 S3_r2_spec.2 (by decide)⟩

/-! ## The array indices of the fixed-window routines and of `exp_check` -/

/-- The window extraction reads `b[i1]`, and `b[i1 + 1]` only under the guard
`i1 + 1 < bLen`: for `i1 < bLen` its value depends on the first `bLen` limbs of `b` only. -/
theorem fw_window_take (bLen : Nat) (b : List Nat) (i1 j : Nat) (hi : i1 < bLen)
    (hb : bLen < 2 ^ 32) :
    fw_window bLen b i1 j = fw_window bLen (b.take bLen) i1 j := by
  have e : add32 i1 1 = i1 + 1 := by unfold add32; omega
  have g : ∀ k, k < bLen → (b.take bLen).getD k 0 = b.getD k 0 := by
    intro k hk
    rw [List.getD_eq_getElem?_getD, List.getD_eq_getElem?_getD, List.getElem?_take, if_pos hk]
  unfold fw_window
  dsimp only
  rw [e, g i1 hi]
  split
  · rename_i hc
    rw [g (i1 + 1) hc.1]
  · rfl

/-- C38: in the fixed-window routines with `l = 4`, for every `bBits ≥ 1` and
`bLen = ⌈bBits/64⌉`, every array access is in bounds: for each full-window index
`i < ⌊bBits/4⌋` the 32-bit position `bBits − 4i − 4` does not wrap and the limb index
`i1 = (bBits − 4i − 4)/64` is below `bLen`; `b[i1 + 1]` is read only when `i1 + 1 < bLen`, so
that the window depends on the first `bLen` limbs of `b` only; the window value is at most 15
and the tail value is below `2^(bBits mod 4)`, so every table offset plus 64 is at most
`16 · 64`; and in `exp_check` the bit `2^bBits` is set at limb `bBits/64 < bLen` whenever
`bBits < 64 · bLen`. -/
theorem C38_fw_indices_in_bounds (bBits : Nat) (b : List Nat) (hbBits : 1 ≤ bBits)
    (hb32 : bBits < 2 ^ 32) :
    (add32 (sub32 bBits 1 / 64) 1) = (bBits - 1) / 64 + 1 ∧
      (∀ i, i < bBits / 4 →
        sub32 (sub32 bBits (mul32 4 i)) 4 = bBits - 4 * i - 4 ∧
        sub32 (sub32 bBits (mul32 4 i)) 4 / 64 < (add32 (sub32 bBits 1 / 64) 1) ∧
        add32 (sub32 (sub32 bBits (mul32 4 i)) 4 / 64) 1 = sub32 (sub32 bBits (mul32 4 i)) 4 / 64 + 1 ∧
        fw_window (add32 (sub32 bBits 1 / 64) 1) b (sub32 (sub32 bBits (mul32 4 i)) 4 / 64) (sub32 (sub32 bBits (mul32 4 i)) 4 % 64)
          = fw_window (add32 (sub32 bBits 1 / 64) 1) (b.take (add32 (sub32 bBits 1 / 64) 1)) (sub32 (sub32 bBits (mul32 4 i)) 4 / 64) (sub32 (sub32 bBits (mul32 4 i)) 4 % 64) ∧
        fw_window (add32 (sub32 bBits 1 / 64) 1) b (sub32 (sub32 bBits (mul32 4 i)) 4 / 64) (sub32 (sub32 bBits (mul32 4 i)) 4 % 64) &&& sub64 (shl64 1 4) 1 ≤ 15 ∧
        mul32 ((fw_window (add32 (sub32 bBits 1 / 64) 1) b (sub32 (sub32 bBits (mul32 4 i)) 4 / 64) (sub32 (sub32 bBits (mul32 4 i)) 4 % 64) &&& sub64 (shl64 1 4) 1) % 2 ^ 32) 64
          + 64 ≤ 16 * 64) ∧
      (0 < (add32 (sub32 bBits 1 / 64) 1) ∧
        fw_window (add32 (sub32 bBits 1 / 64) 1) b 0 0 = fw_window (add32 (sub32 bBits 1 / 64) 1) (b.take (add32 (sub32 bBits 1 / 64) 1)) 0 0 ∧
        fw_window (add32 (sub32 bBits 1 / 64) 1) b 0 0 &&& sub64 (shl64 1 (bBits % 4)) 1 < 2 ^ (bBits % 4) ∧
        mul32 ((fw_window (add32 (sub32 bBits 1 / 64) 1) b 0 0 &&& sub64 (shl64 1 (bBits % 4)) 1) % 2 ^ 32) 64
          + 64 ≤ 16 * 64) ∧
      (bBits < mul32 64 (add32 (sub32 bBits 1 / 64) 1) → bBits / 64 < (add32 (sub32 bBits 1 / 64) 1)) := by
  have hbl := bLen_eq bBits hbBits hb32
  have hbl32 : add32 (sub32 bBits 1 / 64) 1 < 2 ^ 32 := by rw [hbl]; omega
  have htab : ∀ x w, w ≤ 4 →
      mul32 ((x &&& sub64 (shl64 1 w) 1) % 2 ^ 32) 64 + 64 ≤ 16 * 64 := by
    intro x w hw
    have h := and_mask_lt x w hw
    rw [table_index _ h]
    omega
  refine ⟨hbl, ?_, ⟨by rw [hbl]; omega, ?_, ?_, htab _ _ (by omega)⟩, ?_⟩
  · intro i hi
    have hpos := window_pos_eq bBits i hi hb32
    have hlt : sub32 (sub32 bBits (mul32 4 i)) 4 / 64 < add32 (sub32 bBits 1 / 64) 1 := by
      rw [hpos, hbl]
      omega
    have hadd : add32 (sub32 (sub32 bBits (mul32 4 i)) 4 / 64) 1
        = sub32 (sub32 bBits (mul32 4 i)) 4 / 64 + 1 := by
      rw [hpos]
      unfold add32
      omega
    have h15 := and_mask_lt (fw_window (add32 (sub32 bBits 1 / 64) 1) b
      (sub32 (sub32 bBits (mul32 4 i)) 4 / 64) (sub32 (sub32 bBits (mul32 4 i)) 4 % 64)) 4
      (le_refl _)
    exact ⟨hpos, hlt, hadd, fw_window_take _ b _ _ hlt hbl32, by omega, htab _ 4 (le_refl _)⟩
  · exact fw_window_take _ b 0 0 (by rw [hbl]; omega) hbl32
  · rw [mask_l_eq (bBits % 4) (by omega), Nat.and_pow_two_sub_one_eq_mod]
    exact Nat.mod_lt _ (Nat.two_pow_pos _)
  · intro h
    have hle : mul32 64 (add32 (sub32 bBits 1 / 64) 1) ≤ 64 * add32 (sub32 bBits 1 / 64) 1 := by
      unfold mul32
      exact Nat.mod_le _ _
    omega

/-- A 211-bit exponent size, not a multiple of 4, satisfies the hypotheses of C38. -/
theorem C38_fw_indices_in_bounds_witness :
    (1 ≤ 211 ∧ 211 < 2 ^ 32) ∧
    ((add32 (sub32 211 1 / 64) 1) = (211 - 1) / 64 + 1 ∧
      (∀ i, i < 211 / 4 →
        sub32 (sub32 211 (mul32 4 i)) 4 = 211 - 4 * i - 4 ∧
        sub32 (sub32 211 (mul32 4 i)) 4 / 64 < (add32 (sub32 211 1 / 64) 1) ∧
        add32 (sub32 (sub32 211 (mul32 4 i)) 4 / 64) 1 = sub32 (sub32 211 (mul32 4 i)) 4 / 64 + 1 ∧
        fw_window (add32 (sub32 211 1 / 64) 1) fw_b (sub32 (sub32 211 (mul32 4 i)) 4 / 64) (sub32 (sub32 211 (mul32 4 i)) 4 % 64)
          = fw_window (add32 (sub32 211 1 / 64) 1) (fw_b.take (add32 (sub32 211 1 / 64) 1)) (sub32 (sub32 211 (mul32 4 i)) 4 / 64) (sub32 (sub32 211 (mul32 4 i)) 4 % 64) ∧
        fw_window (add32 (sub32 211 1 / 64) 1) fw_b (sub32 (sub32 211 (mul32 4 i)) 4 / 64) (sub32 (sub32 211 (mul32 4 i)) 4 % 64) &&& sub64 (shl64 1 4) 1 ≤ 15 ∧
        mul32 ((fw_window (add32 (sub32 211 1 / 64) 1) fw_b (sub32 (sub32 211 (mul32 4 i)) 4 / 64) (sub32 (sub32 211 (mul32 4 i)) 4 % 64) &&& sub64 (shl64 1 4) 1) % 2 ^ 32) 64
          + 64 ≤ 16 * 64) ∧
      (0 < (add32 (sub32 211 1 / 64) 1) ∧
        fw_window (add32 (sub32 211 1 / 64) 1) fw_b 0 0 = fw_window (add32 (sub32 211 1 / 64) 1) (fw_b.take (add32 (sub32 211 1 / 64) 1)) 0 0 ∧
        fw_window (add32 (sub32 211 1 / 64) 1) fw_b 0 0 &&& sub64 (shl64 1 (211 % 4)) 1 < 2 ^ (211 % 4) ∧
        mul32 ((fw_window (add32 (sub32 211 1 / 64) 1) fw_b 0 0 &&& sub64 (shl64 1 (211 % 4)) 1) % 2 ^ 32) 64
          + 64 ≤ 16 * 64) ∧
      (211 < mul32 64 (add32 (sub32 211 1 / 64) 1) → 211 / 64 < (add32 (sub32 211 1 / 64) 1))) :=
  ⟨by decide, C38_fw_indices_in_bounds 211 fw_b (by decide) (by decide)⟩

/-! ## The doublings of `precomp` -/

theorem precomp_eq (nBits : Nat) (n res : List Nat) :
    precomp nBits n res = precomp_state nBits n res (sub32 8192 nBits) := rfl

/-- The running value of `precomp` after `k` doublings is `2^(nBits + k) mod n`. -/
theorem precomp_state_spec (nBits : Nat) (n res : List Nat) (hn : bn_wf 64 n)
    (hres : res.length = 64) (hnb : nBits < 4096) (hlt : 2 ^ nBits < bn_v n) (k : Nat) :
    below n (precomp_state nBits n res k) ∧
      bn_v (precomp_state nBits n res k) = 2 ^ (nBits + k) % bn_v n := by
  unfold precomp_state
  simp only
  rw [memcpy_full res _ 64 hres (by simp)]
  obtain ⟨a1, a2⟩ := precomp_init nBits hnb
  have hpos : 0 < bn_v n := by omega
  obtain ⟨d1, d2⟩ := doubling_loop_spec n _ k nBits hn a1
    (by rw [a2, Nat.mod_eq_of_lt hlt]) hpos
  exact ⟨⟨d1, by rw [d2]; exact Nat.mod_lt _ hpos⟩, d2⟩

/-- C39: for every odd 64-limb `n > 1`, with `nBits = 64 · top_index(n)` as every caller
computes it: `nBits ≤ 4032`, the starting value `2^nBits` written by `precomp` (and by
`Hacl_Bignum4096_new_precompr2`) is strictly below `n`, the loop count `8192 − nBits` does not
underflow, and the running value, `2^(nBits + k) mod n` after `k` doublings, is a 64-limb
value below `n` at every doubling, so that the precondition `a, b < n` of `add_mod_n` holds at
every call. -/
theorem C39_precomp_doublings (n res : List Nat) (hn : bn_wf 64 n) (hodd : bn_v n % 2 = 1)
    (h1 : 1 < bn_v n) (hres : res.length = 64) :
    modulus_nBits n = 64 * Hacl_Bignum_Lib_bn_get_top_index_u64 64 n ∧
      modulus_nBits n ≤ 4032 ∧ 2 ^ (modulus_nBits n) < bn_v n ∧
      sub32 8192 (modulus_nBits n) = 8192 - modulus_nBits n ∧
      (∀ k, below n (precomp_state (modulus_nBits n) n res k) ∧
        bn_v (precomp_state (modulus_nBits n) n res k) = 2 ^ (modulus_nBits n + k) % bn_v n) ∧
      bn_v (precomp_state (modulus_nBits n) n res 0) = 2 ^ (modulus_nBits n) ∧
      precomp (modulus_nBits n) n res = precomp_state (modulus_nBits n) n res (8192 - modulus_nBits n) ∧
      Hacl_Bignum4096_new_precompr2 true n
        = (some (precomp_state (modulus_nBits n) n (List.replicate 64 0) (8192 - modulus_nBits n)), 1) := by
  have e := modulus_nBits_eq n
  obtain ⟨t1, t2⟩ := top_index_spec n hn hodd h1
  have hnb : modulus_nBits n ≤ 4032 := by rw [e]; omega
  have hlt : 2 ^ modulus_nBits n < bn_v n := by rw [e]; exact t2
  have hs : sub32 8192 (modulus_nBits n) = 8192 - modulus_nBits n := by unfold sub32; omega
  have hst := precomp_state_spec (modulus_nBits n) n res hn hres (by omega) hlt
  have h0 : bn_v (precomp_state (modulus_nBits n) n res 0) = 2 ^ modulus_nBits n := by
    rw [(hst 0).2, Nat.add_zero, Nat.mod_eq_of_lt hlt]
  have hmc : mont_check n = ones64 := by
    rw [mont_check_spec n hn, if_pos ⟨hodd, h1⟩]
  refine ⟨e, hnb, hlt, hs, hst, h0, ?_, ?_⟩
  · rw [precomp_eq, hs]
  · rw [new_precompr2_unfold, if_neg (not_not.2 hmc), if_pos rfl, ← hs, ← precomp_eq]
    rfl

set_option maxRecDepth 8192 in
/-- The modulus `2^32 + 15` with a stale buffer satisfies the hypotheses of C39. -/
theorem C39_precomp_doublings_witness :
    (bn_wf 64 S3_n ∧ bn_v S3_n % 2 = 1 ∧ 1 < bn_v S3_n ∧ stale_res.length = 64) ∧
    (modulus_nBits S3_n = 64 * Hacl_Bignum_Lib_bn_get_top_index_u64 64 S3_n ∧
      modulus_nBits S3_n ≤ 4032 ∧ 2 ^ (modulus_nBits S3_n) < bn_v S3_n ∧
      sub32 8192 (modulus_nBits S3_n) = 8192 - modulus_nBits S3_n ∧
      (∀ k, below S3_n (precomp_state (modulus_nBits S3_n) S3_n stale_res k) ∧
        bn_v (precomp_state (modulus_nBits S3_n) S3_n stale_res k) = 2 ^ (modulus_nBits S3_n + k) % bn_v S3_n) ∧
      bn_v (precomp_state (modulus_nBits S3_n) S3_n stale_res 0) = 2 ^ (modulus_nBits S3_n) ∧
      precomp (modulus_nBits S3_n) S3_n stale_res = precomp_state (modulus_nBits S3_n) S3_n stale_res (8192 - modulus_nBits S3_n) ∧
      Hacl_Bignum4096_new_precompr2 true S3_n
        = (some (precomp_state (modulus_nBits S3_n) S3_n (List.replicate 64 0) (8192 - modulus_nBits S3_n)), 1)) :=
  ⟨by decide, C39_precomp_doublings S3_n stale_res (by decide) (by decide) (by decide)
    (by decide)⟩

/-! ## BLAKE2b: the byte counter -/

/-- C40: in `Hacl_Blake2b_32_blake2b` the byte counter never wraps: for every 32-bit `ll` and
every non-final block index `i < nb`, the 32-bit product `(i + 1) · 128` is computed without
overflow (it is at most `ll`), so the 128-bit `totlen` passed for block `i` equals
`(kk > 0 ? 128 : 0) + 128 · (i + 1)` exactly and is strictly increasing in `i`, and the final
`totlen`, which is `ll + (kk > 0 ? 128 : 0)`, is at least the `totlen` of every earlier
block; these are the counters of the calls the function makes, in order. -/
theorem C40_counter_no_wrap (nn : Nat) (output : List Nat) (ll : Nat) (d : List Nat)
    (kk : Nat) (k : List Nat) (hll : ll < 2 ^ 32) (hd : d.length = ll) (hk : k.length = kk)
    (hkk : kk ≤ 64) :
    ∃ nb, nb = (if ll % 128 = 0 ∧ 0 < ll / 128 then (sub32 (ll / 128) 1, 128)
          else (ll / 128, ll % 128)).1 ∧
      (∀ i, i < nb →
        mul32 (add32 i 1) 128 = (i + 1) * 128 ∧ (i + 1) * 128 ≤ ll ∧
        FStar_UInt128_add_mod (if kk = 0 then FStar_UInt128_uint64_to_uint128 0
            else FStar_UInt128_uint64_to_uint128 128)
            (FStar_UInt128_uint64_to_uint128 (mul32 (add32 i 1) 128))
          = (if kk = 0 then 0 else 128) + 128 * (i + 1)) ∧
      (∀ i j, i < j → j < nb →
        FStar_UInt128_add_mod (if kk = 0 then FStar_UInt128_uint64_to_uint128 0
            else FStar_UInt128_uint64_to_uint128 128)
            (FStar_UInt128_uint64_to_uint128 (mul32 (add32 i 1) 128))
          < FStar_UInt128_add_mod (if kk = 0 then FStar_UInt128_uint64_to_uint128 0
            else FStar_UInt128_uint64_to_uint128 128)
            (FStar_UInt128_uint64_to_uint128 (mul32 (add32 j 1) 128))) ∧
      FStar_UInt128_add_mod (if kk = 0 then FStar_UInt128_uint64_to_uint128 0
            else FStar_UInt128_uint64_to_uint128 128)
            (FStar_UInt128_uint64_to_uint128 ll)
        = ll + (if kk = 0 then 0 else 128) ∧
      (∀ i, i < nb →
        FStar_UInt128_add_mod (if kk = 0 then FStar_UInt128_uint64_to_uint128 0
            else FStar_UInt128_uint64_to_uint128 128)
            (FStar_UInt128_uint64_to_uint128 (mul32 (add32 i 1) 128))
          ≤ FStar_UInt128_add_mod (if kk = 0 then FStar_UInt128_uint64_to_uint128 0
            else FStar_UInt128_uint64_to_uint128 128)
            (FStar_UInt128_uint64_to_uint128 ll)) ∧
      (Hacl_Blake2b_32_blake2b nn output ll d kk k).2.map (fun c => c.2.1)
        = ((if kk = 0 then [] else [128])
            ++ (List.range nb).map (fun i => (if kk = 0 then 0 else 128) + 128 * (i + 1)))
          ++ [ll + (if kk = 0 then 0 else 128)] := by
  have hsplit := blake2b_split ll hll
  have hnbeq : (if ll % 128 = 0 ∧ 0 < ll / 128 then (sub32 (ll / 128) 1, 128)
      else (ll / 128, ll % 128)).1
      = if ll % 128 = 0 ∧ 0 < ll then ll / 128 - 1 else ll / 128 := by
    rw [hsplit]
  have htrace := blake2b_trace nn output ll d kk k hll hd hk hkk _ _ rfl rfl
  refine ⟨_, rfl, ?_⟩
  rw [hnbeq]
  have hbound : (if ll % 128 = 0 ∧ 0 < ll then ll / 128 - 1 else ll / 128) * 128 ≤ ll := by
    split <;> omega
  generalize (if ll % 128 = 0 ∧ 0 < ll then ll / 128 - 1 else ll / 128) = nb at hbound htrace ⊢
  have eprev : (if kk = 0 then FStar_UInt128_uint64_to_uint128 0
      else FStar_UInt128_uint64_to_uint128 128) = if kk = 0 then 0 else 128 := rfl
  have eprev128 : (if kk = 0 then 0 else 128) ≤ 128 := by split <;> omega
  have hT : ∀ i, i < nb →
      mul32 (add32 i 1) 128 = (i + 1) * 128 ∧ (i + 1) * 128 ≤ ll ∧
      FStar_UInt128_add_mod (if kk = 0 then FStar_UInt128_uint64_to_uint128 0
            else FStar_UInt128_uint64_to_uint128 128)
          (FStar_UInt128_uint64_to_uint128 (mul32 (add32 i 1) 128))
        = (if kk = 0 then 0 else 128) + 128 * (i + 1) := by
    intro i hi
    have e1 : mul32 (add32 i 1) 128 = (i + 1) * 128 := by unfold mul32 add32; omega
    refine ⟨e1, by omega, ?_⟩
    rw [e1, eprev]
    unfold FStar_UInt128_add_mod FStar_UInt128_uint64_to_uint128
    have : (2 : Nat) ^ 32 + 128 < 2 ^ 128 := by decide
    rw [Nat.mod_eq_of_lt (by omega)]
    omega
  have hTL : FStar_UInt128_add_mod (if kk = 0 then FStar_UInt128_uint64_to_uint128 0
        else FStar_UInt128_uint64_to_uint128 128) (FStar_UInt128_uint64_to_uint128 ll)
      = ll + (if kk = 0 then 0 else 128) := by
    rw [eprev, last_totlen _ ll hll eprev128, Nat.add_comm]
  refine ⟨hT, ?_, hTL, ?_, ?_⟩
  · intro i j hij hj
    rw [(hT i (by omega)).2.2, (hT j hj).2.2]
    omega
  · intro i hi
    rw [(hT i hi).2.2, hTL]
    have := (hT i hi).2.1
    omega
  · rw [htrace]
    simp only [List.map_append, List.map_map, List.map_cons, List.map_nil]
    congr 1
    · congr 1
      · split <;> rfl
      · apply List.map_congr_left
        intro i _
        show (if kk = 0 then 0 else 128) + (i + 1) * 128 = _
        omega
    · rw [Nat.add_comm]

/-- A 256-byte message with a three-byte key satisfies the hypotheses of C40. -/
theorem C40_counter_no_wrap_witness :
    (256 < 2 ^ 32 ∧ msg_256.length = 256 ∧ bytes_123.length = 3 ∧ 3 ≤ 64) ∧
    (∃ nb, nb = (if 256 % 128 = 0 ∧ 0 < 256 / 128 then (sub32 (256 / 128) 1, 128)
          else (256 / 128, 256 % 128)).1 ∧
      (∀ i, i < nb →
        mul32 (add32 i 1) 128 = (i + 1) * 128 ∧ (i + 1) * 128 ≤ 256 ∧
        FStar_UInt128_add_mod (if 3 = 0 then FStar_UInt128_uint64_to_uint128 0
            else FStar_UInt128_uint64_to_uint128 128)
            (FStar_UInt128_uint64_to_uint128 (mul32 (add32 i 1) 128))
          = (if 3 = 0 then 0 else 128) + 128 * (i + 1)) ∧
      (∀ i j, i < j → j < nb →
        FStar_UInt128_add_mod (if 3 = 0 then FStar_UInt128_uint64_to_uint128 0
            else FStar_UInt128_uint64_to_uint128 128)
            (FStar_UInt128_uint64_to_uint128 (mul32 (add32 i 1) 128))
          < FStar_UInt128_add_mod (if 3 = 0 then FStar_UInt128_uint64_to_uint128 0
            else FStar_UInt128_uint64_to_uint128 128)
            (FStar_UInt128_uint64_to_uint128 (mul32 (add32 j 1) 128))) ∧
      FStar_UInt128_add_mod (if 3 = 0 then FStar_UInt128_uint64_to_uint128 0
            else FStar_UInt128_uint64_to_uint128 128)
            (FStar_UInt128_uint64_to_uint128 256)
        = 256 + (if 3 = 0 then 0 else 128) ∧
      (∀ i, i < nb →
        FStar_UInt128_add_mod (if 3 = 0 then FStar_UInt128_uint64_to_uint128 0
            else FStar_UInt128_uint64_to_uint128 128)
            (FStar_UInt128_uint64_to_uint128 (mul32 (add32 i 1) 128))
          ≤ FStar_UInt128_add_mod (if 3 = 0 then FStar_UInt128_uint64_to_uint128 0
            else FStar_UInt128_uint64_to_uint128 128)
            (FStar_UInt128_uint64_to_uint128 256)) ∧
      (Hacl_Blake2b_32_blake2b 64 stale_out 256 msg_256 3 bytes_123).2.map (fun c => c.2.1)
        = ((if 3 = 0 then [] else [128])
            ++ (List.range nb).map (fun i => (if 3 = 0 then 0 else 128) + 128 * (i + 1)))
          ++ [256 + (if 3 = 0 then 0 else 128)]) :=
  ⟨⟨by decide, List.length_replicate 256 7, by decide, by decide⟩,
    C40_counter_no_wrap 64 stale_out 256 msg_256 3 bytes_123 (by decide)
      (List.length_replicate 256 7) (by decide) (by decide)⟩

/-! ## Exponentiation: the events of the constant-time routines -/

theorem forLoop_traced_fst {σ τ : Type} (lo hi : Nat) (F : Nat → σ × τ → σ × τ)
    (f : Nat → σ → σ) (h : ∀ i s, (F i s).1 = f i s.1) (s : σ × τ) :
    (forLoop lo hi F s).1 = forLoop lo hi f s.1 := by
  by_cases hle : lo ≤ hi
  · exact forLoop_inv (fun k t => t.1 = forLoop lo k f s.1) lo hi F s hle
      (by show s.1 = _; rw [forLoop_empty _ _ _ _ (le_refl _)])
      (by
        intro i t h1 _ ht
        show (F i t).1 = _
        rw [forLoop_succ _ _ _ _ h1, h, ht])
  · rw [forLoop_empty _ _ _ _ (by omega), forLoop_empty _ _ _ _ (by omega)]

theorem forLoop_traced_snd {σ : Type} (hi : Nat)
    (F : Nat → σ × List Event → σ × List Event) (G : Nat → List Event)
    (h : ∀ i s, (F i s).2 = s.2 ++ G i) (s : σ × List Event) :
    (forLoop 0 hi F s).2 = s.2 ++ (List.range hi).flatMap G := by
  induction hi with
  | zero =>
    rw [forLoop_empty _ _ _ _ (le_refl _)]
    simp
  | succ k ih =>
    rw [forLoop_succ _ _ _ _ (Nat.zero_le _), h, ih, List.range_succ, List.flatMap_append]
    simp

theorem mont_mul_trace_ct (K : KaratsubaTrace) (hK : K.constant_time) (n aM bM resM : Ptr)
    (x y : List Nat) :
    mont_mul_trace K n aM bM resM x y = mont_mul_trace K n aM bM resM [] [] := by
  unfold mont_mul_trace
  rw [hK.1 _ _ _ _ x y [] []]

theorem mont_sqr_trace_ct (K : KaratsubaTrace) (hK : K.constant_time) (n aM resM : Ptr)
    (x : List Nat) :
    mont_sqr_trace K n aM resM x = mont_sqr_trace K n aM resM [] := by
  unfold mont_sqr_trace
  rw [hK.2 _ _ _ x []]

theorem bm_consttime_traced_fst (K : KaratsubaTrace) (n a : List Nat) (bBits : Nat)
    (b r2 res : List Nat) :
    (mod_exp_bm_consttime_precompr2_traced K n a bBits b r2 res).1
      = mod_exp_bm_consttime_precompr2 n a bBits b r2 res := by
  unfold mod_exp_bm_consttime_precompr2_traced mod_exp_bm_consttime_precompr2
  dsimp only
  rw [forLoop_traced_fst 0 bBits _
    (fun i0 (st : (List Nat × List Nat) × Nat) =>
      ((mont_mul n (Hacl_Bignum_ModInvLimb_mod_inv_uint64 (n.getD 0 0))
          (cswap_loop (((b.getD (sub32 (sub32 bBits i0) 1 / 64) 0
            >>> (sub32 (sub32 bBits i0) 1 % 64)) &&& 1) ^^^ st.2) st.1).1
          (cswap_loop (((b.getD (sub32 (sub32 bBits i0) 1 / 64) 0
            >>> (sub32 (sub32 bBits i0) 1 % 64)) &&& 1) ^^^ st.2) st.1).2
          (cswap_loop (((b.getD (sub32 (sub32 bBits i0) 1 / 64) 0
            >>> (sub32 (sub32 bBits i0) 1 % 64)) &&& 1) ^^^ st.2) st.1).1,
        mont_sqr n (Hacl_Bignum_ModInvLimb_mod_inv_uint64 (n.getD 0 0))
          (cswap_loop (((b.getD (sub32 (sub32 bBits i0) 1 / 64) 0
            >>> (sub32 (sub32 bBits i0) 1 % 64)) &&& 1) ^^^ st.2) st.1).2
          (cswap_loop (((b.getD (sub32 (sub32 bBits i0) 1 / 64) 0
            >>> (sub32 (sub32 bBits i0) 1 % 64)) &&& 1) ^^^ st.2) st.1).2),
       (b.getD (sub32 (sub32 bBits i0) 1 / 64) 0
            >>> (sub32 (sub32 bBits i0) 1 % 64)) &&& 1))
    (fun i s => by dsimp only)]

theorem bm_consttime_traced_snd (K : KaratsubaTrace) (hK : K.constant_time) (n a : List Nat)
    (bBits : Nat) (b r2 res : List Nat) :
    (mod_exp_bm_consttime_precompr2_traced K n a bBits b r2 res).2
      = bm_consttime_trace K a r2 bBits := by
  unfold mod_exp_bm_consttime_precompr2_traced bm_consttime_trace
  dsimp only
  rw [forLoop_traced_snd bBits _ (bm_consttime_iter_trace K bBits)]
  case h =>
    intro i s
    dsimp only
    rw [mont_mul_trace_ct K hK, mont_sqr_trace_ct K hK]
    unfold bm_consttime_iter_trace
    simp only [List.append_assoc, List.cons_append, List.nil_append]

theorem sqr_loop_traced_fst (K : KaratsubaTrace) (n : List Nat) (nInv c : Nat)
    (st : List Nat × List Event) :
    (sqr_loop_traced K n nInv c st).1
      = forLoop 0 c (fun _ accM => mont_sqr n nInv accM accM) st.1 := by
  unfold sqr_loop_traced
  dsimp only
  rw [forLoop_traced_fst 0 c _ (fun _ accM => mont_sqr n nInv accM accM)
    (fun i s => by dsimp only)]

theorem sqr_loop_traced_snd (K : KaratsubaTrace) (hK : K.constant_time) (n : List Nat)
    (nInv c : Nat) (st : List Nat × List Event) :
    (sqr_loop_traced K n nInv c st).2 = st.2 ++ sqr_loop_trace K c := by
  unfold sqr_loop_traced sqr_loop_trace
  dsimp only
  rw [forLoop_traced_snd c _ (fun _ =>
    Event.branch true :: mont_sqr_trace K (Arr.n, 0) (Arr.accM, 0) (Arr.accM, 0) [])]
  case h =>
    intro i s
    dsimp only
    rw [mont_sqr_trace_ct K hK]
    simp only [List.append_assoc, List.cons_append, List.nil_append]
  simp only [List.append_assoc]

theorem fw_table_traced_fst (K : KaratsubaTrace) (l : Nat) (n : List Nat) (nInv : Nat)
    (aM accM : List Nat) :
    (fw_table_traced K l n nInv aM accM).1 = fw_table l n nInv aM accM := by
  unfold fw_table_traced fw_table
  dsimp only
  rw [forLoop_traced_fst 0 _ _ (fun i table =>
    blit table ((i + 2) * 64)
      (mont_mul n nInv (subBuf table ((i + 1) * 64) 64) aM (subBuf table ((i + 2) * 64) 64)) 64)
    (fun i s => by dsimp only)]

theorem fw_table_traced_snd (K : KaratsubaTrace) (hK : K.constant_time) (l : Nat)
    (n : List Nat) (nInv : Nat) (aM accM : List Nat) :
    (fw_table_traced K l n nInv aM accM).2 = fw_table_trace K l := by
  unfold fw_table_traced fw_table_trace
  dsimp only
  rw [forLoop_traced_snd _ _ (fun i =>
      Event.branch true :: mont_mul_trace K (Arr.n, 0) (Arr.table, (i + 1) * 64) (Arr.aM, 0)
        (Arr.table, (i + 2) * 64) [] [])]
  case h =>
    intro i s
    dsimp only
    rw [mont_mul_trace_ct K hK]
    simp only [List.append_assoc, List.cons_append, List.nil_append]

theorem fw_consttime_traced_fst (K : KaratsubaTrace) (l : Nat) (n a : List Nat)
    (bBits : Nat) (b r2 res : List Nat) :
    (mod_exp_fw_consttime_precompr2_traced K l n a bBits b r2 res).1
      = mod_exp_fw_consttime_precompr2 l n a bBits b r2 res := by
  unfold mod_exp_fw_consttime_precompr2_traced mod_exp_fw_consttime_precompr2
  dsimp only
  rw [forLoop_traced_fst 0 _ _ (fun i0 accM =>
    mont_mul (n) (Hacl_Bignum_ModInvLimb_mod_inv_uint64 (n.getD 0 0))
      (forLoop 0 l (fun _ accM =>
        mont_sqr n (Hacl_Bignum_ModInvLimb_mod_inv_uint64 (n.getD 0 0)) accM accM) accM)
      (fw_select (shl32 1 l)
        (fw_table l n (Hacl_Bignum_ModInvLimb_mod_inv_uint64 (n.getD 0 0))
          (reduction n (Hacl_Bignum_ModInvLimb_mod_inv_uint64 (n.getD 0 0))
            (Hacl_Bignum4096_mul a r2) (List.replicate 64 0))
          (reduction n (Hacl_Bignum_ModInvLimb_mod_inv_uint64 (n.getD 0 0))
            (Hacl_Bignum4096_mul ((List.replicate 64 0).set 0 1) r2) (List.replicate 64 0)))
        (fw_window (add32 (sub32 bBits 1 / 64) 1) b
            (sub32 (sub32 bBits (mul32 l i0)) l / 64)
            (sub32 (sub32 bBits (mul32 l i0)) l % 64) &&& sub64 (shl64 1 l) 1))
      (forLoop 0 l (fun _ accM =>
        mont_sqr n (Hacl_Bignum_ModInvLimb_mod_inv_uint64 (n.getD 0 0)) accM accM) accM))
    (fun i s => by
      dsimp only
      rw [sqr_loop_traced_fst, fw_table_traced_fst])]
  by_cases h : bBits % l = 0
  · rw [if_neg (not_not_intro h), if_neg (not_not_intro h)]
  · rw [if_pos h, if_pos h]
    dsimp only
    rw [sqr_loop_traced_fst, fw_table_traced_fst]

theorem fw_consttime_traced_snd (K : KaratsubaTrace) (hK : K.constant_time) (l : Nat)
    (n a : List Nat) (bBits : Nat) (b r2 res : List Nat) :
    (mod_exp_fw_consttime_precompr2_traced K l n a bBits b r2 res).2
      = fw_consttime_trace K l a r2 bBits := by
  unfold mod_exp_fw_consttime_precompr2_traced fw_consttime_trace
  dsimp only
  rw [forLoop_traced_snd _ _ (fw_consttime_iter_trace K l bBits)]
  case h =>
    intro i s
    dsimp only
    rw [mont_mul_trace_ct K hK, sqr_loop_traced_snd K hK]
    unfold fw_consttime_iter_trace fw_lookup_trace
    simp only [List.append_assoc, List.cons_append, List.nil_append]
  dsimp only
  rw [fw_table_traced_snd K hK]
  by_cases h : bBits % l = 0
  · rw [if_neg (not_not_intro h), if_neg (not_not_intro h)]
    simp only [List.append_assoc, List.cons_append, List.nil_append]
  · rw [if_pos h, if_pos h]
    dsimp only
    rw [mont_mul_trace_ct K hK, sqr_loop_traced_snd K hK]
    unfold fw_lookup_trace
    simp only [List.append_assoc, List.cons_append, List.nil_append]

theorem mem_for_trace (lo hi : Nat) (body : Nat → List Event) (k : Nat) (ev : Event)
    (hk : k < hi - lo) (h : ev ∈ body (lo + k)) : ev ∈ for_trace lo hi body := by
  unfold for_trace
  apply List.mem_append_left
  rw [List.mem_flatMap]
  exact ⟨k, List.mem_range.mpr hk, List.mem_cons_of_mem _ h⟩

theorem mem_memcpy_trace (dst src : Ptr) (len i : Nat) (hi : i < len) :
    load_at src i ∈ memcpy_trace dst src len := by
  unfold memcpy_trace
  rw [List.mem_flatMap]
  exact ⟨i, List.mem_range.mpr hi, List.mem_cons_self _ _⟩

theorem fw_select_trace_all (e i : Nat) (he : e < 16) (hi : i < 64) :
    Event.load Arr.table (e * 64 + i) ∈ fw_select_trace 16 := by
  unfold fw_select_trace
  rcases Nat.eq_zero_or_pos e with h0 | hpos
  · apply List.mem_append_left
    have := mem_memcpy_trace (Arr.a_bits, 0) (Arr.table, 0) 64 i hi
    rw [h0]
    exact this
  · apply List.mem_append_right
    have h15 : sub32 16 1 = 15 := by decide
    rw [h15]
    refine mem_for_trace 0 15 _ (e - 1) _ (by omega) ?_
    refine mem_for_trace 0 64 _ i _ (by omega) ?_
    have e1 : e * 64 + i = (0 + (e - 1) + 1) * 64 + (0 + i) := by omega
    rw [e1]
    exact List.mem_cons_self _ _

theorem fw_lookup_trace_all (K : KaratsubaTrace) (bBits i1 j e i : Nat) (he : e < 16)
    (hi : i < 64) : Event.load Arr.table (e * 64 + i) ∈ fw_lookup_trace K 4 bBits i1 j := by
  unfold fw_lookup_trace
  apply List.mem_append_left
  apply List.mem_append_right
  have h16 : shl32 1 4 = 16 := by decide
  rw [h16]
  exact fw_select_trace_all e i he hi

theorem consttime_traced_snd (K : KaratsubaTrace) (hK : K.constant_time) (n a : List Nat)
    (bBits : Nat) (b r2 res : List Nat) :
    (Hacl_Bignum4096_mod_exp_consttime_precompr2_traced K n a bBits b r2 res).2
      = Event.branch (decide (bBits < 200))
        :: (if bBits < 200 then bm_consttime_trace K a r2 bBits
            else fw_consttime_trace K 4 a r2 bBits) := by
  unfold Hacl_Bignum4096_mod_exp_consttime_precompr2_traced
  by_cases h : bBits < 200
  · rw [if_pos h, if_pos h, decide_eq_true h]
    exact congrArg _ (bm_consttime_traced_snd K hK n a bBits b r2 res)
  · rw [if_neg h, if_neg h, decide_eq_false h]
    exact congrArg _ (fw_consttime_traced_snd K hK 4 n a bBits b r2 res)

theorem consttime_traced_fst (K : KaratsubaTrace) (n a : List Nat)
    (bBits : Nat) (b r2 res : List Nat) :
    (Hacl_Bignum4096_mod_exp_consttime_precompr2_traced K n a bBits b r2 res).1
      = Hacl_Bignum4096_mod_exp_consttime_precompr2 n a bBits b r2 res := by
  by_cases h : bBits < 200
  · have e1 : mod_exp_bm_consttime_precompr2 n a bBits b r2 res
        = Hacl_Bignum4096_mod_exp_consttime_precompr2 n a bBits b r2 res := (if_pos h).symm
    rw [← e1, ← bm_consttime_traced_fst K n a bBits b r2 res]
    unfold Hacl_Bignum4096_mod_exp_consttime_precompr2_traced
    rw [if_pos h]
  · have e1 : mod_exp_fw_consttime_precompr2 4 n a bBits b r2 res
        = Hacl_Bignum4096_mod_exp_consttime_precompr2 n a bBits b r2 res := (if_neg h).symm
    rw [← e1, ← fw_consttime_traced_fst K 4 n a bBits b r2 res]
    unfold Hacl_Bignum4096_mod_exp_consttime_precompr2_traced
    rw [if_neg h]

theorem operand_scan_constant_time : operand_scan.constant_time :=
  ⟨fun _ _ _ _ _ _ _ _ => rfl, fun _ _ _ _ _ => rfl⟩

/-- For comparison: the events of the variable-time ladder depend on the exponent.  With one
exponent bit, the traces for the exponents 0 and 1 differ, whatever the Karatsuba events
are. -/
theorem bm_vartime_trace_depends (K : KaratsubaTrace) (n a r2 res : List Nat) :
    (mod_exp_bm_vartime_precompr2_traced K n a 1 [0] r2 res).2
      ≠ (mod_exp_bm_vartime_precompr2_traced K n a 1 [1] r2 res).2 := by
  unfold mod_exp_bm_vartime_precompr2_traced
  dsimp only
  rw [forLoop_succ _ _ _ _ (le_refl 0), forLoop_empty _ _ _ _ (le_refl 0),
    forLoop_succ _ _ _ _ (le_refl 0), forLoop_empty _ _ _ _ (le_refl 0)]
  dsimp only
  have b0 : ((([0] : List Nat).getD (0 / 64) 0) >>> (0 % 64)) &&& 1 = 0 := by decide
  have b1 : ((([1] : List Nat).getD (0 / 64) 0) >>> (0 % 64)) &&& 1 = 1 := by decide
  rw [b0, b1]
  intro h
  simp only [List.append_assoc, not_true_eq_false, if_false, one_ne_zero, not_false_eq_true,
    if_true, decide_False, decide_True] at h
  have h1 := List.append_cancel_left h
  simp at h1

/-- C36: with every array access and every branch and loop test of
`Hacl_Bignum4096_mod_exp_consttime_precompr2` and its callees recorded in program order, and
the Karatsuba routines (not among the sources) constant-time, the record is the same for any
two exponents `b` and `b'`: it is the test `bBits < 200` followed by a trace that is a
function of `bBits` and of the operands `a`, `r2` of the first product only.  In the
fixed-window path every window lookup, in the loop and for the last bits, reads
every limb of all 16 table entries.  Recording does not change the result. -/
theorem C36_consttime_trace (K : KaratsubaTrace) (n a : List Nat) (bBits : Nat)
    (b b' r2 res : List Nat) (hK : K.constant_time) :
    (Hacl_Bignum4096_mod_exp_consttime_precompr2_traced K n a bBits b r2 res).1
      = Hacl_Bignum4096_mod_exp_consttime_precompr2 n a bBits b r2 res ∧
    (Hacl_Bignum4096_mod_exp_consttime_precompr2_traced K n a bBits b r2 res).2
      = (Hacl_Bignum4096_mod_exp_consttime_precompr2_traced K n a bBits b' r2 res).2 ∧
    (Hacl_Bignum4096_mod_exp_consttime_precompr2_traced K n a bBits b r2 res).2
      = Event.branch (decide (bBits < 200))
        :: (if bBits < 200 then bm_consttime_trace K a r2 bBits
            else fw_consttime_trace K 4 a r2 bBits) ∧
    (∀ i0 e i, e < 16 → i < 64 →
      Event.load Arr.table (e * 64 + i) ∈ fw_consttime_iter_trace K 4 bBits i0) ∧
    (∀ e i, e < 16 → i < 64 →
      Event.load Arr.table (e * 64 + i) ∈ fw_lookup_trace K 4 bBits 0 0) := by
  refine ⟨consttime_traced_fst K n a bBits b r2 res, ?_,
    consttime_traced_snd K hK n a bBits b r2 res, ?_, ?_⟩
  · rw [consttime_traced_snd K hK, consttime_traced_snd K hK]
  · intro i0 e i he hi
    unfold fw_consttime_iter_trace
    exact List.mem_append_right _ (fw_lookup_trace_all K bBits _ _ e i he hi)
  · intro e i he hi
    exact fw_lookup_trace_all K bBits 0 0 e i he hi

/-- The operand-scanning Karatsuba events are constant-time, and C36 holds for the modulus
`2^32 + 15`, the base 7, `bBits = 211` and the four-limb exponents `fw_b` and
`[7, 0, 1, 3]`. -/
theorem C36_consttime_trace_witness :
    operand_scan.constant_time ∧
    ((Hacl_Bignum4096_mod_exp_consttime_precompr2_traced operand_scan S3_n S3_a 211 fw_b
        S3_r2 stale_res).1
      = Hacl_Bignum4096_mod_exp_consttime_precompr2 S3_n S3_a 211 fw_b S3_r2 stale_res ∧
    (Hacl_Bignum4096_mod_exp_consttime_precompr2_traced operand_scan S3_n S3_a 211 fw_b
        S3_r2 stale_res).2
      = (Hacl_Bignum4096_mod_exp_consttime_precompr2_traced operand_scan S3_n S3_a 211
        [7, 0, 1, 3] S3_r2 stale_res).2 ∧
    (Hacl_Bignum4096_mod_exp_consttime_precompr2_traced operand_scan S3_n S3_a 211 fw_b
        S3_r2 stale_res).2
      = Event.branch (decide (211 < 200))
        :: (if 211 < 200 then bm_consttime_trace operand_scan S3_a S3_r2 211
            else fw_consttime_trace operand_scan 4 S3_a S3_r2 211) ∧
    (∀ i0 e i, e < 16 → i < 64 →
      Event.load Arr.table (e * 64 + i) ∈ fw_consttime_iter_trace operand_scan 4 211 i0) ∧
    (∀ e i, e < 16 → i < 64 →
      Event.load Arr.table (e * 64 + i) ∈ fw_lookup_trace operand_scan 4 211 0 0)) :=
  ⟨⟨fun _ _ _ _ _ _ _ _ => rfl, fun _ _ _ _ _ => rfl⟩,
   C36_consttime_trace operand_scan S3_n S3_a 211 fw_b [7, 0, 1, 3] S3_r2 stale_res
    ⟨fun _ _ _ _ _ _ _ _ => rfl, fun _ _ _ _ _ => rfl⟩⟩

end Hacl
